import Mathlib

/-!
LuoLi-PathEngine: a shallow embedding of the path engine and its properties.

The C++ sources embedded here are `Graph.cpp`, `PathFinder.cpp`, `MapEngine.cpp`,
`DataLoader.cpp` and `Strategy.h`.

Modelling conventions
* A `double` is the rational number it stands for; `std::numeric_limits<double>::max()`
  is the rational `DBL_MAX = 2^1024 - 2^971`.  The search is embedded twice.
  `dijkstra` adds the weights exactly: it carries the properties that are stated for
  exact arithmetic and those of the shape of the search (the path, the termination,
  the order of the steps).  `dijkstraD` adds them as the machine does, the sum of two
  `double`s being their exact sum rounded to the nearest `double` (`fadd`): it carries
  the properties of the numbers that a query returns.
* `int` node identifiers are `Int`; no arithmetic is ever done on them.
* `std::unordered_map` is an association list with unique keys (`mapFind`, `mapSet`).
  Where the source iterates over an `unordered_map` the iteration order is the list
  order, and the position at which a new key lands is left to a `HashOrder`.
* `std::priority_queue` is any implementation of the min-heap contract (`MinHeap`):
  which of several least entries is on top is up to the implementation.
* The `while` loops of the search have no bound in the source.  The model runs them
  with a step budget computed from the graph and yields `none` when the budget is
  exhausted; the theorems show that this never happens.
-/

namespace LuoLi

/-! ## Association lists standing for `std::unordered_map` -/

/-- Lookup, `m.find(k)`: the value stored under `k`, if any. -/
def mapFind {K V : Type} [DecidableEq K] : List (K × V) → K → Option V
  | [], _ => none
  | (k0, v0) :: rest, k => if k0 = k then some v0 else mapFind rest k

/-- Read `m[k]` for a key that may be absent: absent keys read as the default value. -/
def mapGetD {K V : Type} [DecidableEq K] (m : List (K × V)) (k : K) (dflt : V) : V :=
  match mapFind m k with
  | some v => v
  | none => dflt

/-- Assignment `m[k] = v`: overwrite in place when the key exists, else add the key. -/
def mapSet {K V : Type} [DecidableEq K] : List (K × V) → K → V → List (K × V)
  | [], k, v => [(k, v)]
  | (k0, v0) :: rest, k, v =>
    if k0 = k then (k0, v) :: rest else (k0, v0) :: mapSet rest k v

/-! ## Graph (Graph.h, Graph.cpp) -/

/-- An adjacency entry: target node and weight. -/
structure Edge where
  dst : Int
  weight : ℚ
deriving DecidableEq

/-- The undirected weighted graph: adjacency map, node map and logical edge counter. -/
structure Graph where
  adjacencyList_ : List (Int × List Edge)
  nodes_ : List (Int × Bool)
  edgeCount_ : Nat
deriving DecidableEq

/-- The graph made by the constructor, and by `clear()`. -/
def Graph.empty : Graph :=
  { adjacencyList_ := [], nodes_ := [], edgeCount_ := 0 }

/-- Embeds `Graph::clear`. -/
def Graph.clear (_g : Graph) : Graph := Graph.empty

/-- Embeds `Graph::hasNode`. -/
def Graph.hasNode (g : Graph) (nodeId : Int) : Bool :=
  (mapFind g.nodes_ nodeId).isSome

/-- Embeds `Graph::addNode`. -/
def Graph.addNode (g : Graph) (nodeId : Int) : Graph :=
  if g.hasNode nodeId then g
  else { g with nodes_ := mapSet g.nodes_ nodeId true,
                adjacencyList_ := mapSet g.adjacencyList_ nodeId [] }

/-- The statement `adjacencyList_[k].emplace_back(to, weight)`. -/
def emplaceBack (adj : List (Int × List Edge)) (k : Int) (e : Edge) : List (Int × List Edge) :=
  mapSet adj k (mapGetD adj k [] ++ [e])

/-- Embeds `Graph::addEdge`. -/
def Graph.addEdge (g : Graph) (src dst : Int) (weight : ℚ) : Graph :=
  let g2 := (g.addNode src).addNode dst
  let adj1 := emplaceBack g2.adjacencyList_ src ⟨dst, weight⟩
  let adj2 := emplaceBack adj1 dst ⟨src, weight⟩
  { g2 with adjacencyList_ := adj2, edgeCount_ := g2.edgeCount_ + 1 }

/-- Embeds `Graph::getAdjacentEdges`: the stored list, or the empty list. -/
def Graph.getAdjacentEdges (g : Graph) (nodeId : Int) : List Edge :=
  match mapFind g.adjacencyList_ nodeId with
  | some es => es
  | none => []

/-- Embeds `Graph::getNodeCount`. -/
def Graph.getNodeCount (g : Graph) : Nat := g.nodes_.length

/-- Embeds `Graph::getEdgeCount`. -/
def Graph.getEdgeCount (g : Graph) : Nat := g.edgeCount_

/-- Embeds `Graph::isIsolated`. -/
def Graph.isIsolated (g : Graph) (nodeId : Int) : Bool :=
  if !g.hasNode nodeId then false
  else
    match mapFind g.adjacencyList_ nodeId with
    | none => true
    | some es => es.isEmpty

/-! ## PathFinder (PathFinder.h, PathFinder.cpp) -/

/-- The value of `std::numeric_limits<double>::max()`, that is `2^1024 - 2^971`. -/
def DBL_MAX : ℚ :=
  179769313486231570814527423731704356798070567525844996598917476803157260780028538760589558632766878171540458953514382464234321326889464182768467546703537516986049910576551282076245490090389328944075868508455133942304583236903222948165808559332123348274797826204144723168738177180919299881250404026184124858368

/-- Embeds `PathResult`. -/
structure PathResult where
  path : List Int
  totalWeight : ℚ
  found : Bool
  elapsedMicroseconds : Int
deriving DecidableEq

/-- The default-constructed `PathResult()`. -/
def PathResult.init : PathResult :=
  { path := [], totalWeight := 0, found := false, elapsedMicroseconds := 0 }

/-- Embeds `PathFinder::HeapNode`. -/
structure HeapNode where
  nodeId : Int
  distance : ℚ
deriving DecidableEq

/-- The contract of `std::priority_queue<HeapNode, ..., cmp>` with `cmp` comparing
distances by `>`: the container holds exactly what was pushed and not yet popped,
and `top()` is an entry of least distance.  The container is a list in the
implementation's own order. -/
structure MinHeap where
  push : List HeapNode → HeapNode → List HeapNode
  pop : List HeapNode → Option (HeapNode × List HeapNode)
  push_perm : ∀ q x, (push q x).Perm (x :: q)
  pop_nil : pop [] = none
  pop_min : ∀ q, q ≠ [] →
    ∃ h r, pop q = some (h, r) ∧ q.Perm (h :: r) ∧ ∀ x ∈ q, h.distance ≤ x.distance

/-- The first entry of least distance, and the other entries. -/
def extractMin : List HeapNode → Option (HeapNode × List HeapNode)
  | [] => none
  | x :: rest =>
    match extractMin rest with
    | none => some (x, [])
    | some (m, rest1) =>
      if x.distance ≤ m.distance then some (x, rest) else some (m, x :: rest1)

/-- The local maps of `PathFinder::dijkstra` and its priority queue.  A read
`visited[k]` of an absent key gives `false` (it also enters the key, which no later
read can tell apart), so `visited` is only ever read through `mapGetD` with `false`. -/
structure SearchState where
  dist : List (Int × ℚ)
  parent : List (Int × Int)
  visited : List (Int × Bool)
  pq : List HeapNode

/-- The body of the `for (const Edge& edge : edges)` loop, for the popped node `u`
with popped distance `d`, the sum `d + weight` taken exactly (`relaxEdgeD` takes it in
`double`). -/
def relaxEdge (H : MinHeap) (u : Int) (d : ℚ) (s : SearchState) (edge : Edge) : SearchState :=
  let v := edge.dst
  let weight := edge.weight
  let s1 : SearchState :=
    if (mapFind s.dist v).isNone then
      { s with dist := mapSet s.dist v DBL_MAX, visited := mapSet s.visited v false }
    else s
  let newDist := d + weight
  if !(mapGetD s1.visited v false) && newDist < mapGetD s1.dist v 0 then
    { s1 with dist := mapSet s1.dist v newDist,
              parent := mapSet s1.parent v u,
              pq := H.push s1.pq ⟨v, newDist⟩ }
  else s1

/-- The `while (!pq.empty())` loop, run for at most `fuel` iterations. -/
def dijkstraLoop (H : MinHeap) (g : Graph) (dst : Int) : Nat → SearchState → Option SearchState
  | 0, _ => none
  | fuel + 1, s =>
    match H.pop s.pq with
    | none => some s
    | some (current, rest) =>
      let u := current.nodeId
      let d := current.distance
      if mapGetD s.visited u false then
        dijkstraLoop H g dst fuel { s with pq := rest }
      else
        let s1 : SearchState := { s with pq := rest, visited := mapSet s.visited u true }
        if u = dst then some s1
        else dijkstraLoop H g dst fuel ((g.getAdjacentEdges u).foldl (relaxEdge H u d) s1)

/-- The `while (current != from)` loop of `reconstructPath`, run for at most `fuel`
iterations; then `push_back(from)` and `std::reverse`. -/
def reconstructLoop (src : Int) (parent : List (Int × Int)) :
    Nat → Int → List Int → Option (List Int)
  | 0, _, _ => none
  | fuel + 1, current, path =>
    if current = src then some (path ++ [src]).reverse
    else
      match mapFind parent current with
      | none => some []
      | some p => reconstructLoop src parent fuel p (path ++ [current])

/-- Embeds `PathFinder::reconstructPath`. -/
def reconstructPath (fuel : Nat) (src dst : Int) (parent : List (Int × Int)) :
    Option (List Int) :=
  if src = dst then some [src] else reconstructLoop src parent fuel dst []

/-- The number of adjacency entries stored in the graph. -/
def Graph.entryCount (g : Graph) : Nat :=
  (g.adjacencyList_.map (fun p => p.2.length)).sum

/-- The step budget given to the loops of one query. -/
def Graph.searchFuel (g : Graph) : Nat := g.entryCount + 2

/-- Embeds `PathFinder::dijkstra`. -/
def dijkstra (H : MinHeap) (g : Graph) (src dst : Int) : Option PathResult :=
  if !g.hasNode src || !g.hasNode dst then some PathResult.init
  else if src = dst then
    some { PathResult.init with path := [src], totalWeight := 0, found := true }
  else if g.isIsolated src then some PathResult.init
  else
    let s0 : SearchState :=
      { dist := mapSet [] src 0, parent := [], visited := mapSet [] src false,
        pq := H.push [] ⟨src, 0⟩ }
    match dijkstraLoop H g dst g.searchFuel s0 with
    | none => none
    | some s =>
      if (mapFind s.dist dst).isNone || mapGetD s.dist dst 0 = DBL_MAX then
        some PathResult.init
      else
        match reconstructPath (g.searchFuel + 1) src dst s.parent with
        | none => none
        | some p =>
          some { PathResult.init with path := p, totalWeight := mapGetD s.dist dst 0,
                                      found := true }

/-- The strategy objects: the two concrete subclasses of `Strategy` (Strategy.h). -/
inductive Strategy
  | ShortestDistanceStrategy
  | LeastTimeStrategy
deriving DecidableEq

/-- Embeds `Strategy::calculateWeight`. -/
def Strategy.calculateWeight : Strategy → ℚ → ℚ → ℚ
  | Strategy.ShortestDistanceStrategy, distance, _ => distance
  | Strategy.LeastTimeStrategy, _, time => time

/-- Embeds `Strategy::getName`. -/
def Strategy.getName : Strategy → String
  | Strategy.ShortestDistanceStrategy => "Shortest Distance"
  | Strategy.LeastTimeStrategy => "Least Time"

/-- The fields of a `PathFinder` object.  Its `graph_` member is a reference to a
graph owned elsewhere: the current value of that graph is passed to `findPath`.
`strategy_` is a `unique_ptr`, `none` standing for the null pointer. -/
structure PathFinder where
  strategy_ : Option Strategy
deriving DecidableEq

/-- The constructor `PathFinder(graph)`. -/
def PathFinder.new : PathFinder :=
  { strategy_ := some Strategy.ShortestDistanceStrategy }

/-- Embeds `PathFinder::setStrategy`: a null argument leaves the object unchanged. -/
def PathFinder.setStrategy (pf : PathFinder) (strategy : Option Strategy) : PathFinder :=
  match strategy with
  | some st => { pf with strategy_ := some st }
  | none => pf

/-- Embeds `PathFinder::getCurrentStrategyName`. -/
def PathFinder.getCurrentStrategyName (pf : PathFinder) : String :=
  match pf.strategy_ with
  | some st => st.getName
  | none => "Unknown"

/-- Embeds `PathFinder::findPath` on the referenced graph `g`: the search, stamped with the
measured wall-clock time `elapsed` (read from the environment). -/
def PathFinder.findPath (_pf : PathFinder) (H : MinHeap) (g : Graph) (elapsed : Int)
    (src dst : Int) : Option PathResult :=
  (dijkstra H g src dst).map (fun r => { r with elapsedMicroseconds := elapsed })

/-! ## A list-backed priority queue -/

/-- A priority queue kept as a plain list: `push` adds in front, `pop` takes out the
first entry of least distance. -/
def listHeap : MinHeap where
  push q x := x :: q
  pop := extractMin
  push_perm _ _ := List.Perm.refl _
  pop_nil := rfl
  pop_min := by
    intro q
    induction q with
    | nil => intro hq; exact absurd rfl hq
    | cons x rest ih =>
      intro _
      by_cases hrest : rest = []
      · subst hrest
        exact ⟨x, [], by simp [extractMin], List.Perm.refl _, by simp⟩
      · obtain ⟨m, r1, hm, hperm, hmin⟩ := ih hrest
        by_cases hle : x.distance ≤ m.distance
        · refine ⟨x, rest, by simp [extractMin, hm, hle], List.Perm.refl _, ?_⟩
          intro y hy
          rcases List.mem_cons.1 hy with rfl | hy
          · exact le_refl _
          · exact le_trans hle (hmin y hy)
        · refine ⟨m, x :: r1, by simp [extractMin, hm, hle], ?_, ?_⟩
          · exact (List.Perm.cons x hperm).trans (List.Perm.swap m x r1)
          · intro y hy
            rcases List.mem_cons.1 hy with rfl | hy
            · exact le_of_lt (lt_of_not_le hle)
            · exact hmin y hy

/-! ## Walks, and the vocabulary of the search invariants -/

/-- A walk along stored adjacency entries: `es` leads from `a` to `b`, each entry
taken from the adjacency list of the node reached so far. -/
def IsWalk (g : Graph) : Int → List Edge → Int → Prop
  | a, [], b => a = b
  | a, e :: es, b => e ∈ g.getAdjacentEdges a ∧ IsWalk g e.dst es b

/-- The sum of the weights of the entries of a walk, in order. -/
def walkWeight (es : List Edge) : ℚ := (es.map Edge.weight).sum

/-- All stored weights are non-negative. -/
def Graph.NonNeg (g : Graph) : Prop :=
  ∀ u, ∀ e ∈ g.getAdjacentEdges u, 0 ≤ e.weight

/-- The tentative distance `dist.find(v)`. -/
def SearchState.distOf (s : SearchState) (v : Int) : Option ℚ := mapFind s.dist v

/-- The flag `visited[v]`. -/
def SearchState.isVisited (s : SearchState) (v : Int) : Bool := mapGetD s.visited v false

/-- The entry `parent.find(v)`. -/
def SearchState.parentOf (s : SearchState) (v : Int) : Option Int := mapFind s.parent v

/-! ## Sample data -/

/-- The three-edge map of the scenarios, under distance weights, plus an isolated node 8. -/
def sampleGraph : Graph :=
  (((Graph.empty.addEdge 1 2 4).addEdge 2 5 6).addEdge 1 5 15).addNode 8

/-- The value read by `dist[v]` in the relaxation test: the stored distance, or
`DBL_MAX` for a node that has just been entered. -/
def SearchState.curDist (s : SearchState) (v : Int) : ℚ :=
  match s.distOf v with
  | some x => x
  | none => DBL_MAX

/-- The parent chain of a finalized node: `es` is the walk from `src` to `v` whose
every step is the parent entry of the node it reaches. -/
inductive Chain (g : Graph) (parent : List (Int × Int)) (vis : Int → Bool) (src : Int) :
    Int → List Edge → Prop
  | base : Chain g parent vis src src []
  | step (u v : Int) (es : List Edge) (e : Edge) :
      Chain g parent vis src u es → v ≠ src → vis v = true → mapFind parent v = some u →
      e ∈ g.getAdjacentEdges u → e.dst = v → Chain g parent vis src v (es ++ [e])

/-- The invariant of the search loops.  `cur` is the node being expanded and
`pending` the part of its adjacency list not yet scanned; at the head of the
`while` loop `pending` is empty.  `n` bounds the number of iterations done. -/
structure Inv (g : Graph) (src : Int) (n : Nat) (cur : Int) (pending : List Edge)
    (s : SearchState) : Prop where
  dist_le : ∀ v d, s.distOf v = some d → d ≤ DBL_MAX
  dist_walk : ∀ v d, s.distOf v = some d → d < DBL_MAX →
    ∃ es, IsWalk g src es v ∧ walkWeight es = d
  dist_src : s.distOf src = some 0
  pq_ge : ∀ x ∈ s.pq, x.distance < DBL_MAX ∧
    ∃ dv, s.distOf x.nodeId = some dv ∧ dv ≤ x.distance
  live : ∀ v dv, s.isVisited v = false → s.distOf v = some dv → dv < DBL_MAX →
    (⟨v, dv⟩ : HeapNode) ∈ s.pq
  start : s.isVisited src = true ∨ ∀ x ∈ s.pq, x.nodeId = src
  vis_dist : ∀ v, s.isVisited v = true → ∃ dv, s.distOf v = some dv ∧ dv < DBL_MAX
  relaxed : ∀ u, s.isVisited u = true → ∀ e ∈ g.getAdjacentEdges u,
    (u = cur ∧ e ∈ pending) ∨ s.isVisited e.dst = true ∨
    ∃ du dv, s.distOf u = some du ∧ s.distOf e.dst = some dv ∧ dv ≤ du + e.weight
  parent_ok : ∀ v u, s.parentOf v = some u → v ≠ src ∧ s.isVisited u = true ∧
    ∃ e du, e ∈ g.getAdjacentEdges u ∧ e.dst = v ∧ s.distOf u = some du ∧
      s.distOf v = some (du + e.weight)
  has_parent : ∀ v dv, v ≠ src → s.distOf v = some dv → dv < DBL_MAX →
    ∃ u, s.parentOf v = some u
  chain : ∀ v, s.isVisited v = true →
    ∃ es dv, Chain g s.parent s.isVisited src v es ∧ es.length < n ∧
      s.distOf v = some dv ∧ walkWeight es = dv ∧ (src :: es.map Edge.dst).Nodup
  src_first : ∀ v, s.isVisited v = true → s.isVisited src = true

/-- Finalized nodes carry the least walk weight from the source. -/
def Opt (g : Graph) (src : Int) (s : SearchState) : Prop :=
  ∀ v, s.isVisited v = true → ∀ dv, s.distOf v = some dv →
    ∀ es, IsWalk g src es v → dv ≤ walkWeight es

/-- The number of adjacency entries stored under keys that are not finalized. -/
def unvisitedEntries (adj : List (Int × List Edge)) (vis : Int → Bool) : Nat :=
  (adj.map (fun p => if vis p.1 then 0 else p.2.length)).sum

/-- The quantity that decreases with every iteration of the `while` loop. -/
def searchMeasure (g : Graph) (s : SearchState) : Nat :=
  s.pq.length + unvisitedEntries g.adjacencyList_ s.isVisited

/-- Two nodes joined by a single edge whose weight is `DBL_MAX`. -/
def maxEdgeGraph : Graph := Graph.empty.addEdge 1 2 DBL_MAX

/-! ## Graphs made through the public interface -/

/-- The graphs reachable from the empty graph by `addNode`, `addEdge` and `clear`
(`clear` gives the empty graph again). -/
inductive Graph.Built : Graph → Prop
  | empty : Graph.Built Graph.empty
  | addNode (g : Graph) (nodeId : Int) : Graph.Built g → Graph.Built (g.addNode nodeId)
  | addEdge (g : Graph) (src dst : Int) (weight : ℚ) :
      Graph.Built g → Graph.Built (g.addEdge src dst weight)

/-- Every key of the adjacency map is a known node. -/
def Graph.KeysKnown (g : Graph) : Prop :=
  ∀ u, mapFind g.adjacencyList_ u ≠ none → g.hasNode u = true

/-- Every adjacency entry has its mirror entry, of the same weight. -/
def Graph.Symm (g : Graph) : Prop :=
  ∀ u, ∀ e ∈ g.getAdjacentEdges u, (⟨u, e.weight⟩ : Edge) ∈ g.getAdjacentEdges e.dst

/-! ## Strategy selection and the weight tables (Strategy.h, MapEngine.h) -/

/-- Embeds `enum class PathStrategy`. -/
inductive PathStrategy
  | SHORTEST_DISTANCE
  | LEAST_TIME
deriving DecidableEq

/-- The type of `distances_` and `times_`: an `unordered_map` keyed by node pairs,
listed in its iteration order. -/
abbrev PairMap := List ((Int × Int) × ℚ)

/-- The part of an `unordered_map` that the language leaves open: where a key that is
new to the map lands in the iteration order (the other entries may move as well).  One
`HashOrder` describes one filling of a table.  The place of a key also depends on what
`clear()` leaves behind (the table keeps its buckets), so a table that is cleared and
filled again may follow another `HashOrder` than before: every load takes its own. -/
structure HashOrder where
  insertNew : PairMap → (Int × Int) → ℚ → PairMap
  insertNew_perm : ∀ m k v, (insertNew m k v).Perm ((k, v) :: m)

/-- The assignment `m[k] = v` on a pair-keyed map. -/
def HashOrder.assign (O : HashOrder) (m : PairMap) (k : Int × Int) (v : ℚ) : PairMap :=
  if (mapFind m k).isSome then mapSet m k v else O.insertNew m k v

/-- The read `m[k]` on a pair-keyed map: a missing key is entered with value 0. -/
def HashOrder.index (O : HashOrder) (m : PairMap) (k : Int × Int) : ℚ × PairMap :=
  match mapFind m k with
  | some v => (v, m)
  | none => (0, O.insertNew m k 0)

/-- The order in which new keys go to the end. -/
def appendOrder : HashOrder where
  insertNew m k v := m ++ [(k, v)]
  insertNew_perm m k v := List.perm_append_singleton (k, v) m

/-! ## DataLoader (DataLoader.h, DataLoader.cpp) -/

/-- What the loader takes from its environment: the lines of a file (`none` when the
file cannot be opened) and the stream extraction
`iss >> from >> to >> distance >> time` (`none` when it fails). -/
structure Reader where
  openFile : String → Option (List String)
  extract : String → Option (Int × Int × ℚ × ℚ)

/-- The fields of a `DataLoader`. -/
structure DataLoader where
  lastNodeCount_ : Nat
  lastEdgeCount_ : Nat
deriving DecidableEq

/-- Embeds `DataLoader::parseLine`. -/
def DataLoader.parseLine (rd : Reader) (line : String) : Option (Int × Int × ℚ × ℚ) :=
  match rd.extract line with
  | none => none
  | some (src, dst, distance, time) =>
    if distance < 0 ∨ time < 0 then none else some (src, dst, distance, time)

/-- The variables updated by the read loop of `loadFromFileWithDetails`. -/
structure LoadState where
  graph : Graph
  distances : PairMap
  times : PairMap
  lastEdgeCount : Nat

/-- The body of the `while (std::getline(file, line))` loop. -/
def loadLine (O : HashOrder) (rd : Reader) (st : LoadState) (line : String) : LoadState :=
  if line.isEmpty || line.get 0 = '#' then st
  else
    match DataLoader.parseLine rd line with
    | some (src, dst, distance, time) =>
      if 0 < distance ∧ 0 < time then
        { graph := st.graph.addEdge src dst distance,
          distances := O.assign (O.assign st.distances (src, dst) distance) (dst, src) distance,
          times := O.assign (O.assign st.times (src, dst) time) (dst, src) time,
          lastEdgeCount := st.lastEdgeCount + 1 }
      else st
    | none => st

/-- Embeds `DataLoader::loadFromFileWithDetails`: success flag, the loader afterwards, and the
three objects passed by reference. -/
def DataLoader.loadFromFileWithDetails (ld : DataLoader) (O : HashOrder) (rd : Reader)
    (filename : String) (graph : Graph) (distances times : PairMap) :
    Bool × DataLoader × Graph × PairMap × PairMap :=
  match rd.openFile filename with
  | none => (false, ld, graph, distances, times)
  | some lines =>
    let st := lines.foldl (loadLine O rd)
      { graph := graph.clear, distances := [], times := [], lastEdgeCount := 0 }
    (true, { lastNodeCount_ := st.graph.getNodeCount, lastEdgeCount_ := st.lastEdgeCount },
      st.graph, st.distances, st.times)

/-! ## MapEngine (MapEngine.h, MapEngine.cpp) -/

/-- The fields of a `MapEngine`.  `pathFinder_` is a `unique_ptr`, `none` standing for
the null pointer; the `PathFinder` it owns refers to `graph_`. -/
structure MapEngine where
  graph_ : Graph
  pathFinder_ : Option PathFinder
  dataLoader_ : DataLoader
  distances_ : PairMap
  times_ : PairMap
  currentStrategy_ : PathStrategy

/-- The constructor `MapEngine()`. -/
def MapEngine.new : MapEngine :=
  { graph_ := Graph.empty, pathFinder_ := some PathFinder.new,
    dataLoader_ := { lastNodeCount_ := 0, lastEdgeCount_ := 0 },
    distances_ := [], times_ := [], currentStrategy_ := PathStrategy.SHORTEST_DISTANCE }

/-- The `switch (currentStrategy_)` of `rebuildGraphWeights`. -/
def strategyWeight (strategy : PathStrategy) (distance time : ℚ) : ℚ :=
  match strategy with
  | PathStrategy.SHORTEST_DISTANCE => distance
  | PathStrategy.LEAST_TIME => time

/-- The variables updated by the loop of `rebuildGraphWeights`. -/
structure RebuildState where
  graph : Graph
  times : PairMap
  addedEdges : List (Int × Int)

/-- The body of the `for (const auto& distPair : distances_)` loop. -/
def rebuildStep (O : HashOrder) (strategy : PathStrategy) (st : RebuildState)
    (distPair : (Int × Int) × ℚ) : RebuildState :=
  let src := distPair.1.1
  let dst := distPair.1.2
  let distance := distPair.2
  let time := (O.index st.times distPair.1).1
  let st1 : RebuildState := { st with times := (O.index st.times distPair.1).2 }
  if distance ≤ 0 ∨ time ≤ 0 then st1
  else
    let edgeKey : Int × Int := if src < dst then (src, dst) else (dst, src)
    if edgeKey ∈ st1.addedEdges then st1
    else
      { st1 with graph := st1.graph.addEdge src dst (strategyWeight strategy distance time),
                 addedEdges := edgeKey :: st1.addedEdges }

/-- Embeds `MapEngine::rebuildGraphWeights`. -/
def MapEngine.rebuildGraphWeights (E : MapEngine) (O : HashOrder) : MapEngine :=
  let st := E.distances_.foldl (rebuildStep O E.currentStrategy_)
    { graph := E.graph_.clear, times := E.times_, addedEdges := [] }
  { E with graph_ := st.graph, times_ := st.times }

/-- The strategy object made by the `switch (strategy)` of `setStrategy`. -/
def strategyImpl (strategy : PathStrategy) : Strategy :=
  match strategy with
  | PathStrategy.SHORTEST_DISTANCE => Strategy.ShortestDistanceStrategy
  | PathStrategy.LEAST_TIME => Strategy.LeastTimeStrategy

/-- Embeds `MapEngine::setStrategy`. -/
def MapEngine.setStrategy (E : MapEngine) (O : HashOrder) (strategy : PathStrategy) :
    MapEngine :=
  let E1 := { E with currentStrategy_ := strategy }
  let E2 := E1.rebuildGraphWeights O
  { E2 with pathFinder_ := some (PathFinder.new.setStrategy (some (strategyImpl strategy))) }

/-- Embeds `MapEngine::loadMap`: the success flag and the engine afterwards. -/
def MapEngine.loadMap (E : MapEngine) (O : HashOrder) (rd : Reader) (filename : String) :
    Bool × MapEngine :=
  let res := E.dataLoader_.loadFromFileWithDetails O rd filename E.graph_.clear [] []
  let E1 : MapEngine :=
    { E with dataLoader_ := res.2.1, graph_ := res.2.2.1, distances_ := res.2.2.2.1,
             times_ := res.2.2.2.2 }
  if res.1 then
    let E2 := E1.rebuildGraphWeights O
    let E3 : MapEngine := { E2 with pathFinder_ := some PathFinder.new }
    (true, E3.setStrategy O E3.currentStrategy_)
  else (false, E1)

/-- Embeds `MapEngine::findPath`. -/
def MapEngine.findPath (E : MapEngine) (H : MinHeap) (elapsed : Int) (src dst : Int) :
    Option PathResult :=
  match E.pathFinder_ with
  | none => some { PathResult.init with found := false }
  | some pf => pf.findPath H E.graph_ elapsed src dst

/-- Embeds `MapEngine::getCurrentStrategyName`. -/
def MapEngine.getCurrentStrategyName (E : MapEngine) : String :=
  match E.pathFinder_ with
  | none => "Unknown"
  | some pf => pf.getCurrentStrategyName

/-- Embeds `MapEngine::getNodeCount`. -/
def MapEngine.getNodeCount (E : MapEngine) : Nat := E.graph_.getNodeCount

/-- Embeds `MapEngine::getEdgeCount`. -/
def MapEngine.getEdgeCount (E : MapEngine) : Nat := E.graph_.getEdgeCount

/-- Embeds `MapEngine::isIsolated`. -/
def MapEngine.isIsolated (E : MapEngine) (nodeId : Int) : Bool := E.graph_.isIsolated nodeId

/-! ## Vocabulary for the engine properties -/

/-- What the loader guarantees of the two tables: no key twice, both directions of a
pair carry the same value, all values are positive, and the key sets coincide. -/
structure TablesOK (d t : PairMap) : Prop where
  d_nodup : (d.map Prod.fst).Nodup
  t_nodup : (t.map Prod.fst).Nodup
  d_symm : ∀ a b, mapFind d (a, b) = mapFind d (b, a)
  t_symm : ∀ a b, mapFind t (a, b) = mapFind t (b, a)
  d_pos : ∀ k x, mapFind d k = some x → 0 < x
  t_pos : ∀ k y, mapFind t k = some y → 0 < y
  same_keys : ∀ k, (mapFind d k).isSome = (mapFind t k).isSome

/-- The invariant of the loop of `rebuildGraphWeights` over tables `d`, `t`. -/
structure RInv (d t : PairMap) (strategy : PathStrategy) (st : RebuildState) : Prop where
  times_eq : st.times = t
  built : st.graph.Built
  sound : ∀ u, ∀ e ∈ st.graph.getAdjacentEdges u, ∃ x y,
    mapFind d (u, e.dst) = some x ∧ mapFind t (u, e.dst) = some y ∧
      e.weight = strategyWeight strategy x y
  added : ∀ p q, (p, q) ∈ st.addedEdges → ∃ x y,
    mapFind d (p, q) = some x ∧ mapFind t (p, q) = some y ∧
      (⟨q, strategyWeight strategy x y⟩ : Edge) ∈ st.graph.getAdjacentEdges p ∧
      (⟨p, strategyWeight strategy x y⟩ : Edge) ∈ st.graph.getAdjacentEdges q

/-- The graph that `rebuildGraphWeights` makes from tables `d`, `t` under `strategy`. -/
def rebuiltGraph (O : HashOrder) (d t : PairMap) (strategy : PathStrategy) : Graph :=
  (d.foldl (rebuildStep O strategy)
    { graph := Graph.empty, times := t, addedEdges := [] }).graph

/-- The read loop of `loadFromFileWithDetails` run over the lines of an opened file. -/
def loadLines (O : HashOrder) (rd : Reader) (lines : List String) : LoadState :=
  lines.foldl (loadLine O rd)
    { graph := Graph.empty, distances := [], times := [], lastEdgeCount := 0 }

/-- A source file of three records, with a comment line, a blank line and a line
that does not parse. -/
def sampleReader : Reader where
  openFile f := if f = "map" then some ["# sample", "a", "b", "", "c", "junk"] else none
  extract l :=
    if l = "a" then some (1, 2, 4, 10)
    else if l = "b" then some (2, 5, 6, 5)
    else if l = "c" then some (1, 5, 15, 3)
    else none

/-- The engine after loading the sample file. -/
def sampleEngine : MapEngine := (MapEngine.new.loadMap appendOrder sampleReader "map").2

/-- The sum of the stored values `table[(path[i], path[i+1])]` over the consecutive
node pairs of a path (a missing pair counting as 0). -/
def pathSum (table : PairMap) : List Int → ℚ
  | a :: b :: rest => mapGetD table (a, b) 0 + pathSum table (b :: rest)
  | _ => 0

/-- The engine states reached by a successful `loadMap` followed by any number of
`setStrategy` calls. -/
inductive MapEngine.Loaded (O : HashOrder) (rd : Reader) : MapEngine → Prop
  | load (E0 : MapEngine) (filename : String) :
      (E0.loadMap O rd filename).1 = true → MapEngine.Loaded O rd (E0.loadMap O rd filename).2
  | setStrategy (E : MapEngine) (strategy : PathStrategy) :
      MapEngine.Loaded O rd E → MapEngine.Loaded O rd (E.setStrategy O strategy)

/-- The record that a line contributes to the tables, if any: the line is neither
empty nor a comment, it parses, and its distance and time are positive. -/
def acceptedRecord (rd : Reader) (line : String) : Option (Int × Int × ℚ × ℚ) :=
  if line.isEmpty || line.get 0 = '#' then none
  else
    match DataLoader.parseLine rd line with
    | some (src, dst, distance, time) =>
      if 0 < distance ∧ 0 < time then some (src, dst, distance, time) else none
    | none => none

/-- The accepted records of a file, in file order. -/
def acceptedRecords (rd : Reader) (lines : List String) : List (Int × Int × ℚ × ℚ) :=
  lines.filterMap (acceptedRecord rd)

/-- What the read loop does with an accepted record. -/
def addRecord (O : HashOrder) (st : LoadState) (r : Int × Int × ℚ × ℚ) : LoadState :=
  { graph := st.graph.addEdge r.1 r.2.1 r.2.2.1,
    distances := O.assign (O.assign st.distances (r.1, r.2.1) r.2.2.1) (r.2.1, r.1) r.2.2.1,
    times := O.assign (O.assign st.times (r.1, r.2.1) r.2.2.2) (r.2.1, r.1) r.2.2.2,
    lastEdgeCount := st.lastEdgeCount + 1 }

/-- The three records of the strategy scenario. -/
def threeRecords : List (Int × Int × ℚ × ℚ) :=
  [(1, 2, 4, 10), (2, 5, 6, 5), (1, 5, 15, 3)]

/-- The distance and time stored for a node pair after loading `threeRecords`. -/
def threeValues (k : Int × Int) : Option (ℚ × ℚ) :=
  if k = (1, 5) ∨ k = (5, 1) then some (15, 3)
  else if k = (2, 5) ∨ k = (5, 2) then some (6, 5)
  else if k = (1, 2) ∨ k = (2, 1) then some (4, 10)
  else none

/-- The sum of the positive parts of the weights of a list of adjacency entries. -/
def posWeight (es : List Edge) : ℚ := (es.map (fun e => max e.weight 0)).sum

/-- The sum of `posWeight` over the adjacency lists stored under the keys `xs`. -/
def posOn (adj : List (Int × List Edge)) (xs : List Int) : ℚ :=
  (xs.map (fun x => posWeight (mapGetD adj x []))).sum

/-- The sum of the positive parts of all stored weights, one term per adjacency entry
(so a logical edge of positive weight counts twice). -/
def Graph.totalPosWeight (g : Graph) : ℚ :=
  (g.adjacencyList_.map (fun p => posWeight p.2)).sum

/-- No tentative distance equals the value entered for unreached nodes. -/
def NoSentinel (s : SearchState) : Prop :=
  ∀ v d, s.distOf v = some d → d < DBL_MAX

/-- The four records of the cycle scenario, in file order. -/
def cycleRecords : List (Int × Int × ℚ × ℚ) :=
  [(5, 6, 1, 1), (6, 7, 1, 1), (7, 5, 1, 1), (5, 7, 5, 5)]

/-- The value (distance and time alike) stored for a node pair after loading
`cycleRecords`: the last record has replaced the value of the pair 5, 7. -/
def cycleValues (k : Int × Int) : Option ℚ :=
  if k = (5, 7) ∨ k = (7, 5) then some 5
  else if k = (6, 7) ∨ k = (7, 6) then some 1
  else if k = (5, 6) ∨ k = (6, 5) then some 1
  else none

/-- A source file that holds the four records of the cycle scenario. -/
def cycleReader : Reader where
  openFile f := if f = "cycle" then some ["e1", "e2", "e3", "e4"] else none
  extract l :=
    if l = "e1" then some (5, 6, 1, 1)
    else if l = "e2" then some (6, 7, 1, 1)
    else if l = "e3" then some (7, 5, 1, 1)
    else if l = "e4" then some (5, 7, 5, 5)
    else none

/-- The canonical key `(min, max)` of a node pair, as `rebuildGraphWeights` forms it. -/
def canonKey (k : Int × Int) : Int × Int :=
  if k.1 < k.2 then (k.1, k.2) else (k.2, k.1)

/-- The distinct unordered pairs among the keys of a table, each by its canonical key. -/
def unorderedPairs (d : PairMap) : List (Int × Int) :=
  (d.map (fun p => canonKey p.1)).dedup

/-- The entries for neighbour `b` in the adjacency list of `a`, in stored order. -/
def entriesFor (g : Graph) (a b : Int) : List Edge :=
  (g.getAdjacentEdges a).filter (fun e => decide (e.dst = b))

/-- The counting invariant of the loop of `rebuildGraphWeights` over tables `d`, `t`:
one logical edge per canonical key seen so far, entered once. -/
structure RCount (d t : PairMap) (strategy : PathStrategy) (st : RebuildState) : Prop where
  times_eq : st.times = t
  known : st.graph.KeysKnown
  count : st.graph.getEdgeCount = st.addedEdges.length
  nodup : st.addedEdges.Nodup
  sub : ∀ k ∈ st.addedEdges, k ∈ d.map (fun p => canonKey p.1)
  absent : ∀ a b, canonKey (a, b) ∉ st.addedEdges → entriesFor st.graph a b = []
  once : ∀ a b x y, canonKey (a, b) ∈ st.addedEdges → mapFind d (a, b) = some x →
    mapFind t (a, b) = some y →
    entriesFor st.graph a b =
      if a = b then [⟨b, strategyWeight strategy x y⟩, ⟨b, strategyWeight strategy x y⟩]
      else [⟨b, strategyWeight strategy x y⟩]

/-- The test that `rebuildGraphWeights` applies to an entry of `distances_`: the stored
distance is positive and so is the time read from `times_` (0 for a missing key). -/
def validPair (t : PairMap) (p : (Int × Int) × ℚ) : Bool :=
  decide (0 < p.2 ∧ 0 < mapGetD t p.1 0)

/-- Tables made by hand, not by the loader: the pair 3, 4 has distance 0, the pair
5, 6 has no time, the pair 7, 8 has a negative time. -/
def handDistances : PairMap :=
  [((1, 2), 4), ((3, 4), 0), ((2, 1), 4), ((5, 6), 2), ((7, 8), 3)]

/-- The time table that goes with `handDistances`. -/
def handTimes : PairMap :=
  [((1, 2), 10), ((3, 4), 1), ((2, 1), 10), ((7, 8), -1)]

/-- An engine whose tables are `handDistances` and `handTimes`. -/
def handEngine : MapEngine :=
  { MapEngine.new with distances_ := handDistances, times_ := handTimes }

/-- The graph made by `addEdge(a,b,w1)` then `addEdge(a,b,w2)` on an empty graph. -/
def parallelGraph (a b : Int) (w1 w2 : ℚ) : Graph :=
  (Graph.empty.addEdge a b w1).addEdge a b w2

/-- The graph `parallelGraph` with the self-loop `addEdge(a,a,w)` added. -/
def parallelLoopGraph (a b : Int) (w1 w2 w : ℚ) : Graph :=
  (parallelGraph a b w1 w2).addEdge a a w

/-- The part of `dijkstra` after the `while` loop: the not-found test on `dist[to]`,
then the result made from `reconstructPath` and `dist[to]` with `found = true`. -/
def dijkstraFinish (fuel : Nat) (src dst : Int) (s : SearchState) : Option PathResult :=
  if (mapFind s.dist dst).isNone || mapGetD s.dist dst 0 = DBL_MAX then
    some PathResult.init
  else
    match reconstructPath fuel src dst s.parent with
    | none => none
    | some p =>
      some { PathResult.init with path := p, totalWeight := mapGetD s.dist dst 0,
                                  found := true }

/-- The search state at the entry of the `while` loop of `dijkstra`. -/
def initialState (H : MinHeap) (src : Int) : SearchState :=
  { dist := mapSet [] src 0, parent := [], visited := mapSet [] src false,
    pq := H.push [] ⟨src, 0⟩ }

/-- Every node in the priority queue has a tentative distance. -/
def SearchState.QueueKnown (s : SearchState) : Prop :=
  ∀ x ∈ s.pq, (mapFind s.dist x.nodeId).isSome = true

/-- The engine states reached from the constructor by any sequence of `loadMap` calls
(successful or not, each with its own file system and file name) and `setStrategy`
calls; the tables may iterate in a different order in every call. -/
inductive MapEngine.Reachable : MapEngine → Prop
  | new : MapEngine.Reachable MapEngine.new
  | loadMap (E : MapEngine) (O : HashOrder) (rd : Reader) (filename : String) :
      MapEngine.Reachable E → MapEngine.Reachable (E.loadMap O rd filename).2
  | setStrategy (E : MapEngine) (O : HashOrder) (strategy : PathStrategy) :
      MapEngine.Reachable E → MapEngine.Reachable (E.setStrategy O strategy)

/-- Embeds `DataLoader::getLoadedEdgeCount`. -/
def DataLoader.getLoadedEdgeCount (ld : DataLoader) : Nat := ld.lastEdgeCount_

/-- One step of the scan for the last record that joins `a` and `b`, in either
orientation: such a record replaces what was found before. -/
def lastRecordStep (a b : Int) (acc : Option (ℚ × ℚ)) (r : Int × Int × ℚ × ℚ) :
    Option (ℚ × ℚ) :=
  if (r.1 = a ∧ r.2.1 = b) ∨ (r.1 = b ∧ r.2.1 = a) then some (r.2.2.1, r.2.2.2) else acc

/-- The distance and time of the last record, in file order, that joins the nodes `a`
and `b` in either orientation. -/
def lastRecord (rs : List (Int × Int × ℚ × ℚ)) (a b : Int) : Option (ℚ × ℚ) :=
  rs.foldl (lastRecordStep a b) none

/-- The distinct unordered pairs among the records, each by its canonical key. -/
def recordPairs (rs : List (Int × Int × ℚ × ℚ)) : List (Int × Int) :=
  (rs.map (fun r => canonKey (r.1, r.2.1))).dedup

/-- Rounding of a rational to the nearest integer, a tie going to the even one. -/
def roundEven (q : ℚ) : ℤ :=
  let f := ⌊q⌋
  if q - f < 1 / 2 then f
  else if 1 / 2 < q - f then f + 1
  else if f % 2 = 0 then f else f + 1

/-- The power `2^k` as a rational. -/
def pow2 (k : ℤ) : ℚ :=
  if 0 ≤ k then ((2 ^ k.toNat : ℕ) : ℚ) else 1 / ((2 ^ (-k).toNat : ℕ) : ℚ)

/-- The number of halvings that bring `n` below 2, at most `fuel` of them. -/
def log2Fuel : Nat → Nat → Nat
  | 0, _ => 0
  | fuel + 1, n => if n < 2 then 0 else log2Fuel fuel (n / 2) + 1

/-- The binary exponent of a positive rational `q`: `2^(binade q) ≤ q < 2^(binade q + 1)`. -/
def binade (q : ℚ) : ℤ :=
  let k : ℤ := (log2Fuel q.num.natAbs q.num.natAbs : ℤ) - (log2Fuel q.den q.den : ℤ)
  if pow2 k ≤ q then k else k - 1

/-- The spacing of the binary64 values around a non-negative `q`: 53 significant bits,
and the spacing of the subnormal values below `2^(-1022)`. -/
def ulp (q : ℚ) : ℚ := pow2 (max (binade q) (-1022) - 52)

/-- Rounding of a non-negative rational to the nearest multiple of its spacing, a tie
going to the even multiple. -/
def roundMag (q : ℚ) : ℚ := (roundEven (q / ulp q) : ℚ) * ulp q

/-- The value `2^1024`, which stands for the infinity of `double`; its negative stands
for the negative infinity. -/
def DBL_INF : ℚ :=
  179769313486231590772930519078902473361797697894230657273430081157732675805500963132708477322407536021120113879871393357658789768814416622492847430639474124377767893424865485276302219601246094119453082952085005768838150682342462881473913110540827237163350510684586298239947245938479716304835356329624224137216

/-- Rounding of a rational to `double` (IEEE 754 binary64, round to nearest, ties to
even); a result of magnitude `2^1024` is an infinity. -/
def fround (q : ℚ) : ℚ :=
  if 0 ≤ q then min (roundMag q) DBL_INF else -(min (roundMag (-q)) DBL_INF)

/-- The sum `a + b` of two `double`s as the machine computes it: the exact sum, rounded;
an infinite `a` stays what it is (`b`, a stored weight, is finite throughout).  The
model admits every rational as a weight, also one that is no `double`: its sums are
rounded all the same. -/
def fadd (a b : ℚ) : ℚ :=
  if DBL_INF ≤ |a| then fround a else fround (a + b)

/-! ## The search with the sums of `double` -/

/-- The body of the `for (const Edge& edge : edges)` loop, for the popped node `u` with
popped distance `d`, the sum `d + weight` being the rounded sum of two `double`s
(PathFinder.cpp:110). -/
def relaxEdgeD (H : MinHeap) (u : Int) (d : ℚ) (s : SearchState) (edge : Edge) : SearchState :=
  let v := edge.dst
  let weight := edge.weight
  let s1 : SearchState :=
    if (mapFind s.dist v).isNone then
      { s with dist := mapSet s.dist v DBL_MAX, visited := mapSet s.visited v false }
    else s
  let newDist := fadd d weight
  if !(mapGetD s1.visited v false) && newDist < mapGetD s1.dist v 0 then
    { s1 with dist := mapSet s1.dist v newDist,
              parent := mapSet s1.parent v u,
              pq := H.push s1.pq ⟨v, newDist⟩ }
  else s1

/-- The `while (!pq.empty())` loop over `relaxEdgeD`, run for at most `fuel` iterations. -/
def dijkstraLoopD (H : MinHeap) (g : Graph) (dst : Int) : Nat → SearchState → Option SearchState
  | 0, _ => none
  | fuel + 1, s =>
    match H.pop s.pq with
    | none => some s
    | some (current, rest) =>
      let u := current.nodeId
      let d := current.distance
      if mapGetD s.visited u false then
        dijkstraLoopD H g dst fuel { s with pq := rest }
      else
        let s1 : SearchState := { s with pq := rest, visited := mapSet s.visited u true }
        if u = dst then some s1
        else dijkstraLoopD H g dst fuel ((g.getAdjacentEdges u).foldl (relaxEdgeD H u d) s1)

/-- Embeds `PathFinder::dijkstra`, its sums computed in `double`. -/
def dijkstraD (H : MinHeap) (g : Graph) (src dst : Int) : Option PathResult :=
  if !g.hasNode src || !g.hasNode dst then some PathResult.init
  else if src = dst then
    some { PathResult.init with path := [src], totalWeight := 0, found := true }
  else if g.isIsolated src then some PathResult.init
  else
    let s0 : SearchState :=
      { dist := mapSet [] src 0, parent := [], visited := mapSet [] src false,
        pq := H.push [] ⟨src, 0⟩ }
    match dijkstraLoopD H g dst g.searchFuel s0 with
    | none => none
    | some s =>
      if (mapFind s.dist dst).isNone || mapGetD s.dist dst 0 = DBL_MAX then
        some PathResult.init
      else
        match reconstructPath (g.searchFuel + 1) src dst s.parent with
        | none => none
        | some p =>
          some { PathResult.init with path := p, totalWeight := mapGetD s.dist dst 0,
                                      found := true }

/-- Embeds `PathFinder::findPath` on the referenced graph `g`, the search summing in
`double`; `elapsed` is the measured wall-clock time. -/
def PathFinder.findPathD (_pf : PathFinder) (H : MinHeap) (g : Graph) (elapsed : Int)
    (src dst : Int) : Option PathResult :=
  (dijkstraD H g src dst).map (fun r => { r with elapsedMicroseconds := elapsed })

/-- Embeds `MapEngine::findPath`, the search summing in `double`. -/
def MapEngine.findPathD (E : MapEngine) (H : MinHeap) (elapsed : Int) (src dst : Int) :
    Option PathResult :=
  match E.pathFinder_ with
  | none => some { PathResult.init with found := false }
  | some pf => pf.findPathD H E.graph_ elapsed src dst

/-- The weights of a walk added as the search adds them: one after the other from the
source on, every partial sum rounded to `double`. -/
def walkWeightD (es : List Edge) : ℚ := es.foldl (fun a e => fadd a e.weight) 0

/-- The stored values `table[(path[i], path[i+1])]` of the consecutive node pairs of a
path, added to `acc` one after the other in `double` (a missing pair counting as 0). -/
def pathSumFrom (table : PairMap) : ℚ → List Int → ℚ
  | acc, a :: b :: rest => pathSumFrom table (fadd acc (mapGetD table (a, b) 0)) (b :: rest)
  | acc, _ => acc

/-- The stored values along a path, added in path order from 0 in `double`. -/
def pathSumD (table : PairMap) (path : List Int) : ℚ := pathSumFrom table 0 path

/-- The invariant of the search loops of `dijkstraD`: that of `Inv`, with the sums of
`double` in the place of the exact ones. -/
structure InvD (g : Graph) (src : Int) (n : Nat) (cur : Int) (pending : List Edge)
    (s : SearchState) : Prop where
  dist_le : ∀ v d, s.distOf v = some d → d ≤ DBL_MAX
  dist_walk : ∀ v d, s.distOf v = some d → d < DBL_MAX →
    ∃ es, IsWalk g src es v ∧ walkWeightD es = d
  dist_src : s.distOf src = some 0
  pq_ge : ∀ x ∈ s.pq, x.distance < DBL_MAX ∧
    ∃ dv, s.distOf x.nodeId = some dv ∧ dv ≤ x.distance
  live : ∀ v dv, s.isVisited v = false → s.distOf v = some dv → dv < DBL_MAX →
    (⟨v, dv⟩ : HeapNode) ∈ s.pq
  start : s.isVisited src = true ∨ ∀ x ∈ s.pq, x.nodeId = src
  vis_dist : ∀ v, s.isVisited v = true → ∃ dv, s.distOf v = some dv ∧ dv < DBL_MAX
  relaxed : ∀ u, s.isVisited u = true → ∀ e ∈ g.getAdjacentEdges u,
    (u = cur ∧ e ∈ pending) ∨ s.isVisited e.dst = true ∨
    ∃ du dv, s.distOf u = some du ∧ s.distOf e.dst = some dv ∧ dv ≤ fadd du e.weight
  parent_ok : ∀ v u, s.parentOf v = some u → v ≠ src ∧ s.isVisited u = true ∧
    ∃ e du, e ∈ g.getAdjacentEdges u ∧ e.dst = v ∧ s.distOf u = some du ∧
      s.distOf v = some (fadd du e.weight)
  has_parent : ∀ v dv, v ≠ src → s.distOf v = some dv → dv < DBL_MAX →
    ∃ u, s.parentOf v = some u
  chain : ∀ v, s.isVisited v = true →
    ∃ es dv, Chain g s.parent s.isVisited src v es ∧ es.length < n ∧
      s.distOf v = some dv ∧ walkWeightD es = dv ∧ (src :: es.map Edge.dst).Nodup
  src_first : ∀ v, s.isVisited v = true → s.isVisited src = true

/-- Finalized nodes carry the least sum that a walk from the source has in `double`. -/
def OptD (g : Graph) (src : Int) (s : SearchState) : Prop :=
  ∀ v, s.isVisited v = true → ∀ dv, s.distOf v = some dv →
    ∀ es, IsWalk g src es v → dv ≤ walkWeightD es

/-- The `double` `2^1024 - 2^972`, the second largest. -/
def nearMax : ℚ :=
  179769313486231550856124328384506240234343437157459335924404872448581845754556114388470639943126220321960804027157371570809852884964511743044087662767600909594331927728237078876188760579532563768698654064825262115771015791463983014857704008123419459386245141723703148097529108423358883457665451722744025579520

/-- The `double` `3 * 2^969`. -/
def nearGap : ℚ :=
  14968802321510398587422795347776289245505884453265931561269104318279089189017230493387184741194767758170068351331443714329793284912951952455543788487136235652400042547133142573881532910832722403869900175584079429949981078413406527916666414513360331181303406801568170312317688714227580074459136

/-- Three nodes in a row, the edges of weight `2^1024 - 2^972` and `3 * 2^969`: the exact
sum of the two weights is `DBL_MAX - 2^969`, which rounds to `DBL_MAX`. -/
def nearMaxGraph : Graph := (Graph.empty.addEdge 1 2 nearMax).addEdge 2 3 nearGap

/-- The sums of `double` along the paths without a repeated node are exact: adding the
weights of such a path edge after edge rounds nowhere. -/
def Graph.ExactSums (g : Graph) : Prop :=
  ∀ a es b, IsWalk g a es b → (a :: es.map Edge.dst).Nodup → walkWeightD es = walkWeight es

/-- All stored weights are whole numbers. -/
def Graph.WholeWeights (g : Graph) : Prop :=
  ∀ u, ∀ e ∈ g.getAdjacentEdges u, ∃ n : ℕ, e.weight = n

/-- Four nodes in a row: the edge between 1 and 2 weighs `2^53`, the other two weigh 1. -/
def roundingGraph : Graph :=
  ((Graph.empty.addEdge 1 2 9007199254740992).addEdge 2 3 1).addEdge 3 4 1

/-- A source file of three records that put four nodes in a row: the record of nodes 1
and 2 has distance and time `2^53`, the other two have distance and time 1. -/
def roundingReader : Reader where
  openFile f := if f = "row" then some ["r1", "r2", "r3"] else none
  extract l :=
    if l = "r1" then some (1, 2, 9007199254740992, 9007199254740992)
    else if l = "r2" then some (2, 3, 1, 1)
    else if l = "r3" then some (3, 4, 1, 1)
    else none

/-- The engine after loading the file of `roundingReader`. -/
def roundingEngine : MapEngine := (MapEngine.new.loadMap appendOrder roundingReader "row").2

/-- A priority queue kept as a list in the order of the pushes: `pop` takes out the entry
of least distance that was pushed first. -/
def fifoHeap : MinHeap :=
  { listHeap with
    push := fun q x => q ++ [x]
    push_perm := fun q x => List.perm_append_singleton x q }

/-- An iteration order that lists the keys as `ref` does: a new key goes in front of the
first entry whose key stands later in `ref`. -/
def listedOrder (ref : List (Int × Int)) : HashOrder where
  insertNew m k v :=
    m.takeWhile (fun p => decide (ref.indexOf p.1 ≤ ref.indexOf k)) ++
      (k, v) :: m.dropWhile (fun p => decide (ref.indexOf p.1 ≤ ref.indexOf k))
  insertNew_perm m k v := by
    have h := List.takeWhile_append_dropWhile
      (fun p => decide (ref.indexOf p.1 ≤ ref.indexOf k)) m
    refine List.perm_middle.trans ?_
    rw [h]

/-- A source file of eight records, all of distance and time 1: the square 1-2-4-3-1, in
which nodes 1 and 4 are joined by the two paths `1,2,4` and `1,3,4` of equal weight, and
the row 5-6-7-8-9. -/
def forkReader : Reader where
  openFile f :=
    if f = "fork" then some ["t1", "t2", "t3", "t4", "t5", "t6", "t7", "t8"] else none
  extract l :=
    if l = "t1" then some (1, 2, 1, 1)
    else if l = "t2" then some (1, 3, 1, 1)
    else if l = "t3" then some (2, 4, 1, 1)
    else if l = "t4" then some (3, 4, 1, 1)
    else if l = "t5" then some (5, 6, 1, 1)
    else if l = "t6" then some (6, 7, 1, 1)
    else if l = "t7" then some (7, 8, 1, 1)
    else if l = "t8" then some (8, 9, 1, 1)
    else none

/-- The order in which a `std::unordered_map` of GNU libstdc++ with the hash of
PairHash.h lists the sixteen keys of `forkReader` when they are entered, in file order,
into a table that starts empty (it grows from 13 to 29 buckets on the way). -/
def forkKeysFresh : List (Int × Int) :=
  [(9, 8), (8, 9), (8, 7), (1, 2), (2, 1), (4, 2), (1, 3), (3, 1),
   (2, 4), (7, 8), (3, 4), (7, 6), (4, 3), (5, 6), (6, 5), (6, 7)]

/-- The order in which the same table lists the same keys when they are entered again
after `clear()`, which keeps the 29 buckets. -/
def forkKeysKept : List (Int × Int) :=
  [(9, 8), (8, 9), (8, 7), (7, 8), (6, 7), (6, 5), (5, 6), (4, 3),
   (7, 6), (3, 4), (2, 4), (3, 1), (1, 3), (4, 2), (2, 1), (1, 2)]

/-- The engine after the first load of the file of `forkReader`. -/
def forkEngine : MapEngine :=
  (MapEngine.new.loadMap (listedOrder forkKeysFresh) forkReader "fork").2

/-- The engine after the second load of the same file. -/
def forkEngineReloaded : MapEngine :=
  (forkEngine.loadMap (listedOrder forkKeysKept) forkReader "fork").2

/-! # Theorems -/

/-! ## Lemmas on association lists -/

theorem mapFind_mapSet {K V : Type} [DecidableEq K] (m : List (K × V)) (k k1 : K) (v : V) :
    mapFind (mapSet m k v) k1 = if k = k1 then some v else mapFind m k1 := by
  induction m with
  | nil => simp [mapSet, mapFind]
  | cons p rest ih =>
    obtain ⟨k0, v0⟩ := p
    by_cases h0 : k0 = k
    · subst h0
      by_cases h1 : k0 = k1 <;> simp [mapSet, mapFind, h1]
    · by_cases h1 : k0 = k1
      · subst h1
        have : ¬ k = k0 := fun h => h0 h.symm
        simp [mapSet, mapFind, h0, this]
      · simp [mapSet, mapFind, h0, h1, ih]

theorem mapGetD_mapSet {K V : Type} [DecidableEq K] (m : List (K × V)) (k k1 : K) (v d : V) :
    mapGetD (mapSet m k v) k1 d = if k = k1 then v else mapGetD m k1 d := by
  unfold mapGetD
  rw [mapFind_mapSet]
  by_cases h : k = k1 <;> simp [h]

theorem mapGetD_of_find {K V : Type} [DecidableEq K] (m : List (K × V)) (k : K) (v d : V)
    (h : mapFind m k = some v) : mapGetD m k d = v := by
  simp [mapGetD, h]

/-! ## Lemmas on walks -/

theorem walkWeight_nil : walkWeight [] = 0 := rfl

theorem walkWeight_cons (e : Edge) (es : List Edge) :
    walkWeight (e :: es) = e.weight + walkWeight es := by
  simp [walkWeight]

theorem walkWeight_append (es fs : List Edge) :
    walkWeight (es ++ fs) = walkWeight es + walkWeight fs := by
  simp [walkWeight]

theorem IsWalk.snoc {g : Graph} : ∀ {a b : Int} {es : List Edge} {e : Edge},
    IsWalk g a es b → e ∈ g.getAdjacentEdges b → IsWalk g a (es ++ [e]) e.dst
  | a, b, [], e, h, he => by
    have hab : a = b := h
    subst hab
    exact ⟨he, rfl⟩
  | a, b, f :: fs, e, h, he => by
    obtain ⟨hf, hrest⟩ := h
    exact ⟨hf, IsWalk.snoc hrest he⟩

theorem IsWalk.append {g : Graph} : ∀ {a b c : Int} {es fs : List Edge},
    IsWalk g a es b → IsWalk g b fs c → IsWalk g a (es ++ fs) c
  | a, b, c, [], fs, h, h2 => by
    have hab : a = b := h
    subst hab
    exact h2
  | a, b, c, f :: es, fs, h, h2 => by
    obtain ⟨hf, hrest⟩ := h
    exact ⟨hf, IsWalk.append hrest h2⟩

theorem walkWeight_nonneg {g : Graph} (hg : g.NonNeg) : ∀ {a b : Int} {es : List Edge},
    IsWalk g a es b → 0 ≤ walkWeight es
  | _, _, [], _ => le_refl _
  | a, b, e :: es, h => by
    obtain ⟨he, hrest⟩ := h
    rw [walkWeight_cons]
    exact add_nonneg (hg a e he) (walkWeight_nonneg hg hrest)

theorem DBL_MAX_pos : (0 : ℚ) < DBL_MAX := by
  unfold DBL_MAX
  norm_num

theorem DBL_MAX_eq : DBL_MAX = 2 ^ 1024 - 2 ^ 971 := by
  unfold DBL_MAX
  norm_num

/-! ## The short-circuit rules of `dijkstra` -/

/-- C4 (unknown-node rule): when `src` or `dst` is not in the node set, `findPath`
returns not-found with an empty path and total weight 0; `src = dst` is not excluded,
so the rule takes precedence over the same-node shortcut. -/
theorem findPath_unknown_node (pf : PathFinder) (H : MinHeap) (g : Graph) (elapsed src dst : Int)
    (h : g.hasNode src = false ∨ g.hasNode dst = false) :
    pf.findPath H g elapsed src dst =
      some { path := [], totalWeight := 0, found := false, elapsedMicroseconds := elapsed } := by
  have hb : (!g.hasNode src || !g.hasNode dst) = true := by
    rcases h with h | h <;> simp [h]
  simp [PathFinder.findPath, dijkstra, hb, PathResult.init]

theorem findPath_unknown_node_witness :
    (sampleGraph.hasNode 99999 = false ∨ sampleGraph.hasNode 99999 = false) ∧
    PathFinder.new.findPath listHeap sampleGraph 0 99999 99999 =
      some { path := [], totalWeight := 0, found := false, elapsedMicroseconds := 0 } :=
  ⟨by decide, findPath_unknown_node PathFinder.new listHeap sampleGraph 0 99999 99999 (by decide)⟩

/-- C5 (same-node rule): for a known node `a`, `findPath(a,a)` is found with path `[a]`
and total weight 0, whatever the edges of the graph. -/
theorem findPath_same_node (pf : PathFinder) (H : MinHeap) (g : Graph) (elapsed a : Int)
    (h : g.hasNode a = true) :
    pf.findPath H g elapsed a a =
      some { path := [a], totalWeight := 0, found := true, elapsedMicroseconds := elapsed } := by
  simp [PathFinder.findPath, dijkstra, h, PathResult.init]

theorem findPath_same_node_witness :
    sampleGraph.hasNode 8 = true ∧
    PathFinder.new.findPath listHeap sampleGraph 7 8 8 =
      some { path := [8], totalWeight := 0, found := true, elapsedMicroseconds := 7 } :=
  ⟨by decide, findPath_same_node PathFinder.new listHeap sampleGraph 7 8 (by decide)⟩

theorem isIsolated_of_no_edges (g : Graph) (a : Int) (h : g.hasNode a = true)
    (hadj : g.getAdjacentEdges a = []) : g.isIsolated a = true := by
  unfold Graph.getAdjacentEdges at hadj
  unfold Graph.isIsolated
  cases hf : mapFind g.adjacencyList_ a with
  | none => simp [h]
  | some es =>
    rw [hf] at hadj
    have hes : es = [] := hadj
    simp [h, hes]

/-- C6 (isolated-source rule): for a known node `a` whose adjacency list is empty and
any `b ≠ a`, `findPath(a,b)` is not-found, with empty path and total weight 0. -/
theorem findPath_isolated_source (pf : PathFinder) (H : MinHeap) (g : Graph) (elapsed a b : Int)
    (h : g.hasNode a = true) (hadj : g.getAdjacentEdges a = []) (hne : b ≠ a) :
    pf.findPath H g elapsed a b =
      some { path := [], totalWeight := 0, found := false, elapsedMicroseconds := elapsed } := by
  have hiso := isIsolated_of_no_edges g a h hadj
  have hne2 : ¬ a = b := fun e => hne e.symm
  by_cases hb : g.hasNode b = true
  · simp [PathFinder.findPath, dijkstra, h, hb, hne2, hiso, PathResult.init]
  · simp [PathFinder.findPath, dijkstra, h, hb, PathResult.init]

theorem findPath_isolated_source_witness :
    sampleGraph.hasNode 8 = true ∧ sampleGraph.getAdjacentEdges 8 = [] ∧ (1 : Int) ≠ 8 ∧
    PathFinder.new.findPath listHeap sampleGraph 0 8 1 =
      some { path := [], totalWeight := 0, found := false, elapsedMicroseconds := 0 } :=
  ⟨by decide, by decide, by decide,
   findPath_isolated_source PathFinder.new listHeap sampleGraph 0 8 1 (by decide) (by decide) (by decide)⟩

/-! ## One relaxation step -/

theorem relaxEdge_cases (H : MinHeap) (u : Int) (d : ℚ) (s : SearchState) (e : Edge)
    (hv : s.isVisited e.dst = true → s.distOf e.dst ≠ none) :
    (∀ x, (relaxEdge H u d s e).isVisited x = s.isVisited x) ∧
    ((s.isVisited e.dst = false ∧ d + e.weight < s.curDist e.dst ∧
        (∀ x, (relaxEdge H u d s e).distOf x =
          if x = e.dst then some (d + e.weight) else s.distOf x) ∧
        (∀ x, (relaxEdge H u d s e).parentOf x =
          if x = e.dst then some u else s.parentOf x) ∧
        (relaxEdge H u d s e).pq = H.push s.pq ⟨e.dst, d + e.weight⟩) ∨
     ((s.isVisited e.dst = true ∨ s.curDist e.dst ≤ d + e.weight) ∧
        (∀ x, (relaxEdge H u d s e).distOf x =
          if x = e.dst then some (s.curDist e.dst) else s.distOf x) ∧
        (∀ x, (relaxEdge H u d s e).parentOf x = s.parentOf x) ∧
        (relaxEdge H u d s e).pq = s.pq)) := by
  cases hd : s.distOf e.dst with
  | none =>
    have hd1 : mapFind s.dist e.dst = none := hd
    have hvis : s.isVisited e.dst = false := by
      cases hb : s.isVisited e.dst with
      | false => rfl
      | true => exact absurd hd (hv hb)
    have hvis1 : mapGetD s.visited e.dst false = false := hvis
    have hcur : s.curDist e.dst = DBL_MAX := by simp [SearchState.curDist, hd]
    have hvisEq : ∀ x, mapGetD (mapSet s.visited e.dst false) x false =
        mapGetD s.visited x false := by
      intro x
      rw [mapGetD_mapSet]
      by_cases hx : e.dst = x
      · subst hx; simp [hvis1]
      · simp [hx]
    have hgv : mapGetD (mapSet s.visited e.dst false) e.dst false = false := by
      rw [mapGetD_mapSet]; simp
    have hgd : mapGetD (mapSet s.dist e.dst DBL_MAX) e.dst 0 = DBL_MAX := by
      rw [mapGetD_mapSet]; simp
    by_cases hlt : d + e.weight < DBL_MAX
    · have hE : relaxEdge H u d s e =
          { dist := mapSet (mapSet s.dist e.dst DBL_MAX) e.dst (d + e.weight),
            parent := mapSet s.parent e.dst u,
            visited := mapSet s.visited e.dst false,
            pq := H.push s.pq ⟨e.dst, d + e.weight⟩ } := by
        simp [relaxEdge, hd1, hgv, hgd, hlt]
      rw [hE]
      refine ⟨?_, Or.inl ⟨hvis, by rw [hcur]; exact hlt, ?_, ?_, rfl⟩⟩
      · intro x
        exact hvisEq x
      · intro x
        show mapFind (mapSet (mapSet s.dist e.dst DBL_MAX) e.dst (d + e.weight)) x = _
        rw [mapFind_mapSet, mapFind_mapSet]
        by_cases hx : e.dst = x
        · simp [hx]
        · have hx2 : ¬ x = e.dst := fun h => hx h.symm
          simp [hx, hx2, SearchState.distOf]
      · intro x
        show mapFind (mapSet s.parent e.dst u) x = _
        rw [mapFind_mapSet]
        by_cases hx : e.dst = x
        · simp [hx]
        · have hx2 : ¬ x = e.dst := fun h => hx h.symm
          simp [hx, hx2, SearchState.parentOf]
    · have hE : relaxEdge H u d s e =
          { dist := mapSet s.dist e.dst DBL_MAX,
            parent := s.parent,
            visited := mapSet s.visited e.dst false,
            pq := s.pq } := by
        simp [relaxEdge, hd1, hgv, hgd, hlt]
      rw [hE]
      refine ⟨?_, Or.inr ⟨Or.inr (by rw [hcur]; exact le_of_not_lt hlt), ?_, ?_, rfl⟩⟩
      · intro x
        exact hvisEq x
      · intro x
        show mapFind (mapSet s.dist e.dst DBL_MAX) x = _
        rw [mapFind_mapSet, hcur]
        by_cases hx : e.dst = x
        · simp [hx]
        · have hx2 : ¬ x = e.dst := fun h => hx h.symm
          simp [hx, hx2, SearchState.distOf]
      · intro x
        rfl
  | some dv =>
    have hd1 : mapFind s.dist e.dst = some dv := hd
    have hg : mapGetD s.dist e.dst 0 = dv := mapGetD_of_find _ _ _ _ hd1
    have hcur : s.curDist e.dst = dv := by simp [SearchState.curDist, hd]
    by_cases hc : s.isVisited e.dst = false ∧ d + e.weight < dv
    · obtain ⟨hvis, hlt⟩ := hc
      have hvis1 : mapGetD s.visited e.dst false = false := hvis
      have hE : relaxEdge H u d s e =
          { dist := mapSet s.dist e.dst (d + e.weight),
            parent := mapSet s.parent e.dst u,
            visited := s.visited,
            pq := H.push s.pq ⟨e.dst, d + e.weight⟩ } := by
        simp [relaxEdge, hd1, hg, hvis1, hlt]
      rw [hE]
      refine ⟨fun x => rfl, Or.inl ⟨hvis, by rw [hcur]; exact hlt, ?_, ?_, rfl⟩⟩
      · intro x
        show mapFind (mapSet s.dist e.dst (d + e.weight)) x = _
        rw [mapFind_mapSet]
        by_cases hx : e.dst = x
        · simp [hx]
        · have hx2 : ¬ x = e.dst := fun h => hx h.symm
          simp [hx, hx2, SearchState.distOf]
      · intro x
        show mapFind (mapSet s.parent e.dst u) x = _
        rw [mapFind_mapSet]
        by_cases hx : e.dst = x
        · simp [hx]
        · have hx2 : ¬ x = e.dst := fun h => hx h.symm
          simp [hx, hx2, SearchState.parentOf]
    · have hc2 : s.isVisited e.dst = true ∨ dv ≤ d + e.weight := by
        by_cases hb : s.isVisited e.dst = true
        · exact Or.inl hb
        · right
          have hb2 : s.isVisited e.dst = false := by simpa using hb
          exact le_of_not_lt (fun hlt => hc ⟨hb2, hlt⟩)
      have hcond : (!(mapGetD s.visited e.dst false) && decide (d + e.weight < dv)) = false := by
        rcases hc2 with hb | hle
        · have hb1 : mapGetD s.visited e.dst false = true := hb
          simp [hb1]
        · simp [not_lt.2 hle]
      have hE : relaxEdge H u d s e = s := by
        simp [relaxEdge, hd1, hg, hcond]
      rw [hE]
      refine ⟨fun x => rfl, Or.inr ⟨by rw [hcur]; exact hc2, ?_, fun x => rfl, rfl⟩⟩
      intro x
      by_cases hx : x = e.dst
      · subst hx
        simp [hcur, hd]
      · simp [hx]

/-! ## Preservation of the invariant -/

theorem Chain.congr {g : Graph} {p p1 : List (Int × Int)} {vis vis1 : Int → Bool} {src : Int}
    (h : ∀ x, vis x = true → vis1 x = true ∧ mapFind p1 x = mapFind p x) :
    ∀ {v : Int} {es : List Edge}, Chain g p vis src v es → Chain g p1 vis1 src v es := by
  intro v es hc
  induction hc with
  | base => exact Chain.base
  | step u v es e _ hne hvis hpar he hdst ih =>
    have hx := h v hvis
    exact Chain.step u v es e ih hne hx.1 (by rw [hx.2]; exact hpar) he hdst

theorem Chain.isWalk {g : Graph} {p : List (Int × Int)} {vis : Int → Bool} {src : Int} :
    ∀ {v : Int} {es : List Edge}, Chain g p vis src v es → IsWalk g src es v := by
  intro v es hc
  induction hc with
  | base => exact rfl
  | step u v es e _ _ _ _ he hdst ih =>
    have := IsWalk.snoc ih he
    rw [hdst] at this
    exact this

theorem Chain.nodes_visited {g : Graph} {p : List (Int × Int)} {vis : Int → Bool} {src : Int}
    {v : Int} {es : List Edge} (hc : Chain g p vis src v es) (hs : vis src = true) :
    ∀ x ∈ src :: es.map Edge.dst, vis x = true := by
  induction hc with
  | base =>
    intro x hx
    rw [List.map_nil, List.mem_singleton] at hx
    rw [hx]; exact hs
  | step u v es e _ _ hvis _ _ hdst ih =>
    intro x hx
    rw [List.map_append, ← List.cons_append, List.mem_append] at hx
    rcases hx with hx | hx
    · exact ih x hx
    · simp only [List.map_cons, List.map_nil, List.mem_singleton] at hx
      rw [hx, hdst]; exact hvis

theorem Inv.curDist_le {g : Graph} {src : Int} {n : Nat} {cur : Int} {pending : List Edge}
    {s : SearchState} (hinv : Inv g src n cur pending s) (v : Int) :
    s.curDist v ≤ DBL_MAX := by
  unfold SearchState.curDist
  cases hd : s.distOf v with
  | none => exact le_refl _
  | some dv => exact hinv.dist_le v dv hd

theorem Inv.relax (H : MinHeap) {g : Graph} {src : Int} {n : Nat} {u : Int} {d : ℚ}
    {s : SearchState} {e : Edge} {rest : List Edge}
    (hinv : Inv g src n u (e :: rest) s)
    (hsrc : s.isVisited src = true) (hu : s.isVisited u = true)
    (hdu : s.distOf u = some d) (he : e ∈ g.getAdjacentEdges u) :
    Inv g src n u rest (relaxEdge H u d s e) := by
  have hv : s.isVisited e.dst = true → s.distOf e.dst ≠ none := by
    intro hb
    obtain ⟨dv, hdv, _⟩ := hinv.vis_dist _ hb
    rw [hdv]; simp
  obtain ⟨hvisEq, hcase⟩ := relaxEdge_cases H u d s e hv
  have hdlt : d < DBL_MAX := by
    obtain ⟨dv, hdv, hlt⟩ := hinv.vis_dist u hu
    rw [hdu] at hdv
    cases hdv
    exact hlt
  rcases hcase with ⟨hvis, hlt, hdist, hpar, hpq⟩ | ⟨hB, hdist, hpar, hpq⟩
  · -- the relaxation fires
    have hnew : d + e.weight < DBL_MAX := lt_of_lt_of_le hlt (hinv.curDist_le e.dst)
    have hneq : ∀ x, s.isVisited x = true → x ≠ e.dst := by
      intro x hx hxe
      rw [hxe, hvis] at hx
      exact Bool.noConfusion hx
    have hkeep : ∀ x, s.isVisited x = true → (relaxEdge H u d s e).distOf x = s.distOf x := by
      intro x hx
      rw [hdist x, if_neg (hneq x hx)]
    have hmem : ∀ x, x ∈ (relaxEdge H u d s e).pq ↔ x = ⟨e.dst, d + e.weight⟩ ∨ x ∈ s.pq := by
      intro x
      rw [hpq, (H.push_perm s.pq ⟨e.dst, d + e.weight⟩).mem_iff, List.mem_cons]
    refine ⟨?_, ?_, ?_, ?_, ?_, ?_, ?_, ?_, ?_, ?_, ?_, ?_⟩
    · intro v dv hdv
      rw [hdist v] at hdv
      by_cases hx : v = e.dst
      · rw [if_pos hx] at hdv
        cases hdv
        exact le_of_lt hnew
      · rw [if_neg hx] at hdv
        exact hinv.dist_le v dv hdv
    · intro v dv hdv hlt2
      rw [hdist v] at hdv
      by_cases hx : v = e.dst
      · rw [if_pos hx] at hdv
        cases hdv
        obtain ⟨es, hw, hwt⟩ := hinv.dist_walk u d hdu hdlt
        refine ⟨es ++ [e], ?_, ?_⟩
        · rw [hx]; exact IsWalk.snoc hw he
        · rw [walkWeight_append, hwt, walkWeight_cons, walkWeight_nil, add_zero]
      · rw [if_neg hx] at hdv
        exact hinv.dist_walk v dv hdv hlt2
    · rw [hkeep src hsrc]
      exact hinv.dist_src
    · intro x hx
      rcases (hmem x).1 hx with rfl | hx
      · refine ⟨hnew, d + e.weight, ?_, le_refl _⟩
        rw [hdist]; simp
      · obtain ⟨hxlt, dv, hdv, hle⟩ := hinv.pq_ge x hx
        refine ⟨hxlt, ?_⟩
        by_cases hxe : x.nodeId = e.dst
        · refine ⟨d + e.weight, by rw [hdist, if_pos hxe], ?_⟩
          have hc : s.curDist e.dst = dv := by
            rw [← hxe]; simp [SearchState.curDist, hdv]
          rw [hc] at hlt
          exact le_trans (le_of_lt hlt) hle
        · exact ⟨dv, by rw [hdist, if_neg hxe]; exact hdv, hle⟩
    · intro v dv hvv hdv hlt2
      rw [hvisEq] at hvv
      rw [hdist v] at hdv
      by_cases hx : v = e.dst
      · rw [if_pos hx] at hdv
        cases hdv
        rw [hx]
        exact (hmem _).2 (Or.inl rfl)
      · rw [if_neg hx] at hdv
        exact (hmem _).2 (Or.inr (hinv.live v dv hvv hdv hlt2))
    · left
      rw [hvisEq]; exact hsrc
    · intro v hvv
      rw [hvisEq] at hvv
      rw [hkeep v hvv]
      exact hinv.vis_dist v hvv
    · intro x hx f hf
      rw [hvisEq] at hx
      rcases hinv.relaxed x hx f hf with ⟨hxu, hfm⟩ | hfv | ⟨du, dv, hdu2, hdv2, hle⟩
      · rcases List.mem_cons.1 hfm with rfl | hfr
        · right; right
          refine ⟨d, d + f.weight, ?_, ?_, le_refl _⟩
          · rw [hkeep x hx, hxu]; exact hdu
          · rw [hdist]; simp
        · exact Or.inl ⟨hxu, hfr⟩
      · right; left
        rw [hvisEq]; exact hfv
      · right; right
        by_cases hfe : f.dst = e.dst
        · refine ⟨du, d + e.weight, by rw [hkeep x hx]; exact hdu2, by rw [hdist, if_pos hfe], ?_⟩
          have hc : s.curDist e.dst = dv := by
            rw [← hfe]; simp [SearchState.curDist, hdv2]
          rw [hc] at hlt
          exact le_trans (le_of_lt hlt) hle
        · exact ⟨du, dv, by rw [hkeep x hx]; exact hdu2, by rw [hdist, if_neg hfe]; exact hdv2, hle⟩
    · intro v p hp
      rw [hpar v] at hp
      by_cases hx : v = e.dst
      · rw [if_pos hx] at hp
        cases hp
        refine ⟨?_, by rw [hvisEq]; exact hu, e, d, he, hx.symm, ?_, ?_⟩
        · intro hvs
          exact hneq src hsrc (hvs ▸ hx)
        · rw [hkeep u hu]; exact hdu
        · rw [hdist, if_pos hx]
      · rw [if_neg hx] at hp
        obtain ⟨hne, hpv, f, du, hf, hfd, hdp, hdv⟩ := hinv.parent_ok v p hp
        refine ⟨hne, by rw [hvisEq]; exact hpv, f, du, hf, hfd, ?_, ?_⟩
        · rw [hkeep p hpv]; exact hdp
        · rw [hdist, if_neg hx]; exact hdv
    · intro v dv hne hdv hlt2
      by_cases hx : v = e.dst
      · exact ⟨u, by rw [hpar, if_pos hx]⟩
      · rw [hdist, if_neg hx] at hdv
        obtain ⟨p, hp⟩ := hinv.has_parent v dv hne hdv hlt2
        exact ⟨p, by rw [hpar, if_neg hx]; exact hp⟩
    · intro v hvv
      rw [hvisEq] at hvv
      obtain ⟨es, dv, hch, hlen, hdv, hwt⟩ := hinv.chain v hvv
      refine ⟨es, dv, Chain.congr ?_ hch, hlen, by rw [hkeep v hvv]; exact hdv, hwt⟩
      intro x hx
      refine ⟨by rw [hvisEq]; exact hx, ?_⟩
      have := hpar x
      rw [if_neg (hneq x hx)] at this
      exact this
    · intro v _
      rw [hvisEq]
      exact hsrc
  · -- no relaxation: at most the sentinel is entered for `e.dst`
    have hkeep : ∀ x dv, s.distOf x = some dv → (relaxEdge H u d s e).distOf x = some dv := by
      intro x dv hx
      rw [hdist x]
      by_cases hxe : x = e.dst
      · rw [if_pos hxe]
        subst hxe
        simp [SearchState.curDist, hx]
      · rw [if_neg hxe]; exact hx
    have hback : ∀ x dv, (relaxEdge H u d s e).distOf x = some dv →
        s.distOf x = some dv ∨ dv = DBL_MAX := by
      intro x dv hx
      rw [hdist x] at hx
      by_cases hxe : x = e.dst
      · rw [if_pos hxe] at hx
        cases hd : s.distOf e.dst with
        | none =>
          right
          simp [SearchState.curDist, hd] at hx
          exact hx.symm
        | some d0 =>
          left
          simp [SearchState.curDist, hd] at hx
          rw [hxe, hd, hx]
      · rw [if_neg hxe] at hx
        exact Or.inl hx
    have hback2 : ∀ x dv, (relaxEdge H u d s e).distOf x = some dv → dv < DBL_MAX →
        s.distOf x = some dv := by
      intro x dv hx hlt
      rcases hback x dv hx with h | h
      · exact h
      · exact absurd hlt (by rw [h]; exact lt_irrefl _)
    refine ⟨?_, ?_, ?_, ?_, ?_, ?_, ?_, ?_, ?_, ?_, ?_, ?_⟩
    · intro v dv hdv
      rcases hback v dv hdv with h | h
      · exact hinv.dist_le v dv h
      · rw [h]
    · intro v dv hdv hlt2
      exact hinv.dist_walk v dv (hback2 v dv hdv hlt2) hlt2
    · exact hkeep _ _ hinv.dist_src
    · intro x hx
      rw [hpq] at hx
      obtain ⟨hxlt, dv, hdv, hle⟩ := hinv.pq_ge x hx
      exact ⟨hxlt, dv, hkeep _ _ hdv, hle⟩
    · intro v dv hvv hdv hlt2
      rw [hvisEq] at hvv
      rw [hpq]
      exact hinv.live v dv hvv (hback2 v dv hdv hlt2) hlt2
    · left
      rw [hvisEq]; exact hsrc
    · intro v hvv
      rw [hvisEq] at hvv
      obtain ⟨dv, hdv, hlt2⟩ := hinv.vis_dist v hvv
      exact ⟨dv, hkeep _ _ hdv, hlt2⟩
    · intro x hx f hf
      rw [hvisEq] at hx
      rcases hinv.relaxed x hx f hf with ⟨hxu, hfm⟩ | hfv | ⟨du, dv, hdu2, hdv2, hle⟩
      · rcases List.mem_cons.1 hfm with rfl | hfr
        · rcases hB with hb | hb
          · right; left
            rw [hvisEq]; exact hb
          · right; right
            refine ⟨d, s.curDist f.dst, ?_, ?_, hb⟩
            · rw [hxu]; exact hkeep _ _ hdu
            · rw [hdist]; simp
        · exact Or.inl ⟨hxu, hfr⟩
      · right; left
        rw [hvisEq]; exact hfv
      · right; right
        exact ⟨du, dv, hkeep _ _ hdu2, hkeep _ _ hdv2, hle⟩
    · intro v p hp
      rw [hpar v] at hp
      obtain ⟨hne, hpv, f, du, hf, hfd, hdp, hdv⟩ := hinv.parent_ok v p hp
      exact ⟨hne, by rw [hvisEq]; exact hpv, f, du, hf, hfd, hkeep _ _ hdp, hkeep _ _ hdv⟩
    · intro v dv hne hdv hlt2
      obtain ⟨p, hp⟩ := hinv.has_parent v dv hne (hback2 v dv hdv hlt2) hlt2
      exact ⟨p, by rw [hpar]; exact hp⟩
    · intro v hvv
      rw [hvisEq] at hvv
      obtain ⟨es, dv, hch, hlen, hdv, hwt⟩ := hinv.chain v hvv
      refine ⟨es, dv, Chain.congr ?_ hch, hlen, hkeep _ _ hdv, hwt⟩
      intro x hx
      exact ⟨by rw [hvisEq]; exact hx, hpar x⟩
    · intro v _
      rw [hvisEq]
      exact hsrc

theorem Inv.relax_frame (H : MinHeap) {g : Graph} {src : Int} {n : Nat} {cur : Int}
    {pending : List Edge} {s : SearchState} (u : Int) (d : ℚ) (e : Edge)
    (hinv : Inv g src n cur pending s) :
    (∀ x, (relaxEdge H u d s e).isVisited x = s.isVisited x) ∧
    (∀ x, s.isVisited x = true → (relaxEdge H u d s e).distOf x = s.distOf x) ∧
    (relaxEdge H u d s e).pq.length ≤ s.pq.length + 1 := by
  have hv : s.isVisited e.dst = true → s.distOf e.dst ≠ none := by
    intro hb
    obtain ⟨dv, hdv, _⟩ := hinv.vis_dist _ hb
    rw [hdv]; simp
  obtain ⟨hvisEq, hcase⟩ := relaxEdge_cases H u d s e hv
  refine ⟨hvisEq, ?_, ?_⟩
  · intro x hx
    rcases hcase with ⟨hvis, _, hdist, _, _⟩ | ⟨_, hdist, _, _⟩
    · rw [hdist x]
      have hxe : x ≠ e.dst := by
        intro hxe
        rw [hxe, hvis] at hx
        exact Bool.noConfusion hx
      rw [if_neg hxe]
    · rw [hdist x]
      by_cases hxe : x = e.dst
      · rw [if_pos hxe]
        obtain ⟨dv, hdv, _⟩ := hinv.vis_dist x hx
        subst hxe
        simp [SearchState.curDist, hdv]
      · rw [if_neg hxe]
  · rcases hcase with ⟨_, _, _, _, hpq⟩ | ⟨_, _, _, hpq⟩
    · rw [hpq, (H.push_perm s.pq ⟨e.dst, d + e.weight⟩).length_eq]
      simp
    · rw [hpq]
      exact Nat.le_succ _

theorem Inv.relaxAll (H : MinHeap) {g : Graph} {src : Int} {n : Nat} {u : Int} {d : ℚ} :
    ∀ (es : List Edge) (s : SearchState), Inv g src n u es s →
      s.isVisited src = true → s.isVisited u = true → s.distOf u = some d →
      (∀ e ∈ es, e ∈ g.getAdjacentEdges u) →
      Inv g src n u [] (es.foldl (relaxEdge H u d) s) ∧
      (∀ x, (es.foldl (relaxEdge H u d) s).isVisited x = s.isVisited x) ∧
      (∀ x, s.isVisited x = true → (es.foldl (relaxEdge H u d) s).distOf x = s.distOf x) ∧
      (es.foldl (relaxEdge H u d) s).pq.length ≤ s.pq.length + es.length
  | [], s, hinv, _, _, _, _ => ⟨hinv, fun _ => rfl, fun _ _ => rfl, Nat.le_refl _⟩
  | e :: rest, s, hinv, hsrc, hu, hdu, hsub => by
    have he : e ∈ g.getAdjacentEdges u := hsub e (List.mem_cons_self _ _)
    have h1 := Inv.relax H hinv hsrc hu hdu he
    obtain ⟨hv1, hd1, hl1⟩ := Inv.relax_frame H u d e hinv
    have hsrc1 : (relaxEdge H u d s e).isVisited src = true := by rw [hv1]; exact hsrc
    have hu1 : (relaxEdge H u d s e).isVisited u = true := by rw [hv1]; exact hu
    have hdu1 : (relaxEdge H u d s e).distOf u = some d := by rw [hd1 u hu]; exact hdu
    obtain ⟨hI, hV, hD, hL⟩ := Inv.relaxAll H rest (relaxEdge H u d s e) h1 hsrc1 hu1 hdu1
      (fun f hf => hsub f (List.mem_cons_of_mem _ hf))
    refine ⟨hI, ?_, ?_, ?_⟩
    · intro x
      show (rest.foldl (relaxEdge H u d) (relaxEdge H u d s e)).isVisited x = _
      rw [hV x, hv1 x]
    · intro x hx
      show (rest.foldl (relaxEdge H u d) (relaxEdge H u d s e)).distOf x = _
      rw [hD x (by rw [hv1]; exact hx), hd1 x hx]
    · show (rest.foldl (relaxEdge H u d) (relaxEdge H u d s e)).pq.length ≤ _
      have : (e :: rest).length = rest.length + 1 := rfl
      omega

theorem Inv.mono {g : Graph} {src : Int} {n m : Nat} {cur cur1 : Int} {s : SearchState}
    (hinv : Inv g src n cur [] s) (hnm : n ≤ m) : Inv g src m cur1 [] s := by
  refine ⟨hinv.dist_le, hinv.dist_walk, hinv.dist_src, hinv.pq_ge, hinv.live, hinv.start,
    hinv.vis_dist, ?_, hinv.parent_ok, hinv.has_parent, ?_, hinv.src_first⟩
  · intro x hx e he
    rcases hinv.relaxed x hx e he with ⟨_, hm⟩ | h | h
    · exact absurd hm (List.not_mem_nil _)
    · exact Or.inr (Or.inl h)
    · exact Or.inr (Or.inr h)
  · intro v hv
    obtain ⟨es, dv, hch, hlen, hdv, hwt⟩ := hinv.chain v hv
    exact ⟨es, dv, hch, lt_of_lt_of_le hlen hnm, hdv, hwt⟩

theorem Inv.mono_pending {g : Graph} {src : Int} {n m : Nat} {cur : Int} {pending : List Edge}
    {s : SearchState} (hinv : Inv g src n cur pending s) (hnm : n ≤ m) :
    Inv g src m cur pending s := by
  refine ⟨hinv.dist_le, hinv.dist_walk, hinv.dist_src, hinv.pq_ge, hinv.live, hinv.start,
    hinv.vis_dist, hinv.relaxed, hinv.parent_ok, hinv.has_parent, ?_, hinv.src_first⟩
  intro v hv
  obtain ⟨es, dv, hch, hlen, hdv, hwt⟩ := hinv.chain v hv
  exact ⟨es, dv, hch, lt_of_lt_of_le hlen hnm, hdv, hwt⟩

theorem walk_crossing {g : Graph} (vis : Int → Bool) :
    ∀ (es : List Edge) (a b : Int), IsWalk g a es b → vis a = true → vis b = false →
      ∃ p x e q, es = p ++ e :: q ∧ IsWalk g a p x ∧ vis x = true ∧
        e ∈ g.getAdjacentEdges x ∧ vis e.dst = false ∧ IsWalk g e.dst q b
  | [], a, b, h, ha, hb => by
    have hab : a = b := h
    rw [hab, hb] at ha
    exact Bool.noConfusion ha
  | f :: fs, a, b, h, ha, hb => by
    obtain ⟨hf, hrest⟩ := h
    cases hfv : vis f.dst with
    | false => exact ⟨[], a, f, fs, rfl, rfl, ha, hf, hfv, hrest⟩
    | true =>
      obtain ⟨p, x, e, q, hes, hp, hx, he, hev, hq⟩ := walk_crossing vis fs f.dst b hrest hfv hb
      exact ⟨f :: p, x, e, q, by rw [hes]; rfl, ⟨hf, hp⟩, hx, he, hev, hq⟩

theorem unvisitedEntries_mono (adj : List (Int × List Edge)) (vis vis1 : Int → Bool)
    (h : ∀ x, vis x = true → vis1 x = true) :
    unvisitedEntries adj vis1 ≤ unvisitedEntries adj vis := by
  induction adj with
  | nil => exact Nat.le_refl _
  | cons p rest ih =>
    have hp : (if vis1 p.1 = true then 0 else p.2.length) ≤
        (if vis p.1 = true then 0 else p.2.length) := by
      by_cases hv : vis p.1 = true
      · simp [hv, h _ hv]
      · by_cases hv1 : vis1 p.1 = true <;> simp [hv, hv1]
    simp only [unvisitedEntries, List.map_cons, List.sum_cons] at ih ⊢
    omega

theorem unvisitedEntries_visit (adj : List (Int × List Edge)) (vis vis1 : Int → Bool) (u : Int)
    (hu : vis u = false) (h1 : ∀ x, vis1 x = if u = x then true else vis x) :
    unvisitedEntries adj vis1 + (mapGetD adj u []).length ≤ unvisitedEntries adj vis := by
  induction adj with
  | nil => simp [unvisitedEntries, mapGetD, mapFind]
  | cons p rest ih =>
    obtain ⟨k, es⟩ := p
    by_cases hk : k = u
    · subst hk
      have hmono := unvisitedEntries_mono rest vis vis1 (by
        intro x hx
        rw [h1 x]
        by_cases hkx : k = x <;> simp [hkx, hx])
      have hv1 : vis1 k = true := by rw [h1 k]; simp
      simp only [unvisitedEntries, List.map_cons, List.sum_cons, mapGetD, mapFind, hv1, hu,
        if_true] at hmono ⊢
      simp
      omega
    · have hku : ¬ u = k := fun h => hk h.symm
      have hvk : vis1 k = vis k := by rw [h1 k]; simp [hku]
      have hget : mapGetD ((k, es) :: rest) u [] = mapGetD rest u [] := by
        simp [mapGetD, mapFind, hk]
      rw [hget]
      simp only [unvisitedEntries, List.map_cons, List.sum_cons, hvk] at ih ⊢
      omega

theorem getAdjacentEdges_eq (g : Graph) (u : Int) :
    g.getAdjacentEdges u = mapGetD g.adjacencyList_ u [] := by
  unfold Graph.getAdjacentEdges mapGetD
  cases mapFind g.adjacencyList_ u <;> rfl

/-! ## One iteration of the `while` loop -/

theorem MinHeap.pop_none (H : MinHeap) (q : List HeapNode) (h : H.pop q = none) : q = [] := by
  by_contra hq
  obtain ⟨c, r, hp, _, _⟩ := H.pop_min q hq
  rw [hp] at h
  exact Option.noConfusion h

theorem MinHeap.pop_some (H : MinHeap) (q : List HeapNode) (c : HeapNode) (rest : List HeapNode)
    (h : H.pop q = some (c, rest)) :
    q.Perm (c :: rest) ∧ ∀ x ∈ q, c.distance ≤ x.distance := by
  have hq : q ≠ [] := by
    intro hq
    rw [hq, H.pop_nil] at h
    exact Option.noConfusion h
  obtain ⟨c1, r1, hp, hperm, hmin⟩ := H.pop_min q hq
  rw [hp] at h
  cases h
  exact ⟨hperm, hmin⟩

theorem Inv.pop_stale (H : MinHeap) {g : Graph} {src : Int} {n : Nat} {cur : Int}
    {s : SearchState} {c : HeapNode} {rest : List HeapNode}
    (hinv : Inv g src n cur [] s) (hpop : H.pop s.pq = some (c, rest))
    (hc : s.isVisited c.nodeId = true) :
    Inv g src n cur [] { s with pq := rest } := by
  obtain ⟨hperm, _⟩ := H.pop_some _ _ _ hpop
  have hsub : ∀ x, x ∈ rest → x ∈ s.pq := fun x hx =>
    hperm.mem_iff.2 (List.mem_cons_of_mem _ hx)
  refine ⟨hinv.dist_le, hinv.dist_walk, hinv.dist_src, ?_, ?_, ?_, hinv.vis_dist,
    hinv.relaxed, hinv.parent_ok, hinv.has_parent, hinv.chain, hinv.src_first⟩
  · intro x hx
    exact hinv.pq_ge x (hsub x hx)
  · intro v dv hv hdv hlt
    have hv0 : s.isVisited v = false := hv
    have hmem := hinv.live v dv hv0 hdv hlt
    rcases List.mem_cons.1 (hperm.mem_iff.1 hmem) with heq | hr
    · have hvc : s.isVisited v = true := by
        have : v = c.nodeId := by rw [← heq]
        rw [this]; exact hc
      rw [hv0] at hvc
      exact Bool.noConfusion hvc
    · exact hr
  · rcases hinv.start with h | h
    · exact Or.inl h
    · exact Or.inr (fun x hx => h x (hsub x hx))

theorem Inv.visit (H : MinHeap) {g : Graph} {src : Int} {n : Nat} {cur : Int}
    {s : SearchState} {c : HeapNode} {rest : List HeapNode}
    (hinv : Inv g src n cur [] s) (hpop : H.pop s.pq = some (c, rest))
    (hc : s.isVisited c.nodeId = false) :
    Inv g src (n + 1) c.nodeId (g.getAdjacentEdges c.nodeId)
      { s with pq := rest, visited := mapSet s.visited c.nodeId true } ∧
    mapGetD (mapSet s.visited c.nodeId true) src false = true ∧
    s.distOf c.nodeId = some c.distance ∧
    (g.NonNeg → Opt g src s →
      Opt g src { s with pq := rest, visited := mapSet s.visited c.nodeId true }) := by
  obtain ⟨hperm, hmin⟩ := H.pop_some _ _ _ hpop
  have hcmem : c ∈ s.pq := hperm.mem_iff.2 (List.mem_cons_self _ _)
  have hsub : ∀ x, x ∈ rest → x ∈ s.pq := fun x hx =>
    hperm.mem_iff.2 (List.mem_cons_of_mem _ hx)
  -- the popped distance is the tentative distance of the popped node
  obtain ⟨hclt, dc, hdc, hdcle⟩ := hinv.pq_ge c hcmem
  have hdceq : dc = c.distance := by
    have hm := hinv.live c.nodeId dc hc hdc (lt_of_le_of_lt hdcle hclt)
    exact le_antisymm hdcle (hmin _ hm)
  rw [hdceq] at hdc
  have hvis1 : ∀ x, mapGetD (mapSet s.visited c.nodeId true) x false =
      if c.nodeId = x then true else s.isVisited x := by
    intro x
    rw [mapGetD_mapSet]
    rfl
  have hgrow : ∀ x, s.isVisited x = true →
      mapGetD (mapSet s.visited c.nodeId true) x false = true := by
    intro x hx
    rw [hvis1 x]
    by_cases hcx : c.nodeId = x <;> simp [hcx, hx]
  have hold : ∀ x, mapGetD (mapSet s.visited c.nodeId true) x false = true → x ≠ c.nodeId →
      s.isVisited x = true := by
    intro x hx hne
    rw [hvis1 x, if_neg (fun h => hne h.symm)] at hx
    exact hx
  have hsrcv : mapGetD (mapSet s.visited c.nodeId true) src false = true := by
    by_cases hcs : c.nodeId = src
    · rw [hvis1, if_pos hcs]
    · rcases hinv.start with h | h
      · exact hgrow src h
      · exact absurd (h c hcmem) hcs
  refine ⟨⟨hinv.dist_le, hinv.dist_walk, hinv.dist_src, ?_, ?_, Or.inl hsrcv, ?_, ?_, ?_,
    hinv.has_parent, ?_, fun _ _ => hsrcv⟩, hsrcv, hdc, ?_⟩
  · intro x hx
    exact hinv.pq_ge x (hsub x hx)
  · intro v dv hv hdv hlt
    have hv1 : mapGetD (mapSet s.visited c.nodeId true) v false = false := hv
    rw [hvis1 v] at hv1
    have hcv : ¬ c.nodeId = v := by
      intro h
      rw [if_pos h] at hv1
      exact Bool.noConfusion hv1
    rw [if_neg hcv] at hv1
    have hmem := hinv.live v dv hv1 hdv hlt
    rcases List.mem_cons.1 (hperm.mem_iff.1 hmem) with heq | hr
    · exact absurd (by rw [← heq]) hcv
    · exact hr
  · intro v hv
    by_cases hvc : v = c.nodeId
    · rw [hvc]
      exact ⟨c.distance, hdc, hclt⟩
    · exact hinv.vis_dist v (hold v hv hvc)
  · intro x hx e he
    by_cases hxc : x = c.nodeId
    · exact Or.inl ⟨hxc, by rw [← hxc]; exact he⟩
    · rcases hinv.relaxed x (hold x hx hxc) e he with ⟨_, hm⟩ | h | h
      · exact absurd hm (List.not_mem_nil _)
      · exact Or.inr (Or.inl (hgrow _ h))
      · exact Or.inr (Or.inr h)
  · intro v p hp
    obtain ⟨hne, hpv, rest2⟩ := hinv.parent_ok v p hp
    exact ⟨hne, hgrow p hpv, rest2⟩
  · intro v hv
    have hcongr : ∀ x, s.isVisited x = true →
        mapGetD (mapSet s.visited c.nodeId true) x false = true ∧
          mapFind s.parent x = mapFind s.parent x := fun x hx => ⟨hgrow x hx, rfl⟩
    by_cases hvc : v = c.nodeId
    · by_cases hvs : v = src
      · refine ⟨[], 0, ?_, Nat.succ_pos _, ?_, walkWeight_nil, by simp⟩
        · rw [hvs]; exact Chain.base
        · rw [hvs]; exact hinv.dist_src
      · have hdv : s.distOf v = some c.distance := by rw [hvc]; exact hdc
        obtain ⟨p, hp⟩ := hinv.has_parent v c.distance hvs hdv hclt
        obtain ⟨_, hpv, e, dp, he, hed, hdp, hdv2⟩ := hinv.parent_ok v p hp
        obtain ⟨es, dp2, hch, hlen, hdp2, hwt, hnd⟩ := hinv.chain p hpv
        rw [hdp] at hdp2
        cases hdp2
        refine ⟨es ++ [e], dp + e.weight, ?_, ?_, hdv2, ?_, ?_⟩
        · exact Chain.step p v es e (Chain.congr hcongr hch) hvs hv hp he hed
        · simp
          omega
        · rw [walkWeight_append, hwt, walkWeight_cons, walkWeight_nil, add_zero]
        · have hall := Chain.nodes_visited hch (hinv.src_first p hpv)
          have hvnot : v ∉ src :: es.map Edge.dst := by
            intro hmem
            have := hall v hmem
            rw [hvc, hc] at this
            exact Bool.noConfusion this
          have hlist : src :: (es ++ [e]).map Edge.dst = (src :: es.map Edge.dst) ++ [v] := by
            simp [hed]
          rw [hlist]
          exact List.nodup_append.2 ⟨hnd, List.nodup_singleton v, by
            intro x hx1 hx2
            rw [List.mem_singleton.1 hx2] at hx1
            exact hvnot hx1⟩
    · obtain ⟨es, dv, hch, hlen, hdv, hwt⟩ := hinv.chain v (hold v hv hvc)
      exact ⟨es, dv, Chain.congr hcongr hch, Nat.lt_succ_of_lt hlen, hdv, hwt⟩
  · intro hnn hopt v hv dv hdv es hw
    by_cases hvc : v = c.nodeId
    · have hdv2 : s.distOf v = some c.distance := by rw [hvc]; exact hdc
      have hdveq : dv = c.distance := by
        have : some dv = some c.distance := by rw [← hdv2]; exact hdv.symm
        exact Option.some.inj this
      rw [hdveq]
      cases hsv : s.isVisited src with
      | false =>
        rcases hinv.start with h | h
        · rw [hsv] at h
          exact Bool.noConfusion h
        · have hcs : c.nodeId = src := h c hcmem
          have h0 : s.distOf c.nodeId = some 0 := by rw [hcs]; exact hinv.dist_src
          rw [hdc] at h0
          rw [Option.some.inj h0]
          exact walkWeight_nonneg hnn hw
      | true =>
        have hvu : s.isVisited v = false := by rw [hvc]; exact hc
        obtain ⟨p, x, e, q, hes, hp, hx, he, hev, hq⟩ :=
          walk_crossing s.isVisited es src v hw hsv hvu
        obtain ⟨dx, hdx, _⟩ := hinv.vis_dist x hx
        have hdxle : dx ≤ walkWeight p := hopt x hx dx hdx p hp
        have hqnn : 0 ≤ walkWeight q := walkWeight_nonneg hnn hq
        have hwes : walkWeight es = walkWeight p + (e.weight + walkWeight q) := by
          rw [hes, walkWeight_append, walkWeight_cons]
        rcases hinv.relaxed x hx e he with ⟨_, hm⟩ | h | ⟨du, dy, hdu, hdy, hle⟩
        · exact absurd hm (List.not_mem_nil _)
        · rw [hev] at h
          exact Bool.noConfusion h
        · rw [hdx] at hdu
          cases hdu
          have hcy : c.distance ≤ dy := by
            by_cases hylt : dy < DBL_MAX
            · exact hmin _ (hinv.live e.dst dy hev hdy hylt)
            · exact le_trans (le_of_lt hclt) (le_of_not_lt hylt)
          rw [hwes]
          linarith
    · exact hopt v (hold v hv hvc) dv hdv es hw

/-! ## The `while` loop: termination within the budget, and what holds at its exit -/

theorem dijkstraLoop_spec (H : MinHeap) (g : Graph) (src dst : Int) :
    ∀ (fuel n : Nat) (cur : Int) (s : SearchState),
      Inv g src n cur [] s → searchMeasure g s < fuel →
      ∃ s1 cur1 pend1, dijkstraLoop H g dst fuel s = some s1 ∧
        Inv g src (n + fuel) cur1 pend1 s1 ∧
        (s1.isVisited dst = true ∨ (s1.pq = [] ∧ pend1 = [])) ∧
        (g.NonNeg → Opt g src s → Opt g src s1) := by
  intro fuel
  induction fuel with
  | zero =>
    intro n cur s _ hm
    exact absurd hm (Nat.not_lt_zero _)
  | succ fuel ih =>
    intro n cur s hinv hm
    cases hpop : H.pop s.pq with
    | none =>
      have hq : s.pq = [] := H.pop_none _ hpop
      refine ⟨s, cur, [], by simp [dijkstraLoop, hpop], hinv.mono (Nat.le_add_right _ _),
        Or.inr ⟨hq, rfl⟩, fun _ h => h⟩
    | some cr =>
      obtain ⟨c, rest⟩ := cr
      obtain ⟨hperm, _⟩ := H.pop_some _ _ _ hpop
      have hlen : s.pq.length = rest.length + 1 := by
        rw [hperm.length_eq]; rfl
      cases hc : s.isVisited c.nodeId with
      | true =>
        have hc1 : mapGetD s.visited c.nodeId false = true := hc
        have hinv2 := Inv.pop_stale H hinv hpop hc
        have hm2 : searchMeasure g { s with pq := rest } < fuel := by
          have : searchMeasure g { s with pq := rest } =
              rest.length + unvisitedEntries g.adjacencyList_ s.isVisited := rfl
          unfold searchMeasure at hm
          omega
        obtain ⟨s1, cur1, pend1, hrun, hI, hexit, hO⟩ := ih n cur _ hinv2 hm2
        refine ⟨s1, cur1, pend1, ?_, ?_, hexit, fun hnn hopt => hO hnn hopt⟩
        · simp only [dijkstraLoop, hpop, hc1, if_true]
          exact hrun
        · exact hI.mono_pending (by omega)
      | false =>
        have hc1 : mapGetD s.visited c.nodeId false = false := hc
        obtain ⟨hinv1, hsrcv, hdc, hO1⟩ := Inv.visit H hinv hpop hc
        by_cases hud : c.nodeId = dst
        · refine ⟨_, c.nodeId, g.getAdjacentEdges c.nodeId, ?_, hinv1.mono_pending (by omega),
            Or.inl ?_, hO1⟩
          · simp only [dijkstraLoop, hpop, hc1]
            simp [hud]
          · show mapGetD (mapSet s.visited c.nodeId true) dst false = true
            rw [mapGetD_mapSet, if_pos hud]
        · have hu1 : mapGetD (mapSet s.visited c.nodeId true) c.nodeId false = true := by
            rw [mapGetD_mapSet]; simp
          obtain ⟨hI2, hV, hD, hL⟩ := Inv.relaxAll H (g.getAdjacentEdges c.nodeId)
            { s with pq := rest, visited := mapSet s.visited c.nodeId true } hinv1 hsrcv hu1 hdc
            (fun e he => he)
          have hfun : ((g.getAdjacentEdges c.nodeId).foldl (relaxEdge H c.nodeId c.distance)
              { s with pq := rest, visited := mapSet s.visited c.nodeId true }).isVisited =
              fun x => mapGetD (mapSet s.visited c.nodeId true) x false := funext hV
          have hvisit := unvisitedEntries_visit g.adjacencyList_ s.isVisited
            (fun x => mapGetD (mapSet s.visited c.nodeId true) x false) c.nodeId hc
            (fun x => by simp only [mapGetD_mapSet]; rfl)
          rw [← getAdjacentEdges_eq] at hvisit
          have hm2 : searchMeasure g ((g.getAdjacentEdges c.nodeId).foldl
              (relaxEdge H c.nodeId c.distance)
              { s with pq := rest, visited := mapSet s.visited c.nodeId true }) < fuel := by
            unfold searchMeasure at hm ⊢
            rw [hfun]
            have hL2 : ((g.getAdjacentEdges c.nodeId).foldl (relaxEdge H c.nodeId c.distance)
              { s with pq := rest, visited := mapSet s.visited c.nodeId true }).pq.length ≤
              rest.length + (g.getAdjacentEdges c.nodeId).length := hL
            omega
          obtain ⟨s1, cur1, pend1, hrun, hI, hexit, hO⟩ := ih (n + 1) c.nodeId _ hI2 hm2
          refine ⟨s1, cur1, pend1, ?_, ?_, hexit, ?_⟩
          · simp only [dijkstraLoop, hpop, hc1, hud, if_false]
            simpa using hrun
          · have : n + 1 + fuel = n + (fuel + 1) := by omega
            rw [← this]
            exact hI
          · intro hnn hopt
            refine hO hnn ?_
            intro v hv dv hdv es hw
            rw [hV v] at hv
            rw [hD v hv] at hdv
            exact hO1 hnn hopt v hv dv hdv es hw

/-! ## Graphs whose weights stay below `DBL_MAX` in total -/

theorem posWeight_nonneg (es : List Edge) : 0 ≤ posWeight es := by
  unfold posWeight
  apply List.sum_nonneg
  intro x hx
  obtain ⟨e, _, rfl⟩ := List.mem_map.1 hx
  exact le_max_right _ _

theorem weight_le_posWeight : ∀ (es : List Edge) (e : Edge), e ∈ es → e.weight ≤ posWeight es
  | [], e, h => absurd h (List.not_mem_nil _)
  | f :: fs, e, h => by
    have hcons : posWeight (f :: fs) = max f.weight 0 + posWeight fs := by
      simp [posWeight]
    rw [hcons]
    rcases List.mem_cons.1 h with rfl | hr
    · have := posWeight_nonneg fs
      have := le_max_left e.weight 0
      linarith
    · have := weight_le_posWeight fs e hr
      have := le_max_right f.weight 0
      linarith

theorem posOn_cons_of_not_mem (k : Int) (es : List Edge) (rest : List (Int × List Edge))
    (xs : List Int) (h : k ∉ xs) : posOn ((k, es) :: rest) xs = posOn rest xs := by
  unfold posOn
  congr 1
  apply List.map_congr_left
  intro x hx
  have hkx : ¬ k = x := fun e => h (e ▸ hx)
  simp [mapGetD, mapFind, hkx]

theorem posOn_le_total : ∀ (adj : List (Int × List Edge)) (xs : List Int), xs.Nodup →
    posOn adj xs ≤ (adj.map (fun p => posWeight p.2)).sum
  | [], xs, _ => by
    have : posOn [] xs = 0 := by
      unfold posOn
      apply List.sum_eq_zero
      intro x hx
      obtain ⟨y, _, rfl⟩ := List.mem_map.1 hx
      simp [mapGetD, mapFind, posWeight]
    rw [this]
    simp
  | (k, es) :: rest, xs, hnd => by
    rw [List.map_cons, List.sum_cons]
    by_cases hk : k ∈ xs
    · have hperm := List.perm_cons_erase hk
      have hsum : posOn ((k, es) :: rest) xs =
          posOn ((k, es) :: rest) (k :: xs.erase k) := by
        unfold posOn
        exact (hperm.map _).sum_eq
      have hnot : k ∉ xs.erase k := fun h => (List.Nodup.mem_erase_iff hnd).1 h |>.1 rfl
      have hhead : posOn ((k, es) :: rest) (k :: xs.erase k) =
          posWeight es + posOn ((k, es) :: rest) (xs.erase k) := by
        unfold posOn
        simp [mapGetD, mapFind]
      rw [hsum, hhead, posOn_cons_of_not_mem k es rest _ hnot]
      have ih := posOn_le_total rest (xs.erase k) (hnd.erase k)
      linarith
    · rw [posOn_cons_of_not_mem k es rest xs hk]
      have ih := posOn_le_total rest xs hnd
      have := posWeight_nonneg es
      linarith

theorem chain_posOn {g : Graph} {p : List (Int × Int)} {vis : Int → Bool} {src : Int}
    {u : Int} {es : List Edge} (hc : Chain g p vis src u es) :
    walkWeight es + posWeight (g.getAdjacentEdges u) ≤
      posOn g.adjacencyList_ (src :: es.map Edge.dst) := by
  induction hc with
  | base =>
    simp [posOn, walkWeight, getAdjacentEdges_eq]
  | step u v es e _ _ _ _ he hdst ih =>
    have hw := weight_le_posWeight _ e he
    have hsplit : posOn g.adjacencyList_ (src :: (es ++ [e]).map Edge.dst) =
        posOn g.adjacencyList_ (src :: es.map Edge.dst) + posWeight (g.getAdjacentEdges v) := by
      simp [posOn, hdst, getAdjacentEdges_eq]
      ring
    rw [hsplit, walkWeight_append, walkWeight_cons, walkWeight_nil]
    linarith

theorem chain_bound {g : Graph} {p : List (Int × Int)} {vis : Int → Bool} {src : Int}
    {u : Int} {es : List Edge} (hc : Chain g p vis src u es)
    (hnd : (src :: es.map Edge.dst).Nodup) (e : Edge) (he : e ∈ g.getAdjacentEdges u) :
    walkWeight es + e.weight ≤ g.totalPosWeight := by
  have h1 := chain_posOn hc
  have h2 := posOn_le_total g.adjacencyList_ _ hnd
  have h3 := weight_le_posWeight _ e he
  unfold Graph.totalPosWeight
  linarith

theorem relaxEdge_noSentinel (H : MinHeap) {g : Graph} {src : Int} {n : Nat} {u : Int}
    {d : ℚ} {s : SearchState} {e : Edge} {rest : List Edge}
    (hinv : Inv g src n u (e :: rest) s) (hu : s.isVisited u = true)
    (hdu : s.distOf u = some d) (he : e ∈ g.getAdjacentEdges u)
    (hB : g.totalPosWeight < DBL_MAX) (hns : NoSentinel s) :
    NoSentinel (relaxEdge H u d s e) := by
  have hv : s.isVisited e.dst = true → s.distOf e.dst ≠ none := by
    intro hb
    obtain ⟨dv, hdv, _⟩ := hinv.vis_dist _ hb
    rw [hdv]; simp
  obtain ⟨es, dv, hch, _, hdv, hwt, hnd⟩ := hinv.chain u hu
  rw [hdu] at hdv
  cases hdv
  have hbound : d + e.weight < DBL_MAX := by
    have := chain_bound hch hnd e he
    rw [hwt] at this
    exact lt_of_le_of_lt this hB
  obtain ⟨_, hcase⟩ := relaxEdge_cases H u d s e hv
  intro x dx hx
  rcases hcase with ⟨_, _, hdist, _, _⟩ | ⟨hc, hdist, _, _⟩
  · rw [hdist x] at hx
    by_cases hxe : x = e.dst
    · rw [if_pos hxe] at hx
      cases hx
      exact hbound
    · rw [if_neg hxe] at hx
      exact hns x dx hx
  · rw [hdist x] at hx
    by_cases hxe : x = e.dst
    · rw [if_pos hxe] at hx
      cases hx
      cases hd : s.distOf e.dst with
      | some d0 =>
        simp only [SearchState.curDist, hd]
        exact hns _ _ hd
      | none =>
        exfalso
        rcases hc with hvis | hle
        · exact hv hvis hd
        · simp only [SearchState.curDist, hd] at hle
          exact absurd hbound (not_lt.2 hle)
    · rw [if_neg hxe] at hx
      exact hns x dx hx

theorem relaxAll_noSentinel (H : MinHeap) {g : Graph} {src : Int} {n : Nat} {u : Int} {d : ℚ}
    (hB : g.totalPosWeight < DBL_MAX) :
    ∀ (es : List Edge) (s : SearchState), Inv g src n u es s →
      s.isVisited src = true → s.isVisited u = true → s.distOf u = some d →
      (∀ e ∈ es, e ∈ g.getAdjacentEdges u) → NoSentinel s →
      NoSentinel (es.foldl (relaxEdge H u d) s)
  | [], _, _, _, _, _, _, hns => hns
  | e :: rest, s, hinv, hsrc, hu, hdu, hsub, hns => by
    have he : e ∈ g.getAdjacentEdges u := hsub e (List.mem_cons_self _ _)
    have h1 := Inv.relax H hinv hsrc hu hdu he
    obtain ⟨hv1, hd1, _⟩ := Inv.relax_frame H u d e hinv
    exact relaxAll_noSentinel H hB rest (relaxEdge H u d s e) h1
      (by rw [hv1]; exact hsrc) (by rw [hv1]; exact hu) (by rw [hd1 u hu]; exact hdu)
      (fun f hf => hsub f (List.mem_cons_of_mem _ hf))
      (relaxEdge_noSentinel H hinv hu hdu he hB hns)

theorem dijkstraLoop_noSentinel (H : MinHeap) (g : Graph) (src dst : Int)
    (hB : g.totalPosWeight < DBL_MAX) :
    ∀ (fuel n : Nat) (cur : Int) (s s1 : SearchState),
      Inv g src n cur [] s → dijkstraLoop H g dst fuel s = some s1 →
      NoSentinel s → NoSentinel s1 := by
  intro fuel
  induction fuel with
  | zero =>
    intro n cur s s1 _ hrun _
    exact Option.noConfusion hrun
  | succ fuel ih =>
    intro n cur s s1 hinv hrun hns
    cases hpop : H.pop s.pq with
    | none =>
      simp only [dijkstraLoop, hpop] at hrun
      cases hrun
      exact hns
    | some cr =>
      obtain ⟨c, rest⟩ := cr
      cases hc : s.isVisited c.nodeId with
      | true =>
        have hc1 : mapGetD s.visited c.nodeId false = true := hc
        simp only [dijkstraLoop, hpop, hc1, if_true] at hrun
        exact ih n cur _ s1 (Inv.pop_stale H hinv hpop hc) hrun hns
      | false =>
        have hc1 : mapGetD s.visited c.nodeId false = false := hc
        obtain ⟨hinv1, hsrcv, hdc, _⟩ := Inv.visit H hinv hpop hc
        by_cases hud : c.nodeId = dst
        · simp only [dijkstraLoop, hpop, hc1] at hrun
          simp [hud] at hrun
          rw [← hrun]
          exact hns
        · have hu1 : mapGetD (mapSet s.visited c.nodeId true) c.nodeId false = true := by
            rw [mapGetD_mapSet]; simp
          obtain ⟨hI2, _, _, _⟩ := Inv.relaxAll H (g.getAdjacentEdges c.nodeId)
            { s with pq := rest, visited := mapSet s.visited c.nodeId true } hinv1 hsrcv hu1 hdc
            (fun e he => he)
          have hns2 := relaxAll_noSentinel H hB (g.getAdjacentEdges c.nodeId)
            { s with pq := rest, visited := mapSet s.visited c.nodeId true } hinv1 hsrcv hu1 hdc
            (fun e he => he) hns
          simp only [dijkstraLoop, hpop, hc1, hud, if_false] at hrun
          exact ih (n + 1) c.nodeId _ s1 hI2 (by simpa using hrun) hns2

/-! ## Path reconstruction -/

theorem reconstructLoop_chain {g : Graph} {parent : List (Int × Int)} {vis : Int → Bool}
    {src : Int} : ∀ {v : Int} {es : List Edge}, Chain g parent vis src v es →
    ∀ (fuel : Nat) (acc : List Int), es.length < fuel →
      reconstructLoop src parent fuel v acc = some ((src :: es.map Edge.dst) ++ acc.reverse) := by
  intro v es hc
  induction hc with
  | base =>
    intro fuel acc hlt
    cases fuel with
    | zero => exact absurd hlt (Nat.not_lt_zero _)
    | succ k => simp [reconstructLoop]
  | step u v es e _ hne _ hpar _ hdst ih =>
    intro fuel acc hlt
    cases fuel with
    | zero => exact absurd hlt (Nat.not_lt_zero _)
    | succ k =>
      have hk : es.length < k := by
        simp at hlt
        omega
      simp only [reconstructLoop, if_neg hne, hpar]
      rw [ih k (acc ++ [v]) hk]
      simp [hdst]

/-! ## The search as a whole -/

theorem unvisitedEntries_none (adj : List (Int × List Edge)) (vis : Int → Bool)
    (h : ∀ x, vis x = false) :
    unvisitedEntries adj vis = (adj.map (fun p => p.2.length)).sum := by
  induction adj with
  | nil => rfl
  | cons p rest ih =>
    simp only [unvisitedEntries, List.map_cons, List.sum_cons, h p.1] at ih ⊢
    simp [ih]

theorem Inv.init (H : MinHeap) (g : Graph) (src : Int) :
    Inv g src 0 src []
      { dist := mapSet [] src 0, parent := [], visited := mapSet [] src false,
        pq := H.push [] ⟨src, 0⟩ } := by
  have hdist : ∀ v, mapFind (mapSet ([] : List (Int × ℚ)) src 0) v =
      if src = v then some 0 else none := by
    intro v; rw [mapFind_mapSet]; rfl
  have hvis : ∀ v, mapGetD (mapSet ([] : List (Int × Bool)) src false) v false = false := by
    intro v
    rw [mapGetD_mapSet]
    by_cases h : src = v <;> simp [h, mapGetD, mapFind]
  have hpq : ∀ x, x ∈ H.push [] ⟨src, 0⟩ ↔ x = ⟨src, 0⟩ := by
    intro x
    rw [(H.push_perm [] ⟨src, 0⟩).mem_iff]
    simp
  have hnov : ∀ v, ¬ (mapGetD (mapSet ([] : List (Int × Bool)) src false) v false = true) := by
    intro v hv
    rw [hvis v] at hv
    exact Bool.noConfusion hv
  refine ⟨?_, ?_, ?_, ?_, ?_, ?_, ?_, ?_, ?_, ?_, ?_, ?_⟩
  · intro v d hd
    have hd1 : mapFind (mapSet ([] : List (Int × ℚ)) src 0) v = some d := hd
    rw [hdist v] at hd1
    by_cases h : src = v
    · rw [if_pos h] at hd1
      cases hd1
      exact le_of_lt DBL_MAX_pos
    · rw [if_neg h] at hd1
      exact Option.noConfusion hd1
  · intro v d hd _
    have hd1 : mapFind (mapSet ([] : List (Int × ℚ)) src 0) v = some d := hd
    rw [hdist v] at hd1
    by_cases h : src = v
    · rw [if_pos h] at hd1
      cases hd1
      exact ⟨[], h, rfl⟩
    · rw [if_neg h] at hd1
      exact Option.noConfusion hd1
  · show mapFind (mapSet ([] : List (Int × ℚ)) src 0) src = some 0
    rw [hdist src]; simp
  · intro x hx
    rw [(hpq x).1 hx]
    refine ⟨DBL_MAX_pos, 0, ?_, le_refl _⟩
    show mapFind (mapSet ([] : List (Int × ℚ)) src 0) src = some 0
    rw [hdist src]; simp
  · intro v dv _ hd _
    have hd1 : mapFind (mapSet ([] : List (Int × ℚ)) src 0) v = some dv := hd
    rw [hdist v] at hd1
    by_cases h : src = v
    · rw [if_pos h] at hd1
      cases hd1
      rw [← h]
      exact (hpq _).2 rfl
    · rw [if_neg h] at hd1
      exact Option.noConfusion hd1
  · right
    intro x hx
    rw [(hpq x).1 hx]
  · intro v hv
    exact absurd hv (hnov v)
  · intro u hu
    exact absurd hu (hnov u)
  · intro v u hp
    exact Option.noConfusion hp
  · intro v dv hne hd _
    have hd1 : mapFind (mapSet ([] : List (Int × ℚ)) src 0) v = some dv := hd
    rw [hdist v] at hd1
    by_cases h : src = v
    · exact absurd h.symm hne
    · rw [if_neg h] at hd1
      exact Option.noConfusion hd1
  · intro v hv
    exact absurd hv (hnov v)
  · intro v hv
    exact absurd hv (hnov v)

theorem dijkstra_search (H : MinHeap) (g : Graph) (src dst : Int)
    (hs : g.hasNode src = true) (hd : g.hasNode dst = true) (hne : src ≠ dst)
    (hiso : g.isIsolated src = false) :
    ∃ s pend, (∃ cur, Inv g src g.searchFuel cur pend s) ∧
      ((g.NonNeg → Opt g src s) ∧ (g.totalPosWeight < DBL_MAX → NoSentinel s)) ∧
      ((s.isVisited dst = true ∧ ∃ es dv,
          (IsWalk g src es dst ∧ (src :: es.map Edge.dst).Nodup) ∧ s.distOf dst = some dv ∧
          walkWeight es = dv ∧ dv < DBL_MAX ∧
          dijkstra H g src dst = some { path := src :: es.map Edge.dst, totalWeight := dv,
                                        found := true, elapsedMicroseconds := 0 }) ∨
       (s.isVisited dst = false ∧ s.pq = [] ∧ pend = [] ∧
          dijkstra H g src dst = some PathResult.init)) := by
  have hinit := Inv.init H g src
  have hm0 : searchMeasure g
      { dist := mapSet [] src 0, parent := [], visited := mapSet [] src false,
        pq := H.push [] ⟨src, 0⟩ } < g.searchFuel := by
    unfold searchMeasure Graph.searchFuel Graph.entryCount
    rw [unvisitedEntries_none]
    · show (H.push [] ⟨src, 0⟩).length + _ < _
      rw [(H.push_perm [] ⟨src, 0⟩).length_eq]
      simp only [List.length_singleton]
      omega
    · intro x
      show mapGetD (mapSet ([] : List (Int × Bool)) src false) x false = false
      rw [mapGetD_mapSet]
      by_cases h : src = x <;> simp [h, mapGetD, mapFind]
  obtain ⟨s, cur, pend, hrun, hI, hexit, hO⟩ :=
    dijkstraLoop_spec H g src dst g.searchFuel 0 src _ hinit hm0
  rw [Nat.zero_add] at hI
  have hopt : g.NonNeg → Opt g src s := by
    intro hnn
    refine hO hnn ?_
    intro v hv
    have hv1 : mapGetD (mapSet ([] : List (Int × Bool)) src false) v false = true := hv
    rw [mapGetD_mapSet] at hv1
    by_cases h : src = v <;> simp [h, mapGetD, mapFind] at hv1
  have hunfold : dijkstra H g src dst =
      (if (mapFind s.dist dst).isNone || decide (mapGetD s.dist dst 0 = DBL_MAX) then
        some PathResult.init
      else
        match reconstructPath (g.searchFuel + 1) src dst s.parent with
        | none => none
        | some p =>
          some { PathResult.init with path := p, totalWeight := mapGetD s.dist dst 0,
                                      found := true }) := by
    simp only [dijkstra, hs, hd, hiso, if_neg hne, hrun]
    simp
  have hfin : g.totalPosWeight < DBL_MAX → NoSentinel s := by
    intro hB
    refine dijkstraLoop_noSentinel H g src dst hB g.searchFuel 0 src _ s hinit hrun ?_
    intro v d hv
    have hv1 : mapFind (mapSet ([] : List (Int × ℚ)) src 0) v = some d := hv
    rw [mapFind_mapSet] at hv1
    by_cases h : src = v
    · rw [if_pos h] at hv1
      cases hv1
      exact DBL_MAX_pos
    · rw [if_neg h] at hv1
      exact Option.noConfusion hv1
  refine ⟨s, pend, ⟨cur, hI⟩, ⟨hopt, hfin⟩, ?_⟩
  cases hvd : s.isVisited dst with
  | true =>
    left
    obtain ⟨es, dv, hch, hlen, hdv, hwt, hnodup⟩ := hI.chain dst hvd
    obtain ⟨dv2, hdv2, hlt⟩ := hI.vis_dist dst hvd
    rw [hdv] at hdv2
    cases hdv2
    have hf : mapFind s.dist dst = some dv := hdv
    have hg : mapGetD s.dist dst 0 = dv := mapGetD_of_find _ _ _ _ hf
    have hrec : reconstructPath (g.searchFuel + 1) src dst s.parent =
        some (src :: es.map Edge.dst) := by
      unfold reconstructPath
      rw [if_neg hne, reconstructLoop_chain hch (g.searchFuel + 1) [] (Nat.lt_succ_of_lt hlen)]
      simp
    refine ⟨rfl, es, dv, ⟨hch.isWalk, hnodup⟩, hdv, hwt, hlt, ?_⟩
    rw [hunfold, hf, hg, hrec]
    simp [ne_of_lt hlt, PathResult.init]
  | false =>
    right
    rcases hexit with h | ⟨hq, hp⟩
    · rw [hvd] at h
      exact Bool.noConfusion h
    · refine ⟨rfl, hq, hp, ?_⟩
      rw [hunfold]
      cases hf : mapFind s.dist dst with
      | none => simp
      | some dv =>
        have hg : mapGetD s.dist dst 0 = dv := mapGetD_of_find _ _ _ _ hf
        have hmax : dv = DBL_MAX := by
          by_contra hneq
          have hlt : dv < DBL_MAX := lt_of_le_of_ne (hI.dist_le dst dv hf) hneq
          have := hI.live dst dv hvd hf hlt
          rw [hq] at this
          exact absurd this (List.not_mem_nil _)
        simp [hg, hmax]

theorem not_isolated_of_edge (g : Graph) (a : Int) (e : Edge)
    (he : e ∈ g.getAdjacentEdges a) : g.isIsolated a = false := by
  unfold Graph.getAdjacentEdges at he
  unfold Graph.isIsolated
  cases hf : mapFind g.adjacencyList_ a with
  | none =>
    rw [hf] at he
    exact absurd he (List.not_mem_nil _)
  | some es =>
    rw [hf] at he
    have hes : es ∈ [es] := List.mem_singleton.2 rfl
    cases es with
    | nil => exact absurd he (List.not_mem_nil _)
    | cons x xs => simp

theorem dijkstra_result (H : MinHeap) (g : Graph) (src dst : Int) :
    ∃ r, dijkstra H g src dst = some r ∧ r.elapsedMicroseconds = 0 ∧
      (r.found = false → r = PathResult.init) ∧
      (r.found = true → g.hasNode src = true ∧ g.hasNode dst = true ∧
        ∃ es, IsWalk g src es dst ∧ r.path = src :: es.map Edge.dst ∧
          walkWeight es = r.totalWeight ∧ r.totalWeight < DBL_MAX) := by
  have hinit : ∀ r, r = PathResult.init → r.elapsedMicroseconds = 0 ∧
      (r.found = false → r = PathResult.init) ∧
      (r.found = true → g.hasNode src = true ∧ g.hasNode dst = true ∧
        ∃ es, IsWalk g src es dst ∧ r.path = src :: es.map Edge.dst ∧
          walkWeight es = r.totalWeight ∧ r.totalWeight < DBL_MAX) := by
    intro r hr
    subst hr
    exact ⟨rfl, fun _ => rfl, fun h => Bool.noConfusion h⟩
  by_cases hs : g.hasNode src = true
  · by_cases hd : g.hasNode dst = true
    · by_cases hne : src = dst
      · subst hne
        refine ⟨{ PathResult.init with path := [src], totalWeight := 0, found := true },
          by simp [dijkstra, hs], rfl, fun h => Bool.noConfusion h, fun _ => ?_⟩
        exact ⟨hs, hs, [], rfl, rfl, rfl, DBL_MAX_pos⟩
      · cases hiso : g.isIsolated src with
        | true =>
          exact ⟨PathResult.init, by simp [dijkstra, hs, hd, hne, hiso], hinit _ rfl⟩
        | false =>
          obtain ⟨s, pend, _, _, hcase⟩ := dijkstra_search H g src dst hs hd hne hiso
          rcases hcase with ⟨_, es, dv, ⟨hw, _⟩, _, hwt, hlt, hrun⟩ | ⟨_, _, _, hrun⟩
          · exact ⟨_, hrun, rfl, fun h => Bool.noConfusion h,
              fun _ => ⟨hs, hd, es, hw, rfl, hwt, hlt⟩⟩
          · exact ⟨PathResult.init, hrun, hinit _ rfl⟩
    · exact ⟨PathResult.init, by simp [dijkstra, hd], hinit _ rfl⟩
  · exact ⟨PathResult.init, by simp [dijkstra, hs], hinit _ rfl⟩

/-- The path of a found result visits no node twice. -/
theorem dijkstra_simple (H : MinHeap) (g : Graph) (src dst : Int) :
    ∃ r, dijkstra H g src dst = some r ∧
      (r.found = true → ∃ es, IsWalk g src es dst ∧ r.path = src :: es.map Edge.dst ∧
        walkWeight es = r.totalWeight ∧ (src :: es.map Edge.dst).Nodup) := by
  by_cases hs : g.hasNode src = true
  · by_cases hd : g.hasNode dst = true
    · by_cases hne : src = dst
      · subst hne
        refine ⟨{ PathResult.init with path := [src], totalWeight := 0, found := true },
          by simp [dijkstra, hs], fun _ => ⟨[], rfl, rfl, rfl, ?_⟩⟩
        simp
      · cases hiso : g.isIsolated src with
        | true =>
          exact ⟨PathResult.init, by simp [dijkstra, hs, hd, hne, hiso],
            fun h => Bool.noConfusion h⟩
        | false =>
          obtain ⟨s, pend, _, _, hcase⟩ := dijkstra_search H g src dst hs hd hne hiso
          rcases hcase with ⟨_, es, dv, ⟨hw, hnd⟩, _, hwt, _, hrun⟩ | ⟨_, _, _, hrun⟩
          · exact ⟨_, hrun, fun _ => ⟨es, hw, rfl, hwt, hnd⟩⟩
          · exact ⟨PathResult.init, hrun, fun h => Bool.noConfusion h⟩
    · exact ⟨PathResult.init, by simp [dijkstra, hd], fun h => Bool.noConfusion h⟩
  · exact ⟨PathResult.init, by simp [dijkstra, hs], fun h => Bool.noConfusion h⟩

theorem dijkstra_optimal (H : MinHeap) (g : Graph) (src dst : Int) (hg : g.NonNeg)
    (r : PathResult) (hr : dijkstra H g src dst = some r) (hf : r.found = true) :
    ∀ es, IsWalk g src es dst → r.totalWeight ≤ walkWeight es := by
  have hnot : r ≠ PathResult.init := by
    intro h
    rw [h] at hf
    exact Bool.noConfusion hf
  by_cases hs : g.hasNode src = true
  · by_cases hd : g.hasNode dst = true
    · by_cases hne : src = dst
      · subst hne
        have : dijkstra H g src src =
            some { PathResult.init with path := [src], totalWeight := 0, found := true } := by
          simp [dijkstra, hs]
        rw [this] at hr
        cases hr
        intro es hw
        exact walkWeight_nonneg hg hw
      · cases hiso : g.isIsolated src with
        | true =>
          have : dijkstra H g src dst = some PathResult.init := by
            simp [dijkstra, hs, hd, hne, hiso]
          rw [this] at hr
          exact absurd (Option.some.inj hr).symm hnot
        | false =>
          obtain ⟨s, pend, _, hopt, hcase⟩ := dijkstra_search H g src dst hs hd hne hiso
          rcases hcase with ⟨hvis, es0, dv, _, hdv, _, _, hrun⟩ | ⟨_, _, _, hrun⟩
          · rw [hrun] at hr
            cases hr
            intro es hw
            exact hopt.1 hg dst hvis dv hdv es hw
          · rw [hrun] at hr
            exact absurd (Option.some.inj hr).symm hnot
    · have : dijkstra H g src dst = some PathResult.init := by simp [dijkstra, hd]
      rw [this] at hr
      exact absurd (Option.some.inj hr).symm hnot
  · have : dijkstra H g src dst = some PathResult.init := by simp [dijkstra, hs]
    rw [this] at hr
    exact absurd (Option.some.inj hr).symm hnot

theorem dijkstra_complete (H : MinHeap) (g : Graph) (src dst : Int) (hg : g.NonNeg)
    (hs : g.hasNode src = true) (hd : g.hasNode dst = true)
    (es : List Edge) (hw : IsWalk g src es dst) (hlt : walkWeight es < DBL_MAX) :
    ∃ r, dijkstra H g src dst = some r ∧ r.found = true := by
  by_cases hne : src = dst
  · subst hne
    exact ⟨{ PathResult.init with path := [src], totalWeight := 0, found := true },
      by simp [dijkstra, hs], rfl⟩
  · have hiso : g.isIsolated src = false := by
      cases es with
      | nil => exact absurd hw hne
      | cons e rest => exact not_isolated_of_edge g src e hw.1
    obtain ⟨s, pend, ⟨cur, hI⟩, hopt, hcase⟩ := dijkstra_search H g src dst hs hd hne hiso
    rcases hcase with ⟨_, es0, dv, _, _, _, _, hrun⟩ | ⟨hvis, hq, hp, _⟩
    · exact ⟨_, hrun, rfl⟩
    · exfalso
      have hsv : s.isVisited src = true := by
        cases hsv : s.isVisited src with
        | true => rfl
        | false =>
          have := hI.live src 0 hsv hI.dist_src DBL_MAX_pos
          rw [hq] at this
          exact absurd this (List.not_mem_nil _)
      obtain ⟨p, x, e, q, hes, hpw, hx, he, hev, hqw⟩ :=
        walk_crossing s.isVisited es src dst hw hsv hvis
      obtain ⟨dx, hdx, _⟩ := hI.vis_dist x hx
      have hdxle : dx ≤ walkWeight p := hopt.1 hg x hx dx hdx p hpw
      have hqnn : 0 ≤ walkWeight q := walkWeight_nonneg hg hqw
      have hwes : walkWeight es = walkWeight p + (e.weight + walkWeight q) := by
        rw [hes, walkWeight_append, walkWeight_cons]
      rcases hI.relaxed x hx e he with ⟨_, hm⟩ | h | ⟨du, dy, hdu, hdy, hle⟩
      · rw [hp] at hm
        exact absurd hm (List.not_mem_nil _)
      · rw [hev] at h
        exact Bool.noConfusion h
      · rw [hdx] at hdu
        cases hdu
        have hylt : dy < DBL_MAX := by
          rw [hwes] at hlt
          linarith
        have := hI.live e.dst dy hev hdy hylt
        rw [hq] at this
        exact absurd this (List.not_mem_nil _)

theorem dijkstra_complete_bounded (H : MinHeap) (g : Graph) (src dst : Int)
    (hB : g.totalPosWeight < DBL_MAX)
    (hs : g.hasNode src = true) (hd : g.hasNode dst = true)
    (es : List Edge) (hw : IsWalk g src es dst) :
    ∃ r, dijkstra H g src dst = some r ∧ r.found = true := by
  by_cases hne : src = dst
  · subst hne
    exact ⟨{ PathResult.init with path := [src], totalWeight := 0, found := true },
      by simp [dijkstra, hs], rfl⟩
  · have hiso : g.isIsolated src = false := by
      cases es with
      | nil => exact absurd hw hne
      | cons e rest => exact not_isolated_of_edge g src e hw.1
    obtain ⟨s, pend, ⟨cur, hI⟩, hopt, hcase⟩ := dijkstra_search H g src dst hs hd hne hiso
    rcases hcase with ⟨_, es0, dv, _, _, _, _, hrun⟩ | ⟨hvis, hq, hp, _⟩
    · exact ⟨_, hrun, rfl⟩
    · exfalso
      have hsv : s.isVisited src = true := by
        cases hsv : s.isVisited src with
        | true => rfl
        | false =>
          have := hI.live src 0 hsv hI.dist_src DBL_MAX_pos
          rw [hq] at this
          exact absurd this (List.not_mem_nil _)
      obtain ⟨p, x, e, q, _, _, hx, he, hev, _⟩ :=
        walk_crossing s.isVisited es src dst hw hsv hvis
      rcases hI.relaxed x hx e he with ⟨_, hm⟩ | h | ⟨du, dy, _, hdy, _⟩
      · rw [hp] at hm
        exact absurd hm (List.not_mem_nil _)
      · rw [hev] at h
        exact Bool.noConfusion h
      · have := hI.live e.dst dy hev hdy (hopt.2 hB e.dst dy hdy)
        rw [hq] at this
        exact absurd this (List.not_mem_nil _)

theorem findPath_eq (pf : PathFinder) (H : MinHeap) (g : Graph) (elapsed src dst : Int) (r : PathResult)
    (h : dijkstra H g src dst = some r) :
    pf.findPath H g elapsed src dst = some { r with elapsedMicroseconds := elapsed } := by
  simp [PathFinder.findPath, h]

theorem hasNode_addNode (g : Graph) (nodeId x : Int) :
    (g.addNode nodeId).hasNode x = (g.hasNode x || decide (nodeId = x)) := by
  unfold Graph.addNode
  by_cases h : g.hasNode nodeId = true
  · rw [if_pos h]
    by_cases hx : nodeId = x
    · subst hx; simp [h]
    · simp [hx]
  · rw [if_neg h]
    show (mapFind (mapSet g.nodes_ nodeId true) x).isSome = _
    rw [mapFind_mapSet]
    by_cases hx : nodeId = x
    · simp [hx]
    · simp [hx, Graph.hasNode]

theorem getAdjacentEdges_addNode (g : Graph) (nodeId x : Int) :
    (g.addNode nodeId).getAdjacentEdges x =
      if g.hasNode nodeId = false ∧ nodeId = x then [] else g.getAdjacentEdges x := by
  unfold Graph.addNode
  by_cases h : g.hasNode nodeId = true
  · simp [h]
  · have h2 : g.hasNode nodeId = false := by simpa using h
    rw [if_neg h]
    show (match mapFind (mapSet g.adjacencyList_ nodeId []) x with
      | some es => es
      | none => []) = _
    rw [mapFind_mapSet]
    by_cases hx : nodeId = x
    · subst hx
      simp [h2]
    · simp [hx, Graph.getAdjacentEdges]

theorem mapGetD_emplaceBack (adj : List (Int × List Edge)) (k x : Int) (e : Edge) :
    mapGetD (emplaceBack adj k e) x [] =
      if k = x then mapGetD adj k [] ++ [e] else mapGetD adj x [] := by
  unfold emplaceBack
  rw [mapGetD_mapSet]

theorem mapFind_emplaceBack_isSome (adj : List (Int × List Edge)) (k x : Int) (e : Edge) :
    (mapFind (emplaceBack adj k e) x).isSome = (decide (k = x) || (mapFind adj x).isSome) := by
  unfold emplaceBack
  rw [mapFind_mapSet]
  by_cases h : k = x <;> simp [h]

theorem hasNode_addEdge (g : Graph) (a b : Int) (w : ℚ) (x : Int) :
    (g.addEdge a b w).hasNode x = (g.hasNode x || decide (a = x) || decide (b = x)) := by
  show ((g.addNode a).addNode b).hasNode x = _
  rw [hasNode_addNode, hasNode_addNode]

theorem getAdjacentEdges_addEdge (g : Graph) (a b : Int) (w : ℚ) (x : Int) :
    (g.addEdge a b w).getAdjacentEdges x =
      ((g.addNode a).addNode b).getAdjacentEdges x ++
        (if a = x then [(⟨b, w⟩ : Edge)] else []) ++ (if b = x then [(⟨a, w⟩ : Edge)] else []) := by
  rw [getAdjacentEdges_eq, getAdjacentEdges_eq]
  show mapGetD (emplaceBack (emplaceBack ((g.addNode a).addNode b).adjacencyList_ a ⟨b, w⟩)
    b ⟨a, w⟩) x [] = _
  rw [mapGetD_emplaceBack, mapGetD_emplaceBack, mapGetD_emplaceBack]
  by_cases ha : a = x
  · by_cases hb : b = x
    · have hba : b = a := by rw [ha, hb]
      subst ha
      subst hba
      simp
    · have hab : ¬ a = b := fun h => hb (by rw [← h, ha])
      simp [ha, hb]
  · by_cases hb : b = x
    · have hab : ¬ a = b := fun h => ha (by rw [h, hb])
      subst hb
      simp [hab]
    · simp [ha, hb]

theorem keysKnown_addNode {g : Graph} (h : g.KeysKnown) (nodeId : Int) :
    (g.addNode nodeId).KeysKnown := by
  intro u hu
  rw [hasNode_addNode]
  by_cases hn : g.hasNode nodeId = true
  · have : g.addNode nodeId = g := by simp [Graph.addNode, hn]
    rw [this] at hu
    simp [h u hu]
  · by_cases hx : nodeId = u
    · simp [hx]
    · have hu2 : mapFind g.adjacencyList_ u ≠ none := by
        have : (g.addNode nodeId).adjacencyList_ = mapSet g.adjacencyList_ nodeId [] := by
          simp [Graph.addNode, hn]
        rw [this, mapFind_mapSet, if_neg hx] at hu
        exact hu
      simp [h u hu2]

theorem getAdjacentEdges_addNode_known {g : Graph} (h : g.KeysKnown)
    (nodeId x : Int) : (g.addNode nodeId).getAdjacentEdges x = g.getAdjacentEdges x := by
  rw [getAdjacentEdges_addNode]
  by_cases hc : g.hasNode nodeId = false ∧ nodeId = x
  · rw [if_pos hc]
    obtain ⟨hn, hx⟩ := hc
    subst hx
    unfold Graph.getAdjacentEdges
    cases hf : mapFind g.adjacencyList_ nodeId with
    | none => rfl
    | some es =>
      have := h nodeId (by rw [hf]; simp)
      rw [hn] at this
      exact Bool.noConfusion this
  · rw [if_neg hc]

theorem keysKnown_addEdge {g : Graph} (h : g.KeysKnown) (a b : Int) (w : ℚ) :
    (g.addEdge a b w).KeysKnown := by
  intro u hu
  have h2 := keysKnown_addNode (keysKnown_addNode h a) b
  rw [hasNode_addEdge, ← hasNode_addNode, ← hasNode_addNode]
  have hu1 : (mapFind (emplaceBack (emplaceBack ((g.addNode a).addNode b).adjacencyList_ a
      ⟨b, w⟩) b ⟨a, w⟩) u).isSome = true := by
    cases hf : mapFind (emplaceBack (emplaceBack ((g.addNode a).addNode b).adjacencyList_ a
      ⟨b, w⟩) b ⟨a, w⟩) u with
    | none => exact absurd hf hu
    | some _ => rfl
  rw [mapFind_emplaceBack_isSome, mapFind_emplaceBack_isSome] at hu1
  by_cases hbu : b = u
  · rw [hasNode_addNode]; simp [hbu]
  · by_cases hau : a = u
    · rw [hasNode_addNode, hasNode_addNode]; simp [hau]
    · simp [hbu, hau] at hu1
      apply h2 u
      intro hnone
      rw [hnone] at hu1
      exact Bool.noConfusion hu1

theorem Graph.Built.keysKnown {g : Graph} (h : g.Built) : g.KeysKnown := by
  induction h with
  | empty =>
    intro u hu
    exact absurd rfl hu
  | addNode g nodeId _ ih => exact keysKnown_addNode ih nodeId
  | addEdge g a b w _ ih => exact keysKnown_addEdge ih a b w

theorem getAdjacentEdges_addEdge_known {g : Graph} (h : g.KeysKnown)
    (a b : Int) (w : ℚ) (x : Int) :
    (g.addEdge a b w).getAdjacentEdges x =
      g.getAdjacentEdges x ++
        (if a = x then [(⟨b, w⟩ : Edge)] else []) ++ (if b = x then [(⟨a, w⟩ : Edge)] else []) := by
  rw [getAdjacentEdges_addEdge, getAdjacentEdges_addNode_known (keysKnown_addNode h a),
    getAdjacentEdges_addNode_known h]

theorem Graph.Built.symm {g : Graph} (h : g.Built) : g.Symm := by
  induction h with
  | empty =>
    intro u e he
    exact absurd he (List.not_mem_nil _)
  | addNode g nodeId hb ih =>
    intro u e he
    rw [getAdjacentEdges_addNode_known hb.keysKnown] at he ⊢
    exact ih u e he
  | addEdge g a b w hb ih =>
    intro u e he
    rw [getAdjacentEdges_addEdge_known hb.keysKnown] at he ⊢
    simp only [List.mem_append] at he ⊢
    rcases he with (he | he) | he
    · exact Or.inl (Or.inl (ih u e he))
    · by_cases hau : a = u
      · rw [if_pos hau] at he
        have hee : e = ⟨b, w⟩ := List.mem_singleton.1 he
        subst hee
        right
        simp [hau]
      · rw [if_neg hau] at he
        exact absurd he (List.not_mem_nil _)
    · by_cases hbu : b = u
      · rw [if_pos hbu] at he
        have hee : e = ⟨a, w⟩ := List.mem_singleton.1 he
        subst hee
        left; right
        simp [hbu]
      · rw [if_neg hbu] at he
        exact absurd he (List.not_mem_nil _)

theorem IsWalk.reverse {g : Graph} (hsym : g.Symm) : ∀ {a b : Int} {es : List Edge},
    IsWalk g a es b → ∃ fs, IsWalk g b fs a ∧ walkWeight fs = walkWeight es
  | a, b, [], h => by
    have hab : a = b := h
    exact ⟨[], hab.symm, rfl⟩
  | a, b, e :: es, h => by
    obtain ⟨he, hrest⟩ := h
    obtain ⟨fs, hfs, hwt⟩ := IsWalk.reverse hsym hrest
    refine ⟨fs ++ [⟨a, e.weight⟩], IsWalk.snoc hfs (hsym a e he), ?_⟩
    rw [walkWeight_append, hwt, walkWeight_cons, walkWeight_cons, walkWeight_nil]
    ring

theorem nonNeg_addNode {g : Graph} (h : g.NonNeg) (nodeId : Int) :
    (g.addNode nodeId).NonNeg := by
  intro u e he
  rw [getAdjacentEdges_addNode] at he
  by_cases hc : g.hasNode nodeId = false ∧ nodeId = u
  · rw [if_pos hc] at he
    exact absurd he (List.not_mem_nil _)
  · rw [if_neg hc] at he
    exact h u e he

theorem nonNeg_addEdge {g : Graph} (h : g.NonNeg) (a b : Int) (w : ℚ) (hw : 0 ≤ w) :
    (g.addEdge a b w).NonNeg := by
  intro u e he
  rw [getAdjacentEdges_addEdge] at he
  simp only [List.mem_append] at he
  rcases he with (he | he) | he
  · exact nonNeg_addNode (nonNeg_addNode h a) b u e he
  · by_cases hau : a = u
    · rw [if_pos hau] at he
      rw [List.mem_singleton.1 he]
      exact hw
    · rw [if_neg hau] at he
      exact absurd he (List.not_mem_nil _)
  · by_cases hbu : b = u
    · rw [if_pos hbu] at he
      rw [List.mem_singleton.1 he]
      exact hw
    · rw [if_neg hbu] at he
      exact absurd he (List.not_mem_nil _)

theorem nonNeg_empty : Graph.empty.NonNeg := by
  intro u e he
  exact absurd he (List.not_mem_nil _)

theorem sampleGraph_nonNeg : sampleGraph.NonNeg :=
  nonNeg_addNode (nonNeg_addEdge (nonNeg_addEdge (nonNeg_addEdge nonNeg_empty 1 2 4
    (by norm_num)) 2 5 6 (by norm_num)) 1 5 15 (by norm_num)) 8

theorem sampleGraph_built : sampleGraph.Built :=
  Graph.Built.addNode _ 8 (Graph.Built.addEdge _ 1 5 15 (Graph.Built.addEdge _ 2 5 6
    (Graph.Built.addEdge _ 1 2 4 Graph.Built.empty)))

/-! ## The search contract -/

/-- C1 (optimality): with non-negative stored weights, whenever `findPath(src,dst)`
reports `found`, its `totalWeight` is the least weight of a walk from `src` to `dst`:
some walk along stored edges has exactly that weight, and no walk is cheaper.  The
query always returns (the step budget is never exhausted), whether the loop stops on
finalizing `dst` or on an empty queue.  The statement holds for every `Graph` value,
in particular for those built by `addNode`/`addEdge`, and also for `src = dst`. -/
theorem findPath_optimal (pf : PathFinder) (H : MinHeap) (g : Graph) (elapsed src dst : Int) (hg : g.NonNeg) :
    ∃ r, pf.findPath H g elapsed src dst = some r ∧
      (r.found = true →
        (∃ es, IsWalk g src es dst ∧ walkWeight es = r.totalWeight) ∧
        ∀ es, IsWalk g src es dst → r.totalWeight ≤ walkWeight es) := by
  obtain ⟨r, hr, _, _, hfound⟩ := dijkstra_result H g src dst
  refine ⟨{ r with elapsedMicroseconds := elapsed }, findPath_eq pf H g elapsed src dst r hr, ?_⟩
  intro hf
  have hf1 : r.found = true := hf
  obtain ⟨_, _, es, hw, _, hwt, _⟩ := hfound hf1
  exact ⟨⟨es, hw, hwt⟩, dijkstra_optimal H g src dst hg r hr hf1⟩

theorem findPath_optimal_witness :
    sampleGraph.NonNeg ∧
    ∃ r, PathFinder.new.findPath listHeap sampleGraph 0 1 5 = some r ∧
      (r.found = true →
        (∃ es, IsWalk sampleGraph 1 es 5 ∧ walkWeight es = r.totalWeight) ∧
        ∀ es, IsWalk sampleGraph 1 es 5 → r.totalWeight ≤ walkWeight es) :=
  ⟨sampleGraph_nonNeg, findPath_optimal PathFinder.new listHeap sampleGraph 0 1 5 sampleGraph_nonNeg⟩

theorem mapFind_none_iff {K V : Type} [DecidableEq K] (m : List (K × V)) (k : K) :
    mapFind m k = none ↔ k ∉ m.map Prod.fst := by
  induction m with
  | nil => simp [mapFind]
  | cons p rest ih =>
    obtain ⟨k0, v0⟩ := p
    by_cases h : k0 = k
    · simp [mapFind, h]
    · have h2 : ¬ k = k0 := fun e => h e.symm
      simp [mapFind, h, h2, ih]

theorem mem_of_mapFind {K V : Type} [DecidableEq K] (m : List (K × V)) (k : K) (v : V)
    (h : mapFind m k = some v) : (k, v) ∈ m := by
  induction m with
  | nil => exact Option.noConfusion h
  | cons p rest ih =>
    obtain ⟨k0, v0⟩ := p
    by_cases h0 : k0 = k
    · simp only [mapFind, if_pos h0] at h
      cases h
      rw [h0]
      exact List.mem_cons_self _ _
    · simp only [mapFind, if_neg h0] at h
      exact List.mem_cons_of_mem _ (ih h)

theorem mapFind_of_mem {K V : Type} [DecidableEq K] (m : List (K × V))
    (hnd : (m.map Prod.fst).Nodup) (k : K) (v : V) (h : (k, v) ∈ m) :
    mapFind m k = some v := by
  induction m with
  | nil => exact absurd h (List.not_mem_nil _)
  | cons p rest ih =>
    obtain ⟨k0, v0⟩ := p
    rw [List.map_cons, List.nodup_cons] at hnd
    rcases List.mem_cons.1 h with heq | hr
    · cases heq
      simp [mapFind]
    · have hk : k ∈ rest.map Prod.fst := List.mem_map.2 ⟨(k, v), hr, rfl⟩
      have hne : ¬ k0 = k := by
        intro e
        rw [← e] at hk
        exact hnd.1 hk
      simp only [mapFind, if_neg hne]
      exact ih hnd.2 hr

theorem mapFind_perm {K V : Type} [DecidableEq K] {m m1 : List (K × V)}
    (hnd : (m.map Prod.fst).Nodup) (hp : m1.Perm m) (k : K) :
    mapFind m1 k = mapFind m k := by
  have hnd1 : (m1.map Prod.fst).Nodup := (hp.map Prod.fst).nodup_iff.2 hnd
  apply Option.ext
  intro v
  constructor
  · intro h
    exact mapFind_of_mem m hnd k v (hp.mem_iff.1 (mem_of_mapFind m1 k v h))
  · intro h
    exact mapFind_of_mem m1 hnd1 k v (hp.mem_iff.2 (mem_of_mapFind m k v h))

theorem keys_mapSet {K V : Type} [DecidableEq K] (m : List (K × V)) (k : K) (v : V)
    (h : (mapFind m k).isSome = true) : (mapSet m k v).map Prod.fst = m.map Prod.fst := by
  induction m with
  | nil => exact Bool.noConfusion h
  | cons p rest ih =>
    obtain ⟨k0, v0⟩ := p
    by_cases h0 : k0 = k
    · simp [mapSet, h0]
    · simp only [mapFind, if_neg h0] at h
      simp [mapSet, h0, ih h]

theorem nodup_assign (O : HashOrder) (m : PairMap) (k : Int × Int) (v : ℚ)
    (hnd : (m.map Prod.fst).Nodup) : ((O.assign m k v).map Prod.fst).Nodup := by
  unfold HashOrder.assign
  by_cases h : (mapFind m k).isSome = true
  · rw [if_pos h, keys_mapSet m k v h]
    exact hnd
  · rw [if_neg h]
    have hnone : mapFind m k = none := by
      cases hf : mapFind m k with
      | none => rfl
      | some x => rw [hf] at h; exact absurd rfl h
    have hk : k ∉ m.map Prod.fst := (mapFind_none_iff m k).1 hnone
    have hp := (O.insertNew_perm m k v).map Prod.fst
    rw [hp.nodup_iff, List.map_cons, List.nodup_cons]
    exact ⟨hk, hnd⟩

theorem mapFind_assign (O : HashOrder) (m : PairMap) (k k1 : Int × Int) (v : ℚ)
    (hnd : (m.map Prod.fst).Nodup) :
    mapFind (O.assign m k v) k1 = if k = k1 then some v else mapFind m k1 := by
  unfold HashOrder.assign
  by_cases h : (mapFind m k).isSome = true
  · rw [if_pos h, mapFind_mapSet]
  · rw [if_neg h]
    have hnone : mapFind m k = none := by
      cases hf : mapFind m k with
      | none => rfl
      | some x => rw [hf] at h; exact absurd rfl h
    have hk : k ∉ m.map Prod.fst := (mapFind_none_iff m k).1 hnone
    have hnd2 : (((k, v) :: m).map Prod.fst).Nodup := by
      rw [List.map_cons, List.nodup_cons]
      exact ⟨hk, hnd⟩
    rw [mapFind_perm hnd2 (O.insertNew_perm m k v)]
    simp only [mapFind]

theorem index_of_find (O : HashOrder) (m : PairMap) (k : Int × Int) (y : ℚ)
    (h : mapFind m k = some y) : O.index m k = (y, m) := by
  simp [HashOrder.index, h]

theorem TablesOK.nil : TablesOK [] [] :=
  ⟨List.nodup_nil, List.nodup_nil, fun _ _ => rfl, fun _ _ => rfl,
   fun _ _ h => Option.noConfusion h, fun _ _ h => Option.noConfusion h, fun _ => rfl⟩

theorem mapFind_assign2 (O : HashOrder) (m : PairMap) (a b : Int) (v : ℚ) (k : Int × Int)
    (hnd : (m.map Prod.fst).Nodup) :
    mapFind (O.assign (O.assign m (a, b) v) (b, a) v) k =
      if k = (a, b) ∨ k = (b, a) then some v else mapFind m k := by
  rw [mapFind_assign O _ _ _ _ (nodup_assign O m (a, b) v hnd), mapFind_assign O m _ _ _ hnd]
  by_cases h1 : (b, a) = k
  · simp [h1.symm]
  · by_cases h2 : (a, b) = k
    · simp [h2.symm]
    · have h3 : ¬ k = (a, b) := fun e => h2 e.symm
      have h4 : ¬ k = (b, a) := fun e => h1 e.symm
      simp [h1, h2, h3, h4]

theorem TablesOK.assign2 (O : HashOrder) {d t : PairMap} (h : TablesOK d t) (a b : Int)
    (x y : ℚ) (hx : 0 < x) (hy : 0 < y) :
    TablesOK (O.assign (O.assign d (a, b) x) (b, a) x)
      (O.assign (O.assign t (a, b) y) (b, a) y) := by
  have hswap : ∀ p q : Int, ((p, q) = (a, b) ∨ (p, q) = (b, a)) ↔
      ((q, p) = (a, b) ∨ (q, p) = (b, a)) := by
    intro p q
    simp only [Prod.mk.injEq]
    constructor
    · rintro (⟨h1, h2⟩ | ⟨h1, h2⟩)
      · exact Or.inr ⟨h2, h1⟩
      · exact Or.inl ⟨h2, h1⟩
    · rintro (⟨h1, h2⟩ | ⟨h1, h2⟩)
      · exact Or.inr ⟨h2, h1⟩
      · exact Or.inl ⟨h2, h1⟩
  refine ⟨nodup_assign O _ _ _ (nodup_assign O _ _ _ h.d_nodup),
    nodup_assign O _ _ _ (nodup_assign O _ _ _ h.t_nodup), ?_, ?_, ?_, ?_, ?_⟩
  · intro p q
    rw [mapFind_assign2 O d a b x _ h.d_nodup, mapFind_assign2 O d a b x _ h.d_nodup]
    by_cases hc : (p, q) = (a, b) ∨ (p, q) = (b, a)
    · rw [if_pos hc, if_pos ((hswap p q).1 hc)]
    · rw [if_neg hc, if_neg (fun h2 => hc ((hswap p q).2 h2))]
      exact h.d_symm p q
  · intro p q
    rw [mapFind_assign2 O t a b y _ h.t_nodup, mapFind_assign2 O t a b y _ h.t_nodup]
    by_cases hc : (p, q) = (a, b) ∨ (p, q) = (b, a)
    · rw [if_pos hc, if_pos ((hswap p q).1 hc)]
    · rw [if_neg hc, if_neg (fun h2 => hc ((hswap p q).2 h2))]
      exact h.t_symm p q
  · intro k v hv
    rw [mapFind_assign2 O d a b x _ h.d_nodup] at hv
    by_cases hc : k = (a, b) ∨ k = (b, a)
    · rw [if_pos hc] at hv
      cases hv
      exact hx
    · rw [if_neg hc] at hv
      exact h.d_pos k v hv
  · intro k v hv
    rw [mapFind_assign2 O t a b y _ h.t_nodup] at hv
    by_cases hc : k = (a, b) ∨ k = (b, a)
    · rw [if_pos hc] at hv
      cases hv
      exact hy
    · rw [if_neg hc] at hv
      exact h.t_pos k v hv
  · intro k
    rw [mapFind_assign2 O d a b x _ h.d_nodup, mapFind_assign2 O t a b y _ h.t_nodup]
    by_cases hc : k = (a, b) ∨ k = (b, a)
    · rw [if_pos hc, if_pos hc]
      rfl
    · rw [if_neg hc, if_neg hc]
      exact h.same_keys k

theorem loadLine_tablesOK (O : HashOrder) (rd : Reader) (st : LoadState) (line : String)
    (h : TablesOK st.distances st.times) :
    TablesOK (loadLine O rd st line).distances (loadLine O rd st line).times := by
  unfold loadLine
  by_cases hskip : (line.isEmpty || decide (line.get 0 = '#')) = true
  · rw [if_pos hskip]
    exact h
  · rw [if_neg hskip]
    cases hp : DataLoader.parseLine rd line with
    | none => exact h
    | some rec =>
      obtain ⟨a, b, x, y⟩ := rec
      by_cases hpos : 0 < x ∧ 0 < y
      · simp only [if_pos hpos]
        exact h.assign2 O a b x y hpos.1 hpos.2
      · simp only [if_neg hpos]
        exact h

theorem loadLines_tablesOK (O : HashOrder) (rd : Reader) :
    ∀ (lines : List String) (st : LoadState), TablesOK st.distances st.times →
      TablesOK (lines.foldl (loadLine O rd) st).distances
        (lines.foldl (loadLine O rd) st).times
  | [], _, h => h
  | line :: rest, st, h =>
    loadLines_tablesOK O rd rest (loadLine O rd st line) (loadLine_tablesOK O rd st line h)

/-! ## The rebuild of the graph from the tables -/

theorem rebuildStep_spec (O : HashOrder) {d t : PairMap} {strategy : PathStrategy}
    {st : RebuildState} (hT : TablesOK d t) (hI : RInv d t strategy st)
    (a b : Int) (x : ℚ) (hk : mapFind d (a, b) = some x) :
    RInv d t strategy (rebuildStep O strategy st ((a, b), x)) ∧
    (if a < b then (a, b) else (b, a)) ∈ (rebuildStep O strategy st ((a, b), x)).addedEdges ∧
    ∀ key ∈ st.addedEdges, key ∈ (rebuildStep O strategy st ((a, b), x)).addedEdges := by
  have hx : 0 < x := hT.d_pos _ _ hk
  obtain ⟨y, hy⟩ : ∃ y, mapFind t (a, b) = some y := by
    have := hT.same_keys (a, b)
    rw [hk] at this
    cases hf : mapFind t (a, b) with
    | none => rw [hf] at this; exact Bool.noConfusion this
    | some y => exact ⟨y, rfl⟩
  have hypos : 0 < y := hT.t_pos _ _ hy
  have hidx : O.index st.times (a, b) = (y, st.times) := by
    apply index_of_find
    rw [hI.times_eq]
    exact hy
  have hcond : ¬ (x ≤ 0 ∨ y ≤ 0) := by
    intro h
    rcases h with h | h
    · exact absurd hx (not_lt.2 h)
    · exact absurd hypos (not_lt.2 h)
  by_cases hmem : (if a < b then (a, b) else (b, a)) ∈ st.addedEdges
  · have hE : rebuildStep O strategy st ((a, b), x) = st := by
      simp only [rebuildStep, hidx, if_neg hcond, if_pos hmem]
    rw [hE]
    exact ⟨hI, hmem, fun _ h => h⟩
  · have hE : rebuildStep O strategy st ((a, b), x) =
        { graph := st.graph.addEdge a b (strategyWeight strategy x y),
          times := st.times,
          addedEdges := (if a < b then (a, b) else (b, a)) :: st.addedEdges } := by
      simp only [rebuildStep, hidx, if_neg hcond, if_neg hmem]
    rw [hE]
    have hadj := getAdjacentEdges_addEdge_known hI.built.keysKnown a b
      (strategyWeight strategy x y)
    have hyb : mapFind t (b, a) = some y := by rw [← hT.t_symm a b]; exact hy
    have hxb : mapFind d (b, a) = some x := by rw [← hT.d_symm a b]; exact hk
    have hab : (⟨b, strategyWeight strategy x y⟩ : Edge) ∈
        (st.graph.addEdge a b (strategyWeight strategy x y)).getAdjacentEdges a := by
      rw [hadj a]; simp
    have hba : (⟨a, strategyWeight strategy x y⟩ : Edge) ∈
        (st.graph.addEdge a b (strategyWeight strategy x y)).getAdjacentEdges b := by
      rw [hadj b]; simp
    have hgrow : ∀ u e, e ∈ st.graph.getAdjacentEdges u →
        e ∈ (st.graph.addEdge a b (strategyWeight strategy x y)).getAdjacentEdges u := by
      intro u e he
      rw [hadj u]
      simp only [List.mem_append]
      exact Or.inl (Or.inl he)
    refine ⟨⟨hI.times_eq, Graph.Built.addEdge _ a b _ hI.built, ?_, ?_⟩,
      List.mem_cons_self _ _, fun key h => List.mem_cons_of_mem _ h⟩
    · intro u e he
      have he2 : e ∈ (st.graph.addEdge a b (strategyWeight strategy x y)).getAdjacentEdges u :=
        he
      rw [hadj u] at he2
      simp only [List.mem_append] at he2
      rcases he2 with (he2 | he2) | he2
      · exact hI.sound u e he2
      · by_cases hau : a = u
        · rw [if_pos hau] at he2
          rw [List.mem_singleton.1 he2, ← hau]
          exact ⟨x, y, hk, hy, rfl⟩
        · rw [if_neg hau] at he2
          exact absurd he2 (List.not_mem_nil _)
      · by_cases hbu : b = u
        · rw [if_pos hbu] at he2
          rw [List.mem_singleton.1 he2, ← hbu]
          exact ⟨x, y, hxb, hyb, rfl⟩
        · rw [if_neg hbu] at he2
          exact absurd he2 (List.not_mem_nil _)
    · intro p q hpq
      rcases List.mem_cons.1 hpq with heq | hold
      · by_cases hlt : a < b
        · rw [if_pos hlt] at heq
          cases heq
          exact ⟨x, y, hk, hy, hab, hba⟩
        · rw [if_neg hlt] at heq
          cases heq
          exact ⟨x, y, hxb, hyb, hba, hab⟩
      · obtain ⟨x1, y1, h1, h2, h3, h4⟩ := hI.added p q hold
        exact ⟨x1, y1, h1, h2, hgrow _ _ h3, hgrow _ _ h4⟩

theorem rebuildFold_spec (O : HashOrder) {d t : PairMap} {strategy : PathStrategy}
    (hT : TablesOK d t) :
    ∀ (l : PairMap) (st : RebuildState), (∀ p ∈ l, mapFind d p.1 = some p.2) →
      RInv d t strategy st →
      RInv d t strategy (l.foldl (rebuildStep O strategy) st) ∧
      (∀ p ∈ l, (if p.1.1 < p.1.2 then (p.1.1, p.1.2) else (p.1.2, p.1.1)) ∈
        (l.foldl (rebuildStep O strategy) st).addedEdges) ∧
      ∀ key ∈ st.addedEdges, key ∈ (l.foldl (rebuildStep O strategy) st).addedEdges
  | [], st, _, hI => ⟨hI, fun _ h => absurd h (List.not_mem_nil _), fun _ h => h⟩
  | p :: rest, st, hl, hI => by
    obtain ⟨⟨a, b⟩, x⟩ := p
    have hk : mapFind d (a, b) = some x := hl ((a, b), x) (List.mem_cons_self _ _)
    obtain ⟨hI1, hc1, hm1⟩ := rebuildStep_spec O hT hI a b x hk
    obtain ⟨hI2, hc2, hm2⟩ := rebuildFold_spec O hT rest
      (rebuildStep O strategy st ((a, b), x))
      (fun q hq => hl q (List.mem_cons_of_mem _ hq)) hI1
    refine ⟨hI2, ?_, fun key h => hm2 key (hm1 key h)⟩
    intro q hq
    rcases List.mem_cons.1 hq with heq | hr
    · rw [heq]
      exact hm2 _ hc1
    · exact hc2 q hr

theorem rebuild_spec (O : HashOrder) (E : MapEngine) (hT : TablesOK E.distances_ E.times_) :
    (E.rebuildGraphWeights O).times_ = E.times_ ∧
    (E.rebuildGraphWeights O).distances_ = E.distances_ ∧
    (E.rebuildGraphWeights O).currentStrategy_ = E.currentStrategy_ ∧
    (E.rebuildGraphWeights O).pathFinder_ = E.pathFinder_ ∧
    (E.rebuildGraphWeights O).dataLoader_ = E.dataLoader_ ∧
    (E.rebuildGraphWeights O).graph_.Built ∧
    ∀ u e, e ∈ (E.rebuildGraphWeights O).graph_.getAdjacentEdges u ↔
      ∃ x y, mapFind E.distances_ (u, e.dst) = some x ∧
        mapFind E.times_ (u, e.dst) = some y ∧
        e.weight = strategyWeight E.currentStrategy_ x y := by
  have hI0 : RInv E.distances_ E.times_ E.currentStrategy_
      { graph := E.graph_.clear, times := E.times_, addedEdges := [] } :=
    ⟨rfl, Graph.Built.empty, fun u e he => absurd he (List.not_mem_nil _),
     fun p q h => absurd h (List.not_mem_nil _)⟩
  obtain ⟨hI, hall, _⟩ := rebuildFold_spec O hT E.distances_ _
    (fun p hp => mapFind_of_mem E.distances_ hT.d_nodup p.1 p.2 hp) hI0
  refine ⟨hI.times_eq, rfl, rfl, rfl, rfl, hI.built, ?_⟩
  intro u e
  constructor
  · intro he
    exact hI.sound u e he
  · rintro ⟨x, y, hx, hy, hw⟩
    have hmem := hall ((u, e.dst), x) (mem_of_mapFind _ _ _ hx)
    have hed : e = ⟨e.dst, strategyWeight E.currentStrategy_ x y⟩ := by
      cases e
      simp only [Edge.mk.injEq, true_and]
      exact hw
    by_cases hlt : u < e.dst
    · simp only [if_pos hlt] at hmem
      obtain ⟨x1, y1, h1, h2, h3, _⟩ := hI.added _ _ hmem
      rw [hx] at h1
      rw [hy] at h2
      cases h1
      cases h2
      rw [hed]
      exact h3
    · simp only [if_neg hlt] at hmem
      obtain ⟨x1, y1, h1, h2, _, h4⟩ := hI.added _ _ hmem
      rw [← hT.d_symm, hx] at h1
      rw [← hT.t_symm, hy] at h2
      cases h1
      cases h2
      rw [hed]
      exact h4

/-! ## Loaded engine states -/

theorem MapEngine.eq_of_fields (A B : MapEngine) (h1 : A.graph_ = B.graph_)
    (h2 : A.pathFinder_ = B.pathFinder_) (h3 : A.dataLoader_ = B.dataLoader_)
    (h4 : A.distances_ = B.distances_) (h5 : A.times_ = B.times_)
    (h6 : A.currentStrategy_ = B.currentStrategy_) : A = B := by
  cases A
  cases B
  simp only [MapEngine.mk.injEq]
  exact ⟨h1, h2, h3, h4, h5, h6⟩

theorem setStrategy_spec (O : HashOrder) (E : MapEngine) (k : PathStrategy)
    (hT : TablesOK E.distances_ E.times_) :
    (E.setStrategy O k).distances_ = E.distances_ ∧
    (E.setStrategy O k).times_ = E.times_ ∧
    (E.setStrategy O k).currentStrategy_ = k ∧
    (E.setStrategy O k).dataLoader_ = E.dataLoader_ ∧
    (E.setStrategy O k).pathFinder_ =
      some (PathFinder.new.setStrategy (some (strategyImpl k))) ∧
    (E.setStrategy O k).graph_ = rebuiltGraph O E.distances_ E.times_ k := by
  obtain ⟨ht, _⟩ := rebuild_spec O { E with currentStrategy_ := k } hT
  exact ⟨rfl, ht, rfl, rfl, rfl, rfl⟩

theorem rebuiltGraph_spec (O : HashOrder) (d t : PairMap) (k : PathStrategy)
    (hT : TablesOK d t) :
    (rebuiltGraph O d t k).Built ∧
    ∀ u e, e ∈ (rebuiltGraph O d t k).getAdjacentEdges u ↔
      ∃ x y, mapFind d (u, e.dst) = some x ∧ mapFind t (u, e.dst) = some y ∧
        e.weight = strategyWeight k x y := by
  have h := rebuild_spec O
    { graph_ := Graph.empty, pathFinder_ := none,
      dataLoader_ := { lastNodeCount_ := 0, lastEdgeCount_ := 0 },
      distances_ := d, times_ := t, currentStrategy_ := k } hT
  exact ⟨h.2.2.2.2.2.1, h.2.2.2.2.2.2⟩

theorem loadMap_spec (O : HashOrder) (rd : Reader) (E0 : MapEngine) (filename : String)
    (lines : List String) (hopen : rd.openFile filename = some lines) :
    ∃ E1 : MapEngine,
      E1.distances_ = (loadLines O rd lines).distances ∧
      E1.times_ = (loadLines O rd lines).times ∧
      E1.currentStrategy_ = E0.currentStrategy_ ∧
      E1.dataLoader_ = { lastNodeCount_ := (loadLines O rd lines).graph.getNodeCount,
                         lastEdgeCount_ := (loadLines O rd lines).lastEdgeCount } ∧
      E0.loadMap O rd filename =
        (true, MapEngine.setStrategy
          { (E1.rebuildGraphWeights O) with pathFinder_ := some PathFinder.new } O
          E0.currentStrategy_) := by
  refine ⟨{ E0 with
      dataLoader_ := { lastNodeCount_ := (loadLines O rd lines).graph.getNodeCount,
                       lastEdgeCount_ := (loadLines O rd lines).lastEdgeCount },
      graph_ := (loadLines O rd lines).graph,
      distances_ := (loadLines O rd lines).distances,
      times_ := (loadLines O rd lines).times }, rfl, rfl, rfl, rfl, ?_⟩
  simp [MapEngine.loadMap, DataLoader.loadFromFileWithDetails, hopen, Graph.clear, loadLines,
    MapEngine.rebuildGraphWeights]

theorem loadLines_ok (O : HashOrder) (rd : Reader) (lines : List String) :
    TablesOK (loadLines O rd lines).distances (loadLines O rd lines).times :=
  loadLines_tablesOK O rd lines _ TablesOK.nil

theorem loadMap_fields (O : HashOrder) (rd : Reader) (E0 : MapEngine) (filename : String)
    (lines : List String) (hopen : rd.openFile filename = some lines) :
    (E0.loadMap O rd filename).1 = true ∧
    (E0.loadMap O rd filename).2.distances_ = (loadLines O rd lines).distances ∧
    (E0.loadMap O rd filename).2.times_ = (loadLines O rd lines).times ∧
    (E0.loadMap O rd filename).2.currentStrategy_ = E0.currentStrategy_ ∧
    (E0.loadMap O rd filename).2.dataLoader_ =
      { lastNodeCount_ := (loadLines O rd lines).graph.getNodeCount,
        lastEdgeCount_ := (loadLines O rd lines).lastEdgeCount } ∧
    (E0.loadMap O rd filename).2.pathFinder_ =
      some (PathFinder.new.setStrategy (some (strategyImpl E0.currentStrategy_))) ∧
    (E0.loadMap O rd filename).2.graph_ =
      rebuiltGraph O (loadLines O rd lines).distances (loadLines O rd lines).times
        E0.currentStrategy_ := by
  obtain ⟨E1, hd, ht, hc, hl, hE⟩ := loadMap_spec O rd E0 filename lines hopen
  have hT1 : TablesOK E1.distances_ E1.times_ := by
    rw [hd, ht]; exact loadLines_ok O rd lines
  obtain ⟨rt, rd1, _, _, rl, _⟩ := rebuild_spec O E1 hT1
  have hT3 : TablesOK
      ({ (E1.rebuildGraphWeights O) with pathFinder_ := some PathFinder.new } : MapEngine).distances_
      ({ (E1.rebuildGraphWeights O) with pathFinder_ := some PathFinder.new } : MapEngine).times_ := by
    show TablesOK (E1.rebuildGraphWeights O).distances_ (E1.rebuildGraphWeights O).times_
    rw [rt, rd1]; exact hT1
  obtain ⟨s1, s2, s3, s4, s5, s6⟩ := setStrategy_spec O
    { (E1.rebuildGraphWeights O) with pathFinder_ := some PathFinder.new }
    E0.currentStrategy_ hT3
  rw [hE]
  refine ⟨rfl, ?_, ?_, s3, ?_, s5, ?_⟩
  · show (MapEngine.setStrategy _ O E0.currentStrategy_).distances_ = _
    rw [s1]
    show (E1.rebuildGraphWeights O).distances_ = _
    rw [rd1, hd]
  · show (MapEngine.setStrategy _ O E0.currentStrategy_).times_ = _
    rw [s2]
    show (E1.rebuildGraphWeights O).times_ = _
    rw [rt, ht]
  · show (MapEngine.setStrategy _ O E0.currentStrategy_).dataLoader_ = _
    rw [s4]
    show (E1.rebuildGraphWeights O).dataLoader_ = _
    rw [rl, hl]
  · show (MapEngine.setStrategy _ O E0.currentStrategy_).graph_ = _
    rw [s6]
    show rebuiltGraph O (E1.rebuildGraphWeights O).distances_
      (E1.rebuildGraphWeights O).times_ E0.currentStrategy_ = _
    rw [rd1, rt, hd, ht]

theorem loadMap_fail (O : HashOrder) (rd : Reader) (E0 : MapEngine) (filename : String)
    (hopen : rd.openFile filename = none) :
    E0.loadMap O rd filename =
      (false, { E0 with graph_ := Graph.empty, distances_ := [], times_ := [] }) := by
  simp [MapEngine.loadMap, DataLoader.loadFromFileWithDetails, hopen, Graph.clear]

/-- What holds of every loaded engine state. -/
theorem loaded_spec {O : HashOrder} {rd : Reader} {E : MapEngine}
    (hL : MapEngine.Loaded O rd E) :
    TablesOK E.distances_ E.times_ ∧
    E.pathFinder_ = some (PathFinder.new.setStrategy (some (strategyImpl E.currentStrategy_))) ∧
    E.graph_ = rebuiltGraph O E.distances_ E.times_ E.currentStrategy_ := by
  induction hL with
  | load E0 filename hok =>
    cases hopen : rd.openFile filename with
    | none =>
      rw [loadMap_fail O rd E0 filename hopen] at hok
      exact Bool.noConfusion hok
    | some lines =>
      obtain ⟨_, hd, ht, hc, _, hp, hg⟩ := loadMap_fields O rd E0 filename lines hopen
      refine ⟨?_, ?_, ?_⟩
      · rw [hd, ht]; exact loadLines_ok O rd lines
      · rw [hp, hc]
      · rw [hg, hd, ht, hc]
  | setStrategy E k _ ih =>
    obtain ⟨s1, s2, s3, _, s5, s6⟩ := setStrategy_spec O E k ih.1
    refine ⟨?_, ?_, ?_⟩
    · rw [s1, s2]; exact ih.1
    · rw [s5, s3]
    · rw [s6, s1, s2, s3]

/-! ## Strategy consistency and the strategy toggle -/

theorem engine_findPath_eq (E : MapEngine) (pf : PathFinder) (H : MinHeap)
    (elapsed src dst : Int) (hp : E.pathFinder_ = some pf) :
    E.findPath H elapsed src dst = pf.findPath H E.graph_ elapsed src dst := by
  simp [MapEngine.findPath, hp]

theorem sampleEngine_loaded : MapEngine.Loaded appendOrder sampleReader sampleEngine :=
  MapEngine.Loaded.load MapEngine.new "map"
    (loadMap_fields appendOrder sampleReader MapEngine.new "map"
      ["# sample", "a", "b", "", "c", "junk"] (by simp [sampleReader])).1

theorem setStrategy_graph (O : HashOrder) (E : MapEngine) (k : PathStrategy) :
    (E.setStrategy O k).graph_ = rebuiltGraph O E.distances_ E.times_ k := rfl

theorem setStrategy_round_trip (O : HashOrder) (rd : Reader) (E : MapEngine)
    (k : PathStrategy) (hL : MapEngine.Loaded O rd E) :
    (E.setStrategy O k).setStrategy O E.currentStrategy_ = E := by
  obtain ⟨hT, hp, hg⟩ := loaded_spec hL
  obtain ⟨s1, s2, _, s4, _, _⟩ := setStrategy_spec O E k hT
  have hT2 : TablesOK (E.setStrategy O k).distances_ (E.setStrategy O k).times_ := by
    rw [s1, s2]; exact hT
  obtain ⟨t1, t2, t3, t4, t5, t6⟩ := setStrategy_spec O (E.setStrategy O k)
    E.currentStrategy_ hT2
  apply MapEngine.eq_of_fields
  · rw [t6, s1, s2, ← hg]
  · rw [t5, hp]
  · rw [t4, s4]
  · rw [t1, s1]
  · rw [t2, s2]
  · exact t3

/-- C9 (strategy toggle round trip): in a loaded engine state with active strategy `s`,
`setStrategy(k)` followed by `setStrategy(s)` restores the graph, and every query
returns with the same found flag, total weight and path as before the toggle.  The
graph made by `setStrategy` is a function of the two tables and of the strategy set:
engines that agree on the tables get the same graph. -/
theorem strategy_toggle_round_trip (O : HashOrder) (rd : Reader) (H : MinHeap)
    (E : MapEngine) (k : PathStrategy) (e1 e2 a b : Int) (hL : MapEngine.Loaded O rd E) :
    ((E.setStrategy O k).setStrategy O E.currentStrategy_).graph_ = E.graph_ ∧
    (∃ r1 r2, E.findPath H e1 a b = some r1 ∧
      ((E.setStrategy O k).setStrategy O E.currentStrategy_).findPath H e2 a b = some r2 ∧
      r1.found = r2.found ∧ r1.totalWeight = r2.totalWeight ∧ r1.path = r2.path) ∧
    ∀ (E2 : MapEngine) (k2 : PathStrategy), E2.distances_ = E.distances_ →
      E2.times_ = E.times_ → (E2.setStrategy O k2).graph_ = (E.setStrategy O k2).graph_ := by
  have hrt := setStrategy_round_trip O rd E k hL
  obtain ⟨_, hp, _⟩ := loaded_spec hL
  refine ⟨by rw [hrt], ?_, ?_⟩
  · obtain ⟨r, hr, _⟩ := dijkstra_result H E.graph_ a b
    refine ⟨{ r with elapsedMicroseconds := e1 }, { r with elapsedMicroseconds := e2 },
      ?_, ?_, rfl, rfl, rfl⟩
    · rw [engine_findPath_eq E _ H e1 a b hp]
      exact findPath_eq _ H E.graph_ e1 a b r hr
    · rw [hrt, engine_findPath_eq E _ H e2 a b hp]
      exact findPath_eq _ H E.graph_ e2 a b r hr
  · intro E2 k2 hd ht
    rw [setStrategy_graph, setStrategy_graph, hd, ht]

theorem strategy_toggle_round_trip_witness :
    MapEngine.Loaded appendOrder sampleReader sampleEngine ∧
    (((sampleEngine.setStrategy appendOrder PathStrategy.LEAST_TIME).setStrategy appendOrder
        sampleEngine.currentStrategy_).graph_ = sampleEngine.graph_ ∧
    (∃ r1 r2, sampleEngine.findPath listHeap 0 1 5 = some r1 ∧
      ((sampleEngine.setStrategy appendOrder PathStrategy.LEAST_TIME).setStrategy appendOrder
        sampleEngine.currentStrategy_).findPath listHeap 0 1 5 = some r2 ∧
      r1.found = r2.found ∧ r1.totalWeight = r2.totalWeight ∧ r1.path = r2.path) ∧
    ∀ (E2 : MapEngine) (k2 : PathStrategy), E2.distances_ = sampleEngine.distances_ →
      E2.times_ = sampleEngine.times_ →
      (E2.setStrategy appendOrder k2).graph_ =
        (sampleEngine.setStrategy appendOrder k2).graph_) :=
  ⟨sampleEngine_loaded,
   strategy_toggle_round_trip appendOrder sampleReader listHeap sampleEngine
     PathStrategy.LEAST_TIME 0 0 1 5 sampleEngine_loaded⟩

/-! ## The read loop in terms of accepted records -/

theorem loadLine_eq (O : HashOrder) (rd : Reader) (st : LoadState) (line : String) :
    loadLine O rd st line =
      match acceptedRecord rd line with
      | some r => addRecord O st r
      | none => st := by
  unfold loadLine acceptedRecord
  by_cases hskip : (line.isEmpty || decide (line.get 0 = '#')) = true
  · rw [if_pos hskip, if_pos hskip]
  · rw [if_neg hskip, if_neg hskip]
    cases hp : DataLoader.parseLine rd line with
    | none => rfl
    | some rec =>
      obtain ⟨a, b, x, y⟩ := rec
      by_cases hpos : 0 < x ∧ 0 < y
      · simp only [if_pos hpos]
        rfl
      · simp only [if_neg hpos]

theorem loadLines_fold (O : HashOrder) (rd : Reader) :
    ∀ (lines : List String) (st : LoadState),
      lines.foldl (loadLine O rd) st = (acceptedRecords rd lines).foldl (addRecord O) st
  | [], _ => rfl
  | line :: rest, st => by
    rw [List.foldl_cons, loadLines_fold O rd rest, loadLine_eq]
    unfold acceptedRecords
    cases hr : acceptedRecord rd line with
    | none => simp [List.filterMap_cons, hr]
    | some r => simp [List.filterMap_cons, hr]

theorem loadLines_records (O : HashOrder) (rd : Reader) (lines : List String) :
    loadLines O rd lines = (acceptedRecords rd lines).foldl (addRecord O)
      { graph := Graph.empty, distances := [], times := [], lastEdgeCount := 0 } :=
  loadLines_fold O rd lines _

theorem hasNode_of_edge {g : Graph} (hb : g.Built) {u : Int} {e : Edge}
    (he : e ∈ g.getAdjacentEdges u) : g.hasNode u = true := by
  apply hb.keysKnown u
  intro hnone
  unfold Graph.getAdjacentEdges at he
  rw [hnone] at he
  exact absurd he (List.not_mem_nil _)

/-! ## The three-edge scenario -/

theorem addRecord_tables (O : HashOrder) (st : LoadState) (a b : Int) (x y : ℚ)
    (hT : TablesOK st.distances st.times) (hx : 0 < x) (hy : 0 < y) :
    TablesOK (addRecord O st (a, b, x, y)).distances (addRecord O st (a, b, x, y)).times ∧
    (∀ k, mapFind (addRecord O st (a, b, x, y)).distances k =
      if k = (a, b) ∨ k = (b, a) then some x else mapFind st.distances k) ∧
    (∀ k, mapFind (addRecord O st (a, b, x, y)).times k =
      if k = (a, b) ∨ k = (b, a) then some y else mapFind st.times k) :=
  ⟨hT.assign2 O a b x y hx hy, fun k => mapFind_assign2 O _ a b x k hT.d_nodup,
   fun k => mapFind_assign2 O _ a b y k hT.t_nodup⟩

theorem threeRecords_tables (O : HashOrder) :
    TablesOK
      (threeRecords.foldl (addRecord O)
        { graph := Graph.empty, distances := [], times := [], lastEdgeCount := 0 }).distances
      (threeRecords.foldl (addRecord O)
        { graph := Graph.empty, distances := [], times := [], lastEdgeCount := 0 }).times ∧
    (∀ k, mapFind (threeRecords.foldl (addRecord O)
        { graph := Graph.empty, distances := [], times := [], lastEdgeCount := 0 }).distances k =
      (threeValues k).map Prod.fst) ∧
    (∀ k, mapFind (threeRecords.foldl (addRecord O)
        { graph := Graph.empty, distances := [], times := [], lastEdgeCount := 0 }).times k =
      (threeValues k).map Prod.snd) := by
  obtain ⟨hT1, hd1, ht1⟩ := addRecord_tables O
    { graph := Graph.empty, distances := [], times := [], lastEdgeCount := 0 } 1 2 4 10
    TablesOK.nil (by norm_num) (by norm_num)
  obtain ⟨hT2, hd2, ht2⟩ := addRecord_tables O _ 2 5 6 5 hT1 (by norm_num) (by norm_num)
  obtain ⟨hT3, hd3, ht3⟩ := addRecord_tables O _ 1 5 15 3 hT2 (by norm_num) (by norm_num)
  refine ⟨hT3, ?_, ?_⟩
  · intro k
    show mapFind (addRecord O (addRecord O (addRecord O _ (1, 2, 4, 10)) (2, 5, 6, 5))
      (1, 5, 15, 3)).distances k = _
    rw [hd3 k, hd2 k, hd1 k]
    unfold threeValues
    by_cases h1 : k = (1, 5) ∨ k = (5, 1)
    · simp [h1]
    · by_cases h2 : k = (2, 5) ∨ k = (5, 2)
      · simp [h1, h2]
      · by_cases h3 : k = (1, 2) ∨ k = (2, 1)
        · simp [h1, h2, h3]
        · simp [h1, h2, h3, mapFind]
  · intro k
    show mapFind (addRecord O (addRecord O (addRecord O _ (1, 2, 4, 10)) (2, 5, 6, 5))
      (1, 5, 15, 3)).times k = _
    rw [ht3 k, ht2 k, ht1 k]
    unfold threeValues
    by_cases h1 : k = (1, 5) ∨ k = (5, 1)
    · simp [h1]
    · by_cases h2 : k = (2, 5) ∨ k = (5, 2)
      · simp [h1, h2]
      · by_cases h3 : k = (1, 2) ∨ k = (2, 1)
        · simp [h1, h2, h3]
        · simp [h1, h2, h3, mapFind]

theorem threeValues_cases (u v : Int) (p : ℚ × ℚ) (h : threeValues (u, v) = some p) :
    (u = 1 ∧ v = 5 ∧ p = (15, 3)) ∨ (u = 5 ∧ v = 1 ∧ p = (15, 3)) ∨
    (u = 2 ∧ v = 5 ∧ p = (6, 5)) ∨ (u = 5 ∧ v = 2 ∧ p = (6, 5)) ∨
    (u = 1 ∧ v = 2 ∧ p = (4, 10)) ∨ (u = 2 ∧ v = 1 ∧ p = (4, 10)) := by
  unfold threeValues at h
  by_cases h1 : (u, v) = (1, 5) ∨ (u, v) = (5, 1)
  · rw [if_pos h1] at h
    cases h
    simp only [Prod.mk.injEq] at h1
    rcases h1 with ⟨a, b⟩ | ⟨a, b⟩
    · exact Or.inl ⟨a, b, rfl⟩
    · exact Or.inr (Or.inl ⟨a, b, rfl⟩)
  · rw [if_neg h1] at h
    by_cases h2 : (u, v) = (2, 5) ∨ (u, v) = (5, 2)
    · rw [if_pos h2] at h
      cases h
      simp only [Prod.mk.injEq] at h2
      rcases h2 with ⟨a, b⟩ | ⟨a, b⟩
      · exact Or.inr (Or.inr (Or.inl ⟨a, b, rfl⟩))
      · exact Or.inr (Or.inr (Or.inr (Or.inl ⟨a, b, rfl⟩)))
    · rw [if_neg h2] at h
      by_cases h3 : (u, v) = (1, 2) ∨ (u, v) = (2, 1)
      · rw [if_pos h3] at h
        cases h
        simp only [Prod.mk.injEq] at h3
        rcases h3 with ⟨a, b⟩ | ⟨a, b⟩
        · exact Or.inr (Or.inr (Or.inr (Or.inr (Or.inl ⟨a, b, rfl⟩))))
        · exact Or.inr (Or.inr (Or.inr (Or.inr (Or.inr ⟨a, b, rfl⟩))))
      · rw [if_neg h3] at h
        exact Option.noConfusion h

/-- The graph rebuilt from tables that hold `threeValues`: its entries. -/
theorem threeEdge_adj (O : HashOrder) (d t : PairMap) (k : PathStrategy) (hT : TablesOK d t)
    (hd : ∀ key, mapFind d key = (threeValues key).map Prod.fst)
    (ht : ∀ key, mapFind t key = (threeValues key).map Prod.snd) :
    (rebuiltGraph O d t k).Built ∧
    ∀ u e, e ∈ (rebuiltGraph O d t k).getAdjacentEdges u ↔
      ∃ p, threeValues (u, e.dst) = some p ∧ e.weight = strategyWeight k p.1 p.2 := by
  obtain ⟨hb, hadj⟩ := rebuiltGraph_spec O d t k hT
  refine ⟨hb, ?_⟩
  intro u e
  rw [hadj u e, hd, ht]
  constructor
  · rintro ⟨x, y, hx, hy, hw⟩
    cases hv : threeValues (u, e.dst) with
    | none => rw [hv] at hx; exact Option.noConfusion hx
    | some p =>
      rw [hv] at hx hy
      simp only [Option.map_some', Option.some.injEq] at hx hy
      refine ⟨p, rfl, ?_⟩
      rw [hw, hx, hy]
  · rintro ⟨p, hp, hw⟩
    exact ⟨p.1, p.2, by rw [hp]; rfl, by rw [hp]; rfl, hw⟩

theorem walk_first {g : Graph} {a b : Int} {es : List Edge} (hw : IsWalk g a es b)
    (hne : a ≠ b) :
    ∃ e rest, es = e :: rest ∧ e ∈ g.getAdjacentEdges a ∧ IsWalk g e.dst rest b ∧
      walkWeight es = e.weight + walkWeight rest := by
  cases es with
  | nil => exact absurd hw hne
  | cons e rest => exact ⟨e, rest, rfl, hw.1, hw.2, walkWeight_cons e rest⟩

theorem walk_nil_of_weight {g : Graph} (hpos : ∀ u, ∀ e ∈ g.getAdjacentEdges u, 0 < e.weight)
    {a b : Int} {es : List Edge} (hw : IsWalk g a es b) (hle : walkWeight es ≤ 0) :
    es = [] := by
  cases es with
  | nil => rfl
  | cons e rest =>
    exfalso
    have hnn : g.NonNeg := fun u f hf => le_of_lt (hpos u f hf)
    have h1 := hpos a e hw.1
    have h2 := walkWeight_nonneg hnn hw.2
    rw [walkWeight_cons] at hle
    linarith

theorem dijkstra_unique_walk (H : MinHeap) (g : Graph) (a b : Int) (es0 : List Edge)
    (hg : g.NonNeg) (ha : g.hasNode a = true) (hb : g.hasNode b = true)
    (hw0 : IsWalk g a es0 b) (hlt : walkWeight es0 < DBL_MAX)
    (huniq : ∀ es, IsWalk g a es b → walkWeight es ≤ walkWeight es0 → es = es0) :
    dijkstra H g a b = some { path := a :: es0.map Edge.dst, totalWeight := walkWeight es0,
                              found := true, elapsedMicroseconds := 0 } := by
  obtain ⟨r, hr, hf⟩ := dijkstra_complete H g a b hg ha hb es0 hw0 hlt
  obtain ⟨r2, hr2, hel, _, hfound⟩ := dijkstra_result H g a b
  rw [hr] at hr2
  cases hr2
  obtain ⟨_, _, es, hw, hpath, hwt, _⟩ := hfound hf
  have hopt := dijkstra_optimal H g a b hg r hr hf es0 hw0
  have hes : es = es0 := huniq es hw (by rw [hwt]; exact hopt)
  rw [hr]
  cases r
  simp only [PathResult.mk.injEq, Option.some.injEq]
  simp only at hf hel hpath hwt
  rw [hes] at hpath hwt
  exact ⟨hpath, hwt.symm, hf, hel⟩

theorem threeEdge_mem {g : Graph} {k : PathStrategy}
    (hadj : ∀ u e, e ∈ g.getAdjacentEdges u ↔
      ∃ p, threeValues (u, e.dst) = some p ∧ e.weight = strategyWeight k p.1 p.2)
    (u : Int) (e : Edge) (he : e ∈ g.getAdjacentEdges u) :
    (u = 1 ∧ e = ⟨5, strategyWeight k 15 3⟩) ∨ (u = 5 ∧ e = ⟨1, strategyWeight k 15 3⟩) ∨
    (u = 2 ∧ e = ⟨5, strategyWeight k 6 5⟩) ∨ (u = 5 ∧ e = ⟨2, strategyWeight k 6 5⟩) ∨
    (u = 1 ∧ e = ⟨2, strategyWeight k 4 10⟩) ∨ (u = 2 ∧ e = ⟨1, strategyWeight k 4 10⟩) := by
  obtain ⟨p, hp, hw⟩ := (hadj u e).1 he
  obtain ⟨d, w⟩ := e
  simp only at hp hw
  rcases threeValues_cases u d p hp with ⟨h1, h2, h3⟩ | ⟨h1, h2, h3⟩ | ⟨h1, h2, h3⟩ |
    ⟨h1, h2, h3⟩ | ⟨h1, h2, h3⟩ | ⟨h1, h2, h3⟩
  · subst h1 h2 h3
    exact Or.inl ⟨rfl, by rw [hw]⟩
  · subst h1 h2 h3
    exact Or.inr (Or.inl ⟨rfl, by rw [hw]⟩)
  · subst h1 h2 h3
    exact Or.inr (Or.inr (Or.inl ⟨rfl, by rw [hw]⟩))
  · subst h1 h2 h3
    exact Or.inr (Or.inr (Or.inr (Or.inl ⟨rfl, by rw [hw]⟩)))
  · subst h1 h2 h3
    exact Or.inr (Or.inr (Or.inr (Or.inr (Or.inl ⟨rfl, by rw [hw]⟩))))
  · subst h1 h2 h3
    exact Or.inr (Or.inr (Or.inr (Or.inr (Or.inr ⟨rfl, by rw [hw]⟩))))

theorem threeEdge_has {g : Graph} {k : PathStrategy}
    (hadj : ∀ u e, e ∈ g.getAdjacentEdges u ↔
      ∃ p, threeValues (u, e.dst) = some p ∧ e.weight = strategyWeight k p.1 p.2)
    (u v : Int) (p : ℚ × ℚ) (hp : threeValues (u, v) = some p) :
    (⟨v, strategyWeight k p.1 p.2⟩ : Edge) ∈ g.getAdjacentEdges u :=
  (hadj u ⟨v, strategyWeight k p.1 p.2⟩).2 ⟨p, hp, rfl⟩

theorem threeEdge_pos {g : Graph} {k : PathStrategy}
    (hadj : ∀ u e, e ∈ g.getAdjacentEdges u ↔
      ∃ p, threeValues (u, e.dst) = some p ∧ e.weight = strategyWeight k p.1 p.2) :
    ∀ u, ∀ e ∈ g.getAdjacentEdges u, 0 < e.weight := by
  intro u e he
  rcases threeEdge_mem hadj u e he with ⟨_, h⟩ | ⟨_, h⟩ | ⟨_, h⟩ | ⟨_, h⟩ | ⟨_, h⟩ | ⟨_, h⟩ <;>
    (rw [h]; cases k <;> simp [strategyWeight])

theorem threeEdge_distance (H : MinHeap) (g : Graph) (hb : g.Built)
    (hadj : ∀ u e, e ∈ g.getAdjacentEdges u ↔
      ∃ p, threeValues (u, e.dst) = some p ∧
        e.weight = strategyWeight PathStrategy.SHORTEST_DISTANCE p.1 p.2) :
    dijkstra H g 1 5 = some { path := [1, 2, 5], totalWeight := 10, found := true,
                              elapsedMicroseconds := 0 } := by
  have hpos := threeEdge_pos hadj
  have hnn : g.NonNeg := fun u e he => le_of_lt (hpos u e he)
  have h12 : (⟨2, 4⟩ : Edge) ∈ g.getAdjacentEdges 1 :=
    threeEdge_has hadj 1 2 (4, 10) (by simp [threeValues])
  have h25 : (⟨5, 6⟩ : Edge) ∈ g.getAdjacentEdges 2 :=
    threeEdge_has hadj 2 5 (6, 5) (by simp [threeValues])
  have h52 : (⟨2, 6⟩ : Edge) ∈ g.getAdjacentEdges 5 :=
    threeEdge_has hadj 5 2 (6, 5) (by simp [threeValues])
  have hw0 : IsWalk g 1 [⟨2, 4⟩, ⟨5, 6⟩] 5 := ⟨h12, h25, rfl⟩
  have hwt0 : walkWeight [(⟨2, 4⟩ : Edge), ⟨5, 6⟩] = 10 := by
    simp [walkWeight]; norm_num
  have hres := dijkstra_unique_walk H g 1 5 [⟨2, 4⟩, ⟨5, 6⟩] hnn (hasNode_of_edge hb h12)
    (hasNode_of_edge hb h52) hw0 (by rw [hwt0]; unfold DBL_MAX; norm_num) ?_
  · rw [hres, hwt0]
    rfl
  · intro es hw hle
    rw [hwt0] at hle
    obtain ⟨e1, r1, rfl, he1, hw1, hW1⟩ := walk_first hw (by decide)
    have hr1 := walkWeight_nonneg hnn hw1
    rw [hW1] at hle
    rcases threeEdge_mem hadj 1 e1 he1 with ⟨_, h⟩ | ⟨hu, _⟩ | ⟨hu, _⟩ | ⟨hu, _⟩ | ⟨_, h⟩ |
      ⟨hu, _⟩
    · subst h
      simp only [strategyWeight] at hle
      linarith
    · exact absurd hu (by decide)
    · exact absurd hu (by decide)
    · exact absurd hu (by decide)
    · subst h
      simp only [strategyWeight] at hle hw1
      obtain ⟨e2, r2, rfl, he2, hw2, hW2⟩ := walk_first hw1 (by decide)
      have hr2 := walkWeight_nonneg hnn hw2
      rw [hW2] at hle
      rcases threeEdge_mem hadj 2 e2 he2 with ⟨hu, _⟩ | ⟨hu, _⟩ | ⟨_, h⟩ | ⟨hu, _⟩ |
        ⟨hu, _⟩ | ⟨_, h⟩
      · exact absurd hu (by decide)
      · exact absurd hu (by decide)
      · subst h
        simp only [strategyWeight] at hle hw2
        have hnil := walk_nil_of_weight hpos hw2 (by linarith)
        rw [hnil]
        rfl
      · exact absurd hu (by decide)
      · exact absurd hu (by decide)
      · subst h
        simp only [strategyWeight] at hle hw2
        obtain ⟨e3, r3, rfl, he3, hw3, hW3⟩ := walk_first hw2 (by decide)
        have hr3 := walkWeight_nonneg hnn hw3
        rw [hW3] at hle
        exfalso
        rcases threeEdge_mem hadj 1 e3 he3 with ⟨_, h⟩ | ⟨hu, _⟩ | ⟨hu, _⟩ | ⟨hu, _⟩ |
          ⟨_, h⟩ | ⟨hu, _⟩
        · subst h
          simp only [strategyWeight] at hle
          linarith
        · exact absurd hu (by decide)
        · exact absurd hu (by decide)
        · exact absurd hu (by decide)
        · subst h
          simp only [strategyWeight] at hle
          linarith
        · exact absurd hu (by decide)
    · exact absurd hu (by decide)

theorem threeEdge_time (H : MinHeap) (g : Graph) (hb : g.Built)
    (hadj : ∀ u e, e ∈ g.getAdjacentEdges u ↔
      ∃ p, threeValues (u, e.dst) = some p ∧
        e.weight = strategyWeight PathStrategy.LEAST_TIME p.1 p.2) :
    dijkstra H g 1 5 = some { path := [1, 5], totalWeight := 3, found := true,
                              elapsedMicroseconds := 0 } := by
  have hpos := threeEdge_pos hadj
  have hnn : g.NonNeg := fun u e he => le_of_lt (hpos u e he)
  have h15 : (⟨5, 3⟩ : Edge) ∈ g.getAdjacentEdges 1 :=
    threeEdge_has hadj 1 5 (15, 3) (by simp [threeValues])
  have h51 : (⟨1, 3⟩ : Edge) ∈ g.getAdjacentEdges 5 :=
    threeEdge_has hadj 5 1 (15, 3) (by simp [threeValues])
  have hw0 : IsWalk g 1 [⟨5, 3⟩] 5 := ⟨h15, rfl⟩
  have hwt0 : walkWeight [(⟨5, 3⟩ : Edge)] = 3 := by
    simp [walkWeight]
  have hres := dijkstra_unique_walk H g 1 5 [⟨5, 3⟩] hnn (hasNode_of_edge hb h15)
    (hasNode_of_edge hb h51) hw0 (by rw [hwt0]; unfold DBL_MAX; norm_num) ?_
  · rw [hres, hwt0]
    rfl
  · intro es hw hle
    rw [hwt0] at hle
    obtain ⟨e1, r1, rfl, he1, hw1, hW1⟩ := walk_first hw (by decide)
    have hr1 := walkWeight_nonneg hnn hw1
    rw [hW1] at hle
    rcases threeEdge_mem hadj 1 e1 he1 with ⟨_, h⟩ | ⟨hu, _⟩ | ⟨hu, _⟩ | ⟨hu, _⟩ | ⟨_, h⟩ |
      ⟨hu, _⟩
    · subst h
      simp only [strategyWeight] at hle hw1
      have hnil := walk_nil_of_weight hpos hw1 (by linarith)
      rw [hnil]
      rfl
    · exact absurd hu (by decide)
    · exact absurd hu (by decide)
    · exact absurd hu (by decide)
    · subst h
      simp only [strategyWeight] at hle
      linarith
    · exact absurd hu (by decide)

theorem engine_query (E : MapEngine) (O : HashOrder) (H : MinHeap) (k : PathStrategy)
    (elapsed : Int) (r : PathResult) (pf : PathFinder)
    (hT : TablesOK E.distances_ E.times_)
    (hd : ∀ key, mapFind E.distances_ key = (threeValues key).map Prod.fst)
    (ht : ∀ key, mapFind E.times_ key = (threeValues key).map Prod.snd)
    (hp : E.pathFinder_ = some pf)
    (hg : E.graph_ = rebuiltGraph O E.distances_ E.times_ k)
    (hq : ∀ g : Graph, g.Built →
      (∀ u e, e ∈ g.getAdjacentEdges u ↔
        ∃ p, threeValues (u, e.dst) = some p ∧ e.weight = strategyWeight k p.1 p.2) →
      dijkstra H g 1 5 = some r) :
    E.findPath H elapsed 1 5 = some { r with elapsedMicroseconds := elapsed } := by
  obtain ⟨hb, hadj⟩ := threeEdge_adj O E.distances_ E.times_ k hT hd ht
  rw [← hg] at hb hadj
  rw [engine_findPath_eq E pf H elapsed 1 5 hp]
  exact findPath_eq pf H E.graph_ elapsed 1 5 r (hq E.graph_ hb hadj)

/-- C10 (three-edge scenario): after loading a file whose accepted records are exactly
`(1,2,d=4,t=10)`, `(2,5,d=6,t=5)`, `(1,5,d=15,t=3)`, the load succeeds; under the
distance strategy `findPath(1,5)` is found with path `[1,2,5]` and total weight 10
(after `setStrategy(SHORTEST_DISTANCE)`, and also right after the load when the engine
was already in that strategy); and after `setStrategy(LEAST_TIME)` it is found with
path `[1,5]` and total weight 3. -/
theorem three_edge_scenario (O : HashOrder) (rd : Reader) (H : MinHeap) (E0 : MapEngine)
    (filename : String) (lines : List String) (e1 e2 : Int)
    (hopen : rd.openFile filename = some lines)
    (hrecs : acceptedRecords rd lines = threeRecords) :
    (E0.loadMap O rd filename).1 = true ∧
    ((E0.loadMap O rd filename).2.setStrategy O PathStrategy.SHORTEST_DISTANCE).findPath
        H e1 1 5 =
      some { path := [1, 2, 5], totalWeight := 10, found := true,
             elapsedMicroseconds := e1 } ∧
    (((E0.loadMap O rd filename).2.setStrategy O PathStrategy.SHORTEST_DISTANCE).setStrategy
        O PathStrategy.LEAST_TIME).findPath H e2 1 5 =
      some { path := [1, 5], totalWeight := 3, found := true, elapsedMicroseconds := e2 } ∧
    (E0.currentStrategy_ = PathStrategy.SHORTEST_DISTANCE →
      (E0.loadMap O rd filename).2.findPath H e1 1 5 =
        some { path := [1, 2, 5], totalWeight := 10, found := true,
               elapsedMicroseconds := e1 }) := by
  obtain ⟨hok, hd, ht, hc, _, hp, hg⟩ := loadMap_fields O rd E0 filename lines hopen
  have hrec := loadLines_records O rd lines
  rw [hrecs] at hrec
  obtain ⟨hT, hD, hTm⟩ := threeRecords_tables O
  rw [← hrec, ← hd, ← ht] at hT
  rw [← hrec, ← hd] at hD
  rw [← hrec, ← ht] at hTm
  obtain ⟨s1, s2, _, _, s5, s6⟩ := setStrategy_spec O (E0.loadMap O rd filename).2
    PathStrategy.SHORTEST_DISTANCE hT
  have hT2 : TablesOK
      ((E0.loadMap O rd filename).2.setStrategy O PathStrategy.SHORTEST_DISTANCE).distances_
      ((E0.loadMap O rd filename).2.setStrategy O PathStrategy.SHORTEST_DISTANCE).times_ := by
    rw [s1, s2]; exact hT
  obtain ⟨t1, t2, _, _, t5, t6⟩ := setStrategy_spec O
    ((E0.loadMap O rd filename).2.setStrategy O PathStrategy.SHORTEST_DISTANCE)
    PathStrategy.LEAST_TIME hT2
  refine ⟨hok, ?_, ?_, ?_⟩
  · exact engine_query _ O H PathStrategy.SHORTEST_DISTANCE e1 _ _ hT2
      (by rw [s1]; exact hD) (by rw [s2]; exact hTm) s5 (by rw [s6, s1, s2])
      (fun g hb hadj => threeEdge_distance H g hb hadj)
  · have hT3 : TablesOK
        (((E0.loadMap O rd filename).2.setStrategy O PathStrategy.SHORTEST_DISTANCE).setStrategy
          O PathStrategy.LEAST_TIME).distances_
        (((E0.loadMap O rd filename).2.setStrategy O PathStrategy.SHORTEST_DISTANCE).setStrategy
          O PathStrategy.LEAST_TIME).times_ := by
      rw [t1, t2]; exact hT2
    exact engine_query _ O H PathStrategy.LEAST_TIME e2 _ _ hT3
      (by rw [t1, s1]; exact hD) (by rw [t2, s2]; exact hTm) t5 (by rw [t6, t1, t2])
      (fun g hb hadj => threeEdge_time H g hb hadj)
  · intro hs
    exact engine_query _ O H PathStrategy.SHORTEST_DISTANCE e1 _ _ hT hD hTm hp
      (by rw [hg, hd, ht, hs])
      (fun g hb hadj => threeEdge_distance H g hb hadj)

theorem sampleReader_records :
    acceptedRecords sampleReader ["# sample", "a", "b", "", "c", "junk"] = threeRecords := by
  simp [acceptedRecords, acceptedRecord, sampleReader, DataLoader.parseLine, threeRecords]
  decide

theorem three_edge_scenario_witness :
    sampleReader.openFile "map" = some ["# sample", "a", "b", "", "c", "junk"] ∧
    acceptedRecords sampleReader ["# sample", "a", "b", "", "c", "junk"] = threeRecords ∧
    ((MapEngine.new.loadMap appendOrder sampleReader "map").1 = true ∧
    ((MapEngine.new.loadMap appendOrder sampleReader "map").2.setStrategy appendOrder
        PathStrategy.SHORTEST_DISTANCE).findPath listHeap 7 1 5 =
      some { path := [1, 2, 5], totalWeight := 10, found := true,
             elapsedMicroseconds := 7 } ∧
    (((MapEngine.new.loadMap appendOrder sampleReader "map").2.setStrategy appendOrder
        PathStrategy.SHORTEST_DISTANCE).setStrategy appendOrder
        PathStrategy.LEAST_TIME).findPath listHeap 9 1 5 =
      some { path := [1, 5], totalWeight := 3, found := true, elapsedMicroseconds := 9 } ∧
    (MapEngine.new.currentStrategy_ = PathStrategy.SHORTEST_DISTANCE →
      (MapEngine.new.loadMap appendOrder sampleReader "map").2.findPath listHeap 7 1 5 =
        some { path := [1, 2, 5], totalWeight := 10, found := true,
               elapsedMicroseconds := 7 })) :=
  ⟨by simp [sampleReader], sampleReader_records,
   three_edge_scenario appendOrder sampleReader listHeap MapEngine.new "map"
     ["# sample", "a", "b", "", "c", "junk"] 7 9 (by simp [sampleReader])
     sampleReader_records⟩


/-! ## Load failure and reload -/

theorem findPath_unknown_src (pf : PathFinder) (H : MinHeap) (g : Graph)
    (elapsed src dst : Int) (h : g.hasNode src = false) :
    pf.findPath H g elapsed src dst =
      some { path := [], totalWeight := 0, found := false, elapsedMicroseconds := elapsed } := by
  simp [PathFinder.findPath, dijkstra, h, PathResult.init]

theorem engine_findPath_empty (E : MapEngine) (H : MinHeap) (elapsed a b : Int)
    (hg : E.graph_ = Graph.empty) :
    ∃ r, E.findPath H elapsed a b = some r ∧ r.found = false ∧ r.path = [] ∧
      r.totalWeight = 0 := by
  cases hp : E.pathFinder_ with
  | none =>
    refine ⟨{ PathResult.init with found := false }, ?_, rfl, rfl, rfl⟩
    simp [MapEngine.findPath, hp]
  | some pf =>
    refine ⟨{ path := [], totalWeight := 0, found := false, elapsedMicroseconds := elapsed },
      ?_, rfl, rfl, rfl⟩
    rw [engine_findPath_eq E pf H elapsed a b hp, hg]
    exact findPath_unknown_src pf H Graph.empty elapsed a b rfl

theorem loadMap_flag (O : HashOrder) (rd : Reader) (E0 : MapEngine) (filename : String) :
    (E0.loadMap O rd filename).1 = (rd.openFile filename).isSome := by
  cases hopen : rd.openFile filename with
  | none => rw [loadMap_fail O rd E0 filename hopen]; rfl
  | some lines => exact (loadMap_fields O rd E0 filename lines hopen).1

/-- C14 (load failure leaves no graph installed): when `loadMap` reports failure, from
whatever engine state it was called, the engine afterwards has node count 0, edge count
0 and empty distance and time tables, every `findPath` returns with `found = false`,
and the active strategy (the selector and the strategy object of the path finder) is
the one from before the call. -/
theorem loadMap_failure_clears (O : HashOrder) (rd : Reader) (E0 : MapEngine)
    (filename : String) (hfail : (E0.loadMap O rd filename).1 = false) :
    (E0.loadMap O rd filename).2.getNodeCount = 0 ∧
    (E0.loadMap O rd filename).2.getEdgeCount = 0 ∧
    (E0.loadMap O rd filename).2.distances_ = [] ∧
    (E0.loadMap O rd filename).2.times_ = [] ∧
    (∀ (H : MinHeap) (elapsed a b : Int), ∃ r,
      (E0.loadMap O rd filename).2.findPath H elapsed a b = some r ∧ r.found = false ∧
        r.path = [] ∧ r.totalWeight = 0) ∧
    (E0.loadMap O rd filename).2.currentStrategy_ = E0.currentStrategy_ ∧
    (E0.loadMap O rd filename).2.getCurrentStrategyName = E0.getCurrentStrategyName := by
  have hopen : rd.openFile filename = none := by
    rw [loadMap_flag] at hfail
    cases h : rd.openFile filename with
    | none => rfl
    | some l => rw [h] at hfail; exact Bool.noConfusion hfail
  rw [loadMap_fail O rd E0 filename hopen]
  refine ⟨rfl, rfl, rfl, rfl, ?_, rfl, rfl⟩
  intro H elapsed a b
  exact engine_findPath_empty _ H elapsed a b rfl

set_option maxRecDepth 10000 in
theorem loadMap_failure_clears_witness :
    (sampleEngine.loadMap appendOrder sampleReader "missing").1 = false ∧
    sampleEngine.getEdgeCount = 3 ∧
    (sampleEngine.loadMap appendOrder sampleReader "missing").2.getNodeCount = 0 ∧
    (sampleEngine.loadMap appendOrder sampleReader "missing").2.getEdgeCount = 0 ∧
    (sampleEngine.loadMap appendOrder sampleReader "missing").2.distances_ = [] ∧
    (sampleEngine.loadMap appendOrder sampleReader "missing").2.times_ = [] ∧
    (∀ (H : MinHeap) (elapsed a b : Int), ∃ r,
      (sampleEngine.loadMap appendOrder sampleReader "missing").2.findPath H elapsed a b
        = some r ∧ r.found = false ∧ r.path = [] ∧ r.totalWeight = 0) ∧
    (sampleEngine.loadMap appendOrder sampleReader "missing").2.currentStrategy_ =
      sampleEngine.currentStrategy_ ∧
    (sampleEngine.loadMap appendOrder sampleReader "missing").2.getCurrentStrategyName =
      sampleEngine.getCurrentStrategyName :=
  ⟨by rw [loadMap_flag]; simp [sampleReader],
   by with_unfolding_all decide,
   loadMap_failure_clears appendOrder sampleReader sampleEngine "missing"
     (by rw [loadMap_flag]; simp [sampleReader])⟩

theorem loadMap_reload (O : HashOrder) (rd : Reader) (E0 : MapEngine) (filename : String) :
    (E0.loadMap O rd filename).2.loadMap O rd filename = E0.loadMap O rd filename := by
  cases hopen : rd.openFile filename with
  | none =>
    rw [loadMap_fail O rd E0 filename hopen, loadMap_fail O rd _ filename hopen]
  | some lines =>
    obtain ⟨a1, a2, a3, a4, a5, a6, a7⟩ := loadMap_fields O rd E0 filename lines hopen
    obtain ⟨b1, b2, b3, b4, b5, b6, b7⟩ :=
      loadMap_fields O rd (E0.loadMap O rd filename).2 filename lines hopen
    refine Prod.ext (by rw [a1, b1]) ?_
    apply MapEngine.eq_of_fields
    · rw [b7, a7, a4]
    · rw [b6, a6, a4]
    · rw [b5, a5]
    · rw [b2, a2]
    · rw [b3, a3]
    · rw [b4, a4]

/-! ## The tables across a strategy switch -/

theorem rebuildStep_times_fixed (O : HashOrder) (strategy : PathStrategy) (st : RebuildState)
    (p : (Int × Int) × ℚ) (h : (mapFind st.times p.1).isSome = true) :
    (rebuildStep O strategy st p).times = st.times := by
  obtain ⟨y, hy⟩ := Option.isSome_iff_exists.1 h
  have hidx := index_of_find O st.times p.1 y hy
  unfold rebuildStep
  simp only [hidx]
  split
  · rfl
  · split <;> split <;> rfl

theorem rebuildFold_times_fixed (O : HashOrder) (strategy : PathStrategy) :
    ∀ (l : List ((Int × Int) × ℚ)) (st : RebuildState),
      (∀ p ∈ l, (mapFind st.times p.1).isSome = true) →
      (l.foldl (rebuildStep O strategy) st).times = st.times
  | [], _, _ => rfl
  | p :: l, st, h => by
    have h1 := rebuildStep_times_fixed O strategy st p (h p (List.mem_cons_self _ _))
    rw [List.foldl_cons,
      rebuildFold_times_fixed O strategy l (rebuildStep O strategy st p) (by
        intro q hq
        rw [h1]
        exact h q (List.mem_cons_of_mem _ hq)), h1]

theorem mapFind_isSome_of_mem {K V : Type} [DecidableEq K] (m : List (K × V)) (p : K × V)
    (h : p ∈ m) : (mapFind m p.1).isSome = true := by
  cases hf : mapFind m p.1 with
  | some v => rfl
  | none =>
    exact absurd (List.mem_map.2 ⟨p, h, rfl⟩) ((mapFind_none_iff m p.1).1 hf)

/-- C20 (the weight tables persist across strategy switches): in every engine state
whose distance and time tables have the same key set, `setStrategy(kind)` leaves both
tables exactly as they were (the same entries in the same order) for every kind, and
the loader statistics as well; what changes is the graph, the path finder and the
active strategy, which becomes `kind`. -/
theorem setStrategy_keeps_tables (O : HashOrder) (E : MapEngine) (kind : PathStrategy)
    (hkeys : ∀ k, (mapFind E.distances_ k).isSome = (mapFind E.times_ k).isSome) :
    (E.setStrategy O kind).distances_ = E.distances_ ∧
    (E.setStrategy O kind).times_ = E.times_ ∧
    (E.setStrategy O kind).dataLoader_ = E.dataLoader_ ∧
    (E.setStrategy O kind).currentStrategy_ = kind ∧
    (E.setStrategy O kind).pathFinder_ =
      some (PathFinder.new.setStrategy (some (strategyImpl kind))) := by
  refine ⟨rfl, ?_, rfl, rfl, rfl⟩
  show (E.distances_.foldl (rebuildStep O kind)
    { graph := E.graph_.clear, times := E.times_, addedEdges := [] }).times = E.times_
  rw [rebuildFold_times_fixed O kind E.distances_ _ (by
    intro p hp
    show (mapFind E.times_ p.1).isSome = true
    rw [← hkeys]
    exact mapFind_isSome_of_mem E.distances_ p hp)]

theorem setStrategy_keeps_tables_witness :
    (∀ k, (mapFind sampleEngine.distances_ k).isSome =
      (mapFind sampleEngine.times_ k).isSome) ∧
    (sampleEngine.setStrategy appendOrder PathStrategy.LEAST_TIME).distances_ =
      sampleEngine.distances_ ∧
    (sampleEngine.setStrategy appendOrder PathStrategy.LEAST_TIME).times_ =
      sampleEngine.times_ ∧
    (sampleEngine.setStrategy appendOrder PathStrategy.LEAST_TIME).dataLoader_ =
      sampleEngine.dataLoader_ ∧
    (sampleEngine.setStrategy appendOrder PathStrategy.LEAST_TIME).currentStrategy_ =
      PathStrategy.LEAST_TIME ∧
    (sampleEngine.setStrategy appendOrder PathStrategy.LEAST_TIME).pathFinder_ =
      some (PathFinder.new.setStrategy (some (strategyImpl PathStrategy.LEAST_TIME))) :=
  ⟨(loaded_spec sampleEngine_loaded).1.same_keys,
   setStrategy_keeps_tables appendOrder sampleEngine PathStrategy.LEAST_TIME
     (loaded_spec sampleEngine_loaded).1.same_keys⟩


/-! ## The contract of `addEdge` -/

theorem length_mapSet {K V : Type} [DecidableEq K] (m : List (K × V)) (k : K) (v : V) :
    (mapSet m k v).length = m.length + (if (mapFind m k).isSome then 0 else 1) := by
  induction m with
  | nil => simp [mapSet, mapFind]
  | cons p rest ih =>
    obtain ⟨k0, v0⟩ := p
    by_cases h0 : k0 = k
    · simp [mapSet, mapFind, h0]
    · simp only [mapSet, mapFind, if_neg h0, List.length_cons, ih]
      omega

theorem getNodeCount_addNode (g : Graph) (nodeId : Int) :
    (g.addNode nodeId).getNodeCount =
      g.getNodeCount + (if g.hasNode nodeId then 0 else 1) := by
  unfold Graph.addNode
  by_cases h : g.hasNode nodeId = true
  · simp [h]
  · rw [if_neg h]
    show (mapSet g.nodes_ nodeId true).length = _
    rw [length_mapSet]
    rfl

theorem getNodeCount_addEdge (g : Graph) (a b : Int) (w : ℚ) :
    (g.addEdge a b w).getNodeCount =
      g.getNodeCount + (if g.hasNode a then 0 else 1) +
        (if g.hasNode b = true ∨ b = a then 0 else 1) := by
  show ((g.addNode a).addNode b).getNodeCount = _
  rw [getNodeCount_addNode, getNodeCount_addNode, hasNode_addNode]
  by_cases hb : g.hasNode b = true
  · simp [hb]
  · by_cases hab : a = b
    · simp [hab]
    · have hba : ¬ b = a := fun e => hab e.symm
      simp [hb, hab, hba]

/-- C17 (the contract of `addEdge`): for every graph made through the public interface
and every `a`, `b`, `w`, after `addEdge(a,b,w)` both endpoints are known nodes and no
other node has become known; for `a ≠ b` the adjacency list of `a` is its old list
followed by `(b,w)` and that of `b` its old list followed by `(a,w)`; for `a = b` the
one list is the old list followed by `(a,w)` twice; all other adjacency lists are
unchanged; the edge count has grown by exactly 1, and the node count by the number of
distinct endpoints that were unknown before. -/
theorem addEdge_contract (g : Graph) (hb : g.Built) (a b : Int) (w : ℚ) :
    (g.addEdge a b w).hasNode a = true ∧
    (g.addEdge a b w).hasNode b = true ∧
    (∀ x, x ≠ a → x ≠ b → (g.addEdge a b w).hasNode x = g.hasNode x) ∧
    (a ≠ b →
      (g.addEdge a b w).getAdjacentEdges a = g.getAdjacentEdges a ++ [⟨b, w⟩] ∧
      (g.addEdge a b w).getAdjacentEdges b = g.getAdjacentEdges b ++ [⟨a, w⟩]) ∧
    (a = b →
      (g.addEdge a b w).getAdjacentEdges a = g.getAdjacentEdges a ++ [⟨a, w⟩, ⟨a, w⟩]) ∧
    (∀ x, x ≠ a → x ≠ b → (g.addEdge a b w).getAdjacentEdges x = g.getAdjacentEdges x) ∧
    (g.addEdge a b w).getEdgeCount = g.getEdgeCount + 1 ∧
    (g.addEdge a b w).getNodeCount =
      g.getNodeCount + (if g.hasNode a then 0 else 1) +
        (if g.hasNode b = true ∨ b = a then 0 else 1) := by
  have hk := hb.keysKnown
  refine ⟨?_, ?_, ?_, ?_, ?_, ?_, ?_, getNodeCount_addEdge g a b w⟩
  · rw [hasNode_addEdge]; simp
  · rw [hasNode_addEdge]; simp
  · intro x hxa hxb
    have h1 : ¬ a = x := fun e => hxa e.symm
    have h2 : ¬ b = x := fun e => hxb e.symm
    rw [hasNode_addEdge]; simp [h1, h2]
  · intro hab
    have hba : ¬ b = a := fun e => hab e.symm
    rw [getAdjacentEdges_addEdge_known hk, getAdjacentEdges_addEdge_known hk]
    simp [hab, hba]
  · intro hab
    subst hab
    rw [getAdjacentEdges_addEdge_known hk]
    simp
  · intro x hxa hxb
    have h1 : ¬ a = x := fun e => hxa e.symm
    have h2 : ¬ b = x := fun e => hxb e.symm
    rw [getAdjacentEdges_addEdge_known hk]
    simp [h1, h2]
  · show ((g.addNode a).addNode b).edgeCount_ + 1 = g.edgeCount_ + 1
    have hn : ∀ (g1 : Graph) (x : Int), (g1.addNode x).edgeCount_ = g1.edgeCount_ := by
      intro g1 x
      unfold Graph.addNode
      split <;> rfl
    rw [hn, hn]

theorem addEdge_contract_witness :
    sampleGraph.Built ∧
    (sampleGraph.addEdge 5 9 (7 / 2)).hasNode 5 = true ∧
    (sampleGraph.addEdge 5 9 (7 / 2)).hasNode 9 = true ∧
    (∀ x, x ≠ 5 → x ≠ 9 →
      (sampleGraph.addEdge 5 9 (7 / 2)).hasNode x = sampleGraph.hasNode x) ∧
    ((5 : Int) ≠ 9 →
      (sampleGraph.addEdge 5 9 (7 / 2)).getAdjacentEdges 5 =
        sampleGraph.getAdjacentEdges 5 ++ [⟨9, 7 / 2⟩] ∧
      (sampleGraph.addEdge 5 9 (7 / 2)).getAdjacentEdges 9 =
        sampleGraph.getAdjacentEdges 9 ++ [⟨5, 7 / 2⟩]) ∧
    ((5 : Int) = 9 →
      (sampleGraph.addEdge 5 9 (7 / 2)).getAdjacentEdges 5 =
        sampleGraph.getAdjacentEdges 5 ++ [⟨5, 7 / 2⟩, ⟨5, 7 / 2⟩]) ∧
    (∀ x, x ≠ 5 → x ≠ 9 →
      (sampleGraph.addEdge 5 9 (7 / 2)).getAdjacentEdges x =
        sampleGraph.getAdjacentEdges x) ∧
    (sampleGraph.addEdge 5 9 (7 / 2)).getEdgeCount = sampleGraph.getEdgeCount + 1 ∧
    (sampleGraph.addEdge 5 9 (7 / 2)).getNodeCount =
      sampleGraph.getNodeCount + (if sampleGraph.hasNode 5 then 0 else 1) +
        (if sampleGraph.hasNode 9 = true ∨ (9 : Int) = 5 then 0 else 1) :=
  ⟨sampleGraph_built, addEdge_contract sampleGraph sampleGraph_built 5 9 (7 / 2)⟩


/-! ## The cycle scenario -/

theorem cycleRecords_tables (O : HashOrder) :
    TablesOK
      (cycleRecords.foldl (addRecord O)
        { graph := Graph.empty, distances := [], times := [], lastEdgeCount := 0 }).distances
      (cycleRecords.foldl (addRecord O)
        { graph := Graph.empty, distances := [], times := [], lastEdgeCount := 0 }).times ∧
    (∀ k, mapFind (cycleRecords.foldl (addRecord O)
        { graph := Graph.empty, distances := [], times := [], lastEdgeCount := 0 }).distances k =
      cycleValues k) ∧
    (∀ k, mapFind (cycleRecords.foldl (addRecord O)
        { graph := Graph.empty, distances := [], times := [], lastEdgeCount := 0 }).times k =
      cycleValues k) := by
  obtain ⟨hT1, hd1, ht1⟩ := addRecord_tables O
    { graph := Graph.empty, distances := [], times := [], lastEdgeCount := 0 } 5 6 1 1
    TablesOK.nil (by norm_num) (by norm_num)
  obtain ⟨hT2, hd2, ht2⟩ := addRecord_tables O _ 6 7 1 1 hT1 (by norm_num) (by norm_num)
  obtain ⟨hT3, hd3, ht3⟩ := addRecord_tables O _ 7 5 1 1 hT2 (by norm_num) (by norm_num)
  obtain ⟨hT4, hd4, ht4⟩ := addRecord_tables O _ 5 7 5 5 hT3 (by norm_num) (by norm_num)
  have hval : ∀ k : Int × Int,
      (if k = (5, 7) ∨ k = (7, 5) then some (5 : ℚ)
       else if k = (7, 5) ∨ k = (5, 7) then some 1
       else if k = (6, 7) ∨ k = (7, 6) then some 1
       else if k = (5, 6) ∨ k = (6, 5) then some 1
       else mapFind ([] : PairMap) k) = cycleValues k := by
    intro k
    unfold cycleValues
    by_cases h1 : k = (5, 7) ∨ k = (7, 5)
    · simp [h1]
    · have h1r : ¬ (k = (7, 5) ∨ k = (5, 7)) := fun h => h1 h.symm
      by_cases h2 : k = (6, 7) ∨ k = (7, 6)
      · simp [h1, h1r, h2]
      · by_cases h3 : k = (5, 6) ∨ k = (6, 5)
        · simp [h1, h1r, h2, h3]
        · simp [h1, h1r, h2, h3, mapFind]
  refine ⟨hT4, ?_, ?_⟩
  · intro k
    show mapFind (addRecord O (addRecord O (addRecord O (addRecord O _ (5, 6, 1, 1))
      (6, 7, 1, 1)) (7, 5, 1, 1)) (5, 7, 5, 5)).distances k = _
    rw [hd4 k, hd3 k, hd2 k, hd1 k]
    exact hval k
  · intro k
    show mapFind (addRecord O (addRecord O (addRecord O (addRecord O _ (5, 6, 1, 1))
      (6, 7, 1, 1)) (7, 5, 1, 1)) (5, 7, 5, 5)).times k = _
    rw [ht4 k, ht3 k, ht2 k, ht1 k]
    exact hval k

theorem strategyWeight_same (k : PathStrategy) (x : ℚ) : strategyWeight k x x = x := by
  cases k <;> rfl

/-- The graph rebuilt from tables that hold `cycleValues`: its entries. -/
theorem cycle_adj (O : HashOrder) (d t : PairMap) (k : PathStrategy) (hT : TablesOK d t)
    (hd : ∀ key, mapFind d key = cycleValues key)
    (ht : ∀ key, mapFind t key = cycleValues key) :
    (rebuiltGraph O d t k).Built ∧
    ∀ u e, e ∈ (rebuiltGraph O d t k).getAdjacentEdges u ↔
      cycleValues (u, e.dst) = some e.weight := by
  obtain ⟨hb, hadj⟩ := rebuiltGraph_spec O d t k hT
  refine ⟨hb, ?_⟩
  intro u e
  rw [hadj u e, hd, ht]
  constructor
  · rintro ⟨x, y, hx, hy, hw⟩
    rw [hx] at hy
    cases hy
    rw [hw, strategyWeight_same, hx]
  · intro h
    exact ⟨e.weight, e.weight, h, h, (strategyWeight_same k _).symm⟩

theorem cycle_mem {g : Graph}
    (hadj : ∀ u e, e ∈ g.getAdjacentEdges u ↔ cycleValues (u, e.dst) = some e.weight)
    (u : Int) (e : Edge) (he : e ∈ g.getAdjacentEdges u) :
    (u = 5 ∧ e = ⟨7, 5⟩) ∨ (u = 7 ∧ e = ⟨5, 5⟩) ∨ (u = 6 ∧ e = ⟨7, 1⟩) ∨
    (u = 7 ∧ e = ⟨6, 1⟩) ∨ (u = 5 ∧ e = ⟨6, 1⟩) ∨ (u = 6 ∧ e = ⟨5, 1⟩) := by
  have h := (hadj u e).1 he
  obtain ⟨v, w⟩ := e
  simp only at h
  unfold cycleValues at h
  by_cases h1 : (u, v) = (5, 7) ∨ (u, v) = (7, 5)
  · rw [if_pos h1] at h
    cases h
    simp only [Prod.mk.injEq] at h1
    rcases h1 with ⟨a, b⟩ | ⟨a, b⟩
    · subst a b; exact Or.inl ⟨rfl, rfl⟩
    · subst a b; exact Or.inr (Or.inl ⟨rfl, rfl⟩)
  · rw [if_neg h1] at h
    by_cases h2 : (u, v) = (6, 7) ∨ (u, v) = (7, 6)
    · rw [if_pos h2] at h
      cases h
      simp only [Prod.mk.injEq] at h2
      rcases h2 with ⟨a, b⟩ | ⟨a, b⟩
      · subst a b; exact Or.inr (Or.inr (Or.inl ⟨rfl, rfl⟩))
      · subst a b; exact Or.inr (Or.inr (Or.inr (Or.inl ⟨rfl, rfl⟩)))
    · rw [if_neg h2] at h
      by_cases h3 : (u, v) = (5, 6) ∨ (u, v) = (6, 5)
      · rw [if_pos h3] at h
        cases h
        simp only [Prod.mk.injEq] at h3
        rcases h3 with ⟨a, b⟩ | ⟨a, b⟩
        · subst a b; exact Or.inr (Or.inr (Or.inr (Or.inr (Or.inl ⟨rfl, rfl⟩))))
        · subst a b; exact Or.inr (Or.inr (Or.inr (Or.inr (Or.inr ⟨rfl, rfl⟩))))
      · rw [if_neg h3] at h
        exact Option.noConfusion h


theorem cycle_search (H : MinHeap) (g : Graph) (hb : g.Built)
    (hadj : ∀ u e, e ∈ g.getAdjacentEdges u ↔ cycleValues (u, e.dst) = some e.weight) :
    dijkstra H g 5 7 = some { path := [5, 6, 7], totalWeight := 2, found := true,
                              elapsedMicroseconds := 0 } := by
  have hpos : ∀ u, ∀ e ∈ g.getAdjacentEdges u, 0 < e.weight := by
    intro u e he
    rcases cycle_mem hadj u e he with ⟨_, h⟩ | ⟨_, h⟩ | ⟨_, h⟩ | ⟨_, h⟩ | ⟨_, h⟩ | ⟨_, h⟩ <;>
      (rw [h]; norm_num)
  have hnn : g.NonNeg := fun u e he => le_of_lt (hpos u e he)
  have h56 : (⟨6, 1⟩ : Edge) ∈ g.getAdjacentEdges 5 :=
    (hadj 5 ⟨6, 1⟩).2 (by simp [cycleValues])
  have h67 : (⟨7, 1⟩ : Edge) ∈ g.getAdjacentEdges 6 :=
    (hadj 6 ⟨7, 1⟩).2 (by simp [cycleValues])
  have h76 : (⟨6, 1⟩ : Edge) ∈ g.getAdjacentEdges 7 :=
    (hadj 7 ⟨6, 1⟩).2 (by simp [cycleValues])
  have hw0 : IsWalk g 5 [⟨6, 1⟩, ⟨7, 1⟩] 7 := ⟨h56, h67, rfl⟩
  have hwt0 : walkWeight [(⟨6, 1⟩ : Edge), ⟨7, 1⟩] = 2 := by
    simp [walkWeight]; norm_num
  have hres := dijkstra_unique_walk H g 5 7 [⟨6, 1⟩, ⟨7, 1⟩] hnn (hasNode_of_edge hb h56)
    (hasNode_of_edge hb h76) hw0 (by rw [hwt0]; unfold DBL_MAX; norm_num) ?_
  · rw [hres, hwt0]
    rfl
  · intro es hw hle
    rw [hwt0] at hle
    obtain ⟨e1, r1, rfl, he1, hw1, hW1⟩ := walk_first hw (by decide)
    have hr1 := walkWeight_nonneg hnn hw1
    rw [hW1] at hle
    rcases cycle_mem hadj 5 e1 he1 with ⟨_, h⟩ | ⟨hu, _⟩ | ⟨hu, _⟩ | ⟨hu, _⟩ | ⟨_, h⟩ |
      ⟨hu, _⟩
    · subst h
      simp only at hle
      linarith
    · exact absurd hu (by decide)
    · exact absurd hu (by decide)
    · exact absurd hu (by decide)
    · subst h
      simp only at hle hw1
      obtain ⟨e2, r2, rfl, he2, hw2, hW2⟩ := walk_first hw1 (by decide)
      have hr2 := walkWeight_nonneg hnn hw2
      rw [hW2] at hle
      rcases cycle_mem hadj 6 e2 he2 with ⟨hu, _⟩ | ⟨hu, _⟩ | ⟨_, h⟩ | ⟨hu, _⟩ |
        ⟨hu, _⟩ | ⟨_, h⟩
      · exact absurd hu (by decide)
      · exact absurd hu (by decide)
      · subst h
        simp only at hle hw2
        have hnil := walk_nil_of_weight hpos hw2 (by linarith)
        rw [hnil]
      · exact absurd hu (by decide)
      · exact absurd hu (by decide)
      · subst h
        simp only at hle hw2
        have hnil := walk_nil_of_weight hpos hw2 (by linarith)
        rw [hnil] at hw2
        have h57 : (5 : Int) = 7 := hw2
        exact absurd h57 (by decide)
    · exact absurd hu (by decide)

theorem cycle_query (E : MapEngine) (O : HashOrder) (H : MinHeap) (k : PathStrategy)
    (elapsed : Int) (pf : PathFinder)
    (hT : TablesOK E.distances_ E.times_)
    (hd : ∀ key, mapFind E.distances_ key = cycleValues key)
    (ht : ∀ key, mapFind E.times_ key = cycleValues key)
    (hp : E.pathFinder_ = some pf)
    (hg : E.graph_ = rebuiltGraph O E.distances_ E.times_ k) :
    E.findPath H elapsed 5 7 =
      some { path := [5, 6, 7], totalWeight := 2, found := true,
             elapsedMicroseconds := elapsed } := by
  obtain ⟨hb, hadj⟩ := cycle_adj O E.distances_ E.times_ k hT hd ht
  rw [← hg] at hb hadj
  rw [engine_findPath_eq E pf H elapsed 5 7 hp]
  exact findPath_eq pf H E.graph_ elapsed 5 7 _ (cycle_search H E.graph_ hb hadj)

/-- C11 (cycle scenario): after loading a file whose accepted records are, in this
order, `(5,6,1,1)`, `(6,7,1,1)`, `(7,5,1,1)`, `(5,7,5,5)`, the load succeeds and
`findPath(5,7)` returns with `found = true`, path `[5,6,7]` and total weight 2 (not the
direct edge, which the last record has given the weight 5), whatever strategy the
engine is in, also after any `setStrategy`. -/
theorem cycle_scenario (O : HashOrder) (rd : Reader) (H : MinHeap) (E0 : MapEngine)
    (filename : String) (lines : List String) (e1 e2 : Int)
    (hopen : rd.openFile filename = some lines)
    (hrecs : acceptedRecords rd lines = cycleRecords) :
    (E0.loadMap O rd filename).1 = true ∧
    (E0.loadMap O rd filename).2.findPath H e1 5 7 =
      some { path := [5, 6, 7], totalWeight := 2, found := true,
             elapsedMicroseconds := e1 } ∧
    ∀ k : PathStrategy,
      ((E0.loadMap O rd filename).2.setStrategy O k).findPath H e2 5 7 =
        some { path := [5, 6, 7], totalWeight := 2, found := true,
               elapsedMicroseconds := e2 } := by
  obtain ⟨hok, hd, ht, hc, _, hp, hg⟩ := loadMap_fields O rd E0 filename lines hopen
  have hrec := loadLines_records O rd lines
  rw [hrecs] at hrec
  obtain ⟨hT, hD, hTm⟩ := cycleRecords_tables O
  rw [← hrec, ← hd, ← ht] at hT
  rw [← hrec, ← hd] at hD
  rw [← hrec, ← ht] at hTm
  refine ⟨hok, ?_, ?_⟩
  · exact cycle_query _ O H E0.currentStrategy_ e1 _ hT hD hTm hp (by rw [hg, hd, ht])
  · intro k
    obtain ⟨s1, s2, _, _, s5, s6⟩ := setStrategy_spec O (E0.loadMap O rd filename).2 k hT
    have hT2 : TablesOK ((E0.loadMap O rd filename).2.setStrategy O k).distances_
        ((E0.loadMap O rd filename).2.setStrategy O k).times_ := by
      rw [s1, s2]; exact hT
    exact cycle_query _ O H k e2 _ hT2 (by rw [s1]; exact hD) (by rw [s2]; exact hTm) s5
      (by rw [s6, s1, s2])

theorem cycleReader_records :
    acceptedRecords cycleReader ["e1", "e2", "e3", "e4"] = cycleRecords := by
  simp [acceptedRecords, acceptedRecord, cycleReader, DataLoader.parseLine, cycleRecords]
  decide

theorem cycle_scenario_witness :
    cycleReader.openFile "cycle" = some ["e1", "e2", "e3", "e4"] ∧
    acceptedRecords cycleReader ["e1", "e2", "e3", "e4"] = cycleRecords ∧
    ((MapEngine.new.loadMap appendOrder cycleReader "cycle").1 = true ∧
    (MapEngine.new.loadMap appendOrder cycleReader "cycle").2.findPath listHeap 3 5 7 =
      some { path := [5, 6, 7], totalWeight := 2, found := true,
             elapsedMicroseconds := 3 } ∧
    ∀ k : PathStrategy,
      ((MapEngine.new.loadMap appendOrder cycleReader "cycle").2.setStrategy appendOrder
          k).findPath listHeap 4 5 7 =
        some { path := [5, 6, 7], totalWeight := 2, found := true,
               elapsedMicroseconds := 4 }) :=
  ⟨by simp [cycleReader], cycleReader_records,
   cycle_scenario appendOrder cycleReader listHeap MapEngine.new "cycle"
     ["e1", "e2", "e3", "e4"] 3 4 (by simp [cycleReader]) cycleReader_records⟩


/-! ## Isolated nodes and the rebuilt graph -/

theorem isIsolated_false_of_edges (g : Graph) (x : Int)
    (h : g.hasNode x = true → g.getAdjacentEdges x ≠ []) : g.isIsolated x = false := by
  unfold Graph.isIsolated
  by_cases hx : g.hasNode x = true
  · have hne := h hx
    unfold Graph.getAdjacentEdges at hne
    cases hf : mapFind g.adjacencyList_ x with
    | none => rw [hf] at hne; exact absurd rfl hne
    | some es =>
      rw [hf] at hne
      cases es with
      | nil => exact absurd rfl hne
      | cons e rest => simp [hx]
  · simp [hx]

theorem rebuildStep_graph (O : HashOrder) (strategy : PathStrategy) (st : RebuildState)
    (p : (Int × Int) × ℚ) :
    (rebuildStep O strategy st p).graph = st.graph ∨
    ∃ w, (rebuildStep O strategy st p).graph = st.graph.addEdge p.1.1 p.1.2 w := by
  unfold rebuildStep
  simp only
  split
  · exact Or.inl rfl
  · split
    · split
      · exact Or.inl rfl
      · exact Or.inr ⟨_, rfl⟩
    · split
      · exact Or.inl rfl
      · exact Or.inr ⟨_, rfl⟩

theorem rebuildFold_no_isolated (O : HashOrder) (strategy : PathStrategy) :
    ∀ (l : List ((Int × Int) × ℚ)) (st : RebuildState),
      st.graph.KeysKnown →
      (∀ x, st.graph.hasNode x = true → st.graph.getAdjacentEdges x ≠ []) →
      ∀ x, (l.foldl (rebuildStep O strategy) st).graph.hasNode x = true →
        (l.foldl (rebuildStep O strategy) st).graph.getAdjacentEdges x ≠ []
  | [], _, _, h => h
  | p :: l, st, hk, h => by
    rw [List.foldl_cons]
    rcases rebuildStep_graph O strategy st p with heq | ⟨w, heq⟩
    · exact rebuildFold_no_isolated O strategy l _ (by rw [heq]; exact hk)
        (by rw [heq]; exact h)
    · refine rebuildFold_no_isolated O strategy l _
        (by rw [heq]; exact keysKnown_addEdge hk _ _ _) ?_
      rw [heq]
      intro x hx
      rw [hasNode_addEdge] at hx
      rw [getAdjacentEdges_addEdge_known hk]
      by_cases ha : p.1.1 = x
      · simp [ha]
      · by_cases hb : p.1.2 = x
        · simp [hb]
        · have hx2 : st.graph.hasNode x = true := by simpa [ha, hb] using hx
          simpa [ha, hb] using h x hx2

theorem rebuilt_no_isolated (O : HashOrder) (d t : PairMap) (k : PathStrategy) (x : Int) :
    (rebuiltGraph O d t k).isIsolated x = false := by
  apply isIsolated_false_of_edges
  exact rebuildFold_no_isolated O k d
    { graph := Graph.empty, times := t, addedEdges := [] }
    (fun u hu => absurd rfl hu) (fun y hy => Bool.noConfusion hy) x

/-- No node of a loaded engine is isolated: the nodes of its graph are the endpoints of
the edges entered by `rebuildGraphWeights`. -/
theorem loaded_no_isolated {O : HashOrder} {rd : Reader} {E : MapEngine}
    (hL : MapEngine.Loaded O rd E) (x : Int) : E.isIsolated x = false := by
  unfold MapEngine.isIsolated
  rw [(loaded_spec hL).2.2]
  exact rebuilt_no_isolated O _ _ _ x

set_option maxRecDepth 10000 in
/-- C12 (isolated-node scenario), evaluated on the engine that has loaded the sample
file, in which node 8 appears in no record: the node is not entered in the graph, so
`isIsolated(8)` is false and `findPath(8,8)` is not-found with an empty path, where the
scenario expects an isolated node and the path `[8]`; `findPath(8,1)` is not-found. -/
theorem isolated_node_scenario_fails :
    acceptedRecords sampleReader ["# sample", "a", "b", "", "c", "junk"] =
      [(1, 2, 4, 10), (2, 5, 6, 5), (1, 5, 15, 3)] ∧
    sampleEngine.graph_.hasNode 8 = false ∧
    sampleEngine.isIsolated 8 = false ∧
    sampleEngine.findPath listHeap 0 8 8 =
      some { path := [], totalWeight := 0, found := false, elapsedMicroseconds := 0 } ∧
    sampleEngine.findPath listHeap 0 8 1 =
      some { path := [], totalWeight := 0, found := false, elapsedMicroseconds := 0 } := by
  have hn : sampleEngine.graph_.hasNode 8 = false := by with_unfolding_all decide
  have hp := (loaded_spec sampleEngine_loaded).2.1
  refine ⟨sampleReader_records, hn, loaded_no_isolated sampleEngine_loaded 8, ?_, ?_⟩
  · rw [engine_findPath_eq sampleEngine _ listHeap 0 8 8 hp]
    exact findPath_unknown_src _ listHeap _ 0 8 8 hn
  · rw [engine_findPath_eq sampleEngine _ listHeap 0 8 1 hp]
    exact findPath_unknown_src _ listHeap _ 0 8 1 hn


/-! ## The rebuild enters each unordered pair once -/

theorem canonKey_eq_iff (a b p q : Int) :
    canonKey (a, b) = canonKey (p, q) ↔ (a = p ∧ b = q) ∨ (a = q ∧ b = p) := by
  unfold canonKey
  simp only
  split <;> split <;> simp only [Prod.mk.injEq] <;> constructor <;> intro h <;> omega

theorem entriesFor_addEdge {g : Graph} (h : g.KeysKnown) (p q : Int) (w : ℚ) (a b : Int) :
    entriesFor (g.addEdge p q w) a b =
      entriesFor g a b ++ (if p = a ∧ q = b then [(⟨q, w⟩ : Edge)] else []) ++
        (if q = a ∧ p = b then [(⟨p, w⟩ : Edge)] else []) := by
  unfold entriesFor
  rw [getAdjacentEdges_addEdge_known h, List.filter_append, List.filter_append]
  congr 1
  · congr 1
    by_cases hp : p = a
    · by_cases hq : q = b
      · simp [hp, hq]
      · simp [hp, hq]
    · simp [hp]
  · by_cases hq : q = a
    · by_cases hp : p = b
      · simp [hp, hq]
      · simp [hp, hq]
    · simp [hq]


theorem getEdgeCount_addEdge (g : Graph) (a b : Int) (w : ℚ) :
    (g.addEdge a b w).getEdgeCount = g.getEdgeCount + 1 := by
  show ((g.addNode a).addNode b).edgeCount_ + 1 = g.edgeCount_ + 1
  have hn : ∀ (g1 : Graph) (x : Int), (g1.addNode x).edgeCount_ = g1.edgeCount_ := by
    intro g1 x
    unfold Graph.addNode
    split <;> rfl
  rw [hn, hn]

theorem rebuildStep_count (O : HashOrder) {d t : PairMap} {strategy : PathStrategy}
    {st : RebuildState} (hT : TablesOK d t) (hI : RCount d t strategy st)
    (a b : Int) (x : ℚ) (hmemd : ((a, b), x) ∈ d) :
    RCount d t strategy (rebuildStep O strategy st ((a, b), x)) := by
  have hk : mapFind d (a, b) = some x := mapFind_of_mem d hT.d_nodup _ _ hmemd
  have hx : 0 < x := hT.d_pos _ _ hk
  obtain ⟨y, hy⟩ : ∃ y, mapFind t (a, b) = some y := by
    have := hT.same_keys (a, b)
    rw [hk] at this
    cases hf : mapFind t (a, b) with
    | none => rw [hf] at this; exact Bool.noConfusion this
    | some y => exact ⟨y, rfl⟩
  have hypos : 0 < y := hT.t_pos _ _ hy
  have hidx : O.index st.times (a, b) = (y, st.times) := by
    apply index_of_find
    rw [hI.times_eq]
    exact hy
  have hcond : ¬ (x ≤ 0 ∨ y ≤ 0) := by
    intro h
    rcases h with h | h
    · exact absurd hx (not_lt.2 h)
    · exact absurd hypos (not_lt.2 h)
  by_cases hmem : canonKey (a, b) ∈ st.addedEdges
  · have hmem1 : (if a < b then (a, b) else (b, a)) ∈ st.addedEdges := hmem
    have hE : rebuildStep O strategy st ((a, b), x) = st := by
      simp only [rebuildStep, hidx, if_neg hcond, if_pos hmem1]
    rw [hE]
    exact hI
  · have hmem1 : ¬ (if a < b then (a, b) else (b, a)) ∈ st.addedEdges := hmem
    have hE : rebuildStep O strategy st ((a, b), x) =
        { graph := st.graph.addEdge a b (strategyWeight strategy x y),
          times := st.times,
          addedEdges := canonKey (a, b) :: st.addedEdges } := by
      simp only [rebuildStep, hidx, if_neg hcond, if_neg hmem1]
      rfl
    rw [hE]
    have hent := entriesFor_addEdge hI.known a b (strategyWeight strategy x y)
    have hxb : mapFind d (b, a) = some x := by rw [← hT.d_symm a b]; exact hk
    have hyb : mapFind t (b, a) = some y := by rw [← hT.t_symm a b]; exact hy
    refine ⟨hI.times_eq, keysKnown_addEdge hI.known _ _ _, ?_,
      List.nodup_cons.2 ⟨hmem, hI.nodup⟩, ?_, ?_, ?_⟩
    · show (st.graph.addEdge a b (strategyWeight strategy x y)).getEdgeCount =
        (canonKey (a, b) :: st.addedEdges).length
      rw [getEdgeCount_addEdge, hI.count, List.length_cons]
    · intro k hkm
      rcases List.mem_cons.1 hkm with heq | hold
      · rw [heq]
        exact List.mem_map.2 ⟨((a, b), x), hmemd, rfl⟩
      · exact hI.sub k hold
    · intro p q hpq
      have hne : canonKey (p, q) ≠ canonKey (a, b) := fun e =>
        hpq (by rw [e]; exact List.mem_cons_self _ _)
      have hold : canonKey (p, q) ∉ st.addedEdges := fun h =>
        hpq (List.mem_cons_of_mem _ h)
      have h1 : ¬ (a = p ∧ b = q) := fun h =>
        hne ((canonKey_eq_iff p q a b).2 (Or.inl ⟨h.1.symm, h.2.symm⟩))
      have h2 : ¬ (b = p ∧ a = q) := fun h =>
        hne ((canonKey_eq_iff p q a b).2 (Or.inr ⟨h.1.symm, h.2.symm⟩))
      show entriesFor (st.graph.addEdge a b (strategyWeight strategy x y)) p q = []
      rw [hent p q, hI.absent p q hold, if_neg h1, if_neg h2]
      rfl
    · intro p q x1 y1 hpq hx1 hy1
      show entriesFor (st.graph.addEdge a b (strategyWeight strategy x y)) p q = _
      rw [hent p q]
      by_cases hc : canonKey (p, q) = canonKey (a, b)
      · have hold : canonKey (p, q) ∉ st.addedEdges := by rw [hc]; exact hmem
        rw [hI.absent p q hold]
        rcases (canonKey_eq_iff p q a b).1 hc with ⟨hpa, hqb⟩ | ⟨hpb, hqa⟩
        · subst hpa hqb
          rw [hk] at hx1
          rw [hy] at hy1
          cases hx1
          cases hy1
          by_cases hpq2 : p = q
          · subst hpq2
            simp
          · have hqp : ¬ q = p := fun e => hpq2 e.symm
            simp [hpq2, hqp]
        · subst hpb hqa
          rw [hxb] at hx1
          rw [hyb] at hy1
          cases hx1
          cases hy1
          by_cases hpq2 : p = q
          · subst hpq2
            simp
          · have hqp : ¬ q = p := fun e => hpq2 e.symm
            simp [hpq2, hqp]
      · have hold : canonKey (p, q) ∈ st.addedEdges := by
          rcases List.mem_cons.1 hpq with h | h
          · exact absurd h hc
          · exact h
        have h1 : ¬ (a = p ∧ b = q) := fun h =>
          hc ((canonKey_eq_iff p q a b).2 (Or.inl ⟨h.1.symm, h.2.symm⟩))
        have h2 : ¬ (b = p ∧ a = q) := fun h =>
          hc ((canonKey_eq_iff p q a b).2 (Or.inr ⟨h.1.symm, h.2.symm⟩))
        rw [hI.once p q x1 y1 hold hx1 hy1, if_neg h1, if_neg h2]
        simp

theorem rebuildFold_count (O : HashOrder) {d t : PairMap} {strategy : PathStrategy}
    (hT : TablesOK d t) :
    ∀ (l : PairMap) (st : RebuildState), (∀ p ∈ l, p ∈ d) → RCount d t strategy st →
      RCount d t strategy (l.foldl (rebuildStep O strategy) st)
  | [], _, _, hI => hI
  | p :: rest, st, hl, hI => by
    obtain ⟨⟨a, b⟩, x⟩ := p
    exact rebuildFold_count O hT rest _ (fun q hq => hl q (List.mem_cons_of_mem _ hq))
      (rebuildStep_count O hT hI a b x (hl _ (List.mem_cons_self _ _)))


theorem rebuild_count (O : HashOrder) (d t : PairMap) (k : PathStrategy) (g0 : Graph)
    (hT : TablesOK d t) :
    RCount d t k (d.foldl (rebuildStep O k)
      { graph := g0.clear, times := t, addedEdges := [] }) ∧
    ∀ p ∈ d, canonKey p.1 ∈ (d.foldl (rebuildStep O k)
      { graph := g0.clear, times := t, addedEdges := [] }).addedEdges := by
  have hC0 : RCount d t k { graph := g0.clear, times := t, addedEdges := [] } :=
    ⟨rfl, fun u hu => absurd rfl hu, rfl, List.nodup_nil,
     fun _ h => absurd h (List.not_mem_nil _), fun _ _ _ => rfl,
     fun _ _ _ _ h => absurd h (List.not_mem_nil _)⟩
  have hI0 : RInv d t k { graph := g0.clear, times := t, addedEdges := [] } :=
    ⟨rfl, Graph.Built.empty, fun u e he => absurd he (List.not_mem_nil _),
     fun p q h => absurd h (List.not_mem_nil _)⟩
  obtain ⟨_, hall, _⟩ := rebuildFold_spec O hT d _
    (fun p hp => mapFind_of_mem d hT.d_nodup p.1 p.2 hp) hI0
  exact ⟨rebuildFold_count O hT d _ (fun _ h => h) hC0, fun p hp => hall p hp⟩

theorem length_eq_unorderedPairs (d : PairMap) (l : List (Int × Int)) (hnd : l.Nodup)
    (hsub : ∀ k ∈ l, k ∈ d.map (fun p => canonKey p.1))
    (hall : ∀ p ∈ d, canonKey p.1 ∈ l) : l.length = (unorderedPairs d).length := by
  apply List.Perm.length_eq
  apply (List.perm_ext_iff_of_nodup hnd (List.nodup_dedup _)).2
  intro k
  rw [List.mem_dedup]
  constructor
  · exact hsub k
  · intro h
    obtain ⟨p, hp, hpk⟩ := List.mem_map.1 h
    rw [← hpk]
    exact hall p hp

/-- C15 (the rebuild enters each unordered pair exactly once): for tables that hold
both directions of every pair with equal, strictly positive distance and time, after
`rebuildGraphWeights` the edge count is the number of distinct unordered pairs of the
table; for every stored pair `(a,b)` the adjacency list of `a` has exactly one entry
for `b` and that of `b` exactly one for `a` (two entries on `a` when `a = b`), of
weight `strategyWeight` of the stored distance and time, which is the distance under
`SHORTEST_DISTANCE` and the time under `LEAST_TIME`; and a pair that is not stored has
no entry. -/
theorem rebuild_once_per_pair (O : HashOrder) (E : MapEngine)
    (hT : TablesOK E.distances_ E.times_) :
    (E.rebuildGraphWeights O).getEdgeCount = (unorderedPairs E.distances_).length ∧
    (∀ a b x y, mapFind E.distances_ (a, b) = some x → mapFind E.times_ (a, b) = some y →
      entriesFor (E.rebuildGraphWeights O).graph_ a b =
        (if a = b then [⟨b, strategyWeight E.currentStrategy_ x y⟩,
                        ⟨b, strategyWeight E.currentStrategy_ x y⟩]
         else [⟨b, strategyWeight E.currentStrategy_ x y⟩]) ∧
      entriesFor (E.rebuildGraphWeights O).graph_ b a =
        (if a = b then [⟨a, strategyWeight E.currentStrategy_ x y⟩,
                        ⟨a, strategyWeight E.currentStrategy_ x y⟩]
         else [⟨a, strategyWeight E.currentStrategy_ x y⟩])) ∧
    (∀ a b, mapFind E.distances_ (a, b) = none →
      entriesFor (E.rebuildGraphWeights O).graph_ a b = []) ∧
    (∀ x y : ℚ, strategyWeight PathStrategy.SHORTEST_DISTANCE x y = x ∧
      strategyWeight PathStrategy.LEAST_TIME x y = y) := by
  obtain ⟨hC, hall⟩ := rebuild_count O E.distances_ E.times_ E.currentStrategy_ E.graph_ hT
  refine ⟨?_, ?_, ?_, fun _ _ => ⟨rfl, rfl⟩⟩
  · show (E.distances_.foldl (rebuildStep O E.currentStrategy_)
      { graph := E.graph_.clear, times := E.times_, addedEdges := [] }).graph.getEdgeCount = _
    rw [hC.count]
    exact length_eq_unorderedPairs _ _ hC.nodup hC.sub hall
  · intro a b x y hx hy
    have hxb : mapFind E.distances_ (b, a) = some x := by rw [← hT.d_symm a b]; exact hx
    have hyb : mapFind E.times_ (b, a) = some y := by rw [← hT.t_symm a b]; exact hy
    have h1 := hC.once a b x y (hall _ (mem_of_mapFind _ _ _ hx)) hx hy
    have h2 := hC.once b a x y (hall _ (mem_of_mapFind _ _ _ hxb)) hxb hyb
    refine ⟨h1, ?_⟩
    show entriesFor (E.distances_.foldl (rebuildStep O E.currentStrategy_)
      { graph := E.graph_.clear, times := E.times_, addedEdges := [] }).graph b a = _
    rw [h2]
    by_cases hab : a = b
    · have hba : b = a := hab.symm
      simp [hab]
    · have hba : ¬ b = a := fun e => hab e.symm
      simp [hab, hba]
  · intro a b hnone
    apply hC.absent
    intro hmem
    obtain ⟨p, hp, hpk⟩ := List.mem_map.1 (hC.sub _ hmem)
    obtain ⟨⟨u, v⟩, x⟩ := p
    have hfind : mapFind E.distances_ (u, v) = some x :=
      mapFind_of_mem _ hT.d_nodup _ _ hp
    rcases (canonKey_eq_iff u v a b).1 hpk with ⟨h1, h2⟩ | ⟨h1, h2⟩
    · subst h1 h2
      rw [hnone] at hfind
      exact Option.noConfusion hfind
    · subst h1 h2
      rw [hT.d_symm, hnone] at hfind
      exact Option.noConfusion hfind


theorem rebuild_once_per_pair_witness :
    TablesOK sampleEngine.distances_ sampleEngine.times_ ∧
    ((sampleEngine.rebuildGraphWeights appendOrder).getEdgeCount =
      (unorderedPairs sampleEngine.distances_).length ∧
    (∀ a b x y, mapFind sampleEngine.distances_ (a, b) = some x →
      mapFind sampleEngine.times_ (a, b) = some y →
      entriesFor (sampleEngine.rebuildGraphWeights appendOrder).graph_ a b =
        (if a = b then [⟨b, strategyWeight sampleEngine.currentStrategy_ x y⟩,
                        ⟨b, strategyWeight sampleEngine.currentStrategy_ x y⟩]
         else [⟨b, strategyWeight sampleEngine.currentStrategy_ x y⟩]) ∧
      entriesFor (sampleEngine.rebuildGraphWeights appendOrder).graph_ b a =
        (if a = b then [⟨a, strategyWeight sampleEngine.currentStrategy_ x y⟩,
                        ⟨a, strategyWeight sampleEngine.currentStrategy_ x y⟩]
         else [⟨a, strategyWeight sampleEngine.currentStrategy_ x y⟩])) ∧
    (∀ a b, mapFind sampleEngine.distances_ (a, b) = none →
      entriesFor (sampleEngine.rebuildGraphWeights appendOrder).graph_ a b = []) ∧
    (∀ x y : ℚ, strategyWeight PathStrategy.SHORTEST_DISTANCE x y = x ∧
      strategyWeight PathStrategy.LEAST_TIME x y = y)) :=
  ⟨(loaded_spec sampleEngine_loaded).1,
   rebuild_once_per_pair appendOrder sampleEngine (loaded_spec sampleEngine_loaded).1⟩


/-! ## The validity test of the rebuild -/

theorem index_fst (O : HashOrder) (m : PairMap) (k : Int × Int) :
    (O.index m k).1 = mapGetD m k 0 := by
  unfold HashOrder.index mapGetD
  cases mapFind m k <;> rfl

theorem index_snd (O : HashOrder) (m : PairMap) (k : Int × Int)
    (hnd : (m.map Prod.fst).Nodup) :
    ((O.index m k).2.map Prod.fst).Nodup ∧
    ∀ k1, mapGetD (O.index m k).2 k1 0 = mapGetD m k1 0 := by
  unfold HashOrder.index
  cases hf : mapFind m k with
  | some v => exact ⟨hnd, fun _ => rfl⟩
  | none =>
    have hk : k ∉ m.map Prod.fst := (mapFind_none_iff m k).1 hf
    have hnd2 : (((k, (0 : ℚ)) :: m).map Prod.fst).Nodup := by
      rw [List.map_cons, List.nodup_cons]
      exact ⟨hk, hnd⟩
    refine ⟨?_, ?_⟩
    · have hp := (O.insertNew_perm m k 0).map Prod.fst
      exact hp.nodup_iff.2 hnd2
    · intro k1
      show mapGetD (O.insertNew m k 0) k1 0 = mapGetD m k1 0
      unfold mapGetD
      rw [mapFind_perm hnd2 (O.insertNew_perm m k 0)]
      by_cases hkk : k = k1
      · subst hkk
        simp [mapFind, hf]
      · simp [mapFind, hkk]

theorem rebuildStep_invalid (O : HashOrder) (strategy : PathStrategy) (st : RebuildState)
    (p : (Int × Int) × ℚ) (h : p.2 ≤ 0 ∨ mapGetD st.times p.1 0 ≤ 0) :
    rebuildStep O strategy st p = { st with times := (O.index st.times p.1).2 } := by
  have h1 : p.2 ≤ 0 ∨ (O.index st.times p.1).1 ≤ 0 := by rw [index_fst]; exact h
  simp only [rebuildStep, if_pos h1]

theorem rebuildStep_valid (O : HashOrder) (st : RebuildState)
    (p : (Int × Int) × ℚ) (h : ¬ (p.2 ≤ 0 ∨ mapGetD st.times p.1 0 ≤ 0)) :
    O.index st.times p.1 = (mapGetD st.times p.1 0, st.times) := by
  have hpos : 0 < mapGetD st.times p.1 0 := by
    by_contra hc
    exact h (Or.inr (not_lt.1 hc))
  unfold HashOrder.index
  cases hf : mapFind st.times p.1 with
  | some v => simp [mapGetD, hf]
  | none =>
    simp only [mapGetD, hf] at hpos
    exact absurd hpos (lt_irrefl 0)


theorem rebuildStep_valid_eq (O : HashOrder) (strategy : PathStrategy) (st : RebuildState)
    (p : (Int × Int) × ℚ) (h : ¬ (p.2 ≤ 0 ∨ mapGetD st.times p.1 0 ≤ 0)) :
    rebuildStep O strategy st p =
      if canonKey p.1 ∈ st.addedEdges then st
      else { graph := st.graph.addEdge p.1.1 p.1.2
               (strategyWeight strategy p.2 (mapGetD st.times p.1 0)),
             times := st.times,
             addedEdges := canonKey p.1 :: st.addedEdges } := by
  have hidx := rebuildStep_valid O st p h
  simp only [rebuildStep, hidx, if_neg h]
  rfl

theorem validPair_iff (t : PairMap) (p : (Int × Int) × ℚ) :
    validPair t p = true ↔ ¬ (p.2 ≤ 0 ∨ mapGetD t p.1 0 ≤ 0) := by
  unfold validPair
  rw [decide_eq_true_iff, not_or, not_le, not_le]

theorem rebuildFold_filter (O : HashOrder) (strategy : PathStrategy) (t : PairMap) :
    ∀ (l : PairMap) (g : Graph) (tm : PairMap) (ad : List (Int × Int)),
      (tm.map Prod.fst).Nodup → (∀ key, mapGetD tm key 0 = mapGetD t key 0) →
      (l.foldl (rebuildStep O strategy) { graph := g, times := tm, addedEdges := ad }).graph =
        ((l.filter (validPair t)).foldl (rebuildStep O strategy)
          { graph := g, times := t, addedEdges := ad }).graph
  | [], _, _, _, _, _ => rfl
  | p :: l, g, tm, ad, hnd, hrel => by
    by_cases hv : validPair t p = true
    · have h2 : ¬ (p.2 ≤ 0 ∨ mapGetD t p.1 0 ≤ 0) := (validPair_iff t p).1 hv
      have h1 : ¬ (p.2 ≤ 0 ∨ mapGetD tm p.1 0 ≤ 0) := by rw [hrel]; exact h2
      rw [List.filter_cons_of_pos hv, List.foldl_cons, List.foldl_cons,
        rebuildStep_valid_eq O strategy { graph := g, times := tm, addedEdges := ad } p h1,
        rebuildStep_valid_eq O strategy { graph := g, times := t, addedEdges := ad } p h2]
      by_cases hm : canonKey p.1 ∈ ad
      · simp only [if_pos hm]
        exact rebuildFold_filter O strategy t l g tm ad hnd hrel
      · simp only [if_neg hm, hrel]
        exact rebuildFold_filter O strategy t l _ tm _ hnd hrel
    · have h1 : p.2 ≤ 0 ∨ mapGetD tm p.1 0 ≤ 0 := by
        rw [hrel]
        by_contra hc
        exact hv ((validPair_iff t p).2 hc)
      rw [List.filter_cons_of_neg hv, List.foldl_cons,
        rebuildStep_invalid O strategy { graph := g, times := tm, addedEdges := ad } p h1]
      obtain ⟨hnd2, hget⟩ := index_snd O tm p.1 hnd
      exact rebuildFold_filter O strategy t l g _ ad hnd2
        (fun key => by rw [hget key, hrel key])

theorem rebuildFold_valid_only (O : HashOrder) (strategy : PathStrategy) (d : PairMap)
    (t : PairMap) :
    ∀ (l : PairMap) (st : RebuildState), (∀ p ∈ l, p ∈ d ∧ validPair t p = true) →
      st.graph.KeysKnown →
      (∀ v, st.graph.hasNode v = true →
        ∃ p ∈ d, validPair t p = true ∧ (p.1.1 = v ∨ p.1.2 = v)) →
      (∀ u, ∀ e ∈ st.graph.getAdjacentEdges u,
        ∃ p ∈ d, validPair t p = true ∧ (p.1 = (u, e.dst) ∨ p.1 = (e.dst, u))) →
      (∀ v, (l.foldl (rebuildStep O strategy) st).graph.hasNode v = true →
        ∃ p ∈ d, validPair t p = true ∧ (p.1.1 = v ∨ p.1.2 = v)) ∧
      (∀ u, ∀ e ∈ (l.foldl (rebuildStep O strategy) st).graph.getAdjacentEdges u,
        ∃ p ∈ d, validPair t p = true ∧ (p.1 = (u, e.dst) ∨ p.1 = (e.dst, u)))
  | [], _, _, _, hn, he => ⟨hn, he⟩
  | p :: l, st, hl, hk, hn, he => by
    rw [List.foldl_cons]
    have hp := hl p (List.mem_cons_self _ _)
    have hl2 : ∀ q ∈ l, q ∈ d ∧ validPair t q = true :=
      fun q hq => hl q (List.mem_cons_of_mem _ hq)
    rcases rebuildStep_graph O strategy st p with heq | ⟨w, heq⟩
    · exact rebuildFold_valid_only O strategy d t l _ hl2 (by rw [heq]; exact hk)
        (by rw [heq]; exact hn) (by rw [heq]; exact he)
    · refine rebuildFold_valid_only O strategy d t l _ hl2
        (by rw [heq]; exact keysKnown_addEdge hk _ _ _) ?_ ?_
      · rw [heq]
        intro v hv
        rw [hasNode_addEdge] at hv
        by_cases ha : p.1.1 = v
        · exact ⟨p, hp.1, hp.2, Or.inl ha⟩
        · by_cases hb : p.1.2 = v
          · exact ⟨p, hp.1, hp.2, Or.inr hb⟩
          · exact hn v (by simpa [ha, hb] using hv)
      · rw [heq]
        intro u e hmem
        rw [getAdjacentEdges_addEdge_known hk] at hmem
        simp only [List.mem_append] at hmem
        rcases hmem with (hmem | hmem) | hmem
        · exact he u e hmem
        · by_cases ha : p.1.1 = u
          · rw [if_pos ha] at hmem
            rw [List.mem_singleton.1 hmem, ← ha]
            exact ⟨p, hp.1, hp.2, Or.inl rfl⟩
          · rw [if_neg ha] at hmem
            exact absurd hmem (List.not_mem_nil _)
        · by_cases hb : p.1.2 = u
          · rw [if_pos hb] at hmem
            rw [List.mem_singleton.1 hmem, ← hb]
            exact ⟨p, hp.1, hp.2, Or.inr rfl⟩
          · rw [if_neg hb] at hmem
            exact absurd hmem (List.not_mem_nil _)


/-- C16 (validation owned by the rebuild): for any two tables, also ones the loader
could not have produced, the graph made by `rebuildGraphWeights` is the graph made from
the entries that pass the test alone (distance positive and time positive, a missing
time reading as 0): an entry with distance `≤ 0` or time `≤ 0` changes nothing. Every
node and every adjacency entry of the rebuilt graph comes from an entry that passes the
test. This holds under either strategy. -/
theorem rebuild_validation (O : HashOrder) (E : MapEngine)
    (hnd : (E.times_.map Prod.fst).Nodup) :
    (E.rebuildGraphWeights O).graph_ =
      (MapEngine.rebuildGraphWeights
        { E with distances_ := E.distances_.filter (validPair E.times_) } O).graph_ ∧
    (∀ v, (E.rebuildGraphWeights O).graph_.hasNode v = true →
      ∃ p ∈ E.distances_, validPair E.times_ p = true ∧ (p.1.1 = v ∨ p.1.2 = v)) ∧
    (∀ u, ∀ e ∈ (E.rebuildGraphWeights O).graph_.getAdjacentEdges u,
      ∃ p ∈ E.distances_, validPair E.times_ p = true ∧
        (p.1 = (u, e.dst) ∨ p.1 = (e.dst, u))) ∧
    (∀ p, validPair E.times_ p = true ↔ ¬ (p.2 ≤ 0 ∨ mapGetD E.times_ p.1 0 ≤ 0)) := by
  have heq := rebuildFold_filter O E.currentStrategy_ E.times_ E.distances_ E.graph_.clear
    E.times_ [] hnd (fun _ => rfl)
  have hval := rebuildFold_valid_only O E.currentStrategy_ E.distances_ E.times_
    (E.distances_.filter (validPair E.times_))
    { graph := E.graph_.clear, times := E.times_, addedEdges := [] }
    (fun p hp => ⟨(List.mem_filter.1 hp).1, (List.mem_filter.1 hp).2⟩)
    (fun u hu => absurd rfl hu) (fun v hv => Bool.noConfusion hv)
    (fun u e he => absurd he (List.not_mem_nil _))
  refine ⟨heq, ?_, ?_, validPair_iff E.times_⟩
  · intro v hv
    have hv2 : (E.distances_.foldl (rebuildStep O E.currentStrategy_)
        { graph := E.graph_.clear, times := E.times_, addedEdges := [] }).graph.hasNode v
        = true := hv
    rw [heq] at hv2
    exact hval.1 v hv2
  · intro u e he
    have he2 : e ∈ (E.distances_.foldl (rebuildStep O E.currentStrategy_)
        { graph := E.graph_.clear, times := E.times_, addedEdges := [] }).graph.getAdjacentEdges
        u := he
    rw [heq] at he2
    exact hval.2 u e he2

set_option maxRecDepth 10000 in
theorem handEngine_rebuilt :
    (handEngine.rebuildGraphWeights appendOrder).graph_ = Graph.empty.addEdge 1 2 4 ∧
    List.filter (validPair handTimes) handDistances = [((1, 2), 4), ((2, 1), 4)] := by
  constructor <;> with_unfolding_all decide

theorem rebuild_validation_witness :
    (handEngine.times_.map Prod.fst).Nodup ∧
    ((handEngine.rebuildGraphWeights appendOrder).graph_ =
      (MapEngine.rebuildGraphWeights
        { handEngine with
          distances_ := List.filter (validPair handEngine.times_) handEngine.distances_ }
        appendOrder).graph_ ∧
    (∀ v, (handEngine.rebuildGraphWeights appendOrder).graph_.hasNode v = true →
      ∃ p ∈ handEngine.distances_, validPair handEngine.times_ p = true ∧
        (p.1.1 = v ∨ p.1.2 = v)) ∧
    (∀ u, ∀ e ∈ (handEngine.rebuildGraphWeights appendOrder).graph_.getAdjacentEdges u,
      ∃ p ∈ handEngine.distances_, validPair handEngine.times_ p = true ∧
        (p.1 = (u, e.dst) ∨ p.1 = (e.dst, u))) ∧
    (∀ p, validPair handEngine.times_ p = true ↔
      ¬ (p.2 ≤ 0 ∨ mapGetD handEngine.times_ p.1 0 ≤ 0))) :=
  ⟨by decide, rebuild_validation appendOrder handEngine (by decide)⟩


/-! ## Parallel edges -/

theorem parallelGraph_built (a b : Int) (w1 w2 : ℚ) : (parallelGraph a b w1 w2).Built :=
  Graph.Built.addEdge _ a b w2 (Graph.Built.addEdge _ a b w1 Graph.Built.empty)

theorem parallelGraph_adj (a b : Int) (w1 w2 : ℚ) (x : Int) :
    (parallelGraph a b w1 w2).getAdjacentEdges x =
      (if a = x then [(⟨b, w1⟩ : Edge)] else []) ++ (if b = x then [(⟨a, w1⟩ : Edge)] else []) ++
      (if a = x then [(⟨b, w2⟩ : Edge)] else []) ++ (if b = x then [(⟨a, w2⟩ : Edge)] else []) := by
  unfold parallelGraph
  rw [getAdjacentEdges_addEdge_known
      (Graph.Built.addEdge _ a b w1 Graph.Built.empty).keysKnown,
    getAdjacentEdges_addEdge_known Graph.Built.empty.keysKnown]
  rfl

/-- The search between the two nodes of a graph whose entries all lead to `a` or `b`
and whose entries from `a` to `b` weigh `w1` or `w2`. -/
theorem two_node_search (H : MinHeap) (g : Graph) (a b : Int) (w1 w2 : ℚ) (hab : a ≠ b)
    (ha : g.hasNode a = true) (hb : g.hasNode b = true) (hnn : g.NonNeg)
    (hdst : ∀ u, ∀ e ∈ g.getAdjacentEdges u, e.dst = a ∨ e.dst = b)
    (hwt : ∀ e ∈ g.getAdjacentEdges a, e.dst = b → e.weight = w1 ∨ e.weight = w2)
    (h1 : (⟨b, w1⟩ : Edge) ∈ g.getAdjacentEdges a)
    (h2 : (⟨b, w2⟩ : Edge) ∈ g.getAdjacentEdges a) (hlt : min w1 w2 < DBL_MAX) :
    dijkstra H g a b = some { path := [a, b], totalWeight := min w1 w2, found := true,
                              elapsedMicroseconds := 0 } := by
  obtain ⟨e0, he0, hd0, hw0⟩ : ∃ e0 ∈ g.getAdjacentEdges a, e0.dst = b ∧
      e0.weight = min w1 w2 := by
    by_cases hle : w1 ≤ w2
    · exact ⟨⟨b, w1⟩, h1, rfl, (min_eq_left hle).symm⟩
    · exact ⟨⟨b, w2⟩, h2, rfl, (min_eq_right (le_of_lt (not_le.1 hle))).symm⟩
  have hwalk : IsWalk g a [e0] b := ⟨he0, hd0⟩
  have hweight : walkWeight [e0] = min w1 w2 := by
    rw [walkWeight_cons, walkWeight_nil, add_zero, hw0]
  obtain ⟨r, hr, hf⟩ := dijkstra_complete H g a b hnn ha hb [e0] hwalk (by rw [hweight]; exact hlt)
  obtain ⟨r2, hr2, hsimple⟩ := dijkstra_simple H g a b
  obtain ⟨r3, hr3, hel, _, _⟩ := dijkstra_result H g a b
  rw [hr] at hr2 hr3
  cases hr2
  cases hr3
  obtain ⟨es, hw, hpath, hwte, hnd⟩ := hsimple hf
  have hopt := dijkstra_optimal H g a b hnn r hr hf [e0] hwalk
  rw [hweight] at hopt
  obtain ⟨e1, rest, rfl, he1, hw1, hW1⟩ := walk_first hw hab
  rw [List.map_cons, List.nodup_cons, List.nodup_cons] at hnd
  obtain ⟨hna, hnb, _⟩ := hnd
  have hd1 : e1.dst = b := by
    rcases hdst a e1 he1 with h | h
    · exact absurd (by rw [h]; exact List.mem_cons_self _ _) hna
    · exact h
  have hrest : rest = [] := by
    cases rest with
    | nil => rfl
    | cons e2 rest2 =>
      exfalso
      rcases hdst e1.dst e2 hw1.1 with h | h
      · exact hna (by rw [← h]; simp)
      · exact hnb (by rw [hd1, ← h]; simp)
  subst hrest
  have hge : min w1 w2 ≤ e1.weight := by
    rcases hwt e1 he1 hd1 with h | h
    · rw [h]; exact min_le_left _ _
    · rw [h]; exact min_le_right _ _
  have htot : r.totalWeight = min w1 w2 := by
    rw [walkWeight_cons, walkWeight_nil, add_zero] at hwte
    rw [← hwte] at hopt ⊢
    exact le_antisymm hopt hge
  rw [hr]
  cases r
  simp only [PathResult.mk.injEq, Option.some.injEq]
  simp only at hf hel hpath htot
  refine ⟨?_, htot, hf, hel⟩
  rw [hpath]
  simp [hd1]


theorem mem_parallelGraph (a b : Int) (w1 w2 : ℚ) (u : Int) (e : Edge)
    (he : e ∈ (parallelGraph a b w1 w2).getAdjacentEdges u) :
    (u = a ∧ e.dst = b ∧ (e.weight = w1 ∨ e.weight = w2)) ∨
    (u = b ∧ e.dst = a ∧ (e.weight = w1 ∨ e.weight = w2)) := by
  rw [parallelGraph_adj] at he
  simp only [List.mem_append] at he
  rcases he with ((he | he) | he) | he
  · by_cases h : a = u
    · rw [if_pos h, List.mem_singleton] at he
      subst he
      exact Or.inl ⟨h.symm, rfl, Or.inl rfl⟩
    · rw [if_neg h] at he
      exact absurd he (List.not_mem_nil _)
  · by_cases h : b = u
    · rw [if_pos h, List.mem_singleton] at he
      subst he
      exact Or.inr ⟨h.symm, rfl, Or.inl rfl⟩
    · rw [if_neg h] at he
      exact absurd he (List.not_mem_nil _)
  · by_cases h : a = u
    · rw [if_pos h, List.mem_singleton] at he
      subst he
      exact Or.inl ⟨h.symm, rfl, Or.inr rfl⟩
    · rw [if_neg h] at he
      exact absurd he (List.not_mem_nil _)
  · by_cases h : b = u
    · rw [if_pos h, List.mem_singleton] at he
      subst he
      exact Or.inr ⟨h.symm, rfl, Or.inr rfl⟩
    · rw [if_neg h] at he
      exact absurd he (List.not_mem_nil _)

theorem parallelGraph_search (H : MinHeap) (a b : Int) (w1 w2 : ℚ) (hab : a ≠ b)
    (h1 : 0 ≤ w1) (h2 : 0 ≤ w2) (hlt : min w1 w2 < DBL_MAX) :
    dijkstra H (parallelGraph a b w1 w2) a b =
      some { path := [a, b], totalWeight := min w1 w2, found := true,
             elapsedMicroseconds := 0 } := by
  have hba : b ≠ a := fun e => hab e.symm
  apply two_node_search H _ a b w1 w2 hab
  · unfold parallelGraph
    rw [hasNode_addEdge]; simp
  · unfold parallelGraph
    rw [hasNode_addEdge]; simp
  · exact nonNeg_addEdge (nonNeg_addEdge nonNeg_empty a b w1 h1) a b w2 h2
  · intro u e he
    rcases mem_parallelGraph a b w1 w2 u e he with ⟨_, h, _⟩ | ⟨_, h, _⟩
    · exact Or.inr h
    · exact Or.inl h
  · intro e he _
    rcases mem_parallelGraph a b w1 w2 a e he with ⟨_, _, h⟩ | ⟨h, _, _⟩
    · exact h
    · exact absurd h hab
  · rw [parallelGraph_adj]; simp
  · rw [parallelGraph_adj]; simp
  · exact hlt

/-! ## The end of `dijkstra` -/

theorem dijkstra_unfold (H : MinHeap) (g : Graph) (src dst : Int)
    (hs : g.hasNode src = true) (hd : g.hasNode dst = true) (hne : src ≠ dst)
    (hiso : g.isIsolated src = false) :
    dijkstra H g src dst =
      (dijkstraLoop H g dst g.searchFuel (initialState H src)).bind
        (dijkstraFinish (g.searchFuel + 1) src dst) := by
  simp only [dijkstra, hs, hd, hiso, if_neg hne, initialState]
  cases dijkstraLoop H g dst g.searchFuel
      { dist := mapSet [] src 0, parent := [], visited := mapSet [] src false,
        pq := H.push [] ⟨src, 0⟩ } with
  | none => simp
  | some s => simp [dijkstraFinish]

theorem reconstructLoop_broken (src : Int) (parent : List (Int × Int)) (fuel : Nat)
    (current : Int) (path : List Int) (hne : current ≠ src)
    (hp : mapFind parent current = none) :
    reconstructLoop src parent (fuel + 1) current path = some [] := by
  simp only [reconstructLoop, if_neg hne, hp]

theorem dijkstraFinish_empty_path (fuel : Nat) (src dst : Int) (s : SearchState) (dv : ℚ)
    (hd : mapFind s.dist dst = some dv) (hdv : dv ≠ DBL_MAX)
    (hrec : reconstructPath fuel src dst s.parent = some []) :
    dijkstraFinish fuel src dst s =
      some { path := [], totalWeight := dv, found := true, elapsedMicroseconds := 0 } := by
  have hg : mapGetD s.dist dst 0 = dv := mapGetD_of_find _ _ _ _ hd
  simp [dijkstraFinish, hd, hg, hdv, hrec, PathResult.init]

/-! ## Self-loops do not take part in the search -/

theorem dijkstraLoop_succ (H : MinHeap) (g : Graph) (dst : Int) :
    ∀ (n : Nat) (s r : SearchState), dijkstraLoop H g dst n s = some r →
      dijkstraLoop H g dst (n + 1) s = some r
  | 0, _, _, h => Option.noConfusion h
  | n + 1, s, r, h => by
    rw [dijkstraLoop] at h ⊢
    cases hpop : H.pop s.pq with
    | none => rw [hpop] at h; exact h
    | some c =>
      obtain ⟨c, rest⟩ := c
      rw [hpop] at h
      simp only at h ⊢
      by_cases hv : mapGetD s.visited c.nodeId false = true
      · rw [if_pos hv] at h ⊢
        exact dijkstraLoop_succ H g dst n _ r h
      · rw [if_neg hv] at h ⊢
        by_cases hu : c.nodeId = dst
        · rw [if_pos hu] at h ⊢
          exact h
        · rw [if_neg hu] at h ⊢
          exact dijkstraLoop_succ H g dst n _ r h

theorem dijkstraLoop_le (H : MinHeap) (g : Graph) (dst : Int) (n m : Nat)
    (s r : SearchState) (hnm : n ≤ m) (h : dijkstraLoop H g dst n s = some r) :
    dijkstraLoop H g dst m s = some r := by
  induction hnm with
  | refl => exact h
  | step _ ih => exact dijkstraLoop_succ H g dst _ s r ih

theorem dijkstraLoop_fuel (H : MinHeap) (g : Graph) (dst : Int) (n m : Nat)
    (s r1 r2 : SearchState) (h1 : dijkstraLoop H g dst n s = some r1)
    (h2 : dijkstraLoop H g dst m s = some r2) : r1 = r2 := by
  rcases Nat.le_total n m with hnm | hmn
  · have := dijkstraLoop_le H g dst n m s r1 hnm h1
    rw [h2] at this
    exact (Option.some.inj this).symm
  · have := dijkstraLoop_le H g dst m n s r2 hmn h2
    rw [h1] at this
    exact Option.some.inj this

theorem reconstructLoop_succ (src : Int) (parent : List (Int × Int)) :
    ∀ (n : Nat) (current : Int) (path r : List Int),
      reconstructLoop src parent n current path = some r →
      reconstructLoop src parent (n + 1) current path = some r
  | 0, _, _, _, h => Option.noConfusion h
  | n + 1, current, path, r, h => by
    rw [reconstructLoop] at h ⊢
    by_cases hc : current = src
    · rw [if_pos hc] at h ⊢
      exact h
    · rw [if_neg hc] at h ⊢
      cases hp : mapFind parent current with
      | none => rw [hp] at h; exact h
      | some p =>
        rw [hp] at h
        exact reconstructLoop_succ src parent n p _ r h

theorem reconstructPath_fuel (src dst : Int) (parent : List (Int × Int)) (n m : Nat)
    (r1 r2 : List Int) (h1 : reconstructPath n src dst parent = some r1)
    (h2 : reconstructPath m src dst parent = some r2) : r1 = r2 := by
  have hle : ∀ (a b : Nat) (r : List Int), a ≤ b →
      reconstructPath a src dst parent = some r →
      reconstructPath b src dst parent = some r := by
    intro a b r hab h
    induction hab with
    | refl => exact h
    | step _ ih =>
      unfold reconstructPath at ih ⊢
      by_cases hsd : src = dst
      · rw [if_pos hsd] at ih ⊢
        exact ih
      · rw [if_neg hsd] at ih ⊢
        exact reconstructLoop_succ src parent _ dst [] r ih
  rcases Nat.le_total n m with hnm | hmn
  · have := hle n m r1 hnm h1
    rw [h2] at this
    exact (Option.some.inj this).symm
  · have := hle m n r2 hmn h2
    rw [h1] at this
    exact Option.some.inj this

theorem dijkstraFinish_fuel (src dst : Int) (s : SearchState) (n m : Nat)
    (r1 r2 : PathResult) (h1 : dijkstraFinish n src dst s = some r1)
    (h2 : dijkstraFinish m src dst s = some r2) : r1 = r2 := by
  unfold dijkstraFinish at h1 h2
  by_cases hc : ((mapFind s.dist dst).isNone || decide (mapGetD s.dist dst 0 = DBL_MAX)) = true
  · rw [if_pos hc] at h1 h2
    rw [← Option.some.inj h1, ← Option.some.inj h2]
  · rw [if_neg hc] at h1 h2
    cases hr1 : reconstructPath n src dst s.parent with
    | none => rw [hr1] at h1; exact Option.noConfusion h1
    | some p1 =>
      cases hr2 : reconstructPath m src dst s.parent with
      | none => rw [hr2] at h2; exact Option.noConfusion h2
      | some p2 =>
        rw [hr1] at h1
        rw [hr2] at h2
        have hp := reconstructPath_fuel src dst s.parent n m p1 p2 hr1 hr2
        rw [← Option.some.inj h1, ← Option.some.inj h2, hp]


theorem relaxEdge_selfLoop (H : MinHeap) (u : Int) (d w : ℚ) (s : SearchState)
    (hv : s.isVisited u = true) (hd : s.distOf u ≠ none) :
    relaxEdge H u d s ⟨u, w⟩ = s := by
  have hv1 : mapGetD s.visited u false = true := hv
  cases hf : mapFind s.dist u with
  | none => exact absurd hf hd
  | some x => simp [relaxEdge, hf, hv1]

theorem relaxEdge_known (H : MinHeap) (u : Int) (d : ℚ) (s : SearchState) (e : Edge)
    (hq : s.QueueKnown) (hv : ∀ x, s.isVisited x = true → s.distOf x ≠ none) :
    (relaxEdge H u d s e).QueueKnown ∧
    (∀ x, (relaxEdge H u d s e).isVisited x = true → (relaxEdge H u d s e).distOf x ≠ none) ∧
    (∀ x, (relaxEdge H u d s e).isVisited x = s.isVisited x) := by
  obtain ⟨hvis, hcase⟩ := relaxEdge_cases H u d s e (hv e.dst)
  have hgrow : ∀ x, s.distOf x ≠ none → (relaxEdge H u d s e).distOf x ≠ none := by
    intro x hx
    rcases hcase with ⟨_, _, hd, _, _⟩ | ⟨_, hd, _, _⟩
    · rw [hd x]
      by_cases hxe : x = e.dst
      · rw [if_pos hxe]; exact fun h => Option.noConfusion h
      · rw [if_neg hxe]; exact hx
    · rw [hd x]
      by_cases hxe : x = e.dst
      · rw [if_pos hxe]; exact fun h => Option.noConfusion h
      · rw [if_neg hxe]; exact hx
  have hsome : ∀ (t : SearchState) (x : Int), t.distOf x ≠ none ↔
      (mapFind t.dist x).isSome = true := by
    intro t x
    show mapFind t.dist x ≠ none ↔ _
    cases mapFind t.dist x <;> simp
  refine ⟨?_, ?_, hvis⟩
  · intro x hx
    rw [← hsome]
    rcases hcase with ⟨_, _, hd, _, hpq⟩ | ⟨_, _, _, hpq⟩
    · rw [hpq, (H.push_perm s.pq ⟨e.dst, d + e.weight⟩).mem_iff] at hx
      rcases List.mem_cons.1 hx with hx | hx
      · rw [hx, hd]
        simp
      · exact hgrow _ ((hsome s _).2 (hq x hx))
    · rw [hpq] at hx
      exact hgrow _ ((hsome s _).2 (hq x hx))
  · intro x hx
    rw [hvis x] at hx
    exact hgrow x (hv x hx)

theorem relaxAll_known (H : MinHeap) (u : Int) (d : ℚ) :
    ∀ (es : List Edge) (s : SearchState), s.QueueKnown →
      (∀ x, s.isVisited x = true → s.distOf x ≠ none) →
      (es.foldl (relaxEdge H u d) s).QueueKnown ∧
      (∀ x, (es.foldl (relaxEdge H u d) s).isVisited x = true →
        (es.foldl (relaxEdge H u d) s).distOf x ≠ none) ∧
      (∀ x, (es.foldl (relaxEdge H u d) s).isVisited x = s.isVisited x)
  | [], _, hq, hv => ⟨hq, hv, fun _ => rfl⟩
  | e :: es, s, hq, hv => by
    obtain ⟨h1, h2, h3⟩ := relaxEdge_known H u d s e hq hv
    obtain ⟨k1, k2, k3⟩ := relaxAll_known H u d es (relaxEdge H u d s e) h1 h2
    exact ⟨k1, k2, fun x => by rw [List.foldl_cons, k3 x, h3 x]⟩

theorem relaxAll_selfLoops (H : MinHeap) (u : Int) (d : ℚ) :
    ∀ (L : List Edge) (s : SearchState), (∀ e ∈ L, e.dst = u) →
      s.isVisited u = true → s.distOf u ≠ none → L.foldl (relaxEdge H u d) s = s
  | [], _, _, _, _ => rfl
  | e :: L, s, hL, hv, hd => by
    have he : e = ⟨u, e.weight⟩ := by
      cases e with
      | mk dst weight =>
        have : dst = u := hL ⟨dst, weight⟩ (List.mem_cons_self _ _)
        rw [this]
    rw [List.foldl_cons, he, relaxEdge_selfLoop H u d e.weight s hv hd]
    exact relaxAll_selfLoops H u d L s (fun f hf => hL f (List.mem_cons_of_mem _ hf)) hv hd

theorem dijkstraLoop_selfLoops (H : MinHeap) (g g1 : Graph) (dst : Int)
    (hadj : ∀ x, ∃ L, g1.getAdjacentEdges x = g.getAdjacentEdges x ++ L ∧
      ∀ e ∈ L, e.dst = x) :
    ∀ (n : Nat) (s : SearchState), s.QueueKnown →
      (∀ x, s.isVisited x = true → s.distOf x ≠ none) →
      dijkstraLoop H g1 dst n s = dijkstraLoop H g dst n s
  | 0, _, _, _ => rfl
  | n + 1, s, hq, hv => by
    rw [dijkstraLoop, dijkstraLoop]
    cases hpop : H.pop s.pq with
    | none => rfl
    | some c =>
      obtain ⟨c, rest⟩ := c
      simp only
      obtain ⟨hperm, _⟩ := H.pop_some s.pq c rest hpop
      have hrest : ∀ x ∈ rest, x ∈ s.pq := fun x hx =>
        hperm.mem_iff.2 (List.mem_cons_of_mem _ hx)
      have hc : (mapFind s.dist c.nodeId).isSome = true :=
        hq c (hperm.mem_iff.2 (List.mem_cons_self _ _))
      by_cases hvc : mapGetD s.visited c.nodeId false = true
      · rw [if_pos hvc, if_pos hvc]
        exact dijkstraLoop_selfLoops H g g1 dst hadj n _ (fun x hx => hq x (hrest x hx)) hv
      · rw [if_neg hvc, if_neg hvc]
        by_cases hu : c.nodeId = dst
        · rw [if_pos hu, if_pos hu]
        · rw [if_neg hu, if_neg hu]
          obtain ⟨L, hL, hLdst⟩ := hadj c.nodeId
          have hq1 : SearchState.QueueKnown
              { s with pq := rest, visited := mapSet s.visited c.nodeId true } :=
            fun x hx => hq x (hrest x hx)
          have hv1 : ∀ x, SearchState.isVisited
              { s with pq := rest, visited := mapSet s.visited c.nodeId true } x = true →
              SearchState.distOf
                { s with pq := rest, visited := mapSet s.visited c.nodeId true } x ≠ none := by
            intro x hx
            have hx1 : mapGetD (mapSet s.visited c.nodeId true) x false = true := hx
            rw [mapGetD_mapSet] at hx1
            show mapFind s.dist x ≠ none
            by_cases hcx : c.nodeId = x
            · rw [← hcx]
              intro h
              rw [h] at hc
              exact Bool.noConfusion hc
            · rw [if_neg hcx] at hx1
              exact hv x hx1
          obtain ⟨k1, k2, k3⟩ := relaxAll_known H c.nodeId c.distance
            (g.getAdjacentEdges c.nodeId) _ hq1 hv1
          have hvu : SearchState.isVisited ((g.getAdjacentEdges c.nodeId).foldl
              (relaxEdge H c.nodeId c.distance)
              { s with pq := rest, visited := mapSet s.visited c.nodeId true }) c.nodeId
              = true := by
            rw [k3]
            show mapGetD (mapSet s.visited c.nodeId true) c.nodeId false = true
            rw [mapGetD_mapSet]
            simp
          rw [hL, List.foldl_append,
            relaxAll_selfLoops H c.nodeId c.distance L _ hLdst hvu (k2 _ hvu)]
          exact dijkstraLoop_selfLoops H g g1 dst hadj n _ k1 k2


theorem initialState_known (H : MinHeap) (src : Int) :
    (initialState H src).QueueKnown ∧
    ∀ x, (initialState H src).isVisited x = true → (initialState H src).distOf x ≠ none := by
  constructor
  · intro x hx
    have hx1 : x ∈ H.push [] ⟨src, 0⟩ := hx
    rw [(H.push_perm [] ⟨src, 0⟩).mem_iff, List.mem_singleton] at hx1
    rw [hx1]
    show (mapFind (mapSet ([] : List (Int × ℚ)) src 0) src).isSome = true
    rw [mapFind_mapSet]
    simp
  · intro x hx
    have hx1 : mapGetD (mapSet ([] : List (Int × Bool)) src false) x false = true := hx
    rw [mapGetD_mapSet] at hx1
    by_cases h : src = x <;> simp [h, mapGetD, mapFind] at hx1

/-- A self-loop added at a known node does not change the result of any query whose
source has an edge. -/
theorem dijkstra_selfLoop (H : MinHeap) (g : Graph) (hk : g.KeysKnown) (a : Int) (w : ℚ)
    (src dst : Int) (ha : g.hasNode a = true)
    (hiso : g.hasNode src = true → g.isIsolated src = false) :
    dijkstra H (g.addEdge a a w) src dst = dijkstra H g src dst := by
  have hnode : ∀ x, (g.addEdge a a w).hasNode x = g.hasNode x := by
    intro x
    rw [hasNode_addEdge]
    by_cases hax : a = x
    · rw [← hax, ha]; simp
    · simp [hax]
  have hadj : ∀ x, ∃ L, (g.addEdge a a w).getAdjacentEdges x = g.getAdjacentEdges x ++ L ∧
      ∀ e ∈ L, e.dst = x := by
    intro x
    refine ⟨(if a = x then [(⟨a, w⟩ : Edge)] else []) ++ (if a = x then [(⟨a, w⟩ : Edge)] else []),
      ?_, ?_⟩
    · rw [getAdjacentEdges_addEdge_known hk, List.append_assoc]
    · intro e he
      by_cases hax : a = x
      · simp only [if_pos hax, List.mem_append, List.mem_singleton, or_self] at he
        rw [he]
        exact hax
      · simp [hax] at he
  by_cases hs : g.hasNode src = true
  · by_cases hd : g.hasNode dst = true
    · by_cases hne : src = dst
      · simp [dijkstra, hnode, hs, hne]
      · have hiso0 := hiso hs
        obtain ⟨e, he⟩ : ∃ e, e ∈ g.getAdjacentEdges src := by
          cases hes : g.getAdjacentEdges src with
          | nil =>
            have := isIsolated_of_no_edges g src hs hes
            rw [hiso0] at this
            exact Bool.noConfusion this
          | cons e rest => exact ⟨e, List.mem_cons_self _ _⟩
        have hiso1 : (g.addEdge a a w).isIsolated src = false := by
          obtain ⟨L, hL, _⟩ := hadj src
          exact not_isolated_of_edge _ src e (by rw [hL]; exact List.mem_append_left _ he)
        have hs1 : (g.addEdge a a w).hasNode src = true := by rw [hnode]; exact hs
        have hd1 : (g.addEdge a a w).hasNode dst = true := by rw [hnode]; exact hd
        obtain ⟨r, hr, _⟩ := dijkstra_result H g src dst
        obtain ⟨r1, hr1, _⟩ := dijkstra_result H (g.addEdge a a w) src dst
        rw [hr, hr1]
        rw [dijkstra_unfold H g src dst hs hd hne hiso0, Option.bind_eq_some] at hr
        rw [dijkstra_unfold H _ src dst hs1 hd1 hne hiso1, Option.bind_eq_some] at hr1
        obtain ⟨s, hloop, hfin⟩ := hr
        obtain ⟨s1, hloop1, hfin1⟩ := hr1
        obtain ⟨hq0, hv0⟩ := initialState_known H src
        rw [dijkstraLoop_selfLoops H g _ dst hadj _ _ hq0 hv0] at hloop1
        have hss := dijkstraLoop_fuel H g dst _ _ _ s1 s hloop1 hloop
        rw [hss] at hfin1
        rw [dijkstraFinish_fuel src dst s _ _ r1 r hfin1 hfin]
    · have hd1 : (g.addEdge a a w).hasNode dst = false := by
        rw [hnode]; simpa using hd
      have hd0 : g.hasNode dst = false := by simpa using hd
      simp [dijkstra, hd1, hd0]
  · have hs1 : (g.addEdge a a w).hasNode src = false := by
      rw [hnode]; simpa using hs
    have hs0 : g.hasNode src = false := by simpa using hs
    simp [dijkstra, hs1, hs0]


/-! ## Parallel edges: the cheaper one wins -/

theorem parallelLoopGraph_search (H : MinHeap) (a b : Int) (w1 w2 w : ℚ) (src dst : Int) :
    dijkstra H (parallelLoopGraph a b w1 w2 w) src dst =
      dijkstra H (parallelGraph a b w1 w2) src dst := by
  unfold parallelLoopGraph
  apply dijkstra_selfLoop H _ (parallelGraph_built a b w1 w2).keysKnown
  · unfold parallelGraph
    rw [hasNode_addEdge]; simp
  · intro hs
    have hs1 : src = a ∨ src = b := by
      unfold parallelGraph at hs
      rw [hasNode_addEdge, hasNode_addEdge] at hs
      have h0 : Graph.empty.hasNode src = false := rfl
      rw [h0] at hs
      by_cases ha : a = src
      · exact Or.inl ha.symm
      · by_cases hb : b = src
        · exact Or.inr hb.symm
        · simp [ha, hb] at hs
    rcases hs1 with h | h
    · exact not_isolated_of_edge _ src ⟨b, w1⟩ (by rw [parallelGraph_adj, h]; simp)
    · exact not_isolated_of_edge _ src ⟨a, w1⟩ (by rw [parallelGraph_adj, h]; simp)

/-- C18, as stated, fails: with both parallel edges of weight `DBL_MAX` (a non-negative
weight) the nodes 1 and 2 are joined by two stored edges, yet `findPath(1,2)` is
not-found, because `0 + DBL_MAX` is not below the `DBL_MAX` entered for a new node. -/
theorem parallel_edges_counterexample :
    (1 : Int) ≠ 2 ∧ (0 : ℚ) ≤ DBL_MAX ∧
    (parallelGraph 1 2 DBL_MAX DBL_MAX).getAdjacentEdges 1 =
      [⟨2, DBL_MAX⟩, ⟨2, DBL_MAX⟩] ∧
    PathFinder.new.findPath listHeap (parallelGraph 1 2 DBL_MAX DBL_MAX) 0 1 2 =
      some { path := [], totalWeight := 0, found := false, elapsedMicroseconds := 0 } := by
  refine ⟨by decide, le_of_lt DBL_MAX_pos, by rw [parallelGraph_adj]; simp, ?_⟩
  obtain ⟨r, hr, _, hnot, hfound⟩ :=
    dijkstra_result listHeap (parallelGraph 1 2 DBL_MAX DBL_MAX) 1 2
  have hnn : (parallelGraph 1 2 DBL_MAX DBL_MAX).NonNeg :=
    nonNeg_addEdge (nonNeg_addEdge nonNeg_empty 1 2 _ (le_of_lt DBL_MAX_pos)) 1 2 _
      (le_of_lt DBL_MAX_pos)
  have hf : r.found = false := by
    cases hrf : r.found with
    | false => rfl
    | true =>
      exfalso
      obtain ⟨_, _, es, hw, _, hwt, hlt⟩ := hfound hrf
      obtain ⟨e1, rest, rfl, he1, hw1, hW1⟩ := walk_first hw (by decide)
      have hrest := walkWeight_nonneg hnn hw1
      have he1w : e1.weight = DBL_MAX := by
        rcases mem_parallelGraph 1 2 DBL_MAX DBL_MAX 1 e1 he1 with ⟨_, _, h⟩ | ⟨_, _, h⟩ <;>
          rcases h with h | h <;> exact h
      rw [← hwt, hW1, he1w] at hlt
      linarith
  rw [findPath_eq PathFinder.new listHeap _ 0 1 2 r hr, hnot hf]
  rfl

/-- C18 (parallel edges, the cheaper wins), amended: for distinct nodes `a`, `b` and
non-negative weights `w1`, `w2` of which the smaller is below `DBL_MAX`, the graph made
by `addEdge(a,b,w1)` then `addEdge(a,b,w2)` stores both edges (two entries on `a`, two
on `b`, edge count 2), and `findPath(a,b)` is found with path `[a,b]` and total weight
`min(w1,w2)`, whichever of the two was entered first; adding the self-loop
`addEdge(a,a,w)`, of any weight, gives the same result. -/
theorem parallel_edges_cheaper (pf : PathFinder) (H : MinHeap) (a b : Int) (w1 w2 w : ℚ)
    (elapsed : Int) (hab : a ≠ b) (h1 : 0 ≤ w1) (h2 : 0 ≤ w2)
    (hlt : min w1 w2 < DBL_MAX) :
    (parallelGraph a b w1 w2).getAdjacentEdges a = [⟨b, w1⟩, ⟨b, w2⟩] ∧
    (parallelGraph a b w1 w2).getAdjacentEdges b = [⟨a, w1⟩, ⟨a, w2⟩] ∧
    (parallelGraph a b w1 w2).getEdgeCount = 2 ∧
    pf.findPath H (parallelGraph a b w1 w2) elapsed a b =
      some { path := [a, b], totalWeight := min w1 w2, found := true,
             elapsedMicroseconds := elapsed } ∧
    pf.findPath H (parallelLoopGraph a b w1 w2 w) elapsed a b =
      some { path := [a, b], totalWeight := min w1 w2, found := true,
             elapsedMicroseconds := elapsed } := by
  have hba : ¬ b = a := fun e => hab e.symm
  have hrun := parallelGraph_search H a b w1 w2 hab h1 h2 hlt
  refine ⟨?_, ?_, ?_, ?_, ?_⟩
  · rw [parallelGraph_adj]; simp [hba]
  · rw [parallelGraph_adj]; simp [hab]
  · unfold parallelGraph
    rw [getEdgeCount_addEdge, getEdgeCount_addEdge]
    rfl
  · exact findPath_eq pf H _ elapsed a b _ hrun
  · rw [← parallelLoopGraph_search H a b w1 w2 w a b] at hrun
    exact findPath_eq pf H _ elapsed a b _ hrun

theorem parallel_edges_cheaper_witness :
    (1 : Int) ≠ 2 ∧ (0 : ℚ) ≤ 7 ∧ (0 : ℚ) ≤ 3 ∧ min (7 : ℚ) 3 < DBL_MAX ∧
    ((parallelGraph 1 2 7 3).getAdjacentEdges 1 = [⟨2, 7⟩, ⟨2, 3⟩] ∧
    (parallelGraph 1 2 7 3).getAdjacentEdges 2 = [⟨1, 7⟩, ⟨1, 3⟩] ∧
    (parallelGraph 1 2 7 3).getEdgeCount = 2 ∧
    PathFinder.new.findPath listHeap (parallelGraph 1 2 7 3) 0 1 2 =
      some { path := [1, 2], totalWeight := min 7 3, found := true,
             elapsedMicroseconds := 0 } ∧
    PathFinder.new.findPath listHeap (parallelLoopGraph 1 2 7 3 (-4)) 0 1 2 =
      some { path := [1, 2], totalWeight := min 7 3, found := true,
             elapsedMicroseconds := 0 }) :=
  ⟨by decide, by norm_num, by norm_num, by unfold DBL_MAX; norm_num,
   parallel_edges_cheaper PathFinder.new listHeap 1 2 7 3 (-4) 0 (by decide) (by norm_num)
     (by norm_num) (by unfold DBL_MAX; norm_num)⟩


/-! ## Queries on graphs that hold the same entries in another order -/

theorem isWalk_congr {g1 g2 : Graph}
    (h : ∀ u e, e ∈ g1.getAdjacentEdges u → e ∈ g2.getAdjacentEdges u) :
    ∀ (es : List Edge) (a b : Int), IsWalk g1 a es b → IsWalk g2 a es b
  | [], _, _, hw => hw
  | e :: es, a, b, hw => ⟨h a e hw.1, isWalk_congr h es e.dst b hw.2⟩

theorem dijkstra_found_le (H1 H2 : MinHeap) (g1 g2 : Graph) (src dst : Int)
    (hn2 : g2.NonNeg) (hnode : ∀ x, g1.hasNode x = true → g2.hasNode x = true)
    (hadj : ∀ u e, e ∈ g1.getAdjacentEdges u → e ∈ g2.getAdjacentEdges u)
    (r1 r2 : PathResult) (hr1 : dijkstra H1 g1 src dst = some r1)
    (hr2 : dijkstra H2 g2 src dst = some r2) (hf : r1.found = true) :
    r2.found = true ∧ r2.totalWeight ≤ r1.totalWeight := by
  obtain ⟨r, hr, _, _, hfound⟩ := dijkstra_result H1 g1 src dst
  rw [hr1] at hr
  cases hr
  obtain ⟨hs, hd, es, hw, _, hwt, hlt⟩ := hfound hf
  have hw2 := isWalk_congr hadj es src dst hw
  obtain ⟨r3, hr3, hf3⟩ := dijkstra_complete H2 g2 src dst hn2 (hnode _ hs) (hnode _ hd) es hw2
    (by rw [hwt]; exact hlt)
  rw [hr2] at hr3
  cases hr3
  have hopt := dijkstra_optimal H2 g2 src dst hn2 r2 hr2 hf3 es hw2
  rw [hwt] at hopt
  exact ⟨hf3, hopt⟩

/-- Two graphs with the same nodes and the same adjacency entries, stored in any order,
give every query the same found flag and the same total weight, under any two
tie-breaking rules of the priority queue. -/
theorem dijkstra_congr (H1 H2 : MinHeap) (g1 g2 : Graph) (src dst : Int)
    (hn1 : g1.NonNeg) (hn2 : g2.NonNeg) (hnode : ∀ x, g1.hasNode x = g2.hasNode x)
    (hadj : ∀ u e, e ∈ g1.getAdjacentEdges u ↔ e ∈ g2.getAdjacentEdges u) :
    ∃ r1 r2, dijkstra H1 g1 src dst = some r1 ∧ dijkstra H2 g2 src dst = some r2 ∧
      r1.found = r2.found ∧ r1.totalWeight = r2.totalWeight := by
  obtain ⟨r1, hr1, _, hnot1, _⟩ := dijkstra_result H1 g1 src dst
  obtain ⟨r2, hr2, _, hnot2, _⟩ := dijkstra_result H2 g2 src dst
  refine ⟨r1, r2, hr1, hr2, ?_⟩
  have h12 := dijkstra_found_le H1 H2 g1 g2 src dst hn2 (fun x hx => by rw [← hnode]; exact hx)
    (fun u e he => (hadj u e).1 he) r1 r2 hr1 hr2
  have h21 := dijkstra_found_le H2 H1 g2 g1 src dst hn1 (fun x hx => by rw [hnode]; exact hx)
    (fun u e he => (hadj u e).2 he) r2 r1 hr2 hr1
  cases hf1 : r1.found with
  | true =>
    obtain ⟨hf2, hle⟩ := h12 hf1
    exact ⟨hf2.symm, le_antisymm (h21 hf2).2 hle⟩
  | false =>
    cases hf2 : r2.found with
    | true =>
      have := (h21 hf2).1
      rw [hf1] at this
      exact Bool.noConfusion this
    | false =>
      rw [hnot1 hf1, hnot2 hf2]
      exact ⟨rfl, rfl⟩


theorem addRecords_lookup (O1 O2 : HashOrder) :
    ∀ (rs : List (Int × Int × ℚ × ℚ)) (st1 st2 : LoadState),
      (st1.distances.map Prod.fst).Nodup → (st1.times.map Prod.fst).Nodup →
      (st2.distances.map Prod.fst).Nodup → (st2.times.map Prod.fst).Nodup →
      (∀ k, mapFind st1.distances k = mapFind st2.distances k) →
      (∀ k, mapFind st1.times k = mapFind st2.times k) →
      (∀ k, mapFind (rs.foldl (addRecord O1) st1).distances k =
        mapFind (rs.foldl (addRecord O2) st2).distances k) ∧
      (∀ k, mapFind (rs.foldl (addRecord O1) st1).times k =
        mapFind (rs.foldl (addRecord O2) st2).times k)
  | [], _, _, _, _, _, _, hd, ht => ⟨hd, ht⟩
  | r :: rs, st1, st2, n1, m1, n2, m2, hd, ht => by
    obtain ⟨a, b, x, y⟩ := r
    rw [List.foldl_cons, List.foldl_cons]
    refine addRecords_lookup O1 O2 rs _ _
      (nodup_assign O1 _ _ _ (nodup_assign O1 _ _ _ n1))
      (nodup_assign O1 _ _ _ (nodup_assign O1 _ _ _ m1))
      (nodup_assign O2 _ _ _ (nodup_assign O2 _ _ _ n2))
      (nodup_assign O2 _ _ _ (nodup_assign O2 _ _ _ m2)) ?_ ?_
    · intro k
      show mapFind (O1.assign (O1.assign st1.distances (a, b) x) (b, a) x) k =
        mapFind (O2.assign (O2.assign st2.distances (a, b) x) (b, a) x) k
      rw [mapFind_assign2 O1 _ a b x k n1, mapFind_assign2 O2 _ a b x k n2, hd k]
    · intro k
      show mapFind (O1.assign (O1.assign st1.times (a, b) y) (b, a) y) k =
        mapFind (O2.assign (O2.assign st2.times (a, b) y) (b, a) y) k
      rw [mapFind_assign2 O1 _ a b y k m1, mapFind_assign2 O2 _ a b y k m2, ht k]

/-- The values stored by the loader do not depend on the iteration order of the
tables. -/
theorem loadLines_lookup (O1 O2 : HashOrder) (rd : Reader) (lines : List String) :
    (∀ k, mapFind (loadLines O1 rd lines).distances k =
      mapFind (loadLines O2 rd lines).distances k) ∧
    (∀ k, mapFind (loadLines O1 rd lines).times k =
      mapFind (loadLines O2 rd lines).times k) := by
  rw [loadLines_records O1, loadLines_records O2]
  exact addRecords_lookup O1 O2 _ _ _ List.nodup_nil List.nodup_nil List.nodup_nil
    List.nodup_nil (fun _ => rfl) (fun _ => rfl)

theorem perm_of_lookup {d1 d2 : PairMap} (h1 : (d1.map Prod.fst).Nodup)
    (h2 : (d2.map Prod.fst).Nodup) (h : ∀ k, mapFind d1 k = mapFind d2 k) :
    d1.Perm d2 := by
  apply (List.perm_ext_iff_of_nodup (List.Nodup.of_map _ h1) (List.Nodup.of_map _ h2)).2
  intro p
  obtain ⟨k, v⟩ := p
  constructor
  · intro hp
    exact mem_of_mapFind d2 k v (by rw [← h k]; exact mapFind_of_mem d1 h1 k v hp)
  · intro hp
    exact mem_of_mapFind d1 k v (by rw [h k]; exact mapFind_of_mem d2 h2 k v hp)

theorem hasNode_iff_mem (g : Graph) (x : Int) :
    g.hasNode x = true ↔ x ∈ g.nodes_.map Prod.fst := by
  unfold Graph.hasNode
  rw [← not_iff_not, ← mapFind_none_iff]
  cases mapFind g.nodes_ x <;> simp

theorem nodes_nodup_addNode (g : Graph) (x : Int) (h : (g.nodes_.map Prod.fst).Nodup) :
    ((g.addNode x).nodes_.map Prod.fst).Nodup := by
  unfold Graph.addNode
  by_cases hx : g.hasNode x = true
  · rw [if_pos hx]; exact h
  · rw [if_neg hx]
    show ((mapSet g.nodes_ x true).map Prod.fst).Nodup
    have hnone : mapFind g.nodes_ x = none := by
      cases hf : mapFind g.nodes_ x with
      | none => rfl
      | some v => exact absurd (by simp [Graph.hasNode, hf]) hx
    have hkeys : ∀ (m : List (Int × Bool)), mapFind m x = none →
        (mapSet m x true).map Prod.fst = m.map Prod.fst ++ [x] := by
      intro m
      induction m with
      | nil => intro _; rfl
      | cons p rest ih =>
        obtain ⟨k0, v0⟩ := p
        intro hm
        by_cases h0 : k0 = x
        · simp [mapFind, h0] at hm
        · simp only [mapFind, if_neg h0] at hm
          simp [mapSet, h0, ih hm]
    rw [hkeys _ hnone]
    exact List.Nodup.append h (List.nodup_singleton x) (by
      intro y hy hy2
      rw [List.mem_singleton.1 hy2] at hy
      exact (mapFind_none_iff g.nodes_ x).1 hnone hy)

theorem Graph.Built.nodes_nodup {g : Graph} (h : g.Built) : (g.nodes_.map Prod.fst).Nodup := by
  induction h with
  | empty => exact List.nodup_nil
  | addNode g x _ ih => exact nodes_nodup_addNode g x ih
  | addEdge g a b w _ ih =>
    show (((g.addNode a).addNode b).nodes_.map Prod.fst).Nodup
    exact nodes_nodup_addNode _ b (nodes_nodup_addNode g a ih)

theorem getNodeCount_congr {g1 g2 : Graph} (h1 : g1.Built) (h2 : g2.Built)
    (h : ∀ x, g1.hasNode x = g2.hasNode x) : g1.getNodeCount = g2.getNodeCount := by
  have hp : (g1.nodes_.map Prod.fst).Perm (g2.nodes_.map Prod.fst) := by
    apply (List.perm_ext_iff_of_nodup h1.nodes_nodup h2.nodes_nodup).2
    intro x
    rw [← hasNode_iff_mem, ← hasNode_iff_mem, h x]
  have := hp.length_eq
  simpa [Graph.getNodeCount] using this


theorem rebuilt_hasNode_iff (O : HashOrder) (d t : PairMap) (k : PathStrategy)
    (hT : TablesOK d t) (x : Int) :
    (rebuiltGraph O d t k).hasNode x = true ↔
      ∃ e, e ∈ (rebuiltGraph O d t k).getAdjacentEdges x := by
  constructor
  · intro hx
    have hne := rebuildFold_no_isolated O k d
      { graph := Graph.empty, times := t, addedEdges := [] }
      (fun u hu => absurd rfl hu) (fun y hy => Bool.noConfusion hy) x hx
    cases hes : (d.foldl (rebuildStep O k)
        { graph := Graph.empty, times := t, addedEdges := [] }).graph.getAdjacentEdges x with
    | nil => exact absurd hes hne
    | cons e rest =>
      refine ⟨e, ?_⟩
      show e ∈ (d.foldl (rebuildStep O k)
        { graph := Graph.empty, times := t, addedEdges := [] }).graph.getAdjacentEdges x
      rw [hes]
      exact List.mem_cons_self _ _
  · rintro ⟨e, he⟩
    exact hasNode_of_edge (rebuiltGraph_spec O d t k hT).1 he

theorem rebuilt_nonNeg (O : HashOrder) (d t : PairMap) (k : PathStrategy)
    (hT : TablesOK d t) : (rebuiltGraph O d t k).NonNeg := by
  intro u e he
  obtain ⟨x, y, hx, hy, hw⟩ := ((rebuiltGraph_spec O d t k hT).2 u e).1 he
  have hxp := hT.d_pos _ _ hx
  have hyp := hT.t_pos _ _ hy
  rw [hw]
  cases k
  · exact le_of_lt hxp
  · exact le_of_lt hyp

/-- The graph rebuilt from the same stored values does not depend on the iteration
order of the tables, up to the order of its adjacency lists. -/
theorem rebuiltGraph_congr (O1 O2 : HashOrder) (d1 t1 d2 t2 : PairMap) (k : PathStrategy)
    (hT1 : TablesOK d1 t1) (hT2 : TablesOK d2 t2)
    (hd : ∀ key, mapFind d1 key = mapFind d2 key)
    (ht : ∀ key, mapFind t1 key = mapFind t2 key) :
    (∀ u e, e ∈ (rebuiltGraph O1 d1 t1 k).getAdjacentEdges u ↔
      e ∈ (rebuiltGraph O2 d2 t2 k).getAdjacentEdges u) ∧
    (∀ x, (rebuiltGraph O1 d1 t1 k).hasNode x = (rebuiltGraph O2 d2 t2 k).hasNode x) ∧
    (rebuiltGraph O1 d1 t1 k).getNodeCount = (rebuiltGraph O2 d2 t2 k).getNodeCount ∧
    (rebuiltGraph O1 d1 t1 k).getEdgeCount = (rebuiltGraph O2 d2 t2 k).getEdgeCount := by
  obtain ⟨hb1, ha1⟩ := rebuiltGraph_spec O1 d1 t1 k hT1
  obtain ⟨hb2, ha2⟩ := rebuiltGraph_spec O2 d2 t2 k hT2
  have hadj : ∀ u e, e ∈ (rebuiltGraph O1 d1 t1 k).getAdjacentEdges u ↔
      e ∈ (rebuiltGraph O2 d2 t2 k).getAdjacentEdges u := by
    intro u e
    rw [ha1 u e, ha2 u e]
    constructor
    · rintro ⟨x, y, hx, hy, hw⟩
      exact ⟨x, y, by rw [← hd]; exact hx, by rw [← ht]; exact hy, hw⟩
    · rintro ⟨x, y, hx, hy, hw⟩
      exact ⟨x, y, by rw [hd]; exact hx, by rw [ht]; exact hy, hw⟩
  have hnode : ∀ x, (rebuiltGraph O1 d1 t1 k).hasNode x =
      (rebuiltGraph O2 d2 t2 k).hasNode x := by
    intro x
    rw [Bool.eq_iff_iff, rebuilt_hasNode_iff O1 d1 t1 k hT1, rebuilt_hasNode_iff O2 d2 t2 k hT2]
    constructor
    · rintro ⟨e, he⟩
      exact ⟨e, (hadj x e).1 he⟩
    · rintro ⟨e, he⟩
      exact ⟨e, (hadj x e).2 he⟩
  refine ⟨hadj, hnode, getNodeCount_congr hb1 hb2 hnode, ?_⟩
  obtain ⟨hC1, hall1⟩ := rebuild_count O1 d1 t1 k Graph.empty hT1
  obtain ⟨hC2, hall2⟩ := rebuild_count O2 d2 t2 k Graph.empty hT2
  have e1 : (rebuiltGraph O1 d1 t1 k).getEdgeCount = (unorderedPairs d1).length := by
    show (d1.foldl (rebuildStep O1 k)
      { graph := Graph.empty, times := t1, addedEdges := [] }).graph.getEdgeCount = _
    have hc := hC1.count
    have hl := length_eq_unorderedPairs _ _ hC1.nodup hC1.sub hall1
    exact hc.trans hl
  have e2 : (rebuiltGraph O2 d2 t2 k).getEdgeCount = (unorderedPairs d2).length := by
    show (d2.foldl (rebuildStep O2 k)
      { graph := Graph.empty, times := t2, addedEdges := [] }).graph.getEdgeCount = _
    have hc := hC2.count
    have hl := length_eq_unorderedPairs _ _ hC2.nodup hC2.sub hall2
    exact hc.trans hl
  rw [e1, e2]
  have hp := perm_of_lookup hT1.d_nodup hT2.d_nodup hd
  exact ((hp.map (fun p => canonKey p.1)).dedup).length_eq


/-! ## The strategy object of the path finder -/

/-- C21 (the strategy field of the path finder does not influence the search): for
every graph and query, any two path finders, whatever strategy objects were installed
in them with `setStrategy`, return the same result of `findPath` (found flag, path and
total weight), which is also the result before the call; what `setStrategy` changes is
`getCurrentStrategyName`, which becomes the name of the installed object (the two
strategy classes have different names); and `setStrategy` with a null pointer leaves
the path finder as it was. -/
theorem strategy_field_no_influence (pf pf2 : PathFinder) (s1 s2 : Strategy) (H : MinHeap)
    (g : Graph) (elapsed src dst : Int) :
    (pf.setStrategy (some s1)).findPath H g elapsed src dst =
      (pf.setStrategy (some s2)).findPath H g elapsed src dst ∧
    (pf.setStrategy (some s1)).findPath H g elapsed src dst =
      pf.findPath H g elapsed src dst ∧
    pf.findPath H g elapsed src dst = pf2.findPath H g elapsed src dst ∧
    (pf.setStrategy (some s1)).getCurrentStrategyName = s1.getName ∧
    Strategy.ShortestDistanceStrategy.getName ≠ Strategy.LeastTimeStrategy.getName ∧
    pf.setStrategy none = pf ∧
    (pf.setStrategy none).getCurrentStrategyName = pf.getCurrentStrategyName := by
  refine ⟨rfl, rfl, rfl, rfl, ?_, rfl, rfl⟩
  decide


/-! ## The undirectedness invariant of `Graph` -/

theorem keysEq_addNode (g : Graph) (n : Int)
    (h : ∀ x, g.hasNode x = (mapFind g.adjacencyList_ x).isSome) :
    ∀ x, (g.addNode n).hasNode x = (mapFind (g.addNode n).adjacencyList_ x).isSome := by
  intro x
  unfold Graph.addNode
  by_cases hn : g.hasNode n = true
  · rw [if_pos hn]; exact h x
  · rw [if_neg hn]
    show (mapFind (mapSet g.nodes_ n true) x).isSome =
      (mapFind (mapSet g.adjacencyList_ n []) x).isSome
    rw [mapFind_mapSet, mapFind_mapSet]
    by_cases hx : n = x
    · simp [hx]
    · simp only [if_neg hx]
      exact h x

theorem keysEq_addEdge (g : Graph) (a b : Int) (w : ℚ)
    (h : ∀ x, g.hasNode x = (mapFind g.adjacencyList_ x).isSome) :
    ∀ x, (g.addEdge a b w).hasNode x = (mapFind (g.addEdge a b w).adjacencyList_ x).isSome := by
  intro x
  have h2 := keysEq_addNode _ b (keysEq_addNode g a h) x
  show ((g.addNode a).addNode b).hasNode x =
    (mapFind (emplaceBack (emplaceBack ((g.addNode a).addNode b).adjacencyList_ a ⟨b, w⟩)
      b ⟨a, w⟩) x).isSome
  rw [mapFind_emplaceBack_isSome, mapFind_emplaceBack_isSome, ← h2, hasNode_addNode,
    hasNode_addNode]
  by_cases ha : a = x <;> by_cases hb : b = x <;> simp [ha, hb]

theorem Graph.Built.keys_eq {g : Graph} (h : g.Built) :
    ∀ x, g.hasNode x = (mapFind g.adjacencyList_ x).isSome := by
  induction h with
  | empty => intro x; rfl
  | addNode g n _ ih => exact keysEq_addNode g n ih
  | addEdge g a b w _ ih => exact keysEq_addEdge g a b w ih

theorem Graph.Built.entries_known {g : Graph} (h : g.Built) :
    ∀ u, ∀ e ∈ g.getAdjacentEdges u, g.hasNode e.dst = true := by
  induction h with
  | empty => intro u e he; exact absurd he (List.not_mem_nil _)
  | addNode g n hg ih =>
    intro u e he
    rw [getAdjacentEdges_addNode_known hg.keysKnown] at he
    rw [hasNode_addNode, ih u e he]
    rfl
  | addEdge g a b w hg ih =>
    intro u e he
    rw [getAdjacentEdges_addEdge_known hg.keysKnown] at he
    rw [hasNode_addEdge]
    simp only [List.mem_append] at he
    rcases he with (he | he) | he
    · rw [ih u e he]; rfl
    · by_cases hau : a = u
      · rw [if_pos hau, List.mem_singleton] at he
        rw [he]; simp
      · rw [if_neg hau] at he
        exact absurd he (List.not_mem_nil _)
    · by_cases hbu : b = u
      · rw [if_pos hbu, List.mem_singleton] at he
        rw [he]; simp
      · rw [if_neg hbu] at he
        exact absurd he (List.not_mem_nil _)

theorem Graph.Built.count_symm {g : Graph} (h : g.Built) :
    ∀ (u v : Int) (w : ℚ), u ≠ v →
      (g.getAdjacentEdges u).count ⟨v, w⟩ = (g.getAdjacentEdges v).count ⟨u, w⟩ := by
  induction h with
  | empty => intro u v w _; rfl
  | addNode g n hg ih =>
    intro u v w huv
    rw [getAdjacentEdges_addNode_known hg.keysKnown,
      getAdjacentEdges_addNode_known hg.keysKnown]
    exact ih u v w huv
  | addEdge g a b w0 hg ih =>
    intro u v w huv
    have hvu : ¬ v = u := fun e => huv e.symm
    rw [getAdjacentEdges_addEdge_known hg.keysKnown,
      getAdjacentEdges_addEdge_known hg.keysKnown, List.count_append, List.count_append,
      List.count_append, List.count_append, ih u v w huv]
    by_cases hau : a = u <;> by_cases hbu : b = u <;> by_cases hav : a = v <;>
      by_cases hbv : b = v <;> by_cases hw : w0 = w <;>
      simp_all [List.count_cons, List.count_nil]


theorem sum_lengths_mapSet (adj : List (Int × List Edge)) (k : Int) (es : List Edge) :
    ((mapSet adj k es).map (fun p => p.2.length)).sum + (mapGetD adj k []).length =
      (adj.map (fun p => p.2.length)).sum + es.length := by
  induction adj with
  | nil => simp [mapSet, mapGetD, mapFind]
  | cons p rest ih =>
    obtain ⟨k0, v0⟩ := p
    by_cases h0 : k0 = k
    · simp only [mapSet, mapGetD, mapFind, if_pos h0, List.map_cons, List.sum_cons]
      omega
    · have hget : mapGetD ((k0, v0) :: rest) k [] = mapGetD rest k [] := by
        simp [mapGetD, mapFind, h0]
      rw [hget]
      simp only [mapSet, if_neg h0, List.map_cons, List.sum_cons]
      omega

theorem entryCount_addNode {g : Graph} (hk : g.KeysKnown) (n : Int) :
    (g.addNode n).entryCount = g.entryCount := by
  unfold Graph.addNode
  by_cases hn : g.hasNode n = true
  · rw [if_pos hn]
  · rw [if_neg hn]
    have hnone : mapFind g.adjacencyList_ n = none := by
      cases hf : mapFind g.adjacencyList_ n with
      | none => rfl
      | some es => exact absurd (hk n (by rw [hf]; exact fun h => Option.noConfusion h)) hn
    have hs := sum_lengths_mapSet g.adjacencyList_ n []
    have hget : mapGetD g.adjacencyList_ n ([] : List Edge) = [] := by
      simp [mapGetD, hnone]
    rw [hget] at hs
    simpa [Graph.entryCount] using hs

theorem sum_lengths_emplaceBack (adj : List (Int × List Edge)) (k : Int) (e : Edge) :
    ((emplaceBack adj k e).map (fun p => p.2.length)).sum =
      (adj.map (fun p => p.2.length)).sum + 1 := by
  have hs := sum_lengths_mapSet adj k (mapGetD adj k [] ++ [e])
  rw [List.length_append, List.length_singleton] at hs
  unfold emplaceBack
  omega

theorem entryCount_addEdge {g : Graph} (hk : g.KeysKnown) (a b : Int) (w : ℚ) :
    (g.addEdge a b w).entryCount = g.entryCount + 2 := by
  have h2 : ((g.addNode a).addNode b).entryCount = g.entryCount := by
    rw [entryCount_addNode (keysKnown_addNode hk a), entryCount_addNode hk]
  show ((emplaceBack (emplaceBack ((g.addNode a).addNode b).adjacencyList_ a ⟨b, w⟩)
      b ⟨a, w⟩).map (fun p => p.2.length)).sum = g.entryCount + 2
  rw [sum_lengths_emplaceBack, sum_lengths_emplaceBack, ← h2]
  rfl

theorem Graph.Built.entryCount_eq {g : Graph} (h : g.Built) :
    g.entryCount = 2 * g.getEdgeCount := by
  induction h with
  | empty => rfl
  | addNode g n hg ih =>
    rw [entryCount_addNode hg.keysKnown, ih]
    unfold Graph.addNode Graph.getEdgeCount
    split <;> rfl
  | addEdge g a b w hg ih =>
    rw [entryCount_addEdge hg.keysKnown, getEdgeCount_addEdge, ih]
    omega

/-- C26 (undirectedness invariant of `Graph`): in every graph reached from the empty
graph by `addNode`, `addEdge` and `clear`, a node is known exactly when it is a key of
the adjacency map; every adjacency entry leads to a known node; for nodes `u ≠ v` and
every weight `w` the list of `u` has as many entries `(v,w)` as the list of `v` has
entries `(u,w)`; and the number of adjacency entries is twice the edge count.  Such
graphs are closed under `clear`. -/
theorem graph_undirected_invariant (g : Graph) (hb : g.Built) :
    (∀ x, g.hasNode x = (mapFind g.adjacencyList_ x).isSome) ∧
    (∀ u, ∀ e ∈ g.getAdjacentEdges u, g.hasNode e.dst = true) ∧
    (∀ (u v : Int) (w : ℚ), u ≠ v →
      (g.getAdjacentEdges u).count ⟨v, w⟩ = (g.getAdjacentEdges v).count ⟨u, w⟩) ∧
    g.entryCount = 2 * g.getEdgeCount ∧
    g.clear.Built :=
  ⟨hb.keys_eq, hb.entries_known, hb.count_symm, hb.entryCount_eq, Graph.Built.empty⟩

theorem graph_undirected_invariant_witness :
    sampleGraph.Built ∧
    ((∀ x, sampleGraph.hasNode x = (mapFind sampleGraph.adjacencyList_ x).isSome) ∧
    (∀ u, ∀ e ∈ sampleGraph.getAdjacentEdges u, sampleGraph.hasNode e.dst = true) ∧
    (∀ (u v : Int) (w : ℚ), u ≠ v →
      (sampleGraph.getAdjacentEdges u).count ⟨v, w⟩ =
        (sampleGraph.getAdjacentEdges v).count ⟨u, w⟩) ∧
    sampleGraph.entryCount = 2 * sampleGraph.getEdgeCount ∧
    sampleGraph.clear.Built) :=
  ⟨sampleGraph_built, graph_undirected_invariant sampleGraph sampleGraph_built⟩


/-! ## Reachable engine states -/

theorem setStrategy_no_isolated (E : MapEngine) (O : HashOrder) (k : PathStrategy) (x : Int) :
    (E.setStrategy O k).graph_.hasNode x = true →
      (E.setStrategy O k).graph_.getAdjacentEdges x ≠ [] :=
  rebuildFold_no_isolated O k E.distances_
    { graph := Graph.empty, times := E.times_, addedEdges := [] }
    (fun _ hu => absurd rfl hu) (fun _ hy => Bool.noConfusion hy) x

theorem reachable_no_isolated {E : MapEngine} (h : MapEngine.Reachable E) :
    ∀ x, E.graph_.hasNode x = true → E.graph_.getAdjacentEdges x ≠ [] := by
  cases h with
  | new => intro x hx; exact Bool.noConfusion hx
  | loadMap E0 O rd filename _ =>
    cases hopen : rd.openFile filename with
    | none =>
      rw [loadMap_fail O rd E0 filename hopen]
      intro x hx
      exact Bool.noConfusion hx
    | some lines =>
      obtain ⟨E1, _, _, _, _, hE⟩ := loadMap_spec O rd E0 filename lines hopen
      rw [hE]
      exact setStrategy_no_isolated _ O _
  | setStrategy E0 O k _ => exact setStrategy_no_isolated E0 O k

/-- C24 (no isolated node survives a rebuild): in every engine state reached from the
constructor by `loadMap` calls, successful or failed, and `setStrategy` calls, every
node of the graph has a non-empty adjacency list, so it is an endpoint of an edge, and
`isIsolated(x)` is false for every node id `x`. -/
theorem no_isolated_node (E : MapEngine) (h : MapEngine.Reachable E) (x : Int) :
    E.isIsolated x = false ∧
    (E.graph_.hasNode x = true →
      E.graph_.getAdjacentEdges x ≠ [] ∧
      ∃ e, e ∈ E.graph_.getAdjacentEdges x) := by
  have hne := reachable_no_isolated h x
  refine ⟨isIsolated_false_of_edges _ x hne, fun hx => ⟨hne hx, ?_⟩⟩
  cases hes : E.graph_.getAdjacentEdges x with
  | nil => exact absurd hes (hne hx)
  | cons e rest => exact ⟨e, List.mem_cons_self _ _⟩

theorem sampleEngine_reachable : MapEngine.Reachable sampleEngine :=
  MapEngine.Reachable.loadMap MapEngine.new appendOrder sampleReader "map"
    MapEngine.Reachable.new

theorem no_isolated_node_witness :
    MapEngine.Reachable sampleEngine ∧
    (sampleEngine.isIsolated 5 = false ∧
    (sampleEngine.graph_.hasNode 5 = true →
      sampleEngine.graph_.getAdjacentEdges 5 ≠ [] ∧
      ∃ e, e ∈ sampleEngine.graph_.getAdjacentEdges 5)) :=
  ⟨sampleEngine_reachable, no_isolated_node sampleEngine sampleEngine_reachable 5⟩


theorem addRecords_last (O : HashOrder) (a b : Int) :
    ∀ (rs : List (Int × Int × ℚ × ℚ)) (st : LoadState) (acc : Option (ℚ × ℚ)),
      (st.distances.map Prod.fst).Nodup → (st.times.map Prod.fst).Nodup →
      mapFind st.distances (a, b) = acc.map Prod.fst →
      mapFind st.times (a, b) = acc.map Prod.snd →
      mapFind (rs.foldl (addRecord O) st).distances (a, b) =
        (rs.foldl (lastRecordStep a b) acc).map Prod.fst ∧
      mapFind (rs.foldl (addRecord O) st).times (a, b) =
        (rs.foldl (lastRecordStep a b) acc).map Prod.snd
  | [], _, _, _, _, hd, ht => ⟨hd, ht⟩
  | r :: rs, st, acc, nd, nt, hd, ht => by
    obtain ⟨a1, b1, x, y⟩ := r
    rw [List.foldl_cons, List.foldl_cons]
    have hcond : ((a, b) = (a1, b1) ∨ (a, b) = (b1, a1)) ↔
        ((a1 = a ∧ b1 = b) ∨ (a1 = b ∧ b1 = a)) := by
      simp only [Prod.mk.injEq]
      constructor
      · rintro (⟨h1, h2⟩ | ⟨h1, h2⟩)
        · exact Or.inl ⟨h1.symm, h2.symm⟩
        · exact Or.inr ⟨h2.symm, h1.symm⟩
      · rintro (⟨h1, h2⟩ | ⟨h1, h2⟩)
        · exact Or.inl ⟨h1.symm, h2.symm⟩
        · exact Or.inr ⟨h2.symm, h1.symm⟩
    refine addRecords_last O a b rs _ _
      (nodup_assign O _ _ _ (nodup_assign O _ _ _ nd))
      (nodup_assign O _ _ _ (nodup_assign O _ _ _ nt)) ?_ ?_
    · show mapFind (O.assign (O.assign st.distances (a1, b1) x) (b1, a1) x) (a, b) = _
      rw [mapFind_assign2 O _ a1 b1 x (a, b) nd]
      unfold lastRecordStep
      by_cases hc : (a, b) = (a1, b1) ∨ (a, b) = (b1, a1)
      · rw [if_pos hc, if_pos (hcond.1 hc)]; rfl
      · rw [if_neg hc, if_neg (fun h => hc (hcond.2 h))]; exact hd
    · show mapFind (O.assign (O.assign st.times (a1, b1) y) (b1, a1) y) (a, b) = _
      rw [mapFind_assign2 O _ a1 b1 y (a, b) nt]
      unfold lastRecordStep
      by_cases hc : (a, b) = (a1, b1) ∨ (a, b) = (b1, a1)
      · rw [if_pos hc, if_pos (hcond.1 hc)]; rfl
      · rw [if_neg hc, if_neg (fun h => hc (hcond.2 h))]; exact ht

/-- The loaded tables hold, for every pair of nodes, the values of the last accepted
record that joins them. -/
theorem loadLines_last (O : HashOrder) (rd : Reader) (lines : List String) (a b : Int) :
    mapFind (loadLines O rd lines).distances (a, b) =
      (lastRecord (acceptedRecords rd lines) a b).map Prod.fst ∧
    mapFind (loadLines O rd lines).times (a, b) =
      (lastRecord (acceptedRecords rd lines) a b).map Prod.snd := by
  rw [loadLines_records O rd lines]
  exact addRecords_last O a b _ _ none List.nodup_nil List.nodup_nil rfl rfl

theorem lastRecord_isSome (a b : Int) :
    ∀ (rs : List (Int × Int × ℚ × ℚ)) (acc : Option (ℚ × ℚ)),
      (rs.foldl (lastRecordStep a b) acc).isSome = true ↔
        acc.isSome = true ∨ ∃ r ∈ rs, (r.1 = a ∧ r.2.1 = b) ∨ (r.1 = b ∧ r.2.1 = a)
  | [], acc => by simp
  | r :: rs, acc => by
    rw [List.foldl_cons, lastRecord_isSome a b rs]
    unfold lastRecordStep
    by_cases hc : (r.1 = a ∧ r.2.1 = b) ∨ (r.1 = b ∧ r.2.1 = a)
    · rw [if_pos hc]
      constructor
      · intro _
        exact Or.inr ⟨r, List.mem_cons_self _ _, hc⟩
      · intro _
        exact Or.inl rfl
    · rw [if_neg hc]
      constructor
      · rintro (h | ⟨q, hq, hqc⟩)
        · exact Or.inl h
        · exact Or.inr ⟨q, List.mem_cons_of_mem _ hq, hqc⟩
      · rintro (h | ⟨q, hq, hqc⟩)
        · exact Or.inl h
        · rcases List.mem_cons.1 hq with heq | hq2
          · rw [heq] at hqc
            exact absurd hqc hc
          · exact Or.inr ⟨q, hq2, hqc⟩

theorem addRecords_count (O : HashOrder) :
    ∀ (rs : List (Int × Int × ℚ × ℚ)) (st : LoadState),
      (rs.foldl (addRecord O) st).lastEdgeCount = st.lastEdgeCount + rs.length
  | [], _ => rfl
  | r :: rs, st => by
    rw [List.foldl_cons, addRecords_count O rs, List.length_cons]
    show st.lastEdgeCount + 1 + rs.length = _
    omega


theorem loadLines_pairs (O : HashOrder) (rd : Reader) (lines : List String) :
    (unorderedPairs (loadLines O rd lines).distances).length =
      (recordPairs (acceptedRecords rd lines)).length := by
  have hT := loadLines_ok O rd lines
  apply List.Perm.length_eq
  apply (List.perm_ext_iff_of_nodup (List.nodup_dedup _) (List.nodup_dedup _)).2
  intro k
  rw [List.mem_dedup, List.mem_dedup, List.mem_map, List.mem_map]
  constructor
  · rintro ⟨p, hp, hpk⟩
    obtain ⟨⟨a, b⟩, x⟩ := p
    have hfind := mapFind_of_mem _ hT.d_nodup _ _ hp
    rw [(loadLines_last O rd lines a b).1] at hfind
    have hsome : (lastRecord (acceptedRecords rd lines) a b).isSome = true := by
      cases hl : lastRecord (acceptedRecords rd lines) a b with
      | none => rw [hl] at hfind; exact Option.noConfusion hfind
      | some v => rfl
    rcases (lastRecord_isSome a b _ none).1 hsome with h | ⟨r, hr, hrc⟩
    · exact Bool.noConfusion h
    · refine ⟨r, hr, ?_⟩
      rw [← hpk]
      exact (canonKey_eq_iff r.1 r.2.1 a b).2 hrc
  · rintro ⟨r, hr, hrk⟩
    have hsome : (lastRecord (acceptedRecords rd lines) r.1 r.2.1).isSome = true :=
      (lastRecord_isSome r.1 r.2.1 _ none).2 (Or.inr ⟨r, hr, Or.inl ⟨rfl, rfl⟩⟩)
    obtain ⟨v, hv⟩ := Option.isSome_iff_exists.1 hsome
    have hfind : mapFind (loadLines O rd lines).distances (r.1, r.2.1) = some v.1 := by
      rw [(loadLines_last O rd lines r.1 r.2.1).1, hv]; rfl
    exact ⟨((r.1, r.2.1), v.1), mem_of_mapFind _ _ _ hfind, hrk⟩

/-- The entries and the edge count of the graph rebuilt from loader-made tables. -/
theorem rebuilt_entries (O : HashOrder) (d t : PairMap) (k : PathStrategy)
    (hT : TablesOK d t) :
    (rebuiltGraph O d t k).getEdgeCount = (unorderedPairs d).length ∧
    (∀ a b x y, mapFind d (a, b) = some x → mapFind t (a, b) = some y →
      entriesFor (rebuiltGraph O d t k) a b =
        if a = b then [⟨b, strategyWeight k x y⟩, ⟨b, strategyWeight k x y⟩]
        else [⟨b, strategyWeight k x y⟩]) ∧
    (∀ a b, mapFind d (a, b) = none → entriesFor (rebuiltGraph O d t k) a b = []) := by
  obtain ⟨hC, hall⟩ := rebuild_count O d t k Graph.empty hT
  refine ⟨?_, ?_, ?_⟩
  · exact hC.count.trans (length_eq_unorderedPairs _ _ hC.nodup hC.sub hall)
  · intro a b x y hx hy
    exact hC.once a b x y (hall _ (mem_of_mapFind _ _ _ hx)) hx hy
  · intro a b hnone
    apply hC.absent
    intro hmem
    obtain ⟨p, hp, hpk⟩ := List.mem_map.1 (hC.sub _ hmem)
    obtain ⟨⟨u, v⟩, x⟩ := p
    have hfind : mapFind d (u, v) = some x := mapFind_of_mem _ hT.d_nodup _ _ hp
    rcases (canonKey_eq_iff u v a b).1 hpk with ⟨h1, h2⟩ | ⟨h1, h2⟩
    · subst h1 h2
      rw [hnone] at hfind
      exact Option.noConfusion hfind
    · subst h1 h2
      rw [hT.d_symm, hnone] at hfind
      exact Option.noConfusion hfind

theorem load_counts (O : HashOrder) (rd : Reader) (E0 : MapEngine)
    (filename : String) (lines : List String)
    (hopen : rd.openFile filename = some lines) :
    (E0.loadMap O rd filename).2.getEdgeCount =
      (recordPairs (acceptedRecords rd lines)).length ∧
    (E0.loadMap O rd filename).2.dataLoader_.getLoadedEdgeCount =
      (acceptedRecords rd lines).length := by
  obtain ⟨_, _, _, _, hl, _, hg⟩ := loadMap_fields O rd E0 filename lines hopen
  have hT := loadLines_ok O rd lines
  obtain ⟨hcount, _, _⟩ := rebuilt_entries O _ _ E0.currentStrategy_ hT
  constructor
  · unfold MapEngine.getEdgeCount
    rw [hg, hcount, loadLines_pairs]
  · rw [hl]
    show (loadLines O rd lines).lastEdgeCount = _
    rw [loadLines_records O rd lines, addRecords_count]
    exact Nat.zero_add _

theorem cycleRecords_last :
    lastRecord cycleRecords 5 7 = some (5, 5) ∧ (7, 5, 1, 1) ∈ cycleRecords ∧
    (recordPairs cycleRecords).length = 3 ∧ cycleRecords.length = 4 := by
  refine ⟨?_, ?_, ?_, rfl⟩
  · with_unfolding_all decide
  · with_unfolding_all decide
  · with_unfolding_all decide

/-- C25 (several records for one pair collapse, the last one wins): after a successful
load, for every pair of nodes joined by at least one accepted record (in either
orientation) the tables hold the distance and time of the last such record in file
order, and the graph holds exactly one adjacency entry for `b` on `a` (two when
`a = b`), weighted by that record's distance or time according to the active strategy;
a pair joined by no accepted record has no entry.  The edge count of the engine is the
number of distinct unordered pairs among the accepted records; the loader's count is
the number of accepted records, so it is never the smaller one, and for the file of the
cycle scenario it is the larger one (4 against 3). -/
theorem duplicate_records_last_wins (O : HashOrder) (rd : Reader) (E0 : MapEngine)
    (filename : String) (lines : List String)
    (hopen : rd.openFile filename = some lines) :
    (E0.loadMap O rd filename).1 = true ∧
    (∀ a b x y, lastRecord (acceptedRecords rd lines) a b = some (x, y) →
      mapFind (E0.loadMap O rd filename).2.distances_ (a, b) = some x ∧
      mapFind (E0.loadMap O rd filename).2.times_ (a, b) = some y ∧
      entriesFor (E0.loadMap O rd filename).2.graph_ a b =
        if a = b then
          [⟨b, strategyWeight (E0.loadMap O rd filename).2.currentStrategy_ x y⟩,
           ⟨b, strategyWeight (E0.loadMap O rd filename).2.currentStrategy_ x y⟩]
        else [⟨b, strategyWeight (E0.loadMap O rd filename).2.currentStrategy_ x y⟩]) ∧
    (∀ a b, lastRecord (acceptedRecords rd lines) a b = none →
      entriesFor (E0.loadMap O rd filename).2.graph_ a b = []) ∧
    (E0.loadMap O rd filename).2.getEdgeCount =
      (recordPairs (acceptedRecords rd lines)).length ∧
    (E0.loadMap O rd filename).2.dataLoader_.getLoadedEdgeCount =
      (acceptedRecords rd lines).length ∧
    (E0.loadMap O rd filename).2.getEdgeCount ≤
      (E0.loadMap O rd filename).2.dataLoader_.getLoadedEdgeCount ∧
    (E0.loadMap O cycleReader "cycle").2.getEdgeCount <
      (E0.loadMap O cycleReader "cycle").2.dataLoader_.getLoadedEdgeCount := by
  obtain ⟨hok, hd, ht, hc, hl, _, hg⟩ := loadMap_fields O rd E0 filename lines hopen
  have hT := loadLines_ok O rd lines
  obtain ⟨hcount, hone, hnone⟩ := rebuilt_entries O _ _ E0.currentStrategy_ hT
  obtain ⟨hec, hlc⟩ := load_counts O rd E0 filename lines hopen
  refine ⟨hok, ?_, ?_, hec, hlc, ?_, ?_⟩
  · intro a b x y hlast
    obtain ⟨h1, h2⟩ := loadLines_last O rd lines a b
    rw [hlast] at h1 h2
    refine ⟨by rw [hd]; exact h1, by rw [ht]; exact h2, ?_⟩
    rw [hg, hc]
    exact hone a b x y h1 h2
  · intro a b hlast
    obtain ⟨h1, _⟩ := loadLines_last O rd lines a b
    rw [hlast] at h1
    rw [hg]
    exact hnone a b h1
  · rw [hec, hlc]
    unfold recordPairs
    exact ((List.dedup_sublist _).length_le).trans (le_of_eq (List.length_map _ _))
  · obtain ⟨h1, h2⟩ := load_counts O cycleReader E0 "cycle" ["e1", "e2", "e3", "e4"]
      (by simp [cycleReader])
    rw [h1, h2, cycleReader_records, cycleRecords_last.2.2.1, cycleRecords_last.2.2.2]
    decide


theorem duplicate_records_last_wins_witness :
    cycleReader.openFile "cycle" = some ["e1", "e2", "e3", "e4"] ∧
    ((MapEngine.new.loadMap appendOrder cycleReader "cycle").1 = true ∧
    (∀ a b x y, lastRecord (acceptedRecords cycleReader ["e1", "e2", "e3", "e4"]) a b =
        some (x, y) →
      mapFind (MapEngine.new.loadMap appendOrder cycleReader "cycle").2.distances_ (a, b) =
        some x ∧
      mapFind (MapEngine.new.loadMap appendOrder cycleReader "cycle").2.times_ (a, b) =
        some y ∧
      entriesFor (MapEngine.new.loadMap appendOrder cycleReader "cycle").2.graph_ a b =
        if a = b then
          [⟨b, strategyWeight
              (MapEngine.new.loadMap appendOrder cycleReader "cycle").2.currentStrategy_ x y⟩,
           ⟨b, strategyWeight
              (MapEngine.new.loadMap appendOrder cycleReader "cycle").2.currentStrategy_ x y⟩]
        else
          [⟨b, strategyWeight
              (MapEngine.new.loadMap appendOrder cycleReader "cycle").2.currentStrategy_ x y⟩]) ∧
    (∀ a b, lastRecord (acceptedRecords cycleReader ["e1", "e2", "e3", "e4"]) a b = none →
      entriesFor (MapEngine.new.loadMap appendOrder cycleReader "cycle").2.graph_ a b = []) ∧
    (MapEngine.new.loadMap appendOrder cycleReader "cycle").2.getEdgeCount =
      (recordPairs (acceptedRecords cycleReader ["e1", "e2", "e3", "e4"])).length ∧
    (MapEngine.new.loadMap appendOrder cycleReader "cycle").2.dataLoader_.getLoadedEdgeCount =
      (acceptedRecords cycleReader ["e1", "e2", "e3", "e4"]).length ∧
    (MapEngine.new.loadMap appendOrder cycleReader "cycle").2.getEdgeCount ≤
      (MapEngine.new.loadMap appendOrder cycleReader "cycle").2.dataLoader_.getLoadedEdgeCount ∧
    (MapEngine.new.loadMap appendOrder cycleReader "cycle").2.getEdgeCount <
      (MapEngine.new.loadMap appendOrder cycleReader "cycle").2.dataLoader_.getLoadedEdgeCount) :=
  ⟨by simp [cycleReader],
   duplicate_records_last_wins appendOrder cycleReader MapEngine.new "cycle"
     ["e1", "e2", "e3", "e4"] (by simp [cycleReader])⟩


/-! ## Counting the pushes and the finalized nodes of a search -/

theorem log2Fuel_spec : ∀ (fuel n : Nat), 0 < n → n ≤ fuel →
    2 ^ log2Fuel fuel n ≤ n ∧ n < 2 ^ (log2Fuel fuel n + 1)
  | 0, n, h0, h => by omega
  | fuel + 1, n, h0, h => by
    by_cases h2 : n < 2
    · have h1 : n = 1 := by omega
      subst h1
      simp [log2Fuel]
    · obtain ⟨h1, h3⟩ := log2Fuel_spec fuel (n / 2) (by omega) (by omega)
      simp only [log2Fuel, h2, if_false]
      generalize log2Fuel fuel (n / 2) = k at h1 h3
      simp only [pow_succ] at h3 ⊢
      generalize 2 ^ k = p at h1 h3 ⊢
      constructor <;> omega

theorem pow2_eq (k : ℤ) : pow2 k = (2 : ℚ) ^ k := by
  unfold pow2
  split_ifs with h
  · obtain ⟨n, rfl⟩ := Int.eq_ofNat_of_zero_le h
    simp
  · have hk : k = -((-k).toNat : ℤ) := by
      rw [Int.toNat_of_nonneg (by omega)]
      omega
    rw [hk]
    generalize (-k).toNat = n
    simp

theorem pow2_pos (k : ℤ) : 0 < pow2 k := by
  rw [pow2_eq]
  positivity

theorem binade_spec (q : ℚ) (hq : 0 < q) :
    (2 : ℚ) ^ binade q ≤ q ∧ q < (2 : ℚ) ^ (binade q + 1) := by
  have hn : 0 < q.num := Rat.num_pos.2 hq
  have hna : 0 < q.num.natAbs := Int.natAbs_pos.2 (ne_of_gt hn)
  obtain ⟨ha1, ha2⟩ := log2Fuel_spec q.num.natAbs q.num.natAbs hna (le_refl _)
  obtain ⟨hb1, hb2⟩ := log2Fuel_spec q.den q.den q.den_pos (le_refl _)
  have hcast : ((q.num.natAbs : ℕ) : ℚ) = (q.num : ℚ) := by
    rw [Nat.cast_natAbs, abs_of_pos hn]
  have hden : (0 : ℚ) < (q.den : ℚ) := by exact_mod_cast q.den_pos
  generalize ha : log2Fuel q.num.natAbs q.num.natAbs = a at ha1 ha2
  generalize hb : log2Fuel q.den q.den = b at hb1 hb2
  have ha1q : (2 : ℚ) ^ (a : ℤ) ≤ (q.num.natAbs : ℚ) := by
    rw [zpow_natCast]; exact_mod_cast ha1
  have ha2q : (q.num.natAbs : ℚ) < (2 : ℚ) ^ ((a : ℤ) + 1) := by
    have : ((a : ℤ) + 1) = ((a + 1 : ℕ) : ℤ) := by simp
    rw [this, zpow_natCast]; exact_mod_cast ha2
  have hb1q : (2 : ℚ) ^ (b : ℤ) ≤ (q.den : ℚ) := by
    rw [zpow_natCast]; exact_mod_cast hb1
  have hb2q : (q.den : ℚ) < (2 : ℚ) ^ ((b : ℤ) + 1) := by
    have : ((b : ℤ) + 1) = ((b + 1 : ℕ) : ℤ) := by simp
    rw [this, zpow_natCast]; exact_mod_cast hb2
  have hmul : q * (q.den : ℚ) = (q.num.natAbs : ℚ) := by
    rw [hcast]; exact Rat.mul_den_eq_num q
  have h2 : (0 : ℚ) < 2 := by norm_num
  -- upper bound: q < 2^(a - b + 1)
  have hup : q < (2 : ℚ) ^ ((a : ℤ) - b + 1) := by
    have e1 : (2 : ℚ) ^ ((a : ℤ) - b + 1) * (2 : ℚ) ^ (b : ℤ) = (2 : ℚ) ^ ((a : ℤ) + 1) := by
      rw [← zpow_add₀ (ne_of_gt h2)]; congr 1; ring
    have : q * (q.den : ℚ) < (2 : ℚ) ^ ((a : ℤ) - b + 1) * (q.den : ℚ) := by
      rw [hmul]
      calc (q.num.natAbs : ℚ) < (2 : ℚ) ^ ((a : ℤ) + 1) := ha2q
        _ = (2 : ℚ) ^ ((a : ℤ) - b + 1) * (2 : ℚ) ^ (b : ℤ) := e1.symm
        _ ≤ (2 : ℚ) ^ ((a : ℤ) - b + 1) * (q.den : ℚ) :=
            mul_le_mul_of_nonneg_left hb1q (le_of_lt (zpow_pos h2 _))
    exact lt_of_mul_lt_mul_right this (le_of_lt hden)
  have hlow : (2 : ℚ) ^ ((a : ℤ) - b - 1) ≤ q := by
    have e1 : (2 : ℚ) ^ ((a : ℤ) - b - 1) * (2 : ℚ) ^ ((b : ℤ) + 1) = (2 : ℚ) ^ (a : ℤ) := by
      rw [← zpow_add₀ (ne_of_gt h2)]; congr 1; ring
    have : (2 : ℚ) ^ ((a : ℤ) - b - 1) * (q.den : ℚ) ≤ q * (q.den : ℚ) := by
      rw [hmul]
      calc (2 : ℚ) ^ ((a : ℤ) - b - 1) * (q.den : ℚ)
          ≤ (2 : ℚ) ^ ((a : ℤ) - b - 1) * (2 : ℚ) ^ ((b : ℤ) + 1) :=
            mul_le_mul_of_nonneg_left (le_of_lt hb2q) (le_of_lt (zpow_pos h2 _))
        _ = (2 : ℚ) ^ (a : ℤ) := e1
        _ ≤ (q.num.natAbs : ℚ) := ha1q
    exact le_of_mul_le_mul_right this hden
  unfold binade
  simp only [ha, hb]
  rw [pow2_eq]
  split_ifs with hk
  · exact ⟨hk, hup⟩
  · refine ⟨hlow, ?_⟩
    have : (a : ℤ) - b - 1 + 1 = (a : ℤ) - b := by ring
    rw [this]
    exact lt_of_not_le hk

theorem roundEven_floor_le (q : ℚ) : ⌊q⌋ ≤ roundEven q := by
  unfold roundEven
  simp only
  split_ifs <;> omega

theorem roundEven_le_floor (q : ℚ) : roundEven q ≤ ⌊q⌋ + 1 := by
  unfold roundEven
  simp only
  split_ifs <;> omega

theorem roundEven_intCast (n : ℤ) : roundEven (n : ℚ) = n := by
  unfold roundEven
  simp

theorem roundEven_mono {r s : ℚ} (h : r ≤ s) : roundEven r ≤ roundEven s := by
  have hf : ⌊r⌋ ≤ ⌊s⌋ := Int.floor_mono h
  rcases lt_or_eq_of_le hf with hlt | heq
  · have h1 := roundEven_le_floor r
    have h2 := roundEven_floor_le s
    omega
  · unfold roundEven
    simp only
    rw [heq]
    split_ifs <;> first | omega | (exfalso; linarith)

theorem ulp_eq (q : ℚ) : ulp q = (2 : ℚ) ^ (max (binade q) (-1022) - 52) := by
  unfold ulp
  rw [pow2_eq]

theorem ulp_pos (q : ℚ) : 0 < ulp q := pow2_pos _

theorem two_zpow_pos (k : ℤ) : (0 : ℚ) < (2 : ℚ) ^ k := zpow_pos (by norm_num) k

theorem two_zpow_add (a b : ℤ) : (2 : ℚ) ^ a * (2 : ℚ) ^ b = (2 : ℚ) ^ (a + b) :=
  (zpow_add₀ (by norm_num) a b).symm

theorem two_zpow_le {a b : ℤ} (h : a ≤ b) : (2 : ℚ) ^ a ≤ (2 : ℚ) ^ b :=
  zpow_le_zpow_right₀ (by norm_num) h

theorem two_zpow_lt {a b : ℤ} (h : a < b) : (2 : ℚ) ^ a < (2 : ℚ) ^ b :=
  zpow_lt_zpow_right₀ (by norm_num) h

theorem two_pow52_mul (E : ℤ) : (((2 : ℤ) ^ 52 : ℤ) : ℚ) * (2 : ℚ) ^ (E - 52) = (2 : ℚ) ^ E := by
  have h : (((2 : ℤ) ^ 52 : ℤ) : ℚ) = (2 : ℚ) ^ (52 : ℤ) := by norm_num
  rw [h, two_zpow_add]
  congr 1
  ring

theorem two_pow53_mul (E : ℤ) :
    (((2 : ℤ) ^ 53 : ℤ) : ℚ) * (2 : ℚ) ^ (E - 52) = (2 : ℚ) ^ (E + 1) := by
  have h : (((2 : ℤ) ^ 53 : ℤ) : ℚ) = (2 : ℚ) ^ (53 : ℤ) := by norm_num
  rw [h, two_zpow_add]
  congr 1
  ring

theorem roundMag_zero : roundMag 0 = 0 := by
  unfold roundMag
  rw [zero_div]
  have : roundEven 0 = 0 := roundEven_intCast 0
  simp [this]

theorem roundMag_nonneg {q : ℚ} (hq : 0 ≤ q) : 0 ≤ roundMag q := by
  unfold roundMag
  have h0 : (0 : ℚ) ≤ q / ulp q := div_nonneg hq (le_of_lt (ulp_pos q))
  have h1 : roundEven ((0 : ℤ) : ℚ) ≤ roundEven (q / ulp q) := roundEven_mono (by simpa using h0)
  rw [roundEven_intCast] at h1
  exact mul_nonneg (by exact_mod_cast h1) (le_of_lt (ulp_pos q))

theorem roundMag_grid (x : ℚ) (m E0 : ℤ) (hx : x = (m : ℚ) * (2 : ℚ) ^ (E0 - 52))
    (hE : max (binade x) (-1022) ≤ E0) : roundMag x = x := by
  unfold roundMag
  rw [ulp_eq]
  generalize max (binade x) (-1022) = E at hE
  obtain ⟨k, hk⟩ : ∃ k : ℕ, E0 - E = (k : ℤ) :=
    ⟨(E0 - E).toNat, (Int.toNat_of_nonneg (by omega)).symm⟩
  have hpow : (2 : ℚ) ^ (E0 - 52) = (2 : ℚ) ^ (k : ℤ) * (2 : ℚ) ^ (E - 52) := by
    rw [two_zpow_add]
    congr 1
    omega
  have hdiv : x / (2 : ℚ) ^ (E - 52) = ((m * 2 ^ k : ℤ) : ℚ) := by
    rw [div_eq_iff (ne_of_gt (two_zpow_pos _)), hx, hpow]
    push_cast
    rw [zpow_natCast]
    ring
  rw [hdiv, roundEven_intCast, ← hdiv]
  exact div_mul_cancel₀ _ (ne_of_gt (two_zpow_pos _))

theorem roundMag_fixed (x : ℚ) (m E0 : ℤ) (hpos : 0 < x)
    (hx : x = (m : ℚ) * (2 : ℚ) ^ (E0 - 52)) (hE0 : -1022 ≤ E0)
    (hle : x ≤ (2 : ℚ) ^ (E0 + 1)) : roundMag x = x := by
  by_cases hE : max (binade x) (-1022) ≤ E0
  · exact roundMag_grid x m E0 hx hE
  · have hb : E0 < binade x := by
      by_contra h
      exact hE (max_le (not_lt.1 h) hE0)
    obtain ⟨h1, _⟩ := binade_spec x hpos
    have hb2 : binade x ≤ E0 + 1 := by
      by_contra h
      have := two_zpow_lt (not_le.1 h)
      linarith
    have hbe : binade x = E0 + 1 := by omega
    have hxe : x = (2 : ℚ) ^ (E0 + 1) := le_antisymm hle (by rw [← hbe]; exact h1)
    refine roundMag_grid x (2 ^ 52) (E0 + 1) ?_ ?_
    · rw [hxe]
      have := two_pow52_mul (E0 + 1)
      rw [← this]
    · rw [hbe]
      exact max_le (le_refl _) (by omega)

theorem roundMag_le_top (q : ℚ) (hq : 0 < q) :
    roundMag q ≤ (2 : ℚ) ^ (max (binade q) (-1022) + 1) := by
  obtain ⟨_, h2⟩ := binade_spec q hq
  have hlt : q ≤ (2 : ℚ) ^ (max (binade q) (-1022) + 1) :=
    le_trans (le_of_lt h2) (two_zpow_le (by have := le_max_left (binade q) (-1022); omega))
  unfold roundMag
  rw [ulp_eq]
  generalize max (binade q) (-1022) = E at hlt
  have hdiv : q / (2 : ℚ) ^ (E - 52) ≤ (((2 : ℤ) ^ 53 : ℤ) : ℚ) := by
    rw [div_le_iff₀ (two_zpow_pos _)]
    rw [two_pow53_mul]
    exact hlt
  have h3 := roundEven_mono hdiv
  rw [roundEven_intCast] at h3
  have h4 : ((roundEven (q / (2 : ℚ) ^ (E - 52)) : ℤ) : ℚ) ≤ (((2 : ℤ) ^ 53 : ℤ) : ℚ) := by
    exact_mod_cast h3
  calc ((roundEven (q / (2 : ℚ) ^ (E - 52)) : ℤ) : ℚ) * (2 : ℚ) ^ (E - 52)
      ≤ (((2 : ℤ) ^ 53 : ℤ) : ℚ) * (2 : ℚ) ^ (E - 52) :=
        mul_le_mul_of_nonneg_right h4 (le_of_lt (two_zpow_pos _))
    _ = (2 : ℚ) ^ (E + 1) := two_pow53_mul E

theorem roundMag_ge_bot (q : ℚ) (hq : 0 < q) (hb : -1022 ≤ binade q) :
    (2 : ℚ) ^ binade q ≤ roundMag q := by
  obtain ⟨h1, _⟩ := binade_spec q hq
  unfold roundMag
  rw [ulp_eq, max_eq_left hb]
  generalize binade q = E at h1
  have hdiv : (((2 : ℤ) ^ 52 : ℤ) : ℚ) ≤ q / (2 : ℚ) ^ (E - 52) := by
    rw [le_div_iff₀ (two_zpow_pos _)]
    rw [two_pow52_mul]
    exact h1
  have h3 := roundEven_mono hdiv
  rw [roundEven_intCast] at h3
  have h4 : (((2 : ℤ) ^ 52 : ℤ) : ℚ) ≤ ((roundEven (q / (2 : ℚ) ^ (E - 52)) : ℤ) : ℚ) := by
    exact_mod_cast h3
  calc (2 : ℚ) ^ E = (((2 : ℤ) ^ 52 : ℤ) : ℚ) * (2 : ℚ) ^ (E - 52) := (two_pow52_mul E).symm
    _ ≤ ((roundEven (q / (2 : ℚ) ^ (E - 52)) : ℤ) : ℚ) * (2 : ℚ) ^ (E - 52) :=
        mul_le_mul_of_nonneg_right h4 (le_of_lt (two_zpow_pos _))

theorem roundMag_mono {q1 q2 : ℚ} (h0 : 0 ≤ q1) (h : q1 ≤ q2) : roundMag q1 ≤ roundMag q2 := by
  rcases eq_or_lt_of_le h0 with h01 | hpos1
  · rw [← h01, roundMag_zero]
    exact roundMag_nonneg (le_trans h0 h)
  have hpos2 : 0 < q2 := lt_of_lt_of_le hpos1 h
  rcases lt_trichotomy (max (binade q1) (-1022)) (max (binade q2) (-1022)) with hlt | heq | hgt
  · have hb2 : max (binade q2) (-1022) = binade q2 := by
      rcases le_total (binade q2) (-1022) with hx | hx
      · rw [max_eq_right hx] at hlt
        have := le_max_right (binade q1) (-1022)
        omega
      · exact max_eq_left hx
    have hb2le : -1022 ≤ binade q2 := by rw [← hb2]; exact le_max_right _ _
    calc roundMag q1 ≤ (2 : ℚ) ^ (max (binade q1) (-1022) + 1) := roundMag_le_top q1 hpos1
      _ ≤ (2 : ℚ) ^ binade q2 := two_zpow_le (by rw [hb2] at hlt; omega)
      _ ≤ roundMag q2 := roundMag_ge_bot q2 hpos2 hb2le
  · unfold roundMag ulp
    rw [heq]
    have hu := pow2_pos (max (binade q2) (-1022) - 52)
    have h1 : q1 / pow2 (max (binade q2) (-1022) - 52) ≤ q2 / pow2 (max (binade q2) (-1022) - 52) :=
      div_le_div_of_nonneg_right h (le_of_lt hu)
    have h2 := roundEven_mono h1
    exact mul_le_mul_of_nonneg_right (by exact_mod_cast h2) (le_of_lt hu)
  · exfalso
    have hb1 : max (binade q1) (-1022) = binade q1 := by
      rcases le_total (binade q1) (-1022) with hx | hx
      · rw [max_eq_right hx] at hgt
        have := le_max_right (binade q2) (-1022)
        omega
      · exact max_eq_left hx
    obtain ⟨h1, _⟩ := binade_spec q1 hpos1
    obtain ⟨_, h2⟩ := binade_spec q2 hpos2
    have h3 : (2 : ℚ) ^ (binade q2 + 1) ≤ (2 : ℚ) ^ binade q1 := by
      apply two_zpow_le
      rw [hb1] at hgt
      have := le_max_left (binade q2) (-1022)
      omega
    linarith

theorem roundMag_idem {q : ℚ} (hq : 0 ≤ q) : roundMag (roundMag q) = roundMag q := by
  rcases eq_or_lt_of_le hq with h0 | hpos
  · rw [← h0, roundMag_zero, roundMag_zero]
  rcases eq_or_lt_of_le (roundMag_nonneg hq) with hz | hrpos
  · rw [← hz, roundMag_zero]
  refine roundMag_fixed (roundMag q) (roundEven (q / ulp q)) (max (binade q) (-1022)) hrpos ?_
    (le_max_right _ _) (roundMag_le_top q hpos)
  unfold roundMag
  rw [ulp_eq]

theorem DBL_INF_eq : DBL_INF = (2 : ℚ) ^ (1024 : ℤ) := by
  unfold DBL_INF
  norm_num

theorem DBL_INF_pos : 0 < DBL_INF := by
  rw [DBL_INF_eq]
  exact two_zpow_pos _

theorem roundMag_INF : roundMag DBL_INF = DBL_INF := by
  refine roundMag_fixed DBL_INF (2 ^ 53) 1023 DBL_INF_pos ?_ (by norm_num) ?_
  · rw [DBL_INF_eq]
    exact (two_pow53_mul 1023).symm
  · rw [DBL_INF_eq]
    exact two_zpow_le (by norm_num)

theorem fround_of_nonneg {q : ℚ} (h : 0 ≤ q) : fround q = min (roundMag q) DBL_INF := if_pos h

theorem fround_of_neg {q : ℚ} (h : q < 0) : fround q = -(min (roundMag (-q)) DBL_INF) :=
  if_neg (not_le.2 h)

theorem fround_zero : fround 0 = 0 := by
  rw [fround_of_nonneg (le_refl _), roundMag_zero]
  exact min_eq_left (le_of_lt DBL_INF_pos)

theorem fround_nonneg {q : ℚ} (h : 0 ≤ q) : 0 ≤ fround q := by
  rw [fround_of_nonneg h]
  exact le_min (roundMag_nonneg h) (le_of_lt DBL_INF_pos)

theorem fround_nonpos {q : ℚ} (h : q ≤ 0) : fround q ≤ 0 := by
  rcases eq_or_lt_of_le h with h0 | hneg
  · rw [h0, fround_zero]
  · rw [fround_of_neg hneg]
    have : 0 ≤ min (roundMag (-q)) DBL_INF :=
      le_min (roundMag_nonneg (by linarith)) (le_of_lt DBL_INF_pos)
    linarith

theorem fround_le_INF (q : ℚ) : fround q ≤ DBL_INF := by
  rcases le_or_lt 0 q with h | h
  · rw [fround_of_nonneg h]
    exact min_le_right _ _
  · exact le_trans (fround_nonpos (le_of_lt h)) (le_of_lt DBL_INF_pos)

theorem fround_ge_negINF (q : ℚ) : -DBL_INF ≤ fround q := by
  rcases le_or_lt 0 q with h | h
  · have := fround_nonneg h
    have := DBL_INF_pos
    linarith
  · rw [fround_of_neg h]
    have := min_le_right (roundMag (-q)) DBL_INF
    linarith

theorem fround_mono {q1 q2 : ℚ} (h : q1 ≤ q2) : fround q1 ≤ fround q2 := by
  rcases le_or_lt 0 q1 with h1 | h1
  · rw [fround_of_nonneg h1, fround_of_nonneg (le_trans h1 h)]
    exact min_le_min (roundMag_mono h1 h) (le_refl _)
  · rcases le_or_lt 0 q2 with h2 | h2
    · exact le_trans (fround_nonpos (le_of_lt h1)) (fround_nonneg h2)
    · rw [fround_of_neg h1, fround_of_neg h2]
      have hm : roundMag (-q2) ≤ roundMag (-q1) := roundMag_mono (by linarith) (by linarith)
      have := min_le_min hm (le_refl DBL_INF)
      linarith

theorem fmag_idem {q : ℚ} (hq : 0 ≤ q) :
    min (roundMag (min (roundMag q) DBL_INF)) DBL_INF = min (roundMag q) DBL_INF := by
  rcases le_or_lt (roundMag q) DBL_INF with h | h
  · rw [min_eq_left h, roundMag_idem hq, min_eq_left h]
  · rw [min_eq_right (le_of_lt h), roundMag_INF, min_self]

theorem fround_idem (q : ℚ) : fround (fround q) = fround q := by
  rcases le_or_lt 0 q with h | h
  · rw [fround_of_nonneg (fround_nonneg h), fround_of_nonneg h]
    exact fmag_idem h
  · have hq : 0 ≤ -q := by linarith
    have hy : 0 ≤ min (roundMag (-q)) DBL_INF :=
      le_min (roundMag_nonneg hq) (le_of_lt DBL_INF_pos)
    rw [fround_of_neg h]
    rcases eq_or_lt_of_le hy with h0 | hpos
    · rw [← h0, neg_zero, fround_zero]
    · rw [fround_of_neg (by linarith), neg_neg, fmag_idem hq]

theorem fround_of_INF_le {q : ℚ} (h : DBL_INF ≤ q) : fround q = DBL_INF := by
  have h0 : 0 ≤ q := le_trans (le_of_lt DBL_INF_pos) h
  rw [fround_of_nonneg h0]
  apply min_eq_right
  have := roundMag_mono (le_of_lt DBL_INF_pos) h
  rw [roundMag_INF] at this
  exact this

theorem fround_of_le_negINF {q : ℚ} (h : q ≤ -DBL_INF) : fround q = -DBL_INF := by
  have hp := DBL_INF_pos
  rw [fround_of_neg (by linarith)]
  congr 1
  apply min_eq_right
  have hm : roundMag DBL_INF ≤ roundMag (-q) := roundMag_mono (le_of_lt hp) (by linarith)
  rw [roundMag_INF] at hm
  exact hm

theorem fround_natCast (n : ℕ) (h : n ≤ 2 ^ 53) : fround (n : ℚ) = n := by
  rcases Nat.eq_zero_or_pos n with h0 | hpos
  · rw [h0]
    simpa using fround_zero
  have hq : (0 : ℚ) < (n : ℚ) := by exact_mod_cast hpos
  have hle : (n : ℚ) ≤ (2 : ℚ) ^ ((52 : ℤ) + 1) := by
    have : ((n : ℕ) : ℚ) ≤ ((2 ^ 53 : ℕ) : ℚ) := by exact_mod_cast h
    calc (n : ℚ) ≤ ((2 ^ 53 : ℕ) : ℚ) := this
      _ = (2 : ℚ) ^ ((52 : ℤ) + 1) := by norm_num
  have hfix : roundMag (n : ℚ) = n := by
    refine roundMag_fixed (n : ℚ) (n : ℤ) 52 hq ?_ (by norm_num) hle
    simp
  rw [fround_of_nonneg (le_of_lt hq), hfix]
  apply min_eq_left
  rw [DBL_INF_eq]
  exact le_trans hle (two_zpow_le (by norm_num))

theorem fadd_mono {a b : ℚ} (w : ℚ) (h : a ≤ b) : fadd a w ≤ fadd b w := by
  have hp := DBL_INF_pos
  unfold fadd
  by_cases ha : DBL_INF ≤ |a|
  · by_cases hb : DBL_INF ≤ |b|
    · rw [if_pos ha, if_pos hb]
      exact fround_mono h
    · rw [if_pos ha, if_neg hb]
      have hb2 := abs_lt.1 (not_le.1 hb)
      have ha2 : a ≤ -DBL_INF := by
        rcases le_abs.1 ha with h1 | h1
        · linarith [hb2.2]
        · linarith
      rw [fround_of_le_negINF ha2]
      exact fround_ge_negINF _
  · by_cases hb : DBL_INF ≤ |b|
    · rw [if_neg ha, if_pos hb]
      have ha2 := abs_lt.1 (not_le.1 ha)
      have hb2 : DBL_INF ≤ b := by
        rcases le_abs.1 hb with h1 | h1
        · exact h1
        · linarith [ha2.1]
      rw [fround_of_INF_le hb2]
      exact fround_le_INF _
    · rw [if_neg ha, if_neg hb]
      exact fround_mono (by linarith)

theorem fadd_fixed (a w : ℚ) : fround (fadd a w) = fadd a w := by
  unfold fadd
  split_ifs <;> exact fround_idem _

theorem fadd_infl {a w : ℚ} (ha : fround a = a) (hw : 0 ≤ w) : a ≤ fadd a w := by
  unfold fadd
  split_ifs
  · rw [ha]
  · calc a = fround a := ha.symm
      _ ≤ fround (a + w) := fround_mono (by linarith)

theorem fadd_natCast (m n : ℕ) (h : m + n ≤ 2 ^ 53) : fadd (m : ℚ) (n : ℚ) = (m : ℚ) + n := by
  unfold fadd
  have hm : |(m : ℚ)| < DBL_INF := by
    rw [abs_of_nonneg (by positivity), DBL_INF_eq]
    have : (m : ℚ) ≤ ((2 ^ 53 : ℕ) : ℚ) := by exact_mod_cast (by omega : m ≤ 2 ^ 53)
    calc (m : ℚ) ≤ ((2 ^ 53 : ℕ) : ℚ) := this
      _ = (2 : ℚ) ^ ((53 : ℤ)) := by norm_num
      _ < (2 : ℚ) ^ (1024 : ℤ) := two_zpow_lt (by norm_num)
  rw [if_neg (not_le.2 hm)]
  have := fround_natCast (m + n) h
  push_cast at this
  exact this

theorem binade_unique (x : ℚ) (E : ℤ) (h1 : (2 : ℚ) ^ E ≤ x) (h2 : x < (2 : ℚ) ^ (E + 1)) :
    binade x = E := by
  have hpos : 0 < x := lt_of_lt_of_le (two_zpow_pos E) h1
  obtain ⟨b1, b2⟩ := binade_spec x hpos
  have h3 : binade x < E + 1 :=
    (zpow_lt_zpow_iff_right₀ (by norm_num : (1 : ℚ) < 2)).1 (lt_of_le_of_lt b1 h2)
  have h4 : E < binade x + 1 :=
    (zpow_lt_zpow_iff_right₀ (by norm_num : (1 : ℚ) < 2)).1 (lt_of_le_of_lt h1 b2)
  omega

theorem roundMag_eval (x : ℚ) (E : ℤ) (h1 : (2 : ℚ) ^ E ≤ x) (h2 : x < (2 : ℚ) ^ (E + 1))
    (hE : -1022 ≤ E) :
    roundMag x = (roundEven (x / (2 : ℚ) ^ (E - 52)) : ℚ) * (2 : ℚ) ^ (E - 52) := by
  unfold roundMag
  rw [ulp_eq, binade_unique x E h1 h2, max_eq_left hE]

/-! ## Walk weights in `double` -/

theorem walkWeightD_nil : walkWeightD [] = 0 := rfl

theorem walkWeightD_snoc (es : List Edge) (e : Edge) :
    walkWeightD (es ++ [e]) = fadd (walkWeightD es) e.weight := by
  simp [walkWeightD, List.foldl_append]

theorem walkWeightD_fixed (es : List Edge) : fround (walkWeightD es) = walkWeightD es := by
  rcases List.eq_nil_or_concat es with h | ⟨l, e, h⟩
  · rw [h]
    exact fround_zero
  · rw [h, List.concat_eq_append, walkWeightD_snoc]
    exact fadd_fixed _ _

theorem foldl_fadd_le : ∀ (es : List Edge) (a : ℚ), fround a = a →
    (∀ e ∈ es, 0 ≤ e.weight) → a ≤ es.foldl (fun a e => fadd a e.weight) a
  | [], _, _, _ => le_refl _
  | e :: rest, a, ha, hnn => by
    have h1 : a ≤ fadd a e.weight := fadd_infl ha (hnn e (List.mem_cons_self _ _))
    have h2 := foldl_fadd_le rest (fadd a e.weight) (fadd_fixed _ _)
      (fun f hf => hnn f (List.mem_cons_of_mem _ hf))
    exact le_trans h1 h2

theorem walkWeightD_le_append (l q : List Edge) (hq : ∀ e ∈ q, 0 ≤ e.weight) :
    walkWeightD l ≤ walkWeightD (l ++ q) := by
  unfold walkWeightD
  rw [List.foldl_append]
  exact foldl_fadd_le q _ (walkWeightD_fixed l) hq

theorem walkWeightD_nonneg (es : List Edge) (h : ∀ e ∈ es, 0 ≤ e.weight) :
    0 ≤ walkWeightD es := by
  have := walkWeightD_le_append [] es h
  simpa [walkWeightD_nil] using this

theorem walk_weights_nonneg {g : Graph} (hg : g.NonNeg) : ∀ {a b : Int} {es : List Edge},
    IsWalk g a es b → ∀ e ∈ es, 0 ≤ e.weight
  | _, _, [], _ => fun e he => absurd he (List.not_mem_nil _)
  | a, b, f :: fs, h => by
    obtain ⟨hf, hrest⟩ := h
    intro e he
    rcases List.mem_cons.1 he with rfl | hr
    · exact hg a e hf
    · exact walk_weights_nonneg hg hrest e hr

/-- The sum of a walk that crosses the edge `e` after the part `p` is at least what the
relaxation of `e` from a distance `dx ≤ walkWeightD p` gives. -/
theorem walkWeightD_crossing {g : Graph} (hg : g.NonNeg) {p q : List Edge} {e : Edge}
    {a b : Int} {dx : ℚ} (hq : IsWalk g a q b) (hdx : dx ≤ walkWeightD p) :
    fadd dx e.weight ≤ walkWeightD (p ++ e :: q) := by
  have h1 : fadd dx e.weight ≤ fadd (walkWeightD p) e.weight := fadd_mono _ hdx
  have h2 : walkWeightD (p ++ [e]) ≤ walkWeightD ((p ++ [e]) ++ q) :=
    walkWeightD_le_append _ _ (walk_weights_nonneg hg hq)
  rw [walkWeightD_snoc] at h2
  have h3 : (p ++ [e]) ++ q = p ++ e :: q := by simp
  rw [h3] at h2
  exact le_trans h1 h2

/-! ## The invariant of the search in `double` -/

theorem relaxEdgeD_cases (H : MinHeap) (u : Int) (d : ℚ) (s : SearchState) (e : Edge)
    (hv : s.isVisited e.dst = true → s.distOf e.dst ≠ none) :
    (∀ x, (relaxEdgeD H u d s e).isVisited x = s.isVisited x) ∧
    ((s.isVisited e.dst = false ∧ fadd d e.weight < s.curDist e.dst ∧
        (∀ x, (relaxEdgeD H u d s e).distOf x =
          if x = e.dst then some (fadd d e.weight) else s.distOf x) ∧
        (∀ x, (relaxEdgeD H u d s e).parentOf x =
          if x = e.dst then some u else s.parentOf x) ∧
        (relaxEdgeD H u d s e).pq = H.push s.pq ⟨e.dst, fadd d e.weight⟩) ∨
     ((s.isVisited e.dst = true ∨ s.curDist e.dst ≤ fadd d e.weight) ∧
        (∀ x, (relaxEdgeD H u d s e).distOf x =
          if x = e.dst then some (s.curDist e.dst) else s.distOf x) ∧
        (∀ x, (relaxEdgeD H u d s e).parentOf x = s.parentOf x) ∧
        (relaxEdgeD H u d s e).pq = s.pq)) := by
  cases hd : s.distOf e.dst with
  | none =>
    have hd1 : mapFind s.dist e.dst = none := hd
    have hvis : s.isVisited e.dst = false := by
      cases hb : s.isVisited e.dst with
      | false => rfl
      | true => exact absurd hd (hv hb)
    have hvis1 : mapGetD s.visited e.dst false = false := hvis
    have hcur : s.curDist e.dst = DBL_MAX := by simp [SearchState.curDist, hd]
    have hvisEq : ∀ x, mapGetD (mapSet s.visited e.dst false) x false =
        mapGetD s.visited x false := by
      intro x
      rw [mapGetD_mapSet]
      by_cases hx : e.dst = x
      · subst hx; simp [hvis1]
      · simp [hx]
    have hgv : mapGetD (mapSet s.visited e.dst false) e.dst false = false := by
      rw [mapGetD_mapSet]; simp
    have hgd : mapGetD (mapSet s.dist e.dst DBL_MAX) e.dst 0 = DBL_MAX := by
      rw [mapGetD_mapSet]; simp
    by_cases hlt : fadd d e.weight < DBL_MAX
    · have hE : relaxEdgeD H u d s e =
          { dist := mapSet (mapSet s.dist e.dst DBL_MAX) e.dst (fadd d e.weight),
            parent := mapSet s.parent e.dst u,
            visited := mapSet s.visited e.dst false,
            pq := H.push s.pq ⟨e.dst, fadd d e.weight⟩ } := by
        simp [relaxEdgeD, hd1, hgv, hgd, hlt]
      rw [hE]
      refine ⟨?_, Or.inl ⟨hvis, by rw [hcur]; exact hlt, ?_, ?_, rfl⟩⟩
      · intro x
        exact hvisEq x
      · intro x
        show mapFind (mapSet (mapSet s.dist e.dst DBL_MAX) e.dst (fadd d e.weight)) x = _
        rw [mapFind_mapSet, mapFind_mapSet]
        by_cases hx : e.dst = x
        · simp [hx]
        · have hx2 : ¬ x = e.dst := fun h => hx h.symm
          simp [hx, hx2, SearchState.distOf]
      · intro x
        show mapFind (mapSet s.parent e.dst u) x = _
        rw [mapFind_mapSet]
        by_cases hx : e.dst = x
        · simp [hx]
        · have hx2 : ¬ x = e.dst := fun h => hx h.symm
          simp [hx, hx2, SearchState.parentOf]
    · have hE : relaxEdgeD H u d s e =
          { dist := mapSet s.dist e.dst DBL_MAX,
            parent := s.parent,
            visited := mapSet s.visited e.dst false,
            pq := s.pq } := by
        simp [relaxEdgeD, hd1, hgv, hgd, hlt]
      rw [hE]
      refine ⟨?_, Or.inr ⟨Or.inr (by rw [hcur]; exact le_of_not_lt hlt), ?_, ?_, rfl⟩⟩
      · intro x
        exact hvisEq x
      · intro x
        show mapFind (mapSet s.dist e.dst DBL_MAX) x = _
        rw [mapFind_mapSet, hcur]
        by_cases hx : e.dst = x
        · simp [hx]
        · have hx2 : ¬ x = e.dst := fun h => hx h.symm
          simp [hx, hx2, SearchState.distOf]
      · intro x
        rfl
  | some dv =>
    have hd1 : mapFind s.dist e.dst = some dv := hd
    have hg : mapGetD s.dist e.dst 0 = dv := mapGetD_of_find _ _ _ _ hd1
    have hcur : s.curDist e.dst = dv := by simp [SearchState.curDist, hd]
    by_cases hc : s.isVisited e.dst = false ∧ fadd d e.weight < dv
    · obtain ⟨hvis, hlt⟩ := hc
      have hvis1 : mapGetD s.visited e.dst false = false := hvis
      have hE : relaxEdgeD H u d s e =
          { dist := mapSet s.dist e.dst (fadd d e.weight),
            parent := mapSet s.parent e.dst u,
            visited := s.visited,
            pq := H.push s.pq ⟨e.dst, fadd d e.weight⟩ } := by
        simp [relaxEdgeD, hd1, hg, hvis1, hlt]
      rw [hE]
      refine ⟨fun x => rfl, Or.inl ⟨hvis, by rw [hcur]; exact hlt, ?_, ?_, rfl⟩⟩
      · intro x
        show mapFind (mapSet s.dist e.dst (fadd d e.weight)) x = _
        rw [mapFind_mapSet]
        by_cases hx : e.dst = x
        · simp [hx]
        · have hx2 : ¬ x = e.dst := fun h => hx h.symm
          simp [hx, hx2, SearchState.distOf]
      · intro x
        show mapFind (mapSet s.parent e.dst u) x = _
        rw [mapFind_mapSet]
        by_cases hx : e.dst = x
        · simp [hx]
        · have hx2 : ¬ x = e.dst := fun h => hx h.symm
          simp [hx, hx2, SearchState.parentOf]
    · have hc2 : s.isVisited e.dst = true ∨ dv ≤ fadd d e.weight := by
        by_cases hb : s.isVisited e.dst = true
        · exact Or.inl hb
        · right
          have hb2 : s.isVisited e.dst = false := by simpa using hb
          exact le_of_not_lt (fun hlt => hc ⟨hb2, hlt⟩)
      have hcond : (!(mapGetD s.visited e.dst false) && decide (fadd d e.weight < dv)) = false := by
        rcases hc2 with hb | hle
        · have hb1 : mapGetD s.visited e.dst false = true := hb
          simp [hb1]
        · simp [not_lt.2 hle]
      have hE : relaxEdgeD H u d s e = s := by
        simp [relaxEdgeD, hd1, hg, hcond]
      rw [hE]
      refine ⟨fun x => rfl, Or.inr ⟨by rw [hcur]; exact hc2, ?_, fun x => rfl, rfl⟩⟩
      intro x
      by_cases hx : x = e.dst
      · subst hx
        simp [hcur, hd]
      · simp [hx]

theorem invD_curDist_le {g : Graph} {src : Int} {n : Nat} {cur : Int} {pending : List Edge}
    {s : SearchState} (hinv : InvD g src n cur pending s) (v : Int) :
    s.curDist v ≤ DBL_MAX := by
  unfold SearchState.curDist
  cases hd : s.distOf v with
  | none => exact le_refl _
  | some dv => exact hinv.dist_le v dv hd

theorem invD_relax (H : MinHeap) {g : Graph} {src : Int} {n : Nat} {u : Int} {d : ℚ}
    {s : SearchState} {e : Edge} {rest : List Edge}
    (hinv : InvD g src n u (e :: rest) s)
    (hsrc : s.isVisited src = true) (hu : s.isVisited u = true)
    (hdu : s.distOf u = some d) (he : e ∈ g.getAdjacentEdges u) :
    InvD g src n u rest (relaxEdgeD H u d s e) := by
  have hv : s.isVisited e.dst = true → s.distOf e.dst ≠ none := by
    intro hb
    obtain ⟨dv, hdv, _⟩ := hinv.vis_dist _ hb
    rw [hdv]; simp
  obtain ⟨hvisEq, hcase⟩ := relaxEdgeD_cases H u d s e hv
  have hdlt : d < DBL_MAX := by
    obtain ⟨dv, hdv, hlt⟩ := hinv.vis_dist u hu
    rw [hdu] at hdv
    cases hdv
    exact hlt
  rcases hcase with ⟨hvis, hlt, hdist, hpar, hpq⟩ | ⟨hB, hdist, hpar, hpq⟩
  · -- the relaxation fires
    have hnew : fadd d e.weight < DBL_MAX := lt_of_lt_of_le hlt (invD_curDist_le hinv e.dst)
    have hneq : ∀ x, s.isVisited x = true → x ≠ e.dst := by
      intro x hx hxe
      rw [hxe, hvis] at hx
      exact Bool.noConfusion hx
    have hkeep : ∀ x, s.isVisited x = true → (relaxEdgeD H u d s e).distOf x = s.distOf x := by
      intro x hx
      rw [hdist x, if_neg (hneq x hx)]
    have hmem : ∀ x, x ∈ (relaxEdgeD H u d s e).pq ↔ x = ⟨e.dst, fadd d e.weight⟩ ∨ x ∈ s.pq := by
      intro x
      rw [hpq, (H.push_perm s.pq ⟨e.dst, fadd d e.weight⟩).mem_iff, List.mem_cons]
    refine ⟨?_, ?_, ?_, ?_, ?_, ?_, ?_, ?_, ?_, ?_, ?_, ?_⟩
    · intro v dv hdv
      rw [hdist v] at hdv
      by_cases hx : v = e.dst
      · rw [if_pos hx] at hdv
        cases hdv
        exact le_of_lt hnew
      · rw [if_neg hx] at hdv
        exact hinv.dist_le v dv hdv
    · intro v dv hdv hlt2
      rw [hdist v] at hdv
      by_cases hx : v = e.dst
      · rw [if_pos hx] at hdv
        cases hdv
        obtain ⟨es, hw, hwt⟩ := hinv.dist_walk u d hdu hdlt
        refine ⟨es ++ [e], ?_, ?_⟩
        · rw [hx]; exact IsWalk.snoc hw he
        · rw [walkWeightD_snoc, hwt]
      · rw [if_neg hx] at hdv
        exact hinv.dist_walk v dv hdv hlt2
    · rw [hkeep src hsrc]
      exact hinv.dist_src
    · intro x hx
      rcases (hmem x).1 hx with rfl | hx
      · refine ⟨hnew, fadd d e.weight, ?_, le_refl _⟩
        rw [hdist]; simp
      · obtain ⟨hxlt, dv, hdv, hle⟩ := hinv.pq_ge x hx
        refine ⟨hxlt, ?_⟩
        by_cases hxe : x.nodeId = e.dst
        · refine ⟨fadd d e.weight, by rw [hdist, if_pos hxe], ?_⟩
          have hc : s.curDist e.dst = dv := by
            rw [← hxe]; simp [SearchState.curDist, hdv]
          rw [hc] at hlt
          exact le_trans (le_of_lt hlt) hle
        · exact ⟨dv, by rw [hdist, if_neg hxe]; exact hdv, hle⟩
    · intro v dv hvv hdv hlt2
      rw [hvisEq] at hvv
      rw [hdist v] at hdv
      by_cases hx : v = e.dst
      · rw [if_pos hx] at hdv
        cases hdv
        rw [hx]
        exact (hmem _).2 (Or.inl rfl)
      · rw [if_neg hx] at hdv
        exact (hmem _).2 (Or.inr (hinv.live v dv hvv hdv hlt2))
    · left
      rw [hvisEq]; exact hsrc
    · intro v hvv
      rw [hvisEq] at hvv
      rw [hkeep v hvv]
      exact hinv.vis_dist v hvv
    · intro x hx f hf
      rw [hvisEq] at hx
      rcases hinv.relaxed x hx f hf with ⟨hxu, hfm⟩ | hfv | ⟨du, dv, hdu2, hdv2, hle⟩
      · rcases List.mem_cons.1 hfm with rfl | hfr
        · right; right
          refine ⟨d, fadd d f.weight, ?_, ?_, le_refl _⟩
          · rw [hkeep x hx, hxu]; exact hdu
          · rw [hdist]; simp
        · exact Or.inl ⟨hxu, hfr⟩
      · right; left
        rw [hvisEq]; exact hfv
      · right; right
        by_cases hfe : f.dst = e.dst
        · refine ⟨du, fadd d e.weight, by rw [hkeep x hx]; exact hdu2, by rw [hdist, if_pos hfe], ?_⟩
          have hc : s.curDist e.dst = dv := by
            rw [← hfe]; simp [SearchState.curDist, hdv2]
          rw [hc] at hlt
          exact le_trans (le_of_lt hlt) hle
        · exact ⟨du, dv, by rw [hkeep x hx]; exact hdu2, by rw [hdist, if_neg hfe]; exact hdv2, hle⟩
    · intro v p hp
      rw [hpar v] at hp
      by_cases hx : v = e.dst
      · rw [if_pos hx] at hp
        cases hp
        refine ⟨?_, by rw [hvisEq]; exact hu, e, d, he, hx.symm, ?_, ?_⟩
        · intro hvs
          exact hneq src hsrc (hvs ▸ hx)
        · rw [hkeep u hu]; exact hdu
        · rw [hdist, if_pos hx]
      · rw [if_neg hx] at hp
        obtain ⟨hne, hpv, f, du, hf, hfd, hdp, hdv⟩ := hinv.parent_ok v p hp
        refine ⟨hne, by rw [hvisEq]; exact hpv, f, du, hf, hfd, ?_, ?_⟩
        · rw [hkeep p hpv]; exact hdp
        · rw [hdist, if_neg hx]; exact hdv
    · intro v dv hne hdv hlt2
      by_cases hx : v = e.dst
      · exact ⟨u, by rw [hpar, if_pos hx]⟩
      · rw [hdist, if_neg hx] at hdv
        obtain ⟨p, hp⟩ := hinv.has_parent v dv hne hdv hlt2
        exact ⟨p, by rw [hpar, if_neg hx]; exact hp⟩
    · intro v hvv
      rw [hvisEq] at hvv
      obtain ⟨es, dv, hch, hlen, hdv, hwt⟩ := hinv.chain v hvv
      refine ⟨es, dv, Chain.congr ?_ hch, hlen, by rw [hkeep v hvv]; exact hdv, hwt⟩
      intro x hx
      refine ⟨by rw [hvisEq]; exact hx, ?_⟩
      have := hpar x
      rw [if_neg (hneq x hx)] at this
      exact this
    · intro v _
      rw [hvisEq]
      exact hsrc
  · -- no relaxation: at most the sentinel is entered for `e.dst`
    have hkeep : ∀ x dv, s.distOf x = some dv → (relaxEdgeD H u d s e).distOf x = some dv := by
      intro x dv hx
      rw [hdist x]
      by_cases hxe : x = e.dst
      · rw [if_pos hxe]
        subst hxe
        simp [SearchState.curDist, hx]
      · rw [if_neg hxe]; exact hx
    have hback : ∀ x dv, (relaxEdgeD H u d s e).distOf x = some dv →
        s.distOf x = some dv ∨ dv = DBL_MAX := by
      intro x dv hx
      rw [hdist x] at hx
      by_cases hxe : x = e.dst
      · rw [if_pos hxe] at hx
        cases hd : s.distOf e.dst with
        | none =>
          right
          simp [SearchState.curDist, hd] at hx
          exact hx.symm
        | some d0 =>
          left
          simp [SearchState.curDist, hd] at hx
          rw [hxe, hd, hx]
      · rw [if_neg hxe] at hx
        exact Or.inl hx
    have hback2 : ∀ x dv, (relaxEdgeD H u d s e).distOf x = some dv → dv < DBL_MAX →
        s.distOf x = some dv := by
      intro x dv hx hlt
      rcases hback x dv hx with h | h
      · exact h
      · exact absurd hlt (by rw [h]; exact lt_irrefl _)
    refine ⟨?_, ?_, ?_, ?_, ?_, ?_, ?_, ?_, ?_, ?_, ?_, ?_⟩
    · intro v dv hdv
      rcases hback v dv hdv with h | h
      · exact hinv.dist_le v dv h
      · rw [h]
    · intro v dv hdv hlt2
      exact hinv.dist_walk v dv (hback2 v dv hdv hlt2) hlt2
    · exact hkeep _ _ hinv.dist_src
    · intro x hx
      rw [hpq] at hx
      obtain ⟨hxlt, dv, hdv, hle⟩ := hinv.pq_ge x hx
      exact ⟨hxlt, dv, hkeep _ _ hdv, hle⟩
    · intro v dv hvv hdv hlt2
      rw [hvisEq] at hvv
      rw [hpq]
      exact hinv.live v dv hvv (hback2 v dv hdv hlt2) hlt2
    · left
      rw [hvisEq]; exact hsrc
    · intro v hvv
      rw [hvisEq] at hvv
      obtain ⟨dv, hdv, hlt2⟩ := hinv.vis_dist v hvv
      exact ⟨dv, hkeep _ _ hdv, hlt2⟩
    · intro x hx f hf
      rw [hvisEq] at hx
      rcases hinv.relaxed x hx f hf with ⟨hxu, hfm⟩ | hfv | ⟨du, dv, hdu2, hdv2, hle⟩
      · rcases List.mem_cons.1 hfm with rfl | hfr
        · rcases hB with hb | hb
          · right; left
            rw [hvisEq]; exact hb
          · right; right
            refine ⟨d, s.curDist f.dst, ?_, ?_, hb⟩
            · rw [hxu]; exact hkeep _ _ hdu
            · rw [hdist]; simp
        · exact Or.inl ⟨hxu, hfr⟩
      · right; left
        rw [hvisEq]; exact hfv
      · right; right
        exact ⟨du, dv, hkeep _ _ hdu2, hkeep _ _ hdv2, hle⟩
    · intro v p hp
      rw [hpar v] at hp
      obtain ⟨hne, hpv, f, du, hf, hfd, hdp, hdv⟩ := hinv.parent_ok v p hp
      exact ⟨hne, by rw [hvisEq]; exact hpv, f, du, hf, hfd, hkeep _ _ hdp, hkeep _ _ hdv⟩
    · intro v dv hne hdv hlt2
      obtain ⟨p, hp⟩ := hinv.has_parent v dv hne (hback2 v dv hdv hlt2) hlt2
      exact ⟨p, by rw [hpar]; exact hp⟩
    · intro v hvv
      rw [hvisEq] at hvv
      obtain ⟨es, dv, hch, hlen, hdv, hwt⟩ := hinv.chain v hvv
      refine ⟨es, dv, Chain.congr ?_ hch, hlen, hkeep _ _ hdv, hwt⟩
      intro x hx
      exact ⟨by rw [hvisEq]; exact hx, hpar x⟩
    · intro v _
      rw [hvisEq]
      exact hsrc

theorem invD_relax_frame (H : MinHeap) {g : Graph} {src : Int} {n : Nat} {cur : Int}
    {pending : List Edge} {s : SearchState} (u : Int) (d : ℚ) (e : Edge)
    (hinv : InvD g src n cur pending s) :
    (∀ x, (relaxEdgeD H u d s e).isVisited x = s.isVisited x) ∧
    (∀ x, s.isVisited x = true → (relaxEdgeD H u d s e).distOf x = s.distOf x) ∧
    (relaxEdgeD H u d s e).pq.length ≤ s.pq.length + 1 := by
  have hv : s.isVisited e.dst = true → s.distOf e.dst ≠ none := by
    intro hb
    obtain ⟨dv, hdv, _⟩ := hinv.vis_dist _ hb
    rw [hdv]; simp
  obtain ⟨hvisEq, hcase⟩ := relaxEdgeD_cases H u d s e hv
  refine ⟨hvisEq, ?_, ?_⟩
  · intro x hx
    rcases hcase with ⟨hvis, _, hdist, _, _⟩ | ⟨_, hdist, _, _⟩
    · rw [hdist x]
      have hxe : x ≠ e.dst := by
        intro hxe
        rw [hxe, hvis] at hx
        exact Bool.noConfusion hx
      rw [if_neg hxe]
    · rw [hdist x]
      by_cases hxe : x = e.dst
      · rw [if_pos hxe]
        obtain ⟨dv, hdv, _⟩ := hinv.vis_dist x hx
        subst hxe
        simp [SearchState.curDist, hdv]
      · rw [if_neg hxe]
  · rcases hcase with ⟨_, _, _, _, hpq⟩ | ⟨_, _, _, hpq⟩
    · rw [hpq, (H.push_perm s.pq ⟨e.dst, fadd d e.weight⟩).length_eq]
      simp
    · rw [hpq]
      exact Nat.le_succ _

theorem invD_relaxAll (H : MinHeap) {g : Graph} {src : Int} {n : Nat} {u : Int} {d : ℚ} :
    ∀ (es : List Edge) (s : SearchState), InvD g src n u es s →
      s.isVisited src = true → s.isVisited u = true → s.distOf u = some d →
      (∀ e ∈ es, e ∈ g.getAdjacentEdges u) →
      InvD g src n u [] (es.foldl (relaxEdgeD H u d) s) ∧
      (∀ x, (es.foldl (relaxEdgeD H u d) s).isVisited x = s.isVisited x) ∧
      (∀ x, s.isVisited x = true → (es.foldl (relaxEdgeD H u d) s).distOf x = s.distOf x) ∧
      (es.foldl (relaxEdgeD H u d) s).pq.length ≤ s.pq.length + es.length
  | [], s, hinv, _, _, _, _ => ⟨hinv, fun _ => rfl, fun _ _ => rfl, Nat.le_refl _⟩
  | e :: rest, s, hinv, hsrc, hu, hdu, hsub => by
    have he : e ∈ g.getAdjacentEdges u := hsub e (List.mem_cons_self _ _)
    have h1 := invD_relax H hinv hsrc hu hdu he
    obtain ⟨hv1, hd1, hl1⟩ := invD_relax_frame H u d e hinv
    have hsrc1 : (relaxEdgeD H u d s e).isVisited src = true := by rw [hv1]; exact hsrc
    have hu1 : (relaxEdgeD H u d s e).isVisited u = true := by rw [hv1]; exact hu
    have hdu1 : (relaxEdgeD H u d s e).distOf u = some d := by rw [hd1 u hu]; exact hdu
    obtain ⟨hI, hV, hD, hL⟩ := invD_relaxAll H rest (relaxEdgeD H u d s e) h1 hsrc1 hu1 hdu1
      (fun f hf => hsub f (List.mem_cons_of_mem _ hf))
    refine ⟨hI, ?_, ?_, ?_⟩
    · intro x
      show (rest.foldl (relaxEdgeD H u d) (relaxEdgeD H u d s e)).isVisited x = _
      rw [hV x, hv1 x]
    · intro x hx
      show (rest.foldl (relaxEdgeD H u d) (relaxEdgeD H u d s e)).distOf x = _
      rw [hD x (by rw [hv1]; exact hx), hd1 x hx]
    · show (rest.foldl (relaxEdgeD H u d) (relaxEdgeD H u d s e)).pq.length ≤ _
      have : (e :: rest).length = rest.length + 1 := rfl
      omega

theorem invD_mono {g : Graph} {src : Int} {n m : Nat} {cur cur1 : Int} {s : SearchState}
    (hinv : InvD g src n cur [] s) (hnm : n ≤ m) : InvD g src m cur1 [] s := by
  refine ⟨hinv.dist_le, hinv.dist_walk, hinv.dist_src, hinv.pq_ge, hinv.live, hinv.start,
    hinv.vis_dist, ?_, hinv.parent_ok, hinv.has_parent, ?_, hinv.src_first⟩
  · intro x hx e he
    rcases hinv.relaxed x hx e he with ⟨_, hm⟩ | h | h
    · exact absurd hm (List.not_mem_nil _)
    · exact Or.inr (Or.inl h)
    · exact Or.inr (Or.inr h)
  · intro v hv
    obtain ⟨es, dv, hch, hlen, hdv, hwt⟩ := hinv.chain v hv
    exact ⟨es, dv, hch, lt_of_lt_of_le hlen hnm, hdv, hwt⟩

theorem invD_mono_pending {g : Graph} {src : Int} {n m : Nat} {cur : Int} {pending : List Edge}
    {s : SearchState} (hinv : InvD g src n cur pending s) (hnm : n ≤ m) :
    InvD g src m cur pending s := by
  refine ⟨hinv.dist_le, hinv.dist_walk, hinv.dist_src, hinv.pq_ge, hinv.live, hinv.start,
    hinv.vis_dist, hinv.relaxed, hinv.parent_ok, hinv.has_parent, ?_, hinv.src_first⟩
  intro v hv
  obtain ⟨es, dv, hch, hlen, hdv, hwt⟩ := hinv.chain v hv
  exact ⟨es, dv, hch, lt_of_lt_of_le hlen hnm, hdv, hwt⟩

theorem invD_pop_stale (H : MinHeap) {g : Graph} {src : Int} {n : Nat} {cur : Int}
    {s : SearchState} {c : HeapNode} {rest : List HeapNode}
    (hinv : InvD g src n cur [] s) (hpop : H.pop s.pq = some (c, rest))
    (hc : s.isVisited c.nodeId = true) :
    InvD g src n cur [] { s with pq := rest } := by
  obtain ⟨hperm, _⟩ := H.pop_some _ _ _ hpop
  have hsub : ∀ x, x ∈ rest → x ∈ s.pq := fun x hx =>
    hperm.mem_iff.2 (List.mem_cons_of_mem _ hx)
  refine ⟨hinv.dist_le, hinv.dist_walk, hinv.dist_src, ?_, ?_, ?_, hinv.vis_dist,
    hinv.relaxed, hinv.parent_ok, hinv.has_parent, hinv.chain, hinv.src_first⟩
  · intro x hx
    exact hinv.pq_ge x (hsub x hx)
  · intro v dv hv hdv hlt
    have hv0 : s.isVisited v = false := hv
    have hmem := hinv.live v dv hv0 hdv hlt
    rcases List.mem_cons.1 (hperm.mem_iff.1 hmem) with heq | hr
    · have hvc : s.isVisited v = true := by
        have : v = c.nodeId := by rw [← heq]
        rw [this]; exact hc
      rw [hv0] at hvc
      exact Bool.noConfusion hvc
    · exact hr
  · rcases hinv.start with h | h
    · exact Or.inl h
    · exact Or.inr (fun x hx => h x (hsub x hx))

theorem invD_visit (H : MinHeap) {g : Graph} {src : Int} {n : Nat} {cur : Int}
    {s : SearchState} {c : HeapNode} {rest : List HeapNode}
    (hinv : InvD g src n cur [] s) (hpop : H.pop s.pq = some (c, rest))
    (hc : s.isVisited c.nodeId = false) :
    InvD g src (n + 1) c.nodeId (g.getAdjacentEdges c.nodeId)
      { s with pq := rest, visited := mapSet s.visited c.nodeId true } ∧
    mapGetD (mapSet s.visited c.nodeId true) src false = true ∧
    s.distOf c.nodeId = some c.distance ∧
    (g.NonNeg → OptD g src s →
      OptD g src { s with pq := rest, visited := mapSet s.visited c.nodeId true }) := by
  obtain ⟨hperm, hmin⟩ := H.pop_some _ _ _ hpop
  have hcmem : c ∈ s.pq := hperm.mem_iff.2 (List.mem_cons_self _ _)
  have hsub : ∀ x, x ∈ rest → x ∈ s.pq := fun x hx =>
    hperm.mem_iff.2 (List.mem_cons_of_mem _ hx)
  -- the popped distance is the tentative distance of the popped node
  obtain ⟨hclt, dc, hdc, hdcle⟩ := hinv.pq_ge c hcmem
  have hdceq : dc = c.distance := by
    have hm := hinv.live c.nodeId dc hc hdc (lt_of_le_of_lt hdcle hclt)
    exact le_antisymm hdcle (hmin _ hm)
  rw [hdceq] at hdc
  have hvis1 : ∀ x, mapGetD (mapSet s.visited c.nodeId true) x false =
      if c.nodeId = x then true else s.isVisited x := by
    intro x
    rw [mapGetD_mapSet]
    rfl
  have hgrow : ∀ x, s.isVisited x = true →
      mapGetD (mapSet s.visited c.nodeId true) x false = true := by
    intro x hx
    rw [hvis1 x]
    by_cases hcx : c.nodeId = x <;> simp [hcx, hx]
  have hold : ∀ x, mapGetD (mapSet s.visited c.nodeId true) x false = true → x ≠ c.nodeId →
      s.isVisited x = true := by
    intro x hx hne
    rw [hvis1 x, if_neg (fun h => hne h.symm)] at hx
    exact hx
  have hsrcv : mapGetD (mapSet s.visited c.nodeId true) src false = true := by
    by_cases hcs : c.nodeId = src
    · rw [hvis1, if_pos hcs]
    · rcases hinv.start with h | h
      · exact hgrow src h
      · exact absurd (h c hcmem) hcs
  refine ⟨⟨hinv.dist_le, hinv.dist_walk, hinv.dist_src, ?_, ?_, Or.inl hsrcv, ?_, ?_, ?_,
    hinv.has_parent, ?_, fun _ _ => hsrcv⟩, hsrcv, hdc, ?_⟩
  · intro x hx
    exact hinv.pq_ge x (hsub x hx)
  · intro v dv hv hdv hlt
    have hv1 : mapGetD (mapSet s.visited c.nodeId true) v false = false := hv
    rw [hvis1 v] at hv1
    have hcv : ¬ c.nodeId = v := by
      intro h
      rw [if_pos h] at hv1
      exact Bool.noConfusion hv1
    rw [if_neg hcv] at hv1
    have hmem := hinv.live v dv hv1 hdv hlt
    rcases List.mem_cons.1 (hperm.mem_iff.1 hmem) with heq | hr
    · exact absurd (by rw [← heq]) hcv
    · exact hr
  · intro v hv
    by_cases hvc : v = c.nodeId
    · rw [hvc]
      exact ⟨c.distance, hdc, hclt⟩
    · exact hinv.vis_dist v (hold v hv hvc)
  · intro x hx e he
    by_cases hxc : x = c.nodeId
    · exact Or.inl ⟨hxc, by rw [← hxc]; exact he⟩
    · rcases hinv.relaxed x (hold x hx hxc) e he with ⟨_, hm⟩ | h | h
      · exact absurd hm (List.not_mem_nil _)
      · exact Or.inr (Or.inl (hgrow _ h))
      · exact Or.inr (Or.inr h)
  · intro v p hp
    obtain ⟨hne, hpv, rest2⟩ := hinv.parent_ok v p hp
    exact ⟨hne, hgrow p hpv, rest2⟩
  · intro v hv
    have hcongr : ∀ x, s.isVisited x = true →
        mapGetD (mapSet s.visited c.nodeId true) x false = true ∧
          mapFind s.parent x = mapFind s.parent x := fun x hx => ⟨hgrow x hx, rfl⟩
    by_cases hvc : v = c.nodeId
    · by_cases hvs : v = src
      · refine ⟨[], 0, ?_, Nat.succ_pos _, ?_, walkWeightD_nil, by simp⟩
        · rw [hvs]; exact Chain.base
        · rw [hvs]; exact hinv.dist_src
      · have hdv : s.distOf v = some c.distance := by rw [hvc]; exact hdc
        obtain ⟨p, hp⟩ := hinv.has_parent v c.distance hvs hdv hclt
        obtain ⟨_, hpv, e, dp, he, hed, hdp, hdv2⟩ := hinv.parent_ok v p hp
        obtain ⟨es, dp2, hch, hlen, hdp2, hwt, hnd⟩ := hinv.chain p hpv
        rw [hdp] at hdp2
        cases hdp2
        refine ⟨es ++ [e], fadd dp e.weight, ?_, ?_, hdv2, ?_, ?_⟩
        · exact Chain.step p v es e (Chain.congr hcongr hch) hvs hv hp he hed
        · simp
          omega
        · rw [walkWeightD_snoc, hwt]
        · have hall := Chain.nodes_visited hch (hinv.src_first p hpv)
          have hvnot : v ∉ src :: es.map Edge.dst := by
            intro hmem
            have := hall v hmem
            rw [hvc, hc] at this
            exact Bool.noConfusion this
          have hlist : src :: (es ++ [e]).map Edge.dst = (src :: es.map Edge.dst) ++ [v] := by
            simp [hed]
          rw [hlist]
          exact List.nodup_append.2 ⟨hnd, List.nodup_singleton v, by
            intro x hx1 hx2
            rw [List.mem_singleton.1 hx2] at hx1
            exact hvnot hx1⟩
    · obtain ⟨es, dv, hch, hlen, hdv, hwt⟩ := hinv.chain v (hold v hv hvc)
      exact ⟨es, dv, Chain.congr hcongr hch, Nat.lt_succ_of_lt hlen, hdv, hwt⟩
  · intro hnn hopt v hv dv hdv es hw
    by_cases hvc : v = c.nodeId
    · have hdv2 : s.distOf v = some c.distance := by rw [hvc]; exact hdc
      have hdveq : dv = c.distance := by
        have : some dv = some c.distance := by rw [← hdv2]; exact hdv.symm
        exact Option.some.inj this
      rw [hdveq]
      cases hsv : s.isVisited src with
      | false =>
        rcases hinv.start with h | h
        · rw [hsv] at h
          exact Bool.noConfusion h
        · have hcs : c.nodeId = src := h c hcmem
          have h0 : s.distOf c.nodeId = some 0 := by rw [hcs]; exact hinv.dist_src
          rw [hdc] at h0
          rw [Option.some.inj h0]
          exact walkWeightD_nonneg es (walk_weights_nonneg hnn hw)
      | true =>
        have hvu : s.isVisited v = false := by rw [hvc]; exact hc
        obtain ⟨p, x, e, q, hes, hp, hx, he, hev, hq⟩ :=
          walk_crossing s.isVisited es src v hw hsv hvu
        obtain ⟨dx, hdx, _⟩ := hinv.vis_dist x hx
        have hdxle : dx ≤ walkWeightD p := hopt x hx dx hdx p hp
        rcases hinv.relaxed x hx e he with ⟨_, hm⟩ | h | ⟨du, dy, hdu, hdy, hle⟩
        · exact absurd hm (List.not_mem_nil _)
        · rw [hev] at h
          exact Bool.noConfusion h
        · rw [hdx] at hdu
          cases hdu
          have hcy : c.distance ≤ dy := by
            by_cases hylt : dy < DBL_MAX
            · exact hmin _ (hinv.live e.dst dy hev hdy hylt)
            · exact le_trans (le_of_lt hclt) (le_of_not_lt hylt)
          rw [hes]
          exact le_trans hcy (le_trans hle (walkWeightD_crossing hnn hq hdxle))
    · exact hopt v (hold v hv hvc) dv hdv es hw

theorem dijkstraLoopD_spec (H : MinHeap) (g : Graph) (src dst : Int) :
    ∀ (fuel n : Nat) (cur : Int) (s : SearchState),
      InvD g src n cur [] s → searchMeasure g s < fuel →
      ∃ s1 cur1 pend1, dijkstraLoopD H g dst fuel s = some s1 ∧
        InvD g src (n + fuel) cur1 pend1 s1 ∧
        (s1.isVisited dst = true ∨ (s1.pq = [] ∧ pend1 = [])) ∧
        (g.NonNeg → OptD g src s → OptD g src s1) := by
  intro fuel
  induction fuel with
  | zero =>
    intro n cur s _ hm
    exact absurd hm (Nat.not_lt_zero _)
  | succ fuel ih =>
    intro n cur s hinv hm
    cases hpop : H.pop s.pq with
    | none =>
      have hq : s.pq = [] := H.pop_none _ hpop
      refine ⟨s, cur, [], by simp [dijkstraLoopD, hpop], invD_mono hinv (Nat.le_add_right _ _),
        Or.inr ⟨hq, rfl⟩, fun _ h => h⟩
    | some cr =>
      obtain ⟨c, rest⟩ := cr
      obtain ⟨hperm, _⟩ := H.pop_some _ _ _ hpop
      have hlen : s.pq.length = rest.length + 1 := by
        rw [hperm.length_eq]; rfl
      cases hc : s.isVisited c.nodeId with
      | true =>
        have hc1 : mapGetD s.visited c.nodeId false = true := hc
        have hinv2 := invD_pop_stale H hinv hpop hc
        have hm2 : searchMeasure g { s with pq := rest } < fuel := by
          have : searchMeasure g { s with pq := rest } =
              rest.length + unvisitedEntries g.adjacencyList_ s.isVisited := rfl
          unfold searchMeasure at hm
          omega
        obtain ⟨s1, cur1, pend1, hrun, hI, hexit, hO⟩ := ih n cur _ hinv2 hm2
        refine ⟨s1, cur1, pend1, ?_, ?_, hexit, fun hnn hopt => hO hnn hopt⟩
        · simp only [dijkstraLoopD, hpop, hc1, if_true]
          exact hrun
        · exact invD_mono_pending hI (by omega)
      | false =>
        have hc1 : mapGetD s.visited c.nodeId false = false := hc
        obtain ⟨hinv1, hsrcv, hdc, hO1⟩ := invD_visit H hinv hpop hc
        by_cases hud : c.nodeId = dst
        · refine ⟨_, c.nodeId, g.getAdjacentEdges c.nodeId, ?_, invD_mono_pending hinv1 (by omega),
            Or.inl ?_, hO1⟩
          · simp only [dijkstraLoopD, hpop, hc1]
            simp [hud]
          · show mapGetD (mapSet s.visited c.nodeId true) dst false = true
            rw [mapGetD_mapSet, if_pos hud]
        · have hu1 : mapGetD (mapSet s.visited c.nodeId true) c.nodeId false = true := by
            rw [mapGetD_mapSet]; simp
          obtain ⟨hI2, hV, hD, hL⟩ := invD_relaxAll H (g.getAdjacentEdges c.nodeId)
            { s with pq := rest, visited := mapSet s.visited c.nodeId true } hinv1 hsrcv hu1 hdc
            (fun e he => he)
          have hfun : ((g.getAdjacentEdges c.nodeId).foldl (relaxEdgeD H c.nodeId c.distance)
              { s with pq := rest, visited := mapSet s.visited c.nodeId true }).isVisited =
              fun x => mapGetD (mapSet s.visited c.nodeId true) x false := funext hV
          have hvisit := unvisitedEntries_visit g.adjacencyList_ s.isVisited
            (fun x => mapGetD (mapSet s.visited c.nodeId true) x false) c.nodeId hc
            (fun x => by simp only [mapGetD_mapSet]; rfl)
          rw [← getAdjacentEdges_eq] at hvisit
          have hm2 : searchMeasure g ((g.getAdjacentEdges c.nodeId).foldl
              (relaxEdgeD H c.nodeId c.distance)
              { s with pq := rest, visited := mapSet s.visited c.nodeId true }) < fuel := by
            unfold searchMeasure at hm ⊢
            rw [hfun]
            have hL2 : ((g.getAdjacentEdges c.nodeId).foldl (relaxEdgeD H c.nodeId c.distance)
              { s with pq := rest, visited := mapSet s.visited c.nodeId true }).pq.length ≤
              rest.length + (g.getAdjacentEdges c.nodeId).length := hL
            omega
          obtain ⟨s1, cur1, pend1, hrun, hI, hexit, hO⟩ := ih (n + 1) c.nodeId _ hI2 hm2
          refine ⟨s1, cur1, pend1, ?_, ?_, hexit, ?_⟩
          · simp only [dijkstraLoopD, hpop, hc1, hud, if_false]
            simpa using hrun
          · have : n + 1 + fuel = n + (fuel + 1) := by omega
            rw [← this]
            exact hI
          · intro hnn hopt
            refine hO hnn ?_
            intro v hv dv hdv es hw
            rw [hV v] at hv
            rw [hD v hv] at hdv
            exact hO1 hnn hopt v hv dv hdv es hw

theorem invD_init (H : MinHeap) (g : Graph) (src : Int) :
    InvD g src 0 src []
      { dist := mapSet [] src 0, parent := [], visited := mapSet [] src false,
        pq := H.push [] ⟨src, 0⟩ } := by
  have hdist : ∀ v, mapFind (mapSet ([] : List (Int × ℚ)) src 0) v =
      if src = v then some 0 else none := by
    intro v; rw [mapFind_mapSet]; rfl
  have hvis : ∀ v, mapGetD (mapSet ([] : List (Int × Bool)) src false) v false = false := by
    intro v
    rw [mapGetD_mapSet]
    by_cases h : src = v <;> simp [h, mapGetD, mapFind]
  have hpq : ∀ x, x ∈ H.push [] ⟨src, 0⟩ ↔ x = ⟨src, 0⟩ := by
    intro x
    rw [(H.push_perm [] ⟨src, 0⟩).mem_iff]
    simp
  have hnov : ∀ v, ¬ (mapGetD (mapSet ([] : List (Int × Bool)) src false) v false = true) := by
    intro v hv
    rw [hvis v] at hv
    exact Bool.noConfusion hv
  refine ⟨?_, ?_, ?_, ?_, ?_, ?_, ?_, ?_, ?_, ?_, ?_, ?_⟩
  · intro v d hd
    have hd1 : mapFind (mapSet ([] : List (Int × ℚ)) src 0) v = some d := hd
    rw [hdist v] at hd1
    by_cases h : src = v
    · rw [if_pos h] at hd1
      cases hd1
      exact le_of_lt DBL_MAX_pos
    · rw [if_neg h] at hd1
      exact Option.noConfusion hd1
  · intro v d hd _
    have hd1 : mapFind (mapSet ([] : List (Int × ℚ)) src 0) v = some d := hd
    rw [hdist v] at hd1
    by_cases h : src = v
    · rw [if_pos h] at hd1
      cases hd1
      exact ⟨[], h, rfl⟩
    · rw [if_neg h] at hd1
      exact Option.noConfusion hd1
  · show mapFind (mapSet ([] : List (Int × ℚ)) src 0) src = some 0
    rw [hdist src]; simp
  · intro x hx
    rw [(hpq x).1 hx]
    refine ⟨DBL_MAX_pos, 0, ?_, le_refl _⟩
    show mapFind (mapSet ([] : List (Int × ℚ)) src 0) src = some 0
    rw [hdist src]; simp
  · intro v dv _ hd _
    have hd1 : mapFind (mapSet ([] : List (Int × ℚ)) src 0) v = some dv := hd
    rw [hdist v] at hd1
    by_cases h : src = v
    · rw [if_pos h] at hd1
      cases hd1
      rw [← h]
      exact (hpq _).2 rfl
    · rw [if_neg h] at hd1
      exact Option.noConfusion hd1
  · right
    intro x hx
    rw [(hpq x).1 hx]
  · intro v hv
    exact absurd hv (hnov v)
  · intro u hu
    exact absurd hu (hnov u)
  · intro v u hp
    exact Option.noConfusion hp
  · intro v dv hne hd _
    have hd1 : mapFind (mapSet ([] : List (Int × ℚ)) src 0) v = some dv := hd
    rw [hdist v] at hd1
    by_cases h : src = v
    · exact absurd h.symm hne
    · rw [if_neg h] at hd1
      exact Option.noConfusion hd1
  · intro v hv
    exact absurd hv (hnov v)
  · intro v hv
    exact absurd hv (hnov v)

theorem chain_parents {g : Graph} {p : List (Int × Int)} {vis : Int → Bool} {src : Int}
    {v : Int} {es : List Edge} (hc : Chain g p vis src v es) :
    ∀ x ∈ es.map Edge.dst, (mapFind p x).isSome = true := by
  induction hc with
  | base =>
    intro x hx
    exact absurd hx (List.not_mem_nil _)
  | step u v es e _ _ _ hpar _ hdst ih =>
    intro x hx
    rw [List.map_append, List.mem_append] at hx
    rcases hx with hx | hx
    · exact ih x hx
    · simp only [List.map_cons, List.map_nil, List.mem_singleton] at hx
      rw [hx, hdst, hpar]
      rfl

theorem dijkstraD_search (H : MinHeap) (g : Graph) (src dst : Int)
    (hs : g.hasNode src = true) (hd : g.hasNode dst = true) (hne : src ≠ dst)
    (hiso : g.isIsolated src = false) :
    ∃ s pend, (dijkstraLoopD H g dst g.searchFuel (initialState H src) = some s ∧
        ∃ cur, InvD g src g.searchFuel cur pend s) ∧
      (g.NonNeg → OptD g src s) ∧
      ((s.isVisited dst = true ∧ ∃ es dv,
          (IsWalk g src es dst ∧ (src :: es.map Edge.dst).Nodup) ∧ s.distOf dst = some dv ∧
          walkWeightD es = dv ∧ dv < DBL_MAX ∧
          dijkstraD H g src dst = some { path := src :: es.map Edge.dst, totalWeight := dv,
                                         found := true, elapsedMicroseconds := 0 } ∧
          reconstructPath (g.searchFuel + 1) src dst s.parent =
            some (src :: es.map Edge.dst) ∧
          ∀ x ∈ es.map Edge.dst, (mapFind s.parent x).isSome = true) ∨
       (s.isVisited dst = false ∧ s.pq = [] ∧ pend = [] ∧
          dijkstraD H g src dst = some PathResult.init)) := by
  have hinit := invD_init H g src
  have hm0 : searchMeasure g
      { dist := mapSet [] src 0, parent := [], visited := mapSet [] src false,
        pq := H.push [] ⟨src, 0⟩ } < g.searchFuel := by
    unfold searchMeasure Graph.searchFuel Graph.entryCount
    rw [unvisitedEntries_none]
    · show (H.push [] ⟨src, 0⟩).length + _ < _
      rw [(H.push_perm [] ⟨src, 0⟩).length_eq]
      simp only [List.length_singleton]
      omega
    · intro x
      show mapGetD (mapSet ([] : List (Int × Bool)) src false) x false = false
      rw [mapGetD_mapSet]
      by_cases h : src = x <;> simp [h, mapGetD, mapFind]
  obtain ⟨s, cur, pend, hrun, hI, hexit, hO⟩ :=
    dijkstraLoopD_spec H g src dst g.searchFuel 0 src _ hinit hm0
  rw [Nat.zero_add] at hI
  have hopt : g.NonNeg → OptD g src s := by
    intro hnn
    refine hO hnn ?_
    intro v hv
    have hv1 : mapGetD (mapSet ([] : List (Int × Bool)) src false) v false = true := hv
    rw [mapGetD_mapSet] at hv1
    by_cases h : src = v <;> simp [h, mapGetD, mapFind] at hv1
  have hunfold : dijkstraD H g src dst =
      (if (mapFind s.dist dst).isNone || decide (mapGetD s.dist dst 0 = DBL_MAX) then
        some PathResult.init
      else
        match reconstructPath (g.searchFuel + 1) src dst s.parent with
        | none => none
        | some p =>
          some { PathResult.init with path := p, totalWeight := mapGetD s.dist dst 0,
                                      found := true }) := by
    simp only [dijkstraD, hs, hd, hiso, if_neg hne, hrun]
    simp
  refine ⟨s, pend, ⟨hrun, cur, hI⟩, hopt, ?_⟩
  cases hvd : s.isVisited dst with
  | true =>
    left
    obtain ⟨es, dv, hch, hlen, hdv, hwt, hnodup⟩ := hI.chain dst hvd
    obtain ⟨dv2, hdv2, hlt⟩ := hI.vis_dist dst hvd
    rw [hdv] at hdv2
    cases hdv2
    have hf : mapFind s.dist dst = some dv := hdv
    have hg : mapGetD s.dist dst 0 = dv := mapGetD_of_find _ _ _ _ hf
    have hrec : reconstructPath (g.searchFuel + 1) src dst s.parent =
        some (src :: es.map Edge.dst) := by
      unfold reconstructPath
      rw [if_neg hne, reconstructLoop_chain hch (g.searchFuel + 1) [] (Nat.lt_succ_of_lt hlen)]
      simp
    refine ⟨rfl, es, dv, ⟨hch.isWalk, hnodup⟩, hdv, hwt, hlt, ?_, hrec, chain_parents hch⟩
    rw [hunfold, hf, hg, hrec]
    simp [ne_of_lt hlt, PathResult.init]
  | false =>
    right
    rcases hexit with h | ⟨hq, hp⟩
    · rw [hvd] at h
      exact Bool.noConfusion h
    · refine ⟨rfl, hq, hp, ?_⟩
      rw [hunfold]
      cases hf : mapFind s.dist dst with
      | none => simp
      | some dv =>
        have hg : mapGetD s.dist dst 0 = dv := mapGetD_of_find _ _ _ _ hf
        have hmax : dv = DBL_MAX := by
          by_contra hneq
          have hlt : dv < DBL_MAX := lt_of_le_of_ne (hI.dist_le dst dv hf) hneq
          have := hI.live dst dv hvd hf hlt
          rw [hq] at this
          exact absurd this (List.not_mem_nil _)
        simp [hg, hmax]

theorem dijkstraD_result (H : MinHeap) (g : Graph) (src dst : Int) :
    ∃ r, dijkstraD H g src dst = some r ∧ r.elapsedMicroseconds = 0 ∧
      (r.found = false → r = PathResult.init) ∧
      (r.found = true → g.hasNode src = true ∧ g.hasNode dst = true ∧
        ∃ es, IsWalk g src es dst ∧ r.path = src :: es.map Edge.dst ∧
          walkWeightD es = r.totalWeight ∧ r.totalWeight < DBL_MAX ∧
          (src :: es.map Edge.dst).Nodup) := by
  have hinit : ∀ r, r = PathResult.init → r.elapsedMicroseconds = 0 ∧
      (r.found = false → r = PathResult.init) ∧
      (r.found = true → g.hasNode src = true ∧ g.hasNode dst = true ∧
        ∃ es, IsWalk g src es dst ∧ r.path = src :: es.map Edge.dst ∧
          walkWeightD es = r.totalWeight ∧ r.totalWeight < DBL_MAX ∧
          (src :: es.map Edge.dst).Nodup) := by
    intro r hr
    subst hr
    exact ⟨rfl, fun _ => rfl, fun h => Bool.noConfusion h⟩
  by_cases hs : g.hasNode src = true
  · by_cases hd : g.hasNode dst = true
    · by_cases hne : src = dst
      · subst hne
        refine ⟨{ PathResult.init with path := [src], totalWeight := 0, found := true },
          by simp [dijkstraD, hs], rfl, fun h => Bool.noConfusion h, fun _ => ?_⟩
        exact ⟨hs, hs, [], rfl, rfl, rfl, DBL_MAX_pos, by simp⟩
      · cases hiso : g.isIsolated src with
        | true =>
          exact ⟨PathResult.init, by simp [dijkstraD, hs, hd, hne, hiso], hinit _ rfl⟩
        | false =>
          obtain ⟨s, pend, _, _, hcase⟩ := dijkstraD_search H g src dst hs hd hne hiso
          rcases hcase with ⟨_, es, dv, ⟨hw, hnd⟩, _, hwt, hlt, hrun, _⟩ | ⟨_, _, _, hrun⟩
          · exact ⟨_, hrun, rfl, fun h => Bool.noConfusion h,
              fun _ => ⟨hs, hd, es, hw, rfl, hwt, hlt, hnd⟩⟩
          · exact ⟨PathResult.init, hrun, hinit _ rfl⟩
    · exact ⟨PathResult.init, by simp [dijkstraD, hd], hinit _ rfl⟩
  · exact ⟨PathResult.init, by simp [dijkstraD, hs], hinit _ rfl⟩

theorem dijkstraD_optimal (H : MinHeap) (g : Graph) (src dst : Int) (hg : g.NonNeg)
    (r : PathResult) (hr : dijkstraD H g src dst = some r) (hf : r.found = true) :
    ∀ es, IsWalk g src es dst → r.totalWeight ≤ walkWeightD es := by
  have hnot : r ≠ PathResult.init := by
    intro h
    rw [h] at hf
    exact Bool.noConfusion hf
  by_cases hs : g.hasNode src = true
  · by_cases hd : g.hasNode dst = true
    · by_cases hne : src = dst
      · subst hne
        have : dijkstraD H g src src =
            some { PathResult.init with path := [src], totalWeight := 0, found := true } := by
          simp [dijkstraD, hs]
        rw [this] at hr
        cases hr
        intro es hw
        exact walkWeightD_nonneg es (walk_weights_nonneg hg hw)
      · cases hiso : g.isIsolated src with
        | true =>
          have : dijkstraD H g src dst = some PathResult.init := by
            simp [dijkstraD, hs, hd, hne, hiso]
          rw [this] at hr
          exact absurd (Option.some.inj hr).symm hnot
        | false =>
          obtain ⟨s, pend, _, hopt, hcase⟩ := dijkstraD_search H g src dst hs hd hne hiso
          rcases hcase with ⟨hvis, es0, dv, _, hdv, _, _, hrun, _⟩ | ⟨_, _, _, hrun⟩
          · rw [hrun] at hr
            cases hr
            intro es hw
            exact hopt hg dst hvis dv hdv es hw
          · rw [hrun] at hr
            exact absurd (Option.some.inj hr).symm hnot
    · have : dijkstraD H g src dst = some PathResult.init := by simp [dijkstraD, hd]
      rw [this] at hr
      exact absurd (Option.some.inj hr).symm hnot
  · have : dijkstraD H g src dst = some PathResult.init := by simp [dijkstraD, hs]
    rw [this] at hr
    exact absurd (Option.some.inj hr).symm hnot

theorem dijkstraD_complete (H : MinHeap) (g : Graph) (src dst : Int) (hg : g.NonNeg)
    (hs : g.hasNode src = true) (hd : g.hasNode dst = true)
    (es : List Edge) (hw : IsWalk g src es dst) (hlt : walkWeightD es < DBL_MAX) :
    ∃ r, dijkstraD H g src dst = some r ∧ r.found = true := by
  by_cases hne : src = dst
  · subst hne
    exact ⟨{ PathResult.init with path := [src], totalWeight := 0, found := true },
      by simp [dijkstraD, hs], rfl⟩
  · have hiso : g.isIsolated src = false := by
      cases es with
      | nil => exact absurd hw hne
      | cons e rest => exact not_isolated_of_edge g src e hw.1
    obtain ⟨s, pend, ⟨_, cur, hI⟩, hopt, hcase⟩ := dijkstraD_search H g src dst hs hd hne hiso
    rcases hcase with ⟨_, es0, dv, _, _, _, _, hrun, _⟩ | ⟨hvis, hq, hp, _⟩
    · exact ⟨_, hrun, rfl⟩
    · exfalso
      have hsv : s.isVisited src = true := by
        cases hsv : s.isVisited src with
        | true => rfl
        | false =>
          have := hI.live src 0 hsv hI.dist_src DBL_MAX_pos
          rw [hq] at this
          exact absurd this (List.not_mem_nil _)
      obtain ⟨p, x, e, q, hes, hpw, hx, he, hev, hqw⟩ :=
        walk_crossing s.isVisited es src dst hw hsv hvis
      obtain ⟨dx, hdx, _⟩ := hI.vis_dist x hx
      have hdxle : dx ≤ walkWeightD p := hopt hg x hx dx hdx p hpw
      rcases hI.relaxed x hx e he with ⟨_, hm⟩ | h | ⟨du, dy, hdu, hdy, hle⟩
      · rw [hp] at hm
        exact absurd hm (List.not_mem_nil _)
      · rw [hev] at h
        exact Bool.noConfusion h
      · rw [hdx] at hdu
        cases hdu
        have hylt : dy < DBL_MAX := by
          rw [hes] at hlt
          exact lt_of_le_of_lt (le_trans hle (walkWeightD_crossing hg hqw hdxle)) hlt
        have := hI.live e.dst dy hev hdy hylt
        rw [hq] at this
        exact absurd this (List.not_mem_nil _)

/-! ## The search contract in `double` arithmetic -/

theorem findPathD_eq (pf : PathFinder) (H : MinHeap) (g : Graph) (elapsed src dst : Int)
    (r : PathResult) (h : dijkstraD H g src dst = some r) :
    pf.findPathD H g elapsed src dst = some { r with elapsedMicroseconds := elapsed } := by
  simp [PathFinder.findPathD, h]

theorem fadd_zero_DBL_MAX : fadd 0 DBL_MAX = DBL_MAX := by
  have hpos := DBL_MAX_pos
  have hfix : roundMag DBL_MAX = DBL_MAX := by
    refine roundMag_fixed DBL_MAX (2 ^ 53 - 1) 1023 hpos ?_ (by norm_num) ?_
    · rw [DBL_MAX_eq]
      norm_num
    · rw [DBL_MAX_eq]
      norm_num
  have h0 : ¬ DBL_INF ≤ |(0 : ℚ)| := by
    rw [abs_zero]
    exact not_le.2 DBL_INF_pos
  unfold fadd
  rw [if_neg h0, zero_add, fround_of_nonneg (le_of_lt hpos), hfix]
  apply min_eq_left
  rw [DBL_MAX_eq, DBL_INF_eq]
  norm_num

/-- C2, as stated, fails: in the graph made by `addEdge(1, 2, DBL_MAX)` both nodes are
known and the stored edge joins them, yet `findPath(1,2)` is not-found, because the
tentative distance `0 + DBL_MAX` is not below the `DBL_MAX` entered for a new node; the
sum is exact, so the search gives the same with exact sums and with those of `double`. -/
theorem findPath_complete_counterexample :
    maxEdgeGraph.hasNode 1 = true ∧ maxEdgeGraph.hasNode 2 = true ∧
    IsWalk maxEdgeGraph 1 [⟨2, DBL_MAX⟩] 2 ∧
    PathFinder.new.findPath listHeap maxEdgeGraph 0 1 2 =
      some { path := [], totalWeight := 0, found := false, elapsedMicroseconds := 0 } ∧
    PathFinder.new.findPathD listHeap maxEdgeGraph 0 1 2 =
      some { path := [], totalWeight := 0, found := false, elapsedMicroseconds := 0 } := by
  refine ⟨by decide, by decide, ?_, ?_, ?_⟩
  · simp [IsWalk, maxEdgeGraph, Graph.addEdge, Graph.addNode, Graph.hasNode, Graph.empty,
      emplaceBack, Graph.getAdjacentEdges, mapFind, mapSet, mapGetD]
  · simp [PathFinder.findPath, dijkstra, dijkstraLoop, Graph.searchFuel, Graph.entryCount, listHeap,
      extractMin, relaxEdge, mapFind, mapSet, mapGetD, maxEdgeGraph, Graph.addEdge,
      Graph.addNode, Graph.hasNode, Graph.empty, Graph.isIsolated, emplaceBack,
      Graph.getAdjacentEdges, PathResult.init]
  · simp [PathFinder.findPathD, dijkstraD, dijkstraLoopD, Graph.searchFuel, Graph.entryCount,
      listHeap, extractMin, relaxEdgeD, mapFind, mapSet, mapGetD, maxEdgeGraph, Graph.addEdge,
      Graph.addNode, Graph.hasNode, Graph.empty, Graph.isIsolated, emplaceBack,
      Graph.getAdjacentEdges, PathResult.init, fadd_zero_DBL_MAX]

theorem nearMax_eq : nearMax = 2 ^ 1024 - 2 ^ 972 := by
  unfold nearMax
  norm_num

theorem nearGap_eq : nearGap = 3 * 2 ^ 969 := by
  unfold nearGap
  norm_num

theorem nearMax_lt : nearMax < DBL_MAX := by
  rw [nearMax_eq, DBL_MAX_eq]
  norm_num

theorem fadd_zero_nearMax : fadd 0 nearMax = nearMax := by
  have hpos : 0 < nearMax := by rw [nearMax_eq]; norm_num
  have hfix : roundMag nearMax = nearMax := by
    refine roundMag_fixed nearMax (2 ^ 53 - 2) 1023 hpos ?_ (by norm_num) ?_
    · rw [nearMax_eq]
      norm_num
    · rw [nearMax_eq]
      norm_num
  have h0 : ¬ DBL_INF ≤ |(0 : ℚ)| := by
    rw [abs_zero]
    exact not_le.2 DBL_INF_pos
  unfold fadd
  rw [if_neg h0, zero_add, fround_of_nonneg (le_of_lt hpos), hfix]
  apply min_eq_left
  rw [nearMax_eq, DBL_INF_eq]
  norm_num

theorem roundEven_near : roundEven (36028797018963963 / 4) = 9007199254740991 := by
  with_unfolding_all decide

theorem fadd_nearMax_nearGap : fadd nearMax nearGap = DBL_MAX := by
  have hpos : 0 < nearMax + nearGap := by rw [nearMax_eq, nearGap_eq]; norm_num
  have hab : ¬ DBL_INF ≤ |nearMax| := by
    rw [abs_of_pos (by rw [nearMax_eq]; norm_num), nearMax_eq, DBL_INF_eq]
    norm_num
  have hq : (nearMax + nearGap) / (2 : ℚ) ^ ((1023 : ℤ) - 52) = 36028797018963963 / 4 := by
    rw [nearMax_eq, nearGap_eq]
    norm_num
  have hr : roundMag (nearMax + nearGap) = DBL_MAX := by
    rw [roundMag_eval (nearMax + nearGap) 1023 (by rw [nearMax_eq, nearGap_eq]; norm_num)
      (by rw [nearMax_eq, nearGap_eq]; norm_num) (by norm_num), hq, roundEven_near, DBL_MAX_eq]
    norm_num
  unfold fadd
  rw [if_neg hab, fround_of_nonneg (le_of_lt hpos), hr]
  apply min_eq_left
  rw [DBL_MAX_eq, DBL_INF_eq]
  norm_num

/-- Rounding alone can bring a sum to the value that stands for unreached nodes: in the
graph made by `addEdge(1, 2, 2^1024 - 2^972)` and `addEdge(2, 3, 3 * 2^969)` the walk
from 1 over 2 to 3 has an exact weight below `DBL_MAX`, but the search adds the two
weights in `double`, which gives `DBL_MAX`, and `findPath(1,3)` is not-found. -/
theorem findPathD_rounds_to_sentinel :
    nearMaxGraph.NonNeg ∧ IsWalk nearMaxGraph 1 [⟨2, nearMax⟩, ⟨3, nearGap⟩] 3 ∧
    walkWeight [⟨2, nearMax⟩, ⟨3, nearGap⟩] < DBL_MAX ∧
    walkWeightD [⟨2, nearMax⟩, ⟨3, nearGap⟩] = DBL_MAX ∧
    PathFinder.new.findPathD listHeap nearMaxGraph 0 1 3 =
      some { path := [], totalWeight := 0, found := false, elapsedMicroseconds := 0 } := by
  refine ⟨?_, ?_, ?_, ?_, ?_⟩
  · exact nonNeg_addEdge (nonNeg_addEdge nonNeg_empty 1 2 nearMax
      (by rw [nearMax_eq]; norm_num)) 2 3 nearGap (by rw [nearGap_eq]; norm_num)
  · simp [IsWalk, nearMaxGraph, Graph.addEdge, Graph.addNode, Graph.hasNode, Graph.empty,
      emplaceBack, Graph.getAdjacentEdges, mapFind, mapSet, mapGetD]
  · simp only [walkWeight, List.map_cons, List.map_nil, List.sum_cons, List.sum_nil, add_zero]
    rw [nearMax_eq, nearGap_eq, DBL_MAX_eq]
    norm_num
  · simp [walkWeightD, fadd_zero_nearMax, fadd_nearMax_nearGap]
  · simp [PathFinder.findPathD, dijkstraD, dijkstraLoopD, Graph.searchFuel, Graph.entryCount,
      listHeap, extractMin, relaxEdgeD, mapFind, mapSet, mapGetD, nearMaxGraph, Graph.addEdge,
      Graph.addNode, Graph.hasNode, Graph.empty, Graph.isIsolated, emplaceBack,
      Graph.getAdjacentEdges, PathResult.init, fadd_zero_nearMax, fadd_nearMax_nearGap,
      nearMax_lt]

/-- C2 (completeness), amended: for known nodes `src`, `dst` the query returns, and
`found` implies that `src = dst` or that a walk along stored edges joins them, whatever
the weights (so nodes of different components give not-found, as unknown nodes do).
Conversely, when the stored weights are non-negative, `found` holds exactly when
`src = dst` or some joining walk has a weight sum below `DBL_MAX`, the sum being taken
as the search takes it: edge after edge from `src` on, in `double`. -/
theorem findPathD_found_iff (pf : PathFinder) (H : MinHeap) (g : Graph) (elapsed src dst : Int)
    (hs : g.hasNode src = true) (hd : g.hasNode dst = true) :
    ∃ r, pf.findPathD H g elapsed src dst = some r ∧
      (r.found = true → src = dst ∨ ∃ es, IsWalk g src es dst) ∧
      (g.NonNeg →
        (r.found = true ↔
          src = dst ∨ ∃ es, IsWalk g src es dst ∧ walkWeightD es < DBL_MAX)) := by
  obtain ⟨r, hr, _, _, hfound⟩ := dijkstraD_result H g src dst
  have hsound : r.found = true → src = dst ∨ ∃ es, IsWalk g src es dst := by
    intro hf
    obtain ⟨_, _, es, hw, _⟩ := hfound hf
    exact Or.inr ⟨es, hw⟩
  refine ⟨{ r with elapsedMicroseconds := elapsed }, findPathD_eq pf H g elapsed src dst r hr,
    hsound, ?_⟩
  intro hg
  constructor
  · intro hf
    obtain ⟨_, _, es, hw, _, hwt, hlt, _⟩ := hfound hf
    exact Or.inr ⟨es, hw, by rw [hwt]; exact hlt⟩
  · intro h
    have hex : ∃ es, IsWalk g src es dst ∧ walkWeightD es < DBL_MAX := by
      rcases h with h | h
      · exact ⟨[], h, DBL_MAX_pos⟩
      · exact h
    obtain ⟨es, hw, hlt⟩ := hex
    obtain ⟨r2, hr2, hf2⟩ := dijkstraD_complete H g src dst hg hs hd es hw hlt
    rw [hr] at hr2
    cases hr2
    exact hf2

theorem findPathD_found_iff_witness :
    sampleGraph.hasNode 1 = true ∧ sampleGraph.hasNode 5 = true ∧
    ∃ r, PathFinder.new.findPathD listHeap sampleGraph 0 1 5 = some r ∧
      (r.found = true → (1 : Int) = 5 ∨ ∃ es, IsWalk sampleGraph 1 es 5) ∧
      (sampleGraph.NonNeg →
        (r.found = true ↔
          (1 : Int) = 5 ∨ ∃ es, IsWalk sampleGraph 1 es 5 ∧ walkWeightD es < DBL_MAX)) :=
  ⟨by decide, by decide,
   findPathD_found_iff PathFinder.new listHeap sampleGraph 0 1 5 (by decide) (by decide)⟩

theorem option_eq_some_getD {α : Type} (o : Option α) (d : α) (h : o.isSome = true) :
    o = some (o.getD d) := by
  cases o with
  | none => exact Bool.noConfusion h
  | some x => rfl

theorem roundingGraph_built : roundingGraph.Built :=
  Graph.Built.addEdge _ 3 4 1 (Graph.Built.addEdge _ 2 3 1
    (Graph.Built.addEdge _ 1 2 9007199254740992 Graph.Built.empty))

theorem roundingGraph_nonNeg : roundingGraph.NonNeg :=
  nonNeg_addEdge (nonNeg_addEdge (nonNeg_addEdge nonNeg_empty 1 2 9007199254740992
    (by norm_num)) 2 3 1 (by norm_num)) 3 4 1 (by norm_num)

set_option maxRecDepth 100000 in
/-- C7, as stated, fails: the graph made by `addEdge(1,2,2^53)`, `addEdge(2,3,1)`,
`addEdge(3,4,1)` has non-negative weights, and both `findPath(1,4)` and `findPath(4,1)`
are found, but with total weights `2^53` and `2^53 + 2`: from node 1 the two sums
`2^53 + 1` round back to `2^53`, from node 4 the sums `1 + 1` and `2 + 2^53` are exact. -/
theorem findPath_symmetric_counterexample :
    roundingGraph.Built ∧ roundingGraph.NonNeg ∧
    ∃ r1 r2, PathFinder.new.findPathD listHeap roundingGraph 0 1 4 = some r1 ∧
      PathFinder.new.findPathD listHeap roundingGraph 0 4 1 = some r2 ∧
      r1.found = true ∧ r2.found = true ∧
      r1.totalWeight = 9007199254740992 ∧ r2.totalWeight = 9007199254740994 :=
  ⟨roundingGraph_built, roundingGraph_nonNeg, _, _,
   option_eq_some_getD _ PathResult.init (by with_unfolding_all decide),
   option_eq_some_getD _ PathResult.init (by with_unfolding_all decide),
   by with_unfolding_all decide, by with_unfolding_all decide,
   le_antisymm (by with_unfolding_all decide) (by with_unfolding_all decide),
   le_antisymm (by with_unfolding_all decide) (by with_unfolding_all decide)⟩

theorem IsWalk.reverse_nodes {g : Graph} (hsym : g.Symm) : ∀ {a b : Int} {es : List Edge},
    IsWalk g a es b → ∃ fs, IsWalk g b fs a ∧ walkWeight fs = walkWeight es ∧
      b :: fs.map Edge.dst = (a :: es.map Edge.dst).reverse
  | a, b, [], h => by
    have hab : a = b := h
    exact ⟨[], hab.symm, rfl, by simp [hab]⟩
  | a, b, e :: es, h => by
    obtain ⟨he, hrest⟩ := h
    obtain ⟨fs, hfs, hwt, hn⟩ := IsWalk.reverse_nodes hsym hrest
    refine ⟨fs ++ [⟨a, e.weight⟩], IsWalk.snoc hfs (hsym a e he), ?_, ?_⟩
    · rw [walkWeight_append, hwt, walkWeight_cons, walkWeight_cons, walkWeight_nil]
      ring
    · have h1 : b :: (fs ++ [(⟨a, e.weight⟩ : Edge)]).map Edge.dst =
          (b :: fs.map Edge.dst) ++ [a] := by simp
      rw [h1, hn]
      simp

theorem IsWalk.snoc_inv {g : Graph} : ∀ {a b : Int} {l : List Edge} {e : Edge},
    IsWalk g a (l ++ [e]) b → ∃ x, IsWalk g a l x ∧ e ∈ g.getAdjacentEdges x ∧ e.dst = b
  | a, b, [], e, h => by
    obtain ⟨he, hrest⟩ := h
    exact ⟨a, rfl, he, hrest⟩
  | a, b, f :: fs, e, h => by
    obtain ⟨hf, hrest⟩ := h
    obtain ⟨x, hx, he, hd⟩ := IsWalk.snoc_inv hrest
    exact ⟨x, ⟨hf, hx⟩, he, hd⟩

theorem posOn_cons (adj : List (Int × List Edge)) (x : Int) (xs : List Int) :
    posOn adj (x :: xs) = posWeight (mapGetD adj x []) + posOn adj xs := by
  simp [posOn]

/-- The weight of a walk is at most the positive weight stored at the nodes it leaves. -/
theorem walkWeight_le_posOn {g : Graph} : ∀ {a b : Int} {es : List Edge},
    IsWalk g a es b →
      walkWeight es ≤ posOn g.adjacencyList_ ((a :: es.map Edge.dst).dropLast)
  | a, b, [], _ => by
    simp [walkWeight, posOn]
  | a, b, e :: es, h => by
    obtain ⟨he, hrest⟩ := h
    have ih := walkWeight_le_posOn hrest
    have hw := weight_le_posWeight _ e he
    rw [getAdjacentEdges_eq] at hw
    have hl : (a :: (e :: es).map Edge.dst).dropLast =
        a :: (e.dst :: es.map Edge.dst).dropLast := by
      simp [List.dropLast]
    rw [hl, posOn_cons, walkWeight_cons]
    linarith

theorem walkWeight_le_total {g : Graph} {a b : Int} {es : List Edge}
    (hw : IsWalk g a es b) (hnd : (a :: es.map Edge.dst).Nodup) :
    walkWeight es ≤ g.totalPosWeight := by
  have h1 := walkWeight_le_posOn hw
  have h2 := posOn_le_total g.adjacencyList_ _
    (List.Nodup.sublist (List.dropLast_sublist _) hnd)
  unfold Graph.totalPosWeight
  linarith

/-- Whole-number weights whose total, one term per adjacency entry, is at most `2^53`
are added without rounding along every path without a repeated node. -/
theorem exactSums_of_whole {g : Graph} (hW : g.WholeWeights)
    (hT : g.totalPosWeight ≤ 2 ^ 53) : g.ExactSums := by
  have key : ∀ (es : List Edge) (a b : Int), IsWalk g a es b →
      (a :: es.map Edge.dst).Nodup →
      walkWeightD es = walkWeight es ∧ ∃ m : ℕ, walkWeight es = m := by
    intro es
    induction es using List.reverseRecOn with
    | nil =>
      intro a b _ _
      exact ⟨rfl, 0, by simp [walkWeight]⟩
    | append_singleton l e ih =>
      intro a b hw hnd
      obtain ⟨x, hl, he, _⟩ := IsWalk.snoc_inv hw
      have hsub : (a :: l.map Edge.dst).Sublist (a :: (l ++ [e]).map Edge.dst) := by
        rw [List.map_append]
        exact List.Sublist.cons₂ a (List.sublist_append_left _ _)
      obtain ⟨hD, m, hm⟩ := ih a x hl (List.Nodup.sublist hsub hnd)
      obtain ⟨n, hn⟩ := hW x e he
      have hsum : walkWeight (l ++ [e]) = (m : ℚ) + n := by
        rw [walkWeight_append, hm, walkWeight_cons, walkWeight_nil, add_zero, hn]
      have hle : (m : ℚ) + n ≤ 2 ^ 53 := by
        rw [← hsum]
        exact le_trans (walkWeight_le_total hw hnd) hT
      have hle2 : m + n ≤ 2 ^ 53 := by exact_mod_cast hle
      refine ⟨?_, m + n, by rw [hsum]; push_cast; rfl⟩
      rw [walkWeightD_snoc, hD, hm, hn, fadd_natCast m n hle2, hsum]
  intro a es b hw hnd
  exact (key es a b hw hnd).1

theorem wholeWeights_empty : Graph.empty.WholeWeights := by
  intro u e he
  exact absurd he (List.not_mem_nil _)

theorem wholeWeights_addNode {g : Graph} (h : g.WholeWeights) (nodeId : Int) :
    (g.addNode nodeId).WholeWeights := by
  intro u e he
  rw [getAdjacentEdges_addNode] at he
  by_cases hc : g.hasNode nodeId = false ∧ nodeId = u
  · rw [if_pos hc] at he
    exact absurd he (List.not_mem_nil _)
  · rw [if_neg hc] at he
    exact h u e he

theorem wholeWeights_addEdge {g : Graph} (h : g.WholeWeights) (a b : Int) (n : ℕ) :
    (g.addEdge a b n).WholeWeights := by
  intro u e he
  rw [getAdjacentEdges_addEdge] at he
  simp only [List.mem_append] at he
  rcases he with (he | he) | he
  · exact wholeWeights_addNode (wholeWeights_addNode h a) b u e he
  · by_cases hau : a = u
    · rw [if_pos hau] at he
      rw [List.mem_singleton.1 he]
      exact ⟨n, rfl⟩
    · rw [if_neg hau] at he
      exact absurd he (List.not_mem_nil _)
  · by_cases hbu : b = u
    · rw [if_pos hbu] at he
      rw [List.mem_singleton.1 he]
      exact ⟨n, rfl⟩
    · rw [if_neg hbu] at he
      exact absurd he (List.not_mem_nil _)

theorem sampleGraph_exactSums : sampleGraph.ExactSums := by
  apply exactSums_of_whole
  · have h := wholeWeights_addNode (wholeWeights_addEdge (wholeWeights_addEdge
      (wholeWeights_addEdge wholeWeights_empty 1 2 4) 2 5 6) 1 5 15) 8
    simpa [sampleGraph] using h
  · have h : sampleGraph.totalPosWeight ≤ 50 := by with_unfolding_all decide
    exact le_trans h (by norm_num)

/-- C7 (symmetry), amended: in a graph built by `addNode`/`addEdge` with non-negative
weights whose `double` sums along paths without a repeated node are exact (as they are
for whole-number weights that total at most `2^53`, `exactSums_of_whole`), both queries
return, and when `findPath(a,b)` is found then `findPath(b,a)` is found too, with the
same `totalWeight`. -/
theorem findPathD_symmetric (pf : PathFinder) (H : MinHeap) (g : Graph) (e1 e2 a b : Int)
    (hb : g.Built) (hg : g.NonNeg) (hx : g.ExactSums) :
    ∃ r1 r2, pf.findPathD H g e1 a b = some r1 ∧ pf.findPathD H g e2 b a = some r2 ∧
      (r1.found = true → r2.found = true ∧ r1.totalWeight = r2.totalWeight) := by
  obtain ⟨r1, hr1, _, _, hfound1⟩ := dijkstraD_result H g a b
  obtain ⟨r2, hr2, _, _, hfound2⟩ := dijkstraD_result H g b a
  refine ⟨{ r1 with elapsedMicroseconds := e1 }, { r2 with elapsedMicroseconds := e2 },
    findPathD_eq pf H g e1 a b r1 hr1, findPathD_eq pf H g e2 b a r2 hr2, ?_⟩
  intro hf
  have hf1 : r1.found = true := hf
  obtain ⟨ha, hbn, es, hw, _, hwt, hlt, hnd⟩ := hfound1 hf1
  obtain ⟨fs, hfs, hfwt, hfn⟩ := IsWalk.reverse_nodes hb.symm hw
  have hfnd : (b :: fs.map Edge.dst).Nodup := by
    rw [hfn]
    exact List.nodup_reverse.2 hnd
  have hfD : walkWeightD fs = r1.totalWeight := by
    rw [hx b fs a hfs hfnd, hfwt, ← hx a es b hw hnd, hwt]
  obtain ⟨r3, hr3, hf3⟩ := dijkstraD_complete H g b a hg hbn ha fs hfs
    (by rw [hfD]; exact hlt)
  rw [hr2] at hr3
  cases hr3
  obtain ⟨_, _, es2, hw2, _, hwt2, _, hnd2⟩ := hfound2 hf3
  obtain ⟨fs2, hfs2, hfwt2, hfn2⟩ := IsWalk.reverse_nodes hb.symm hw2
  have hfnd2 : (a :: fs2.map Edge.dst).Nodup := by
    rw [hfn2]
    exact List.nodup_reverse.2 hnd2
  have hfD2 : walkWeightD fs2 = r2.totalWeight := by
    rw [hx a fs2 b hfs2 hfnd2, hfwt2, ← hx b es2 a hw2 hnd2, hwt2]
  have h12 : r1.totalWeight ≤ r2.totalWeight := by
    have := dijkstraD_optimal H g a b hg r1 hr1 hf1 fs2 hfs2
    rw [hfD2] at this
    exact this
  have h21 : r2.totalWeight ≤ r1.totalWeight := by
    have := dijkstraD_optimal H g b a hg r2 hr2 hf3 fs hfs
    rw [hfD] at this
    exact this
  exact ⟨hf3, le_antisymm h12 h21⟩

theorem findPathD_symmetric_witness :
    sampleGraph.Built ∧ sampleGraph.NonNeg ∧ sampleGraph.ExactSums ∧
    ∃ r1 r2, PathFinder.new.findPathD listHeap sampleGraph 0 1 5 = some r1 ∧
      PathFinder.new.findPathD listHeap sampleGraph 0 5 1 = some r2 ∧
      (r1.found = true → r2.found = true ∧ r1.totalWeight = r2.totalWeight) :=
  ⟨sampleGraph_built, sampleGraph_nonNeg, sampleGraph_exactSums,
   findPathD_symmetric PathFinder.new listHeap sampleGraph 0 0 1 5 sampleGraph_built
     sampleGraph_nonNeg sampleGraph_exactSums⟩

/-! ## Strategy consistency in `double` arithmetic -/

theorem pathSumFrom_walk (tbl : PairMap) (g : Graph)
    (h : ∀ u, ∀ e ∈ g.getAdjacentEdges u, mapFind tbl (u, e.dst) = some e.weight) :
    ∀ (es : List Edge) (a b : Int) (acc : ℚ), IsWalk g a es b →
      pathSumFrom tbl acc (a :: es.map Edge.dst) = es.foldl (fun x e => fadd x e.weight) acc
  | [], _, _, _, _ => rfl
  | e :: es, a, b, acc, hw => by
    obtain ⟨he, hrest⟩ := hw
    have hget : mapGetD tbl (a, e.dst) 0 = e.weight := mapGetD_of_find _ _ _ _ (h a e he)
    show pathSumFrom tbl (fadd acc (mapGetD tbl (a, e.dst) 0)) (e.dst :: es.map Edge.dst) = _
    rw [hget, pathSumFrom_walk tbl g h es e.dst b _ hrest]
    rfl

theorem pathSumD_walk (tbl : PairMap) (g : Graph)
    (h : ∀ u, ∀ e ∈ g.getAdjacentEdges u, mapFind tbl (u, e.dst) = some e.weight)
    (es : List Edge) (a b : Int) (hw : IsWalk g a es b) :
    pathSumD tbl (a :: es.map Edge.dst) = walkWeightD es :=
  pathSumFrom_walk tbl g h es a b 0 hw

theorem engine_findPathD_eq (E : MapEngine) (pf : PathFinder) (H : MinHeap)
    (elapsed src dst : Int) (hp : E.pathFinder_ = some pf) :
    E.findPathD H elapsed src dst = pf.findPathD H E.graph_ elapsed src dst := by
  simp [MapEngine.findPathD, hp]

theorem roundingEngine_loaded : MapEngine.Loaded appendOrder roundingReader roundingEngine :=
  MapEngine.Loaded.load MapEngine.new "row"
    (loadMap_fields appendOrder roundingReader MapEngine.new "row"
      ["r1", "r2", "r3"] (by simp [roundingReader])).1

set_option maxRecDepth 100000 in
/-- C8, as stated, fails: after loading the records `(1,2,2^53,2^53)`, `(2,3,1,1)`,
`(3,4,1,1)` the distance strategy is active and `findPath(1,4)` is found with path
`[1,2,3,4]` and `totalWeight = 2^53`, while the stored distances of the three node
pairs of that path sum to `2^53 + 2`: the search adds `2^53 + 1` twice, and each time
the sum rounds back to `2^53`. -/
theorem strategy_consistency_counterexample :
    MapEngine.Loaded appendOrder roundingReader roundingEngine ∧
    roundingEngine.currentStrategy_ = PathStrategy.SHORTEST_DISTANCE ∧
    ∃ r, roundingEngine.findPathD listHeap 0 1 4 = some r ∧ r.found = true ∧
      r.path = [1, 2, 3, 4] ∧ r.totalWeight = 9007199254740992 ∧
      pathSum roundingEngine.distances_ r.path = 9007199254740994 :=
  ⟨roundingEngine_loaded, by with_unfolding_all decide, _,
   option_eq_some_getD _ PathResult.init (by with_unfolding_all decide),
   by with_unfolding_all decide, by with_unfolding_all decide,
   le_antisymm (by with_unfolding_all decide) (by with_unfolding_all decide),
   le_antisymm (by with_unfolding_all decide) (by with_unfolding_all decide)⟩

/-- C8 (strategy consistency), amended: in every loaded engine state the query returns,
and when it reports `found` its `totalWeight` is what the stored `distances_` of the
consecutive node pairs of the returned path give when they are added in `double`, one
after the other in path order starting from 0, if the active strategy is the distance
strategy; and what the stored `times_` give in the same way if it is the time
strategy. -/
theorem strategy_consistency_double (O : HashOrder) (rd : Reader) (H : MinHeap)
    (E : MapEngine) (elapsed src dst : Int) (hL : MapEngine.Loaded O rd E) :
    ∃ r, E.findPathD H elapsed src dst = some r ∧
      (r.found = true →
        (E.currentStrategy_ = PathStrategy.SHORTEST_DISTANCE →
          r.totalWeight = pathSumD E.distances_ r.path) ∧
        (E.currentStrategy_ = PathStrategy.LEAST_TIME →
          r.totalWeight = pathSumD E.times_ r.path)) := by
  obtain ⟨hT, hp, hg⟩ := loaded_spec hL
  obtain ⟨_, hadj⟩ := rebuiltGraph_spec O E.distances_ E.times_ E.currentStrategy_ hT
  rw [← hg] at hadj
  obtain ⟨r, hr, _, _, hfound⟩ := dijkstraD_result H E.graph_ src dst
  refine ⟨{ r with elapsedMicroseconds := elapsed }, ?_, ?_⟩
  · rw [engine_findPathD_eq E _ H elapsed src dst hp]
    exact findPathD_eq _ H E.graph_ elapsed src dst r hr
  · intro hf
    obtain ⟨_, _, es, hw, hpath, hwt, _, _⟩ := hfound hf
    constructor
    · intro hs
      have hedge : ∀ u, ∀ e ∈ E.graph_.getAdjacentEdges u,
          mapFind E.distances_ (u, e.dst) = some e.weight := by
        intro u e he
        obtain ⟨x, y, hx, _, hwe⟩ := (hadj u e).1 he
        rw [hs] at hwe
        rw [hx, hwe]
        rfl
      show r.totalWeight = pathSumD E.distances_ r.path
      rw [hpath, pathSumD_walk E.distances_ E.graph_ hedge es src dst hw, hwt]
    · intro hs
      have hedge : ∀ u, ∀ e ∈ E.graph_.getAdjacentEdges u,
          mapFind E.times_ (u, e.dst) = some e.weight := by
        intro u e he
        obtain ⟨x, y, _, hy, hwe⟩ := (hadj u e).1 he
        rw [hs] at hwe
        rw [hy, hwe]
        rfl
      show r.totalWeight = pathSumD E.times_ r.path
      rw [hpath, pathSumD_walk E.times_ E.graph_ hedge es src dst hw, hwt]

theorem strategy_consistency_double_witness :
    MapEngine.Loaded appendOrder sampleReader sampleEngine ∧
    ∃ r, sampleEngine.findPathD listHeap 0 1 5 = some r ∧
      (r.found = true →
        (sampleEngine.currentStrategy_ = PathStrategy.SHORTEST_DISTANCE →
          r.totalWeight = pathSumD sampleEngine.distances_ r.path) ∧
        (sampleEngine.currentStrategy_ = PathStrategy.LEAST_TIME →
          r.totalWeight = pathSumD sampleEngine.times_ r.path)) :=
  ⟨sampleEngine_loaded,
   strategy_consistency_double appendOrder sampleReader listHeap sampleEngine 0 1 5
     sampleEngine_loaded⟩

/-! ## Reloading the same source, the tables iterating in any order -/

theorem dijkstraD_found_le (H1 H2 : MinHeap) (g1 g2 : Graph) (src dst : Int)
    (hn2 : g2.NonNeg) (hnode : ∀ x, g1.hasNode x = true → g2.hasNode x = true)
    (hadj : ∀ u e, e ∈ g1.getAdjacentEdges u → e ∈ g2.getAdjacentEdges u)
    (r1 r2 : PathResult) (hr1 : dijkstraD H1 g1 src dst = some r1)
    (hr2 : dijkstraD H2 g2 src dst = some r2) (hf : r1.found = true) :
    r2.found = true ∧ r2.totalWeight ≤ r1.totalWeight := by
  obtain ⟨r, hr, _, _, hfound⟩ := dijkstraD_result H1 g1 src dst
  rw [hr1] at hr
  cases hr
  obtain ⟨hs, hd, es, hw, _, hwt, hlt, _⟩ := hfound hf
  have hw2 := isWalk_congr hadj es src dst hw
  obtain ⟨r3, hr3, hf3⟩ := dijkstraD_complete H2 g2 src dst hn2 (hnode _ hs) (hnode _ hd) es hw2
    (by rw [hwt]; exact hlt)
  rw [hr2] at hr3
  cases hr3
  have hopt := dijkstraD_optimal H2 g2 src dst hn2 r2 hr2 hf3 es hw2
  rw [hwt] at hopt
  exact ⟨hf3, hopt⟩

/-- Two graphs with the same nodes and the same adjacency entries, stored in any order,
give every query the same found flag and the same total weight in `double`, under any
two tie-breaking rules of the priority queue. -/
theorem dijkstraD_congr (H1 H2 : MinHeap) (g1 g2 : Graph) (src dst : Int)
    (hn1 : g1.NonNeg) (hn2 : g2.NonNeg) (hnode : ∀ x, g1.hasNode x = g2.hasNode x)
    (hadj : ∀ u e, e ∈ g1.getAdjacentEdges u ↔ e ∈ g2.getAdjacentEdges u) :
    ∃ r1 r2, dijkstraD H1 g1 src dst = some r1 ∧ dijkstraD H2 g2 src dst = some r2 ∧
      r1.found = r2.found ∧ r1.totalWeight = r2.totalWeight := by
  obtain ⟨r1, hr1, _, hnot1, _⟩ := dijkstraD_result H1 g1 src dst
  obtain ⟨r2, hr2, _, hnot2, _⟩ := dijkstraD_result H2 g2 src dst
  refine ⟨r1, r2, hr1, hr2, ?_⟩
  have h12 := dijkstraD_found_le H1 H2 g1 g2 src dst hn2 (fun x hx => by rw [← hnode]; exact hx)
    (fun u e he => (hadj u e).1 he) r1 r2 hr1 hr2
  have h21 := dijkstraD_found_le H2 H1 g2 g1 src dst hn1 (fun x hx => by rw [hnode]; exact hx)
    (fun u e he => (hadj u e).2 he) r2 r1 hr2 hr1
  cases hf1 : r1.found with
  | true =>
    obtain ⟨hf2, hle⟩ := h12 hf1
    exact ⟨hf2.symm, le_antisymm (h21 hf2).2 hle⟩
  | false =>
    cases hf2 : r2.found with
    | true =>
      have := (h21 hf2).1
      rw [hf1] at this
      exact Bool.noConfusion this
    | false =>
      rw [hnot1 hf1, hnot2 hf2]
      exact ⟨rfl, rfl⟩

theorem engine_findPathD_empty (E : MapEngine) (H : MinHeap) (elapsed a b : Int)
    (hg : E.graph_ = Graph.empty) :
    ∃ r, E.findPathD H elapsed a b = some r ∧ r.found = false ∧ r.path = [] ∧
      r.totalWeight = 0 := by
  cases hp : E.pathFinder_ with
  | none =>
    refine ⟨{ PathResult.init with found := false }, ?_, rfl, rfl, rfl⟩
    simp [MapEngine.findPathD, hp]
  | some pf =>
    refine ⟨{ path := [], totalWeight := 0, found := false, elapsedMicroseconds := elapsed },
      ?_, rfl, rfl, rfl⟩
    rw [engine_findPathD_eq E pf H elapsed a b hp, hg]
    simp [PathFinder.findPathD, dijkstraD, Graph.hasNode, Graph.empty, mapFind, PathResult.init]

theorem reload_any_order_double (O O2 : HashOrder) (rd : Reader) (E0 : MapEngine)
    (filename : String) :
    ((E0.loadMap O rd filename).2.loadMap O2 rd filename).1 =
      (E0.loadMap O rd filename).1 ∧
    ((E0.loadMap O rd filename).2.loadMap O2 rd filename).2.getNodeCount =
      (E0.loadMap O rd filename).2.getNodeCount ∧
    ((E0.loadMap O rd filename).2.loadMap O2 rd filename).2.getEdgeCount =
      (E0.loadMap O rd filename).2.getEdgeCount ∧
    ∀ (H1 H2 : MinHeap) (elapsed a b : Int), ∃ r1 r2,
      (E0.loadMap O rd filename).2.findPathD H1 elapsed a b = some r1 ∧
      ((E0.loadMap O rd filename).2.loadMap O2 rd filename).2.findPathD H2 elapsed a b
        = some r2 ∧
      r1.found = r2.found ∧ r1.totalWeight = r2.totalWeight := by
  cases hopen : rd.openFile filename with
  | none =>
    rw [loadMap_fail O rd E0 filename hopen, loadMap_fail O2 rd _ filename hopen]
    refine ⟨rfl, rfl, rfl, ?_⟩
    intro H1 H2 elapsed a b
    obtain ⟨r1, h1, f1, _, w1⟩ := engine_findPathD_empty
      { E0 with graph_ := Graph.empty, distances_ := [], times_ := [] } H1 elapsed a b rfl
    obtain ⟨r2, h2, f2, _, w2⟩ := engine_findPathD_empty
      { E0 with graph_ := Graph.empty, distances_ := [], times_ := [] } H2 elapsed a b rfl
    exact ⟨r1, r2, h1, h2, by rw [f1, f2], by rw [w1, w2]⟩
  | some lines =>
    obtain ⟨a1, _, _, a4, _, a6, a7⟩ := loadMap_fields O rd E0 filename lines hopen
    obtain ⟨b1, _, _, _, _, b6, b7⟩ :=
      loadMap_fields O2 rd (E0.loadMap O rd filename).2 filename lines hopen
    obtain ⟨hd, ht⟩ := loadLines_lookup O O2 rd lines
    have hT1 := loadLines_ok O rd lines
    have hT2 := loadLines_ok O2 rd lines
    obtain ⟨hadj, hnode, hnc, hec⟩ := rebuiltGraph_congr O O2 _ _ _ _ E0.currentStrategy_
      hT1 hT2 hd ht
    rw [a4] at b7
    refine ⟨by rw [a1, b1], ?_, ?_, ?_⟩
    · unfold MapEngine.getNodeCount
      rw [a7, b7, hnc]
    · unfold MapEngine.getEdgeCount
      rw [a7, b7, hec]
    · intro H1 H2 elapsed a b
      obtain ⟨r1, r2, h1, h2, hf, hw⟩ := dijkstraD_congr H1 H2 _ _ a b
        (rebuilt_nonNeg O _ _ E0.currentStrategy_ hT1)
        (rebuilt_nonNeg O2 _ _ E0.currentStrategy_ hT2) hnode hadj
      refine ⟨{ r1 with elapsedMicroseconds := elapsed },
        { r2 with elapsedMicroseconds := elapsed }, ?_, ?_, hf, hw⟩
      · rw [engine_findPathD_eq _ _ H1 elapsed a b a6, a7]
        exact findPathD_eq _ H1 _ elapsed a b r1 h1
      · rw [engine_findPathD_eq _ _ H2 elapsed a b b6, b7]
        exact findPathD_eq _ H2 _ elapsed a b r2 h2

set_option maxRecDepth 100000 in
/-- C13, as stated, fails: the file of `forkReader` is loaded twice in a row.  During
the first load the tables list their keys as a table that starts empty does
(`forkKeysFresh`), during the second as a table that was cleared does, which keeps its
buckets (`forkKeysKept`).  Both loads succeed with 9 nodes and 8 edges, and
`findPath(1,4)` is found with total weight 2 after either, but with path `[1,2,4]` after
the first load and `[1,3,4]` after the second: the rebuild enters the edges of node 1 in
the order of the table. -/
theorem reload_path_counterexample :
    forkEngine.distances_.map Prod.fst = forkKeysFresh ∧
    forkEngineReloaded.distances_.map Prod.fst = forkKeysKept ∧
    forkEngine.getNodeCount = 9 ∧ forkEngineReloaded.getNodeCount = 9 ∧
    forkEngine.getEdgeCount = 8 ∧ forkEngineReloaded.getEdgeCount = 8 ∧
    ∃ r1 r2, forkEngine.findPathD fifoHeap 0 1 4 = some r1 ∧
      forkEngineReloaded.findPathD fifoHeap 0 1 4 = some r2 ∧
      r1.found = true ∧ r2.found = true ∧ r1.totalWeight = 2 ∧ r2.totalWeight = 2 ∧
      r1.path = [1, 2, 4] ∧ r2.path = [1, 3, 4] :=
  ⟨by with_unfolding_all decide, by with_unfolding_all decide,
   by with_unfolding_all decide, by with_unfolding_all decide,
   by with_unfolding_all decide, by with_unfolding_all decide, _, _,
   option_eq_some_getD _ PathResult.init (by with_unfolding_all decide),
   option_eq_some_getD _ PathResult.init (by with_unfolding_all decide),
   by with_unfolding_all decide, by with_unfolding_all decide,
   by with_unfolding_all decide, by with_unfolding_all decide,
   by with_unfolding_all decide, by with_unfolding_all decide⟩

/-- C13 (reload), amended: for every source and every prior engine state, a second
`loadMap` of the same source right after the first reports the same success flag and
leaves the same node count and edge count, whatever the orders `O` and `O2` in which the
tables iterate during the first and during the second load; every `findPath` returns
after both, with the same found flag and the same total weight.  When the tables
iterate in the same order during both loads, the second load leaves the same tables and
every `findPath` returns the same result, path included. -/
theorem reload_same_answers (O O2 : HashOrder) (rd : Reader) (E0 : MapEngine)
    (filename : String) :
    (((E0.loadMap O rd filename).2.loadMap O2 rd filename).1 =
      (E0.loadMap O rd filename).1 ∧
    ((E0.loadMap O rd filename).2.loadMap O2 rd filename).2.getNodeCount =
      (E0.loadMap O rd filename).2.getNodeCount ∧
    ((E0.loadMap O rd filename).2.loadMap O2 rd filename).2.getEdgeCount =
      (E0.loadMap O rd filename).2.getEdgeCount ∧
    ∀ (H1 H2 : MinHeap) (elapsed a b : Int), ∃ r1 r2,
      (E0.loadMap O rd filename).2.findPathD H1 elapsed a b = some r1 ∧
      ((E0.loadMap O rd filename).2.loadMap O2 rd filename).2.findPathD H2 elapsed a b
        = some r2 ∧
      r1.found = r2.found ∧ r1.totalWeight = r2.totalWeight) ∧
    (((E0.loadMap O rd filename).2.loadMap O rd filename).2.distances_ =
      (E0.loadMap O rd filename).2.distances_ ∧
    ((E0.loadMap O rd filename).2.loadMap O rd filename).2.times_ =
      (E0.loadMap O rd filename).2.times_ ∧
    ∀ (H : MinHeap) (elapsed a b : Int),
      ((E0.loadMap O rd filename).2.loadMap O rd filename).2.findPathD H elapsed a b =
        (E0.loadMap O rd filename).2.findPathD H elapsed a b) := by
  refine ⟨reload_any_order_double O O2 rd E0 filename, ?_⟩
  rw [loadMap_reload O rd E0 filename]
  exact ⟨rfl, rfl, fun _ _ _ _ => rfl⟩

end LuoLi
